import Mathlib

/-!
# Escape from CS 162: a shallow embedding of the maze engine

The C++ sources (`Maze.cpp`, `MazeLevel.cpp`, `MazePosition.cpp`, `OpenSpace.cpp`,
`TA.h`, `TA.cpp`, `IntrepidStudent.h`, `PlayerAction.cpp`) are translated function by
function.

Conventions of the embedding:

* `unsigned` values are natural numbers, arithmetic on them is taken modulo `UINT = 2^32`.
* A pointer to a tile (`OpenSpace*`, `MazeLocation*`) is the grid index of that tile, written
  as a `MazePosition` (level index, row index, column index).  The position a tile *stores*
  (`MazeLocation::pos_`) is a separate field of the tile.
* `Option<T>::Unwrap()` on `None` throws; in the play functions a thrown exception is `none`.
  Construction and reset report the text of the exception (`Except String`).
* Random choices are explicit inputs: the draw of a TA and the seed of a shuffle.
* The student's prompt is outside the engine; the chosen action is an input.
* `AllPlayerDirectionActions()` enumerates the keys of an `std::unordered_map`, so the order
  of the four directions is fixed by the standard library, not by the program.  It is the
  parameter `dirs` of every function that enumerates directions.
-/

namespace EscapeFromCS162

/-- Number of values of the C++ type `unsigned` (32 bits). -/
def UINT : Nat := 4294967296

/-- The enum `PlayerAction` of `PlayerAction.h`. -/
inductive PlayerAction
  | ClimbUp
  | DemonstrateSkill
  | MoveUp
  | MoveDown
  | MoveLeft
  | MoveRight
  deriving DecidableEq

/-- The enum `PlayerDirectionAction` of `PlayerAction.h`. -/
inductive PlayerDirectionAction
  | Up
  | Down
  | Left
  | Right
  deriving DecidableEq

/-- The enum `MoveResult` of `Maze.h`. -/
inductive MoveResult
  | AcquiredSkill
  | CaughtByTA
  | FailedByInstructor
  | NoEvent
  | SatisfiedInstructor
  deriving DecidableEq

/-- `PlayerActionToDirection` of `PlayerAction.cpp`. -/
def PlayerActionToDirection : PlayerAction → Option PlayerDirectionAction
  | .MoveUp => some .Up
  | .MoveDown => some .Down
  | .MoveLeft => some .Left
  | .MoveRight => some .Right
  | _ => none

/-- `PlayerDirectionToAction` of `PlayerAction.cpp`. -/
def PlayerDirectionToAction : PlayerDirectionAction → PlayerAction
  | .Up => .MoveUp
  | .Down => .MoveDown
  | .Left => .MoveLeft
  | .Right => .MoveRight

/-- The struct `MazePosition`: three zero-indexed `unsigned` coordinates. -/
structure MazePosition where
  level : Nat
  row : Nat
  col : Nat
  deriving DecidableEq

/-- Unsigned subtraction `a - b` of C++, modulo `UINT`. -/
def usub (a b : Nat) : Nat := (a + (UINT - b % UINT)) % UINT

/-- Unsigned addition `a + b` of C++, modulo `UINT`. -/
def uadd (a b : Nat) : Nat := (a + b) % UINT

/-- `MazePosition::Translate` of `MazePosition.cpp`. -/
def MazePosition.Translate (p : MazePosition) (direction : PlayerDirectionAction)
    (amount : Nat) : MazePosition :=
  match direction with
  | .Up => { p with row := usub p.row amount }
  | .Down => { p with row := uadd p.row amount }
  | .Left => { p with col := usub p.col amount }
  | .Right => { p with col := uadd p.col amount }

/-- The class `OpenSpace`: the stored position and the six flags. -/
structure OpenSpace where
  pos : MazePosition
  is_beginning : Bool
  has_ladder : Bool
  has_instructor : Bool
  has_skill : Bool
  has_student : Bool
  has_ta : Bool
  deriving DecidableEq

/-- The constructor `OpenSpace(pos)`: every flag is false. -/
def OpenSpace.new (pos : MazePosition) : OpenSpace :=
  ⟨pos, false, false, false, false, false, false⟩

/-- `OpenSpace::IsEmpty` of `OpenSpace.cpp`. -/
def OpenSpace.IsEmpty (s : OpenSpace) : Bool :=
  !s.has_instructor && !s.has_ladder && !s.has_student && !s.has_ta
    && !s.has_skill && !s.is_beginning

/-- `OpenSpace::DisplayCharacter` of `OpenSpace.cpp`. -/
def OpenSpace.DisplayCharacter (s : OpenSpace) : Char :=
  if s.has_student then '*'
  else if s.has_ta then 'T'
  else if s.has_skill then '$'
  else if s.is_beginning then '@'
  else if s.has_ladder then '^'
  else if s.has_instructor then '%'
  else ' '

/-- The class `MazeLocation` with its two subclasses: `Wall` (constructed with
`occupiable = false`) and `OpenSpace` (constructed with `occupiable = true`). -/
inductive MazeLocation
  | wall (pos : MazePosition)
  | space (s : OpenSpace)
  deriving DecidableEq

/-- `MazeLocation::pos`. -/
def MazeLocation.pos : MazeLocation → MazePosition
  | .wall p => p
  | .space s => s.pos

/-- `MazeLocation::occupiable`. -/
def MazeLocation.occupiable : MazeLocation → Bool
  | .wall _ => false
  | .space _ => true

/-- `Wall::DisplayCharacter` and `OpenSpace::DisplayCharacter` behind the virtual call. -/
def MazeLocation.DisplayCharacter : MazeLocation → Char
  | .wall _ => '#'
  | .space s => s.DisplayCharacter

/-- The `dynamic_cast<OpenSpace*>` of a location: the open space, if it is one. -/
def MazeLocation.asSpace : MazeLocation → Option OpenSpace
  | .wall _ => none
  | .space s => some s

/-- Apply a setter of `OpenSpace` to a location; a wall has no setters. -/
def MazeLocation.mapSpace (f : OpenSpace → OpenSpace) : MazeLocation → MazeLocation
  | .wall p => .wall p
  | .space s => .space (f s)

/-- The class `MazeLevel`.  `start_location_` and `instructor_location_` are pointers into
the grid, kept as the (row, column) index of the tile they point to; `none` is `nullptr`. -/
structure MazeLevel where
  locations_ : List (List MazeLocation)
  start_location_ : Option (Nat × Nat)
  instructor_location_ : Option (Nat × Nat)
  height_ : Nat
  width_ : Nat
  deriving DecidableEq

/-- The tile stored at a grid index, when the index is inside the stored rows. -/
def MazeLevel.tileAt (l : MazeLevel) (i j : Nat) : Option MazeLocation :=
  match l.locations_[i]? with
  | some row => row[j]?
  | none => none

/-- `MazeLevel::LocationAt` of `MazeLevel.cpp`. -/
def MazeLevel.LocationAt (l : MazeLevel) (pos : MazePosition) : Option MazeLocation :=
  if pos.row ≥ l.height_ ∨ pos.col ≥ l.width_ then none
  else l.tileAt pos.row pos.col

/-- Write through a tile pointer of this level: apply a setter to the tile at a grid index. -/
def MazeLevel.modifySpace (l : MazeLevel) (i j : Nat) (f : OpenSpace → OpenSpace) :
    MazeLevel :=
  { l with locations_ := l.locations_.modify (List.modify (MazeLocation.mapSpace f) j) i }

/-- `MazeLevel::Reset` of `MazeLevel.cpp`. -/
def MazeLevel.Reset (l : MazeLevel) : MazeLevel :=
  { l with locations_ := l.locations_.map (List.map (MazeLocation.mapSpace
      (fun s => { s with has_ta := false, has_skill := false, has_student := false }))) }

/-- The class `IntrepidStudent`: position and skill counter. -/
structure IntrepidStudent where
  position : MazePosition
  prog_skills : Nat
  deriving DecidableEq

/-- The class `TA`: position and appeasement counter. -/
structure TA where
  position : MazePosition
  appeased_turns : Nat
  deriving DecidableEq

/-- The class `Instructor`: only a position. -/
structure Instructor where
  position : MazePosition
  deriving DecidableEq

/-- `IntrepidStudent::HasSkills`. -/
def IntrepidStudent.HasSkills (s : IntrepidStudent) : Bool := decide (s.prog_skills > 0)

/-- `IntrepidStudent::IncrementSkills`. -/
def IntrepidStudent.IncrementSkills (s : IntrepidStudent) : IntrepidStudent :=
  { s with prog_skills := uadd s.prog_skills 1 }

/-- `IntrepidStudent::DecrementSkills`. -/
def IntrepidStudent.DecrementSkills (s : IntrepidStudent) : IntrepidStudent :=
  if s.prog_skills > 0 then { s with prog_skills := s.prog_skills - 1 } else s

/-- `TA::Appease`. -/
def TA.Appease (t : TA) : TA := { t with appeased_turns := uadd t.appeased_turns 10 }

/-- `TA::IsAppeased`. -/
def TA.IsAppeased (t : TA) : Bool := decide (t.appeased_turns > 1)

/-- `TA::DecrementAppeasement`. -/
def TA.DecrementAppeasement (t : TA) : TA :=
  if t.appeased_turns > 0 then { t with appeased_turns := t.appeased_turns - 1 } else t

/-- `TA::GetMove` of `TA.cpp`.  `draw` is the value of the random engine; the
`uniform_int_distribution(0, size - 1)` maps it into the index range.  With no directional
move the index is out of range (undefined behaviour in C++): no result.  The counter is
decremented first, whatever is returned. -/
def TA.GetMove (t : TA) (valid_moves : List PlayerAction) (draw : Nat) :
    TA × Option PlayerAction :=
  let valid_dirs := valid_moves.filterMap PlayerActionToDirection
  (t.DecrementAppeasement,
    (valid_dirs[draw % valid_dirs.length]?).map PlayerDirectionToAction)

/-- `IntrepidStudent::GetMove`: the menu prompt offers exactly `valid_moves` and asks until
one of them is entered; `choice` is the action the player enters. -/
def IntrepidStudent.GetMove (valid_moves : List PlayerAction) (choice : PlayerAction) :
    Option PlayerAction :=
  if choice ∈ valid_moves then some choice else none

/-- The class `Maze`. -/
structure Maze where
  levels_ : List MazeLevel
  student_ : IntrepidStudent
  tas_ : List (List TA)
  instructor_ : Instructor
  deriving DecidableEq

/-- `Maze::LocationAt`. -/
def Maze.LocationAt (m : Maze) (pos : MazePosition) : Option MazeLocation :=
  if pos.level ≥ m.levels_.length then none
  else match m.levels_[pos.level]? with
    | some level => level.LocationAt pos
    | none => none

/-- `Maze::SpaceAt`: the open space at a position.  The pointer it returns in C++ is the
argument `pos` itself (a grid index); the value is the tile read through it. -/
def Maze.SpaceAt (m : Maze) (pos : MazePosition) : Option OpenSpace :=
  (m.LocationAt pos).bind MazeLocation.asSpace

/-- Write through an `OpenSpace*` obtained from `SpaceAt(ptr)`. -/
def Maze.modifySpace (m : Maze) (ptr : MazePosition) (f : OpenSpace → OpenSpace) : Maze :=
  { m with levels_ := m.levels_.modify (fun l => l.modifySpace ptr.row ptr.col f) ptr.level }

/-- `Maze::TaAt`: the first TA of the roster of the tile's stored level whose position is
the tile's stored position. -/
def Maze.TaAt (m : Maze) (pos : MazePosition) : Option TA :=
  (m.SpaceAt pos).bind fun space =>
    if space.has_ta then
      match m.tas_[space.pos.level]? with
      | some roster => roster.find? (fun ta => decide (ta.position = space.pos))
      | none => none
    else none

/-- `Maze::CanMoveInDirection`. -/
def Maze.CanMoveInDirection (m : Maze) (pos : MazePosition) (dir : PlayerDirectionAction) :
    Bool :=
  match m.SpaceAt pos with
  | some space => (m.SpaceAt (space.pos.Translate dir 1)).isSome
  | none => false

/-- `Maze::ValidMovementsAt`. -/
def Maze.ValidMovementsAt (dirs : List PlayerDirectionAction) (m : Maze)
    (pos : MazePosition) : List PlayerAction :=
  (dirs.filter (fun dir => m.CanMoveInDirection pos dir)).map PlayerDirectionToAction

/-- `Maze::ValidActionsAt`. -/
def Maze.ValidActionsAt (dirs : List PlayerDirectionAction) (m : Maze)
    (pos : MazePosition) : List PlayerAction :=
  let can_climb_ladder :=
    match m.SpaceAt m.student_.position with
    | some space => space.has_ladder
    | none => false
  m.ValidMovementsAt dirs pos
    ++ (if can_climb_ladder then [PlayerAction.ClimbUp] else [])
    ++ (if m.student_.HasSkills then [PlayerAction.DemonstrateSkill] else [])

/-- Read through a tile pointer (no bounds check: the pointer was obtained earlier). -/
def Maze.deref (m : Maze) (ptr : MazePosition) : Option OpenSpace :=
  match m.levels_[ptr.level]? with
  | some level => (level.tileAt ptr.row ptr.col).bind MazeLocation.asSpace
  | none => none

/-- A `MazePerson*` held by the maze: the student, a TA of a roster, or the instructor. -/
inductive PersonRef
  | student
  | ta (level idx : Nat)
  | instructor
  deriving DecidableEq

/-- The TA behind a `TA*` of the rosters. -/
def Maze.taAtIndex (m : Maze) (level idx : Nat) : Option TA :=
  match m.tas_[level]? with
  | some roster => roster[idx]?
  | none => none

/-- Write through a `TA*` of the rosters. -/
def Maze.modifyTA (m : Maze) (level idx : Nat) (f : TA → TA) : Maze :=
  { m with tas_ := m.tas_.modify (List.modify f idx) level }

/-- `MazePerson::position`. -/
def Maze.personPosition (m : Maze) : PersonRef → Option MazePosition
  | .student => some m.student_.position
  | .ta level idx => (m.taAtIndex level idx).map TA.position
  | .instructor => some m.instructor_.position

/-- `MazePerson::set_position`. -/
def Maze.setPersonPosition (m : Maze) (person : PersonRef) (pos : MazePosition) : Maze :=
  match person with
  | .student => { m with student_ := { m.student_ with position := pos } }
  | .ta level idx => m.modifyTA level idx (fun t => { t with position := pos })
  | .instructor => { m with instructor_ := { m.instructor_ with position := pos } }

/-- The virtual `Occupy`: `IntrepidStudent::Occupy`, `TA::Occupy`, `Instructor::Occupy`. -/
def Maze.Occupy (m : Maze) (person : PersonRef) (ptr : MazePosition) : Maze :=
  match person with
  | .student => m.modifySpace ptr (fun s => { s with has_student := true })
  | .ta _ _ => m.modifySpace ptr (fun s => { s with has_ta := true })
  | .instructor => m

/-- The virtual `Unoccupy`: `IntrepidStudent::Unoccupy`, `TA::Unoccupy`,
`Instructor::Unoccupy`. -/
def Maze.Unoccupy (m : Maze) (person : PersonRef) (ptr : MazePosition) : Maze :=
  match person with
  | .student => m.modifySpace ptr (fun s => { s with has_student := false })
  | .ta _ _ => m.modifySpace ptr (fun s => { s with has_ta := false })
  | .instructor => m

/-- `Maze::MovePerson`.  `none` is an exception thrown by an `Unwrap`. -/
def Maze.MovePerson (m : Maze) (person : PersonRef) (move : PlayerAction) :
    Option (Bool × Maze) :=
  match move with
  | .ClimbUp => some (false, m)
  | .DemonstrateSkill => some (false, m)
  | _ =>
    match m.personPosition person with
    | none => none
    | some pos =>
      match m.SpaceAt pos with
      | none => none
      | some _ =>
        let m1 := m.Unoccupy person pos
        match PlayerActionToDirection move with
        | none => none
        | some dir =>
          let pos2 := pos.Translate dir 1
          match m1.SpaceAt pos2 with
          | none => none
          | some _ => some (true, (m1.Occupy person pos2).setPersonPosition person pos2)

/-- `Maze::HandleOccupiedSpace`; `ptr` is the `OpenSpace*` argument. -/
def Maze.HandleOccupiedSpace (m : Maze) (ptr : MazePosition) : Option (MoveResult × Maze) :=
  match m.deref ptr with
  | none => none
  | some space =>
    if space.has_ta then
      match m.TaAt space.pos with
      | none => none
      | some ta =>
        if !ta.IsAppeased then some (MoveResult.CaughtByTA, m)
        else some (MoveResult.NoEvent, m)
    else if space.has_skill then
      some (MoveResult.AcquiredSkill,
        ({ m with student_ := m.student_.IncrementSkills }).modifySpace ptr
          (fun s => { s with has_skill := false }))
    else some (MoveResult.NoEvent, m)

/-- The loop of `Maze::SpacesAdjacentTo` over the directions, from the stored position
`from_pos` of the tile: the pointers pushed, or `none` when the inner `Unwrap` throws. -/
def Maze.adjacentLoop (m : Maze) (from_pos : MazePosition) :
    List PlayerDirectionAction → Option (List MazePosition)
  | [] => some []
  | dir :: rest =>
    if m.CanMoveInDirection from_pos dir then
      match m.SpaceAt (from_pos.Translate dir 1) with
      | none => none
      | some _ => (m.adjacentLoop from_pos rest).map (fun l => from_pos.Translate dir 1 :: l)
    else m.adjacentLoop from_pos rest

/-- `Maze::SpacesAdjacentTo`: the pointers to the adjacent open spaces.  Its only caller
unwraps the result at once, so `None` and a thrown exception are both `none`. -/
def Maze.SpacesAdjacentTo (dirs : List PlayerDirectionAction) (m : Maze)
    (pos : MazePosition) : Option (List MazePosition) :=
  match m.SpaceAt pos with
  | none => none
  | some space => m.adjacentLoop space.pos dirs

/-- `Maze::SpacesAdjacentToStudent`. -/
def Maze.SpacesAdjacentToStudent (dirs : List PlayerDirectionAction) (m : Maze) :
    Option (List MazePosition) :=
  m.SpacesAdjacentTo dirs m.student_.position

/-- The loop of `Maze::HandleCurrentPosition` over the adjacent spaces: `some (some r)` when
the loop returns `r`, `some none` when it runs to its end, `none` when `Unwrap` throws. -/
def Maze.scanAdjacent (m : Maze) : List MazePosition → Option (Option MoveResult)
  | [] => some none
  | ptr :: rest =>
    match m.deref ptr with
    | none => none
    | some space =>
      if space.has_ta then
        match m.TaAt space.pos with
        | none => none
        | some ta =>
          if !ta.IsAppeased then some (some MoveResult.CaughtByTA)
          else m.scanAdjacent rest
      else if space.has_instructor then
        if m.student_.prog_skills < 3 then some (some MoveResult.FailedByInstructor)
        else some (some MoveResult.SatisfiedInstructor)
      else m.scanAdjacent rest

/-- `Maze::HandleCurrentPosition`: the result and the maze after the call. -/
def Maze.HandleCurrentPosition (dirs : List PlayerDirectionAction) (m : Maze) :
    Option (MoveResult × Maze) :=
  match m.SpaceAt m.student_.position with
  | none => none
  | some _ =>
    match m.HandleOccupiedSpace m.student_.position with
    | none => none
    | some (res, m1) =>
      if res = MoveResult.CaughtByTA then some (res, m1)
      else
        match m1.SpacesAdjacentToStudent dirs with
        | none => none
        | some adjacent_spaces =>
          match m1.scanAdjacent adjacent_spaces with
          | none => none
          | some (some r) => some (r, m1)
          | some none => some (res, m1)

/-- The student's part of `Maze::MovePeople` (the `switch` on the chosen action): the maze
after it and the flag `appease_tas`. -/
def Maze.studentStep (m : Maze) (s_move : PlayerAction) : Option (Maze × Bool) :=
  let s_pos := m.student_.position
  match s_move with
  | .ClimbUp =>
    match m.SpaceAt s_pos with
    | none => none
    | some _ =>
      let m1 := m.modifySpace s_pos (fun s => { s with has_student := false })
      match m1.levels_[uadd s_pos.level 1]? with
      | none => none
      | some next =>
        match next.start_location_ with
        | none => none
        | some (i, j) =>
          let start_ptr : MazePosition := ⟨uadd s_pos.level 1, i, j⟩
          let m2 := m1.modifySpace start_ptr (fun s => { s with has_student := true })
          match m2.deref start_ptr with
          | none => none
          | some start_loc =>
            some ({ m2 with student_ := { m2.student_ with position := start_loc.pos } },
              false)
  | .DemonstrateSkill =>
    some ({ m with student_ := m.student_.DecrementSkills }, true)
  | _ =>
    match m.MovePerson PersonRef.student s_move with
    | none => none
    | some (_, m1) => some (m1, false)

/-- One iteration of the TA loop of `Maze::MovePeople`, for the TA at index `idx` of the
roster of `level`. -/
def Maze.moveTA (dirs : List PlayerDirectionAction) (m : Maze) (level idx draw : Nat)
    (appease_tas : Bool) : Option Maze :=
  match m.taAtIndex level idx with
  | none => none
  | some ta =>
    let valid_moves := m.ValidMovementsAt dirs ta.position
    match (ta.GetMove valid_moves draw).2 with
    | none => none
    | some ta_move =>
      let m1 := m.modifyTA level idx (fun t => (t.GetMove valid_moves draw).1)
      match m1.MovePerson (PersonRef.ta level idx) ta_move with
      | none => none
      | some (_, m2) =>
        some (if appease_tas then m2.modifyTA level idx TA.Appease else m2)

/-- The TA loop of `Maze::MovePeople` over the roster indices; `draws i` is the random
value drawn by the TA at index `i`. -/
def Maze.moveTAs (dirs : List PlayerDirectionAction) (level : Nat) (draws : Nat → Nat)
    (appease_tas : Bool) : List Nat → Maze → Option Maze
  | [], m => some m
  | idx :: rest, m =>
    match m.moveTA dirs level idx (draws idx) appease_tas with
    | none => none
    | some m1 => Maze.moveTAs dirs level draws appease_tas rest m1

/-- `Maze::MovePeople`: `choice` is what the player enters at the prompt, `draws` the random
values of the TAs. -/
def Maze.MovePeople (dirs : List PlayerDirectionAction) (m : Maze) (choice : PlayerAction)
    (draws : Nat → Nat) : Option Maze :=
  match IntrepidStudent.GetMove (m.ValidActionsAt dirs m.student_.position) choice with
  | none => none
  | some s_move =>
    match m.studentStep s_move with
    | none => none
    | some (m1, appease_tas) =>
      match m1.tas_[m1.student_.position.level]? with
      | none => none
      | some roster =>
        Maze.moveTAs dirs m1.student_.position.level draws appease_tas
          (List.range roster.length) m1

/-- `MazeLevelParseError::ConstructWhatString` of `MazeLevel.cpp`.  The level index is below
the level count, an `int`, so `level + 1` does not wrap. -/
def ConstructWhatString (level : Nat) (err : String) (row col : Option Nat) : String :=
  "Error parsing "
    ++ (match row with
        | some r => "row " ++ toString r
        | none => "")
    ++ (match col with
        | some c => ", column " ++ toString c
        | none => "")
    ++ (match row with
        | some _ => " of "
        | none => "")
    ++ "maze level " ++ toString (level + 1) ++ ": " ++ err ++ "."

/-- The locals and members `MazeLevel::ParseLevelFromFile` updates while it reads. -/
structure ParseState where
  has_ladder : Bool
  start_location_ : Option (Nat × Nat)
  instructor_location_ : Option (Nat × Nat)
  deriving DecidableEq

/-- The `switch (row_str[j])` of `MazeLevel::ParseLevelFromFile`: the tile made for one
character, or the text of the `MazeLevelParseError`. -/
def parseCell (level i j : Nat) (c : Char) (st : ParseState) :
    Except String (MazeLocation × ParseState) :=
  let pos : MazePosition := ⟨level, i, j⟩
  if c = ' ' then .ok (.space (OpenSpace.new pos), st)
  else if c = '#' then .ok (.wall pos, st)
  else if c = '@' then
    if st.start_location_ ≠ none then
      .error (ConstructWhatString level "second beginning location found"
        (some (i + 1)) (some (j + 1)))
    else
      .ok (.space { OpenSpace.new pos with is_beginning := true },
        { st with start_location_ := some (i, j) })
  else if c = '^' then
    if st.has_ladder then
      .error (ConstructWhatString level "second ladder found" (some (i + 1)) (some (j + 1)))
    else
      .ok (.space { OpenSpace.new pos with has_ladder := true },
        { st with has_ladder := true })
  else if c = '%' then
    if st.instructor_location_ ≠ none then
      .error (ConstructWhatString level "second instructor found"
        (some (i + 1)) (some (j + 1)))
    else
      .ok (.space (OpenSpace.new pos), { st with instructor_location_ := some (i, j) })
  else
    .error (ConstructWhatString level ("unknown character: " ++ String.singleton c)
      (some (i + 1)) (some (j + 1)))

/-- The inner loop of `MazeLevel::ParseLevelFromFile` over the characters of one row (the
row has the declared width when the loop starts). -/
def parseRow (level i : Nat) : Nat → List Char → ParseState →
    Except String (List MazeLocation × ParseState)
  | _, [], st => .ok ([], st)
  | j, c :: cs, st =>
    match parseCell level i j c st with
    | .error e => .error e
    | .ok (loc, st1) =>
      match parseRow level i (j + 1) cs st1 with
      | .error e => .error e
      | .ok (row, st2) => .ok (loc :: row, st2)

/-- The outer loop of `MazeLevel::ParseLevelFromFile`: `n` rows are still to be read, the
next one has index `i`; `is` is the stream as the list of lines `std::getline` will yield.
Returns the rows, the state and the rest of the stream. -/
def parseRows (level width : Nat) : Nat → Nat → List (List Char) → ParseState →
    Except String (List (List MazeLocation) × ParseState × List (List Char))
  | 0, _, is, st => .ok ([], st, is)
  | n + 1, i, is, st =>
    match is with
    | [] => .error (ConstructWhatString level "failed to read from stream" (some (i + 1)) none)
    | row_str :: is1 =>
      if row_str.length ≠ width then
        .error (ConstructWhatString level "width of row not equal to width of maze"
          (some (i + 1)) none)
      else
        match parseRow level i 0 row_str st with
        | .error e => .error e
        | .ok (row, st1) =>
          match parseRows level width n (i + 1) is1 st1 with
          | .error e => .error e
          | .ok (rows, st2, is2) => .ok (row :: rows, st2, is2)

/-- The constructor `MazeLevel::MazeLevel` with `MazeLevel::ParseLevelFromFile`: the level
and the rest of the stream, or the text of the exception. -/
def MazeLevel.parse (is : List (List Char)) (level height width : Nat) :
    Except String (MazeLevel × List (List Char)) :=
  match parseRows level width height 0 is ⟨false, none, none⟩ with
  | .error e => .error e
  | .ok (rows, st, rest) =>
    if st.start_location_ = none then
      .error (ConstructWhatString level "no beginning location found" none none)
    else if !st.has_ladder && st.instructor_location_ = none then
      .error (ConstructWhatString level "no ladder or instructor found" none none)
    else if st.has_ladder && st.instructor_location_ ≠ none then
      .error (ConstructWhatString level "found both an instructor and a ladder" none none)
    else
      .ok (⟨rows, st.start_location_, st.instructor_location_, height, width⟩, rest)

/-- The outcome of `std::shuffle`: the random engine is the list `seed`; each of its values
selects the next element among those not yet placed.  Every outcome is a permutation and
every permutation is the outcome of some seed. -/
def shuffleWith {α : Type} : List Nat → List α → List α
  | [], l => l
  | _ :: _, [] => []
  | k :: ks, x :: xs =>
    match (x :: xs)[k % (xs.length + 1)]? with
    | some y => y :: shuffleWith ks ((x :: xs).eraseIdx (k % (xs.length + 1)))
    | none => x :: xs

/-- The stored positions of the empty open spaces collected by
`MazeLevel::EmptySpacePositions`, in row-major order. -/
def MazeLevel.emptyPositions (l : MazeLevel) : List MazePosition :=
  l.locations_.flatten.filterMap fun loc =>
    match loc with
    | .wall _ => none
    | .space s => if s.IsEmpty then some s.pos else none

/-- `MazeLevel::EmptySpacePositions`. -/
def MazeLevel.EmptySpacePositions (l : MazeLevel) : Option (List MazePosition) :=
  if l.emptyPositions.isEmpty then none else some l.emptyPositions

/-- The loop of `MazeLevel::RandomEmptySpaces` over the shuffled positions: the pointers
(row, column index) of the first `count` of them; `none` when `LocationAt(pos).Unwrap()`
throws or the `dynamic_cast` yields a null pointer. -/
def MazeLevel.takeSpaces (l : MazeLevel) : Nat → List MazePosition → Option (List (Nat × Nat))
  | 0, _ => some []
  | _ + 1, [] => some []
  | count + 1, pos :: rest =>
    match (l.LocationAt pos).bind MazeLocation.asSpace with
    | none => none
    | some _ => (l.takeSpaces count rest).map (fun ptrs => (pos.row, pos.col) :: ptrs)

/-- `MazeLevel::RandomEmptySpaces`: outer `none` is an exception, inner `none` is the
`None` of the C++ `Option`. -/
def MazeLevel.RandomEmptySpaces (l : MazeLevel) (count : Nat) (seed : List Nat) :
    Option (Option (List (Nat × Nat))) :=
  match l.EmptySpacePositions with
  | none => some none
  | some positions => (l.takeSpaces count (shuffleWith seed positions)).map some

/-- The text of `BadOptionAccess` thrown by `Unwrap` on an empty `Option`. -/
def badOptionAccess : String := "Cannot unwrap an empty Option."

/-- The loop of `Maze::PlaceTAsAtLevel` over the chosen spaces of level `li`: a new TA at the
stored position of each space, and `has_ta` set on it. -/
def Maze.placeTALoop (li : Nat) : List (Nat × Nat) → Maze → Option (List TA × Maze)
  | [], m => some ([], m)
  | (i, j) :: rest, m =>
    match m.deref ⟨li, i, j⟩ with
    | none => none
    | some space =>
      match Maze.placeTALoop li rest
          (m.modifySpace ⟨li, i, j⟩ (fun s => { s with has_ta := true })) with
      | none => none
      | some (tas, m1) => some (⟨space.pos, 0⟩ :: tas, m1)

/-- `Maze::PlaceTAsAtLevel` for the level at index `li` of `levels_`: the new roster and the
maze with the tiles marked. -/
def Maze.PlaceTAsAtLevel (m : Maze) (li : Nat) (seed : List Nat) :
    Except String (List TA × Maze) :=
  match m.levels_[li]? with
  | none => .error badOptionAccess
  | some level =>
    match level.RandomEmptySpaces 2 seed with
    | none => .error badOptionAccess
    | some none => .error "Grid is not large enough to place TAs on one or more levels."
    | some (some spaces) =>
      match Maze.placeTALoop li spaces m with
      | none => .error badOptionAccess
      | some r => .ok r

/-- `Maze::PlaceSkillsAtLevel` for the level at index `li` of `levels_`. -/
def Maze.PlaceSkillsAtLevel (m : Maze) (li : Nat) (seed : List Nat) : Except String Maze :=
  match m.levels_[li]? with
  | none => .error badOptionAccess
  | some level =>
    match level.RandomEmptySpaces 3 seed with
    | none => .error badOptionAccess
    | some none => .error "Grid is not large enough to place skills on one or more levels."
    | some (some spaces) =>
      .ok (spaces.foldl
        (fun acc ptr => acc.modifySpace ⟨li, ptr.1, ptr.2⟩ (fun s => { s with has_skill := true }))
        m)

/-- `Maze::PlaceTAs`: the loop over the levels, each roster pushed onto `tas_`;
`seeds li` seeds the shuffle of level `li`. -/
def Maze.PlaceTAs (seeds : Nat → List Nat) : List Nat → Maze → Except String Maze
  | [], m => .ok m
  | li :: rest, m =>
    match m.PlaceTAsAtLevel li (seeds li) with
    | .error e => .error e
    | .ok (tas, m1) => Maze.PlaceTAs seeds rest { m1 with tas_ := m1.tas_ ++ [tas] }

/-- `Maze::PlaceSkills`: the loop over the levels. -/
def Maze.PlaceSkills (seeds : Nat → List Nat) : List Nat → Maze → Except String Maze
  | [], m => .ok m
  | li :: rest, m =>
    match m.PlaceSkillsAtLevel li (seeds li) with
    | .error e => .error e
    | .ok m1 => Maze.PlaceSkills seeds rest m1

/-- The struct `Maze::MazeInfo`: the three `int` values of the header line. -/
structure MazeInfo where
  levels : Int
  height : Int
  width : Int
  deriving DecidableEq

/-- The loop of the `Maze` constructor that parses the levels: `n` levels are still to be
read, the next one has index `i`. -/
def parseLevels (height width : Nat) : Nat → Nat → List (List Char) →
    Except String (List MazeLevel)
  | 0, _, _ => .ok []
  | n + 1, i, is =>
    match MazeLevel.parse is i height width with
    | .error e => .error e
    | .ok (level, rest) =>
      match parseLevels height width n (i + 1) rest with
      | .error e => .error e
      | .ok levels => .ok (level :: levels)

/-- The constructor `Maze::Maze`, after `ReadMazeInfo` has read the header line into `info`:
`is` holds the remaining lines; `taSeeds` and `skillSeeds` seed the shuffles of each level. -/
def Maze.construct (info : MazeInfo) (is : List (List Char))
    (taSeeds skillSeeds : Nat → List Nat) : Except String Maze :=
  if info.levels < 1 ∨ info.width < 1 ∨ info.height < 1 then
    .error "Levels, height, and width must all be >= 1."
  else
    match parseLevels info.height.toNat info.width.toNat info.levels.toNat 0 is with
    | .error e => .error e
    | .ok levels =>
      match levels[info.levels.toNat - 1]? with
      | none => .error badOptionAccess
      | some last =>
        match last.instructor_location_ with
        | none => .error "Error parsing the maze: no instructor found on final level."
        | some (ii, ij) =>
          if (List.range info.levels.toNat).any (fun i =>
              match levels[i]? with
              | some level =>
                decide (level.instructor_location_ ≠ none) && decide (i < info.levels.toNat - 1)
              | none => false) then
            .error "Error parsing the maze: instructor found on a level other than the final one."
          else
            match levels[0]? with
            | none => .error badOptionAccess
            | some first =>
              match first.start_location_ with
              | none => .error badOptionAccess
              | some (si, sj) =>
                let m0 : Maze := ⟨levels, ⟨⟨0, 0, 0⟩, 0⟩, [], ⟨⟨0, 0, 0⟩⟩⟩
                let m1 := m0.modifySpace ⟨0, si, sj⟩ (fun s => { s with has_student := true })
                match m1.deref ⟨0, si, sj⟩ with
                | none => .error badOptionAccess
                | some starting_loc =>
                  let m2 : Maze := { m1 with student_ := ⟨starting_loc.pos, 0⟩ }
                  let iptr : MazePosition := ⟨info.levels.toNat - 1, ii, ij⟩
                  let m3 := m2.modifySpace iptr (fun s => { s with has_instructor := true })
                  match m3.deref iptr with
                  | none => .error badOptionAccess
                  | some instructor_loc =>
                    let m4 : Maze := { m3 with instructor_ := ⟨instructor_loc.pos⟩ }
                    match Maze.PlaceTAs taSeeds (List.range m4.levels_.length) m4 with
                    | .error e => .error e
                    | .ok m5 => Maze.PlaceSkills skillSeeds (List.range m5.levels_.length) m5

/-- `Maze::ResetLevel` for the level at index `li` of `levels_`. -/
def Maze.ResetLevel (m : Maze) (li : Nat) (taSeed skillSeed : List Nat) : Except String Maze :=
  match m.levels_[li]? with
  | none => .error badOptionAccess
  | some level =>
    let m1 : Maze := { m with levels_ := m.levels_.modify MazeLevel.Reset li }
    match level.start_location_ with
    | none => .error badOptionAccess
    | some (si, sj) =>
      match m1.deref ⟨li, si, sj⟩ with
      | none => .error badOptionAccess
      | some start_loc0 =>
        let level_n := start_loc0.pos.level
        let m2 := m1.modifySpace ⟨li, si, sj⟩ (fun s => { s with has_student := true })
        match m2.deref ⟨li, si, sj⟩ with
        | none => .error badOptionAccess
        | some start_loc =>
          let m3 : Maze := { m2 with student_ := ⟨start_loc.pos, 0⟩ }
          if level_n ≥ m3.tas_.length then .error badOptionAccess
          else
            match m3.PlaceTAsAtLevel li taSeed with
            | .error e => .error e
            | .ok (tas, m4) =>
              ({ m4 with tas_ := m4.tas_.set level_n tas }).PlaceSkillsAtLevel li skillSeed

/-- `Maze::ResetCurrentLevel`. -/
def Maze.ResetCurrentLevel (m : Maze) (taSeed skillSeed : List Nat) : Except String Maze :=
  m.ResetLevel m.student_.position.level taSeed skillSeed

/-- The loop of `Maze::ResetAllLevels` over the levels: each is reset, then `has_student`
is cleared on its start tile. -/
def Maze.resetAllLoop (taSeeds skillSeeds : Nat → List Nat) : List Nat → Maze →
    Except String Maze
  | [], m => .ok m
  | li :: rest, m =>
    match m.ResetLevel li (taSeeds li) (skillSeeds li) with
    | .error e => .error e
    | .ok m1 =>
      match m1.levels_[li]? with
      | none => .error badOptionAccess
      | some level =>
        match level.start_location_ with
        | none => .error badOptionAccess
        | some (si, sj) =>
          Maze.resetAllLoop taSeeds skillSeeds rest
            (m1.modifySpace ⟨li, si, sj⟩ (fun s => { s with has_student := false }))

/-- `Maze::ResetAllLevels`. -/
def Maze.ResetAllLevels (m : Maze) (taSeeds skillSeeds : Nat → List Nat) : Except String Maze :=
  match Maze.resetAllLoop taSeeds skillSeeds (List.range m.levels_.length) m with
  | .error e => .error e
  | .ok m1 =>
    match m1.levels_[0]? with
    | none => .error badOptionAccess
    | some first =>
      match first.start_location_ with
      | none => .error badOptionAccess
      | some (si, sj) =>
        let m2 := m1.modifySpace ⟨0, si, sj⟩ (fun s => { s with has_student := true })
        match m2.deref ⟨0, si, sj⟩ with
        | none => .error badOptionAccess
        | some start_loc =>
          .ok { m2 with student_ := { m2.student_ with position := start_loc.pos } }

/-! ## The layout of a maze

The part of the tiles that no operation after parsing changes: the stored positions, the
walls, `is_beginning` and `has_ladder`, together with the dimensions and the two tile
pointers of each level. -/

/-- A tile with the flags that change after parsing cleared. -/
def OpenSpace.erase (s : OpenSpace) : OpenSpace :=
  { s with has_instructor := false, has_skill := false, has_student := false, has_ta := false }

/-- A level with the changing flags of every tile cleared. -/
def MazeLevel.layout (l : MazeLevel) : MazeLevel :=
  { l with locations_ := l.locations_.map (List.map (MazeLocation.mapSpace OpenSpace.erase)) }

/-- The layouts of the levels of a maze. -/
def Maze.layout (m : Maze) : List MazeLevel := m.levels_.map MazeLevel.layout

/-- Number of non-negative values of the C++ type `int` (32 bits). -/
def INT_RANGE : Nat := 2147483648

/-- What parsing establishes about a list of levels. -/
structure LayoutOk (ls : List MazeLevel) : Prop where
  count : 1 ≤ ls.length ∧ ls.length < INT_RANGE
  dims : ∀ l ∈ ls, 1 ≤ l.height_ ∧ l.height_ < INT_RANGE ∧ 1 ≤ l.width_ ∧
    l.width_ < INT_RANGE ∧ l.locations_.length = l.height_ ∧
    ∀ row ∈ l.locations_, row.length = l.width_
  pos : ∀ (li : Nat) (l : MazeLevel) (i j : Nat) (loc : MazeLocation),
    ls[li]? = some l → l.tileAt i j = some loc → loc.pos = ⟨li, i, j⟩
  start : ∀ l ∈ ls, ∃ i j sp, l.start_location_ = some (i, j) ∧
    l.tileAt i j = some (MazeLocation.space sp) ∧ sp.is_beginning = true
  ladder : ∀ (li : Nat) (l : MazeLevel) (i j : Nat) (sp : OpenSpace),
    ls[li]? = some l → l.tileAt i j = some (MazeLocation.space sp) →
    sp.has_ladder = true → li + 1 < ls.length

/-- The structural invariant of a maze: its layout is one that parsing produces. -/
def Maze.WellFormed (m : Maze) : Prop := LayoutOk m.layout

/-- The header values are values of the C++ type `int`. -/
def MazeInfo.InRange (info : MazeInfo) : Prop :=
  info.levels < INT_RANGE ∧ info.height < INT_RANGE ∧ info.width < INT_RANGE

/-- The states of a game: a successfully constructed maze, then any sequence of turns
(`MovePeople` with an action the prompt offers and TA draws), event detections
(`HandleCurrentPosition`) and resets that complete. -/
inductive Reachable (dirs : List PlayerDirectionAction) : Maze → Prop
  | construct (info : MazeInfo) (is : List (List Char)) (taSeeds skillSeeds : Nat → List Nat)
      (m : Maze) (hinfo : info.InRange)
      (h : Maze.construct info is taSeeds skillSeeds = .ok m) : Reachable dirs m
  | turn (m m1 : Maze) (choice : PlayerAction) (draws : Nat → Nat) (hm : Reachable dirs m)
      (h : m.MovePeople dirs choice draws = some m1) : Reachable dirs m1
  | handle (m m1 : Maze) (res : MoveResult) (hm : Reachable dirs m)
      (h : m.HandleCurrentPosition dirs = some (res, m1)) : Reachable dirs m1
  | resetCurrent (m m1 : Maze) (taSeed skillSeed : List Nat) (hm : Reachable dirs m)
      (h : m.ResetCurrentLevel taSeed skillSeed = .ok m1) : Reachable dirs m1
  | resetAll (m m1 : Maze) (taSeeds skillSeeds : Nat → List Nat) (hm : Reachable dirs m)
      (h : m.ResetAllLevels taSeeds skillSeeds = .ok m1) : Reachable dirs m1

/-- What `MazeLevel::MazeLevel` establishes about the level with index `li` parsed with the
declared `height` and `width`. -/
structure LevelOk (li height width : Nat) (l : MazeLevel) : Prop where
  height_eq : l.height_ = height
  width_eq : l.width_ = width
  rows : l.locations_.length = height
  cols : ∀ row ∈ l.locations_, row.length = width
  pos : ∀ (i j : Nat) (loc : MazeLocation), l.tileAt i j = some loc → loc.pos = ⟨li, i, j⟩
  start : ∃ i j sp, l.start_location_ = some (i, j) ∧
    l.tileAt i j = some (MazeLocation.space sp) ∧ sp.is_beginning = true
  ladder : ∀ (i j : Nat) (sp : OpenSpace), l.tileAt i j = some (MazeLocation.space sp) →
    sp.has_ladder = true → l.instructor_location_ = none

/-! ## Vocabulary of the properties -/

/-- The open space `sp` is one the adjacency scan of the student looks at: it lies one
step, in some direction, from the position stored by the student's tile.  In a well-formed
maze that stored position is the student's position. -/
def Maze.AdjacentToStudent (m : Maze) (sp : OpenSpace) : Prop :=
  ∃ sp0 dir, m.SpaceAt m.student_.position = some sp0 ∧
    m.SpaceAt (sp0.pos.Translate dir 1) = some sp

/-- The order of the directions named by the specification. -/
def specOrder : List PlayerDirectionAction :=
  [PlayerDirectionAction.Up, PlayerDirectionAction.Down, PlayerDirectionAction.Left,
    PlayerDirectionAction.Right]

/-- One step of a game session together with the inputs it consumes: a turn (the action
entered at the prompt and the draws of the TAs in roster order), an event detection, or a
reset (with the seeds of its shuffles). -/
inductive Step
  | turn (choice : PlayerAction) (draws : List Nat)
  | turnToward (choice : PlayerAction) (want : List PlayerDirectionAction)
  | handle
  | resetCurrent (taSeed skillSeed : List Nat)
  | resetAll (taSeeds skillSeeds : List (List Nat))

/-- The draws with which each TA of the roster of `level` moves in the direction wanted for
it: the index of that direction among the directions `TA::GetMove` chooses from. -/
def Maze.drawsToward (dirs : List PlayerDirectionAction) (m : Maze) (level : Nat)
    (want : List PlayerDirectionAction) : Nat → Nat :=
  fun i =>
    match m.taAtIndex level i, want[i]? with
    | some ta, some d =>
      ((m.ValidMovementsAt dirs ta.position).filterMap PlayerActionToDirection).indexOf d
    | _, _ => 0

/-- Run one step.  `turnToward` is a turn given by the directions the TAs of the student's
resulting level take, whatever the enumeration order `dirs` is. -/
def Maze.step (dirs : List PlayerDirectionAction) (m : Maze) : Step → Option Maze
  | .turn choice draws => m.MovePeople dirs choice (fun i => draws.getD i 0)
  | .turnToward choice want =>
    m.MovePeople dirs choice
      (m.drawsToward dirs
        (if choice = PlayerAction.ClimbUp then uadd m.student_.position.level 1
          else m.student_.position.level) want)
  | .handle => (m.HandleCurrentPosition dirs).map Prod.snd
  | .resetCurrent taSeed skillSeed => (m.ResetCurrentLevel taSeed skillSeed).toOption
  | .resetAll taSeeds skillSeeds =>
    (m.ResetAllLevels (fun i => taSeeds.getD i []) (fun i => skillSeeds.getD i [])).toOption

/-- Run a list of steps. -/
def Maze.run (dirs : List PlayerDirectionAction) : List Step → Maze → Option Maze
  | [], m => some m
  | s :: rest, m =>
    match m.step dirs s with
    | none => none
    | some m1 => Maze.run dirs rest m1

/-- Construct a maze from its header, its text and the seeds of the placements of each
level, then run a list of steps. -/
def play (dirs : List PlayerDirectionAction) (info : MazeInfo) (text : List String)
    (taSeeds skillSeeds : List (List Nat)) (steps : List Step) : Option Maze :=
  match Maze.construct info (text.map String.toList) (fun i => taSeeds.getD i [])
      (fun i => skillSeeds.getD i []) with
  | .ok m => Maze.run dirs steps m
  | .error _ => none

/-- A one-level maze: the instructor in the top row, the start tile below it to the left. -/
def hallText : List String := ["#%  ", "@   ", "    "]

/-- The header of `hallText`. -/
def hallInfo : MazeInfo := ⟨1, 3, 4⟩

/-- The session on `hallText` in which the TAs are placed on (2,1) and (1,1), the skills on
(0,2), (0,3) and (1,3); the student then steps right onto (1,1), the first TA steps up onto
(1,1) and the second TA steps right, off (1,1). -/
def hallCrossing : Option Maze :=
  play specOrder hallInfo hallText [[6, 2]] [[0, 0, 1]]
    [Step.turn PlayerAction.MoveRight [0, 3]]

/-- The session on `hallText` with the same placements in which the student steps down
onto (2,0), the first TA steps up and the second TA steps left onto the start tile (1,0). -/
def hallCaught : Option Maze :=
  play specOrder hallInfo hallText [[6, 2]] [[0, 0, 1]]
    [Step.turn PlayerAction.MoveDown [0, 2]]

/-- The change of the row, as an integer, of one step in a direction. -/
def PlayerDirectionAction.dRow : PlayerDirectionAction → Int
  | .Up => -1
  | .Down => 1
  | .Left => 0
  | .Right => 0

/-- The change of the column, as an integer, of one step in a direction. -/
def PlayerDirectionAction.dCol : PlayerDirectionAction → Int
  | .Up => 0
  | .Down => 0
  | .Left => -1
  | .Right => 1

/-- The cell with the integer coordinates `(r, c)` lies inside the grid of the level and
holds an open space. -/
def MazeLevel.OccupiableCell (l : MazeLevel) (r c : Int) : Prop :=
  0 ≤ r ∧ r < l.height_ ∧ 0 ≤ c ∧ c < l.width_ ∧
    ∃ sp, l.tileAt r.toNat c.toNat = some (MazeLocation.space sp)

/-- The occupancy flag of a person written on a tile: `has_student` for the student,
`has_ta` for a TA, nothing for the instructor. -/
def PersonRef.setFlag (person : PersonRef) (b : Bool) (s : OpenSpace) : OpenSpace :=
  match person with
  | .student => { s with has_student := b }
  | .ta _ _ => { s with has_ta := b }
  | .instructor => s

/-- The maze constructed from `hallText` with the placements of `hallCrossing`, before any
turn. -/
def hallStart : Option Maze :=
  play specOrder hallInfo hallText [[6, 2]] [[0, 0, 1]] []

/-- A two-level maze: a ladder next to the start tile of the first level, the instructor
on the second level. -/
def towerText : List String := ["@^  ", "    ", "@  %", "    "]

/-- The header of `towerText`. -/
def towerInfo : MazeInfo := ⟨2, 2, 4⟩

/-- The session on `towerText` in which, on each level, the TAs are placed on (1,3) and
(1,2) and the skills on the first three empty tiles; the student steps right onto the
ladder tile (0,1) of level 0 while the TAs of level 0 move to (0,3) and (1,3). -/
def towerLadder : Option Maze :=
  play specOrder towerInfo towerText [[5, 4], [5, 4]] [[0, 0, 0], [0, 0, 0]]
    [Step.turn PlayerAction.MoveRight [0, 2]]

/-- The session on `hallText` in which the TAs are placed on (2,3) and (2,2) and the skills
on (2,0), (0,2) and (0,3); the student steps down onto the skill at (2,0), the first TA
steps up to (1,3) and the second TA steps right to (2,3). -/
def hallOnSkill : Option Maze :=
  play specOrder hallInfo hallText [[8, 7]] [[5, 0, 0]]
    [Step.turn PlayerAction.MoveDown [0, 2]]

/-- The session `hallOnSkill` followed by the event detection, which picks up the skill. -/
def hallOneSkill : Option Maze :=
  play specOrder hallInfo hallText [[8, 7]] [[5, 0, 0]]
    [Step.turn PlayerAction.MoveDown [0, 2], Step.handle]

/-- The appeasement counter a TA has after a turn in which the student demonstrated a
skill, from its counter `c` before the turn. -/
def counterAfterDemonstration (c : Nat) : Nat :=
  (if c = 0 then 10 else c + 9) % UINT

/-- The adjacent open space `sp` is harmless for the adjacency scan of maze `m`: it holds
an appeased TA (flagged, counter above 1), or it has neither `has_ta` nor
`has_instructor` set. -/
def Maze.ScanPasses (m : Maze) (sp : OpenSpace) : Prop :=
  (sp.has_ta = true ∧ ∃ ta, m.TaAt sp.pos = some ta ∧ 1 < ta.appeased_turns) ∨
  (sp.has_ta = false ∧ sp.has_instructor = false)

/-- The adjacent open space `sp` makes the adjacency scan of maze `m` return `r`. -/
def Maze.ScanTrigger (m : Maze) (sp : OpenSpace) (r : MoveResult) : Prop :=
  (r = MoveResult.CaughtByTA ∧ sp.has_ta = true ∧
      ∃ ta, m.TaAt sp.pos = some ta ∧ ta.appeased_turns ≤ 1) ∨
  (r = MoveResult.FailedByInstructor ∧ sp.has_ta = false ∧ sp.has_instructor = true ∧
      m.student_.prog_skills < 3) ∨
  (r = MoveResult.SatisfiedInstructor ∧ sp.has_ta = false ∧ sp.has_instructor = true ∧
      3 ≤ m.student_.prog_skills)

/-- The maze after the student has picked up the skill of the tile it stands on. -/
def Maze.afterPickup (m : Maze) : Maze :=
  ({ m with student_ := m.student_.IncrementSkills }).modifySpace m.student_.position
    (fun s => { s with has_skill := false })

/-- The session on `hallText` in which the TAs are placed on (1,2) and (2,3) and the skills
on (2,0), (0,2) and (0,3).  The student steps down onto the skill at (2,0) and picks it up,
demonstrates it (the TAs are appeased for 10 turns), steps up to the start tile and then
right to (1,1), below the instructor's tile (0,1); in that last turn the first TA, still
appeased, steps onto the instructor's tile. -/
def hallMaskedInstructor : Option Maze :=
  play specOrder hallInfo hallText [[3, 7]] [[4, 0, 0]]
    [Step.turn PlayerAction.MoveDown [3, 1], Step.handle,
     Step.turn PlayerAction.DemonstrateSkill [2, 2], Step.handle,
     Step.turn PlayerAction.MoveUp [0, 1], Step.handle,
     Step.turn PlayerAction.MoveRight [1, 2]]

/-! ## Sessions for every enumeration order of the directions -/

/-- The opposite direction: `Up` and `Down` are swapped, `Left` and `Right` are swapped. -/
def PlayerDirectionAction.opposite : PlayerDirectionAction → PlayerDirectionAction
  | .Up => .Down
  | .Down => .Up
  | .Left => .Right
  | .Right => .Left

/-- All ways to insert `x` into a list. -/
def insertEverywhere {α : Type} (x : α) : List α → List (List α)
  | [] => [[x]]
  | y :: ys => (x :: y :: ys) :: (insertEverywhere x ys).map (fun l => y :: l)

/-- All orders of the elements of a list. -/
def ordersOf {α : Type} : List α → List (List α)
  | [] => [[]]
  | x :: xs => (ordersOf xs).flatMap (insertEverywhere x)

/-- The 24 orders in which the directions can be enumerated. -/
def allOrders : List (List PlayerDirectionAction) := ordersOf specOrder

/-- The seed with which `shuffleWith` puts the wanted positions first, in their order. -/
def seedFor : List MazePosition → List MazePosition → List Nat
  | _, [] => []
  | positions, p :: ps =>
    positions.indexOf p :: seedFor (positions.eraseIdx (positions.indexOf p)) ps

/-- The empty tiles of level `li` when the placement of the TAs starts: the tiles read from
a blank. -/
def plannedEmpties (info : MazeInfo) (text : List String) (li : Nat) : List MazePosition :=
  match parseLevels info.height.toNat info.width.toNat info.levels.toNat 0
      (text.map String.toList) with
  | .ok levels =>
    match levels[li]? with
    | some l =>
      l.emptyPositions.filter (fun p => decide (some (p.row, p.col) ≠ l.instructor_location_))
    | none => []
  | .error _ => []

/-- A session given by the tiles on which the shuffles place the TAs and the skills of each
level, instead of by the seeds. -/
def playToward (dirs : List PlayerDirectionAction) (info : MazeInfo) (text : List String)
    (tas skills : List (List MazePosition)) (steps : List Step) : Option Maze :=
  play dirs info text
    ((List.range tas.length).map (fun li =>
      seedFor (plannedEmpties info text li) (tas.getD li [])))
    ((List.range skills.length).map (fun li =>
      seedFor ((plannedEmpties info text li).filter (fun p => !(tas.getD li []).contains p))
        (skills.getD li [])))
    steps

/-- The centre of the 5 by 5 maze `crossText`. -/
def crossCentre : MazePosition := ⟨0, 2, 2⟩

/-- A one-level 5 by 5 maze without walls: the instructor's tile next to the centre in the
first direction of the order `dirs`, the start tile next to the centre in the second. -/
def crossText (dirs : List PlayerDirectionAction) : List String :=
  (List.range 5).map fun r =>
    String.mk ((List.range 5).map fun c =>
      if (⟨0, r, c⟩ : MazePosition)
          = crossCentre.Translate (dirs.getD 0 PlayerDirectionAction.Up) 1 then '%'
      else if (⟨0, r, c⟩ : MazePosition)
          = crossCentre.Translate (dirs.getD 1 PlayerDirectionAction.Down) 1 then '@'
      else ' ')

/-- The session on `crossText dirs` in which the first TA is placed next to the centre in
the third direction of `dirs`, the second TA on the centre and the skills in three corners.
In the one turn the student steps from the start tile onto the centre, the first TA steps
onto the centre and the second TA leaves the centre in the fourth direction. -/
def crossing (dirs : List PlayerDirectionAction) : Option Maze :=
  playToward dirs ⟨1, 5, 5⟩ (crossText dirs)
    [[crossCentre.Translate (dirs.getD 2 PlayerDirectionAction.Left) 1, crossCentre]]
    [[⟨0, 0, 0⟩, ⟨0, 0, 4⟩, ⟨0, 4, 0⟩]]
    [Step.turnToward
      (PlayerDirectionToAction (dirs.getD 1 PlayerDirectionAction.Down).opposite)
      [(dirs.getD 2 PlayerDirectionAction.Left).opposite,
        dirs.getD 3 PlayerDirectionAction.Right]]

/-- What C2 needs of the state `crossing dirs`: the first TA stands on the student's
position with a counter of at most 1, and `HandleCurrentPosition` returns
`FailedByInstructor`. -/
def crossingCheck (dirs : List PlayerDirectionAction) : Bool :=
  match crossing dirs with
  | some m =>
    (match m.taAtIndex m.student_.position.level 0 with
      | some ta => decide (ta.position = m.student_.position) && decide (ta.appeased_turns ≤ 1)
      | none => false) &&
    (match m.HandleCurrentPosition dirs with
      | some (r, _) => decide (r = MoveResult.FailedByInstructor)
      | none => false)
  | none => false

/-- The session of `hallMaskedInstructor` for the enumeration order `dirs`, given by the
tiles of the placements and the directions the TAs take. -/
def maskedInstructor (dirs : List PlayerDirectionAction) : Option Maze :=
  playToward dirs hallInfo hallText [[⟨0, 1, 2⟩, ⟨0, 2, 3⟩]] [[⟨0, 2, 0⟩, ⟨0, 0, 2⟩, ⟨0, 0, 3⟩]]
    [Step.turnToward PlayerAction.MoveDown
        [PlayerDirectionAction.Right, PlayerDirectionAction.Left],
     Step.handle,
     Step.turnToward PlayerAction.DemonstrateSkill
        [PlayerDirectionAction.Left, PlayerDirectionAction.Right],
     Step.handle,
     Step.turnToward PlayerAction.MoveUp
        [PlayerDirectionAction.Up, PlayerDirectionAction.Left],
     Step.handle,
     Step.turnToward PlayerAction.MoveRight
        [PlayerDirectionAction.Left, PlayerDirectionAction.Right]]

/-- What C5 needs of the state `maskedInstructor dirs`: the student's tile has neither
`has_ta` nor `has_skill`, the tile above it is the instructor's tile with an appeased TA
on it, every TA is appeased, the student has fewer than 3 skills, and
`HandleCurrentPosition` returns `NoEvent`. -/
def maskedInstructorCheck (dirs : List PlayerDirectionAction) : Bool :=
  match maskedInstructor dirs with
  | some m =>
    (match m.SpaceAt m.student_.position with
      | some sp0 => !sp0.has_ta && !sp0.has_skill &&
          (match m.SpaceAt (sp0.pos.Translate PlayerDirectionAction.Up 1) with
            | some sp => sp.has_instructor && sp.has_ta &&
                decide (sp.pos = m.instructor_.position)
            | none => false)
      | none => false) &&
    m.tas_.all (fun roster => roster.all (fun ta => decide (1 < ta.appeased_turns))) &&
    decide (m.student_.prog_skills < 3) &&
    (match m.HandleCurrentPosition dirs with
      | some (r, _) => decide (r = MoveResult.NoEvent)
      | none => false)
  | none => false

/-- The session of `hallSkillNextToTA` for the enumeration order `dirs`. -/
def skillNextToTA (dirs : List PlayerDirectionAction) : Option Maze :=
  playToward dirs hallInfo hallText [[⟨0, 2, 3⟩, ⟨0, 2, 2⟩]] [[⟨0, 2, 0⟩, ⟨0, 0, 2⟩, ⟨0, 0, 3⟩]]
    [Step.turnToward PlayerAction.MoveDown
        [PlayerDirectionAction.Up, PlayerDirectionAction.Left]]

/-- What C4 needs of the state `skillNextToTA dirs`: the student's tile has `has_skill` set
and `has_ta` clear, no TA stands on it, and `HandleCurrentPosition` returns `CaughtByTA`
after raising the skill count. -/
def skillNextToTACheck (dirs : List PlayerDirectionAction) : Bool :=
  match skillNextToTA dirs with
  | some m =>
    (match m.SpaceAt m.student_.position with
      | some sp => sp.has_skill && !sp.has_ta
      | none => false) &&
    m.tas_.all (fun roster =>
      roster.all (fun ta => decide (ta.position ≠ m.student_.position))) &&
    (match m.HandleCurrentPosition dirs with
      | some (r, m1) => decide (r = MoveResult.CaughtByTA) &&
          decide (m1.student_.prog_skills = m.student_.prog_skills + 1)
      | none => false)
  | none => false

/-- The session of `hallOneSkill` for the enumeration order `dirs`. -/
def oneSkill (dirs : List PlayerDirectionAction) : Option Maze :=
  playToward dirs hallInfo hallText [[⟨0, 2, 3⟩, ⟨0, 2, 2⟩]] [[⟨0, 2, 0⟩, ⟨0, 0, 2⟩, ⟨0, 0, 3⟩]]
    [Step.turnToward PlayerAction.MoveDown
        [PlayerDirectionAction.Up, PlayerDirectionAction.Right],
     Step.handle]

/-- What C6 needs of the state `oneSkill dirs`: the student holds one skill, the first TA
of the level has the counter 0, and after the turn in which the student demonstrates the
skill that TA has the counter 10. -/
def oneSkillCheck (dirs : List PlayerDirectionAction) : Bool :=
  match oneSkill dirs with
  | some m =>
    decide (m.student_.prog_skills = 1) &&
    decide ((m.taAtIndex m.student_.position.level 0).map TA.appeased_turns = some 0) &&
    decide (((m.MovePeople dirs PlayerAction.DemonstrateSkill (fun _ => 0)).bind
      (fun m1 => (m1.taAtIndex m.student_.position.level 0).map TA.appeased_turns)) = some 10)
  | none => false

/-! ### Vocabulary of level parsing -/

/-- The characters the `switch` of `MazeLevel::ParseLevelFromFile` has a case for. -/
def IsGlyph (c : Char) : Prop := c = ' ' ∨ c = '#' ∨ c = '@' ∨ c = '^' ∨ c = '%'

instance : DecidablePred IsGlyph := fun c => by
  unfold IsGlyph
  infer_instance

/-- The character at row `i`, column `j` of the lines of a stream. -/
def charAt (is : List (List Char)) (i j : Nat) : Option Char :=
  match is[i]? with
  | some row => row[j]?
  | none => none

/-- The tile the `switch` of `MazeLevel::ParseLevelFromFile` pushes for a character it has a
case for: `new Wall(pos)` for `#`, otherwise `new OpenSpace(pos)`, with `is_beginning` set
for `@` and `has_ladder` set for `^`. -/
def tileFor (level i j : Nat) (c : Char) : MazeLocation :=
  if c = '#' then .wall ⟨level, i, j⟩
  else .space { OpenSpace.new ⟨level, i, j⟩ with
    is_beginning := decide (c = '@'), has_ladder := decide (c = '^') }

/-- The assignments of the `switch` of `MazeLevel::ParseLevelFromFile` to `has_ladder`,
`start_location_` and `instructor_location_` for a character that does not throw. -/
def ParseState.read (st : ParseState) (i j : Nat) (c : Char) : ParseState :=
  ⟨st.has_ladder || decide (c = '^'),
   if c = '@' then some (i, j) else st.start_location_,
   if c = '%' then some (i, j) else st.instructor_location_⟩

/-- The tiles of one row that parses, from column `j` on. -/
def tilesFor (level i : Nat) : Nat → List Char → List MazeLocation
  | _, [] => []
  | j, c :: cs => tileFor level i j c :: tilesFor level i (j + 1) cs

/-- The parse state after one row that parses, from column `j` on. -/
def ParseState.readRow (i : Nat) : Nat → List Char → ParseState → ParseState
  | _, [], st => st
  | j, c :: cs, st => ParseState.readRow i (j + 1) cs (st.read i j c)

/-- The grid of the rows that parse, the first one having index `i`. -/
def rowsFor (level : Nat) : Nat → List (List Char) → List (List MazeLocation)
  | _, [] => []
  | i, r :: rs => tilesFor level i 0 r :: rowsFor level (i + 1) rs

/-- The parse state after the rows that parse, the first one having index `i`. -/
def ParseState.readRows : Nat → List (List Char) → ParseState → ParseState
  | _, [], st => st
  | i, r :: rs, st => ParseState.readRows (i + 1) rs (st.readRow i 0 r)

/-- What the parse state records of the characters read so far. -/
structure ParseState.Tracks (st : ParseState) (seen : List Char) : Prop where
  ladder : st.has_ladder = true ↔ '^' ∈ seen
  start : st.start_location_ ≠ none ↔ '@' ∈ seen
  instructor : st.instructor_location_ ≠ none ↔ '%' ∈ seen

/-- Characters the row loop of `MazeLevel::ParseLevelFromFile` reads without throwing: each
has a case of the `switch`, and none of `@`, `^`, `%` comes a second time. -/
structure Clean (seen : List Char) : Prop where
  glyph : ∀ c ∈ seen, IsGlyph c
  start : seen.count '@' ≤ 1
  ladder : seen.count '^' ≤ 1
  instructor : seen.count '%' ≤ 1

/-- The text of a `MazeLevelParseError` for the level with index `level`. -/
def IsParseError (level : Nat) (e : String) : Prop :=
  ∃ (err : String) (row col : Option Nat), e = ConstructWhatString level err row col

/-- The tile is the start tile of its level. -/
def MazeLocation.isStart : MazeLocation → Bool
  | .wall _ => false
  | .space s => s.is_beginning

/-- The tile is a ladder tile. -/
def MazeLocation.isLadder : MazeLocation → Bool
  | .wall _ => false
  | .space s => s.has_ladder

/-- The text of a level of the declared height and width has no defect: the rows are there,
each has the declared width and only characters with a case in the `switch`, there is
one `@`, and one character that is `^` or `%`. -/
def LevelTextOk (is : List (List Char)) (height width : Nat) : Prop :=
  height ≤ is.length ∧ (∀ row ∈ is.take height, row.length = width) ∧
    (∀ row ∈ is.take height, ∀ c ∈ row, IsGlyph c) ∧
    (is.take height).flatten.count '@' = 1 ∧
    (is.take height).flatten.count '^' + (is.take height).flatten.count '%' = 1

/-- The level `MazeLevel::MazeLevel` builds from a text without defect. -/
def levelFor (is : List (List Char)) (level height width : Nat) : MazeLevel :=
  ⟨rowsFor level 0 (is.take height),
   (ParseState.readRows 0 (is.take height) ⟨false, none, none⟩).start_location_,
   (ParseState.readRows 0 (is.take height) ⟨false, none, none⟩).instructor_location_,
   height, width⟩

/-- The grid of a level agrees with its dimensions and every tile stores its own row and
column: what the constructor of the level establishes and no later operation changes. -/
def MazeLevel.GridOk (l : MazeLevel) : Prop :=
  l.locations_.length = l.height_ ∧ (∀ row ∈ l.locations_, row.length = l.width_) ∧
    ∀ (i j : Nat) (loc : MazeLocation), l.tileAt i j = some loc →
      loc.pos.row = i ∧ loc.pos.col = j

/-- The tile is an open space that `OpenSpace::IsEmpty` calls empty. -/
def MazeLocation.isEmptySpace : MazeLocation → Bool
  | .wall _ => false
  | .space s => s.IsEmpty

/-- The rows of the level with index `k` in the lines after the header, every level having
`height` rows. -/
def levelText (is : List (List Char)) (height k : Nat) : List (List Char) :=
  (is.drop (k * height)).take height

/-- The grid indices (row, column) of the empty open spaces of the level with index `li`,
in the order `MazeLevel::EmptySpacePositions` collects them. -/
def Maze.emptyKeys (m : Maze) (li : Nat) : List (Nat × Nat) :=
  match m.levels_[li]? with
  | some l => l.emptyPositions.map (fun p : MazePosition => (p.row, p.col))
  | none => []

/-- The tile behind the pointer to row `p.1`, column `p.2` of level `li` is an open space
that `OpenSpace::IsEmpty` calls empty. -/
def Maze.EmptyAt (m : Maze) (li : Nat) (p : Nat × Nat) : Prop :=
  ∃ sp, m.deref ⟨li, p.1, p.2⟩ = some sp ∧ sp.IsEmpty = true

/-- The maze with `MazeLevel::Reset` called on the level with index `li`. -/
def Maze.resetTiles (m : Maze) (li : Nat) : Maze :=
  { m with levels_ := m.levels_.modify MazeLevel.Reset li }

/-- The grid indices of the open spaces of level `li` that are empty once TAs, skills and
the student are taken off the level: the spaces without `is_beginning`, `has_ladder` and
`has_instructor`. -/
def Maze.freeKeys (m : Maze) (li : Nat) : List (Nat × Nat) :=
  (m.resetTiles li).emptyKeys li

/-! ### Vocabulary of the placements and the resets -/

/-- The tile at the student's position is an open space, and it is the one tile of the maze
with `has_student` set. -/
def Maze.StudentMarked (m : Maze) : Prop :=
  (∃ sp, m.deref m.student_.position = some sp) ∧
  ∀ (q : MazePosition) (sp : OpenSpace), m.deref q = some sp →
    (sp.has_student = true ↔ q = m.student_.position)

/-- There is one roster for each level, and each roster holds two TAs. -/
def Maze.RostersOk (m : Maze) : Prop :=
  m.tas_.length = m.levels_.length ∧ ∀ r ∈ m.tas_, r.length = 2

/-- The roster of level `li` as `PlaceTAsAtLevel` leaves it: two TAs on two different tiles
of the level, each tile an open space with `has_ta` set and no other flag (it was empty
before the TA was placed: not the start, ladder or instructor tile, not the student's tile,
no skill on it). -/
def Maze.TAsPlaced (m : Maze) (li : Nat) : Prop :=
  ∃ t1 t2 : TA, m.tas_[li]? = some [t1, t2] ∧ t1.position ≠ t2.position ∧
    ∀ t ∈ [t1, t2], t.position.level = li ∧
      ∃ sp, m.SpaceAt t.position = some sp ∧ sp.has_ta = true ∧
        ({ sp with has_ta := false } : OpenSpace).IsEmpty = true

/-- The instructor tile: the last level points to it with `instructor_location_`, and it
is the one tile of the maze with `has_instructor` set. -/
def Maze.InstructorMarked (m : Maze) : Prop :=
  ∃ (last : MazeLevel) (ii ij : Nat) (sp : OpenSpace),
    m.levels_[m.levels_.length - 1]? = some last ∧
    last.instructor_location_ = some (ii, ij) ∧
    last.tileAt ii ij = some (MazeLocation.space sp) ∧ sp.has_instructor = true ∧
    ∀ (q : MazePosition) (sp1 : OpenSpace), m.deref q = some sp1 →
      (sp1.has_instructor = true ↔ q = ⟨m.levels_.length - 1, ii, ij⟩)

/-- The grid indices of the tiles of level `li` with `has_skill` set, in row-major order. -/
def Maze.skillKeys (m : Maze) (li : Nat) : List (Nat × Nat) :=
  match m.levels_[li]? with
  | some l =>
    l.locations_.flatten.filterMap fun loc =>
      match loc with
      | .wall _ => none
      | .space s => if s.has_skill then some (s.pos.row, s.pos.col) else none
  | none => []

/-- A one-level maze of one row: three blank tiles, the start tile and the instructor. -/
def smallText : List String := ["   @%"]

/-- The header of `smallText`: one level of height 1 and width 5. -/
def smallInfo : MazeInfo := ⟨1, 1, 5⟩

/-- The construction from the maze file with header `1 1 5` and the row of `smallText`,
with the identity as the outcome of every shuffle. -/
def smallMaze : Except String Maze :=
  Maze.construct smallInfo (smallText.map String.toList) (fun _ => []) (fun _ => [])

/-- The constructor `Maze::Maze` up to its calls of `PlaceTAs` and `PlaceSkills`: the
levels are parsed and checked, the student is placed on the start tile of the first level
and the instructor on the instructor tile of the last level. -/
def Maze.beforePlacements (info : MazeInfo) (is : List (List Char)) : Except String Maze :=
  if info.levels < 1 ∨ info.width < 1 ∨ info.height < 1 then
    .error "Levels, height, and width must all be >= 1."
  else
    match parseLevels info.height.toNat info.width.toNat info.levels.toNat 0 is with
    | .error e => .error e
    | .ok levels =>
      match levels[info.levels.toNat - 1]? with
      | none => .error badOptionAccess
      | some last =>
        match last.instructor_location_ with
        | none => .error "Error parsing the maze: no instructor found on final level."
        | some (ii, ij) =>
          if (List.range info.levels.toNat).any (fun i =>
              match levels[i]? with
              | some level =>
                decide (level.instructor_location_ ≠ none) && decide (i < info.levels.toNat - 1)
              | none => false) then
            .error "Error parsing the maze: instructor found on a level other than the final one."
          else
            match levels[0]? with
            | none => .error badOptionAccess
            | some first =>
              match first.start_location_ with
              | none => .error badOptionAccess
              | some (si, sj) =>
                let m0 : Maze := ⟨levels, ⟨⟨0, 0, 0⟩, 0⟩, [], ⟨⟨0, 0, 0⟩⟩⟩
                let m1 := m0.modifySpace ⟨0, si, sj⟩ (fun s => { s with has_student := true })
                match m1.deref ⟨0, si, sj⟩ with
                | none => .error badOptionAccess
                | some starting_loc =>
                  let m2 : Maze := { m1 with student_ := ⟨starting_loc.pos, 0⟩ }
                  let iptr : MazePosition := ⟨info.levels.toNat - 1, ii, ij⟩
                  let m3 := m2.modifySpace iptr (fun s => { s with has_instructor := true })
                  match m3.deref iptr with
                  | none => .error badOptionAccess
                  | some instructor_loc => .ok { m3 with instructor_ := ⟨instructor_loc.pos⟩ }

/-! ### Vocabulary of the lookups in play -/

/-- Every TA of a roster stands on an open space of the level of its roster. -/
def Maze.TAsOnTiles (m : Maze) : Prop :=
  ∀ (l k : Nat) (t : TA), m.taAtIndex l k = some t →
    t.position.level = l ∧ (m.deref t.position).isSome = true

/-- Every tile with `has_ta` set is the position of a TA of the roster of its level. -/
def Maze.FlagsHaveTAs (m : Maze) : Prop :=
  ∀ (q : MazePosition) (sp : OpenSpace), m.deref q = some sp → sp.has_ta = true →
    ∃ (k : Nat) (t : TA), m.taAtIndex q.level k = some t ∧ t.position = q

/-- The TAs of one roster have the same appeasement counter. -/
def Maze.CountersAgree (m : Maze) : Prop :=
  ∀ (l k k' : Nat) (t t' : TA), m.taAtIndex l k = some t → m.taAtIndex l k' = some t' →
    t.appeased_turns = t'.appeased_turns

/-- Every occupiable tile has an occupiable neighbour: one step away from it, in some
direction, lies another open space. -/
def Maze.Neighbourly (m : Maze) : Prop :=
  ∀ q : MazePosition, (m.SpaceAt q).isSome = true →
    ∃ d : PlayerDirectionAction, (m.SpaceAt (q.Translate d 1)).isSome = true

/-- A check of `Maze.Neighbourly` over the grid of every level. -/
def Maze.neighbourlyCheck (m : Maze) : Bool :=
  (List.range m.levels_.length).all fun li =>
    match m.levels_[li]? with
    | none => true
    | some l =>
      (List.range l.height_).all fun i => (List.range l.width_).all fun j =>
        !(m.SpaceAt ⟨li, i, j⟩).isSome ||
          specOrder.any fun d =>
            (m.SpaceAt ((⟨li, i, j⟩ : MazePosition).Translate d 1)).isSome

/-- A one-level maze in which the blank tile (0,3) lies between two walls. -/
def cellText : List String := ["@ # # %"]

/-- The header of `cellText`: one level of height 1 and width 7. -/
def cellInfo : MazeInfo := ⟨1, 1, 7⟩

/-- The construction from the maze file with header `1 1 7` and the row of `cellText`, with
the identity as the outcome of every shuffle: the TAs are placed on (0,1) and (0,3), the
skill on (0,5). -/
def cellMaze : Except String Maze :=
  Maze.construct cellInfo (cellText.map String.toList) (fun _ => []) (fun _ => [])

/-- The order in which the `std::unordered_map` of the directions of `PlayerAction.h` is
iterated by libstdc++: the reverse of the order of its initialiser list. -/
def reverseOrder : List PlayerDirectionAction :=
  [PlayerDirectionAction.Right, PlayerDirectionAction.Left, PlayerDirectionAction.Down,
    PlayerDirectionAction.Up]

/-- The session on `hallText` in which the TAs are placed on (2,2) and (0,3); the student
steps right onto (1,1), below the instructor's tile (0,1), the first TA steps left onto
(2,1), below the student, and the second TA steps down. -/
def hallBetween (dirs : List PlayerDirectionAction) : Option Maze :=
  playToward dirs hallInfo hallText [[⟨0, 2, 2⟩, ⟨0, 0, 3⟩]]
    [[⟨0, 2, 0⟩, ⟨0, 0, 2⟩, ⟨0, 2, 3⟩]]
    [Step.turnToward PlayerAction.MoveRight
      [PlayerDirectionAction.Left, PlayerDirectionAction.Down]]

/-- The budget of appeasement: on the student's level each TA's counter plus ten times the
skills still at hand (those the student holds and those lying on the level) is at most
thirty times the number of levels up to the student's; the TAs of the levels above have the
counter 0, and no level holds more than three skills. -/
def Maze.Budget (m : Maze) : Prop :=
  (∀ l k t, m.taAtIndex l k = some t → m.student_.position.level < l →
    t.appeased_turns = 0) ∧
  (∀ l, (m.skillKeys l).length ≤ 3) ∧
  10 * (m.student_.prog_skills + (m.skillKeys m.student_.position.level).length)
    ≤ 30 * (m.student_.position.level + 1) ∧
  ∀ k t, m.taAtIndex m.student_.position.level k = some t →
    t.appeased_turns
      + 10 * (m.student_.prog_skills + (m.skillKeys m.student_.position.level).length)
      ≤ 30 * (m.student_.position.level + 1)

/-! ### The header line -/

/-- `std::isspace` in the classic locale. -/
def isSpaceChar (c : Char) : Bool :=
  c = ' ' ∨ c = '\t' ∨ c = '\n' ∨ c = '\x0b' ∨ c = '\x0c' ∨ c = '\r'

/-- The `std::istringstream` over the header line: the characters not yet read and the
fail flag. -/
structure HeaderStream where
  rest : List Char
  failed : Bool
  deriving DecidableEq

/-- The number written by a list of decimal digits. -/
def digitsValue (ds : List Char) : Nat :=
  ds.foldl (fun acc c => 10 * acc + (c.toNat - '0'.toNat)) 0

/-- `operator>>` of a `std::istream` for an `int` (C++11): `old` is the content of the
variable before the call; the result is its content afterwards and the stream afterwards.
On a stream that has failed, or that ends before a character other than white space, the
variable is left as it is; when no number can be read it becomes 0, when the number does
not fit it becomes the nearest `int`; in each of these cases the fail flag is set. -/
def extractInt (s : HeaderStream) (old : Int) : Int × HeaderStream :=
  if s.failed then (old, s)
  else
    match s.rest.dropWhile isSpaceChar with
    | [] => (old, ⟨[], true⟩)
    | c :: tail =>
      let negative : Bool := c = '-'
      let body := if c = '-' ∨ c = '+' then tail else c :: tail
      let digits := body.takeWhile Char.isDigit
      let after := body.dropWhile Char.isDigit
      if digits = [] then (0, ⟨after, true⟩)
      else if negative then
        if digitsValue digits > 2147483648 then (-2147483648, ⟨after, true⟩)
        else (-(digitsValue digits : Int), ⟨after, false⟩)
      else
        if digitsValue digits > 2147483647 then (2147483647, ⟨after, true⟩)
        else ((digitsValue digits : Int), ⟨after, false⟩)

/-- `Maze::ReadMazeInfo`.  `lines` are the lines of the file that `std::getline` can still
read from the stream `is` (none when the file is empty or could not be opened), `garbage`
is the indeterminate content of the local `MazeInfo info`, which has no initialiser.  The
three numbers are extracted from a string stream `iss` over the first line; the test
`if (!is)` that follows looks at the file stream, on which only `std::getline` can have
failed.  The result is the header and the lines that remain. -/
def Maze.ReadMazeInfo (lines : List (List Char)) (garbage : MazeInfo) :
    Option (MazeInfo × List (List Char)) :=
  match lines with
  | [] => none
  | row_str :: rest =>
    let iss : HeaderStream := ⟨row_str, false⟩
    let r1 := extractInt iss garbage.levels
    let r2 := extractInt r1.2 garbage.height
    let r3 := extractInt r2.2 garbage.width
    some (⟨r1.1, r2.1, r3.1⟩, rest)

/-- The constructor `Maze::Maze(std::ifstream&)` from its first statement on:
`ReadMazeInfo(is).Unwrap()`, then the construction from the header read. -/
def Maze.load (lines : List (List Char)) (garbage : MazeInfo)
    (taSeeds skillSeeds : Nat → List Nat) : Except String Maze :=
  match Maze.ReadMazeInfo lines garbage with
  | none => .error badOptionAccess
  | some (info, rest) => Maze.construct info rest taSeeds skillSeeds

/-! ## Properties -/

/-! ### Lookups -/

theorem SpaceAt_deref {m : Maze} {p : MazePosition} {s : OpenSpace}
    (h : m.SpaceAt p = some s) : m.deref p = some s := by
  unfold Maze.SpaceAt Maze.LocationAt MazeLevel.LocationAt at h
  unfold Maze.deref
  split at h
  · simp at h
  · cases hl : m.levels_[p.level]? with
    | none => simp [hl] at h
    | some level =>
      simp only [hl] at h ⊢
      split at h
      · simp at h
      · exact h

theorem adjacentLoop_mem {m : Maze} {from_pos : MazePosition} :
    ∀ (dirs : List PlayerDirectionAction) (ptrs : List MazePosition),
      m.adjacentLoop from_pos dirs = some ptrs →
      ∀ ptr ∈ ptrs, ∃ dir ∈ dirs, ptr = from_pos.Translate dir 1 ∧ (m.SpaceAt ptr).isSome := by
  intro dirs
  induction dirs with
  | nil =>
    intro ptrs h ptr hp
    simp [Maze.adjacentLoop] at h
    subst h
    simp at hp
  | cons d rest ih =>
    intro ptrs h ptr hp
    unfold Maze.adjacentLoop at h
    split at h
    · cases hs : m.SpaceAt (from_pos.Translate d 1) with
      | none => simp [hs] at h
      | some sp =>
        simp only [hs] at h
        cases hr : m.adjacentLoop from_pos rest with
        | none => simp [hr] at h
        | some l =>
          simp [hr] at h
          subst h
          rcases List.mem_cons.mp hp with h1 | h1
          · exact ⟨d, by simp, h1, by simp [h1, hs]⟩
          · obtain ⟨dir, hd, he, hsome⟩ := ih l hr ptr h1
            exact ⟨dir, by simp [hd], he, hsome⟩
    · obtain ⟨dir, hd, he, hsome⟩ := ih ptrs h ptr hp
      exact ⟨dir, by simp [hd], he, hsome⟩

/-! ### Writing through a tile pointer -/

theorem tileAt_modifySpace (l : MazeLevel) (i j a b : Nat) (f : OpenSpace → OpenSpace) :
    (l.modifySpace i j f).tileAt a b
      = if a = i ∧ b = j then (l.tileAt a b).map (MazeLocation.mapSpace f)
        else l.tileAt a b := by
  unfold MazeLevel.tileAt MazeLevel.modifySpace
  simp only [List.getElem?_modify]
  cases hrow : l.locations_[a]? with
  | none => simp
  | some row =>
    by_cases hi : i = a
    · subst hi
      simp only [Option.map_eq_map, Option.map_some', if_true, true_and, List.getElem?_modify]
      by_cases hj : j = b
      · subst hj; simp
      · have hj2 : ¬ b = j := fun h => hj h.symm
        simp [hj, hj2]
    · have hi2 : ¬ a = i := fun h => hi h.symm
      simp [hi, hi2]

theorem levels_modifySpace (m : Maze) (p : MazePosition) (f : OpenSpace → OpenSpace)
    (li : Nat) :
    (m.modifySpace p f).levels_[li]?
      = (m.levels_[li]?).map
          (fun l => if p.level = li then l.modifySpace p.row p.col f else l) := by
  unfold Maze.modifySpace
  simp [List.getElem?_modify]

theorem deref_modifySpace (m : Maze) (p q : MazePosition) (f : OpenSpace → OpenSpace) :
    (m.modifySpace p f).deref q = if q = p then (m.deref q).map f else m.deref q := by
  unfold Maze.deref
  rw [levels_modifySpace]
  cases hl : m.levels_[q.level]? with
  | none => simp
  | some l =>
    simp only [Option.map_some']
    by_cases hlev : p.level = q.level
    · simp only [hlev, if_true, tileAt_modifySpace]
      by_cases hrc : q.row = p.row ∧ q.col = p.col
      · have hq : q = p := by
          cases p; cases q; simp_all
        simp only [hrc, and_self, if_true, hq]
        cases l.tileAt p.row p.col with
        | none => simp
        | some loc => cases loc <;> simp [MazeLocation.mapSpace, MazeLocation.asSpace]
      · have hq : ¬ q = p := by
          intro h; subst h; simp at hrc
        simp [hrc, hq]
    · have hq : ¬ q = p := by
        intro h; subst h; exact hlev rfl
      simp [hlev, hq]

theorem SpaceAt_modifySpace (m : Maze) (p q : MazePosition) (f : OpenSpace → OpenSpace) :
    (m.modifySpace p f).SpaceAt q = if q = p then (m.SpaceAt q).map f else m.SpaceAt q := by
  unfold Maze.SpaceAt Maze.LocationAt
  have hlen : (m.modifySpace p f).levels_.length = m.levels_.length := by
    simp [Maze.modifySpace]
  rw [hlen, levels_modifySpace]
  by_cases hge : q.level ≥ m.levels_.length
  · simp [hge]
  · simp only [hge, if_false]
    cases hl : m.levels_[q.level]? with
    | none => simp
    | some l =>
      simp only [Option.map_some']
      by_cases hlev : p.level = q.level
      · simp only [hlev, if_true]
        unfold MazeLevel.LocationAt
        have hh : (l.modifySpace p.row p.col f).height_ = l.height_ := rfl
        have hw : (l.modifySpace p.row p.col f).width_ = l.width_ := rfl
        rw [hh, hw]
        by_cases hb : q.row ≥ l.height_ ∨ q.col ≥ l.width_
        · simp [hb]
        · simp only [hb, if_false, tileAt_modifySpace]
          by_cases hrc : q.row = p.row ∧ q.col = p.col
          · have hq : q = p := by
              cases p; cases q; simp_all
            simp only [hrc, and_self, if_true, hq]
            cases l.tileAt p.row p.col with
            | none => simp
            | some loc => cases loc <;> simp [MazeLocation.mapSpace, MazeLocation.asSpace]
          · have hq : ¬ q = p := by
              intro h; subst h; simp at hrc
            simp [hrc, hq]
      · have hq : ¬ q = p := by
          intro h; subst h; exact hlev rfl
        simp [hlev, hq]

theorem student_modifySpace (m : Maze) (p : MazePosition) (f : OpenSpace → OpenSpace) :
    (m.modifySpace p f).student_ = m.student_ := rfl

/-- The four ways in which `HandleOccupiedSpace` returns: caught by the unappeased TA of the
tile, nothing because the TA of the tile is appeased, nothing because the tile has neither
a TA nor a skill, or the skill of the tile picked up. -/
theorem HandleOccupiedSpace_cases {m m1 : Maze} {ptr : MazePosition} {res : MoveResult}
    (h : m.HandleOccupiedSpace ptr = some (res, m1)) :
    ∃ sp, m.deref ptr = some sp ∧
      ((res = MoveResult.CaughtByTA ∧ m1 = m ∧ sp.has_ta = true ∧
          ∃ ta, m.TaAt sp.pos = some ta ∧ ta.appeased_turns ≤ 1) ∨
       (res = MoveResult.NoEvent ∧ m1 = m ∧ sp.has_ta = true ∧
          ∃ ta, m.TaAt sp.pos = some ta ∧ 1 < ta.appeased_turns) ∨
       (res = MoveResult.NoEvent ∧ m1 = m ∧ sp.has_ta = false ∧ sp.has_skill = false) ∨
       (res = MoveResult.AcquiredSkill ∧ sp.has_ta = false ∧ sp.has_skill = true ∧
          m1 = ({ m with student_ := m.student_.IncrementSkills }).modifySpace ptr
            (fun s => { s with has_skill := false }))) := by
  unfold Maze.HandleOccupiedSpace at h
  cases hd : m.deref ptr with
  | none => simp [hd] at h
  | some sp =>
    refine ⟨sp, rfl, ?_⟩
    simp only [hd] at h
    by_cases hta : sp.has_ta = true
    · simp only [hta, if_true] at h
      cases ht : m.TaAt sp.pos with
      | none => simp [ht] at h
      | some ta =>
        simp only [ht] at h
        by_cases hap : ta.IsAppeased = true
        · simp [hap] at h
          refine Or.inr (Or.inl ⟨h.1.symm, h.2.symm, hta, ta, rfl, ?_⟩)
          simpa [TA.IsAppeased] using hap
        · simp [hap] at h
          refine Or.inl ⟨h.1.symm, h.2.symm, hta, ta, rfl, ?_⟩
          simpa [TA.IsAppeased] using hap
    · have hta2 : sp.has_ta = false := by simpa using hta
      simp only [hta2] at h
      by_cases hsk : sp.has_skill = true
      · simp [hsk] at h
        exact Or.inr (Or.inr (Or.inr ⟨h.1.symm, hta2, hsk, h.2.symm⟩))
      · have hsk2 : sp.has_skill = false := by simpa using hsk
        simp [hsk2] at h
        exact Or.inr (Or.inr (Or.inl ⟨h.1.symm, h.2.symm, hta2, hsk2⟩))

theorem scanAdjacent_cases {m : Maze} :
    ∀ (ptrs : List MazePosition) (r : MoveResult), m.scanAdjacent ptrs = some (some r) →
      ∃ ptr ∈ ptrs, ∃ sp, m.deref ptr = some sp ∧
        ((r = MoveResult.CaughtByTA ∧ sp.has_ta = true ∧
            ∃ ta, m.TaAt sp.pos = some ta ∧ ta.appeased_turns ≤ 1) ∨
         (r = MoveResult.FailedByInstructor ∧ sp.has_ta = false ∧ sp.has_instructor = true ∧
            m.student_.prog_skills < 3) ∨
         (r = MoveResult.SatisfiedInstructor ∧ sp.has_ta = false ∧ sp.has_instructor = true ∧
            3 ≤ m.student_.prog_skills)) := by
  intro ptrs
  induction ptrs with
  | nil => intro r h; simp [Maze.scanAdjacent] at h
  | cons ptr rest ih =>
    intro r h
    unfold Maze.scanAdjacent at h
    cases hd : m.deref ptr with
    | none => simp [hd] at h
    | some sp =>
      simp only [hd] at h
      have hrest : m.scanAdjacent rest = some (some r) →
          ∃ ptr1 ∈ ptr :: rest, ∃ sp, m.deref ptr1 = some sp ∧
            ((r = MoveResult.CaughtByTA ∧ sp.has_ta = true ∧
                ∃ ta, m.TaAt sp.pos = some ta ∧ ta.appeased_turns ≤ 1) ∨
             (r = MoveResult.FailedByInstructor ∧ sp.has_ta = false ∧
                sp.has_instructor = true ∧ m.student_.prog_skills < 3) ∨
             (r = MoveResult.SatisfiedInstructor ∧ sp.has_ta = false ∧
                sp.has_instructor = true ∧ 3 ≤ m.student_.prog_skills)) := by
        intro h1
        obtain ⟨p1, hp1, sp1, hsp1, hc⟩ := ih r h1
        exact ⟨p1, List.mem_cons_of_mem _ hp1, sp1, hsp1, hc⟩
      by_cases hta : sp.has_ta = true
      · simp only [hta, if_true] at h
        cases ht : m.TaAt sp.pos with
        | none => simp [ht] at h
        | some ta =>
          simp only [ht] at h
          by_cases hap : ta.IsAppeased = true
          · simp only [hap, Bool.not_true, Bool.false_eq_true, if_false] at h
            exact hrest h
          · simp [hap] at h
            refine ⟨ptr, by simp, sp, hd, Or.inl ⟨h.symm, hta, ta, ht, ?_⟩⟩
            simpa [TA.IsAppeased] using hap
      · have hta2 : sp.has_ta = false := by simpa using hta
        simp only [hta2] at h
        by_cases hin : sp.has_instructor = true
        · simp only [hin, if_true, Bool.false_eq_true, if_false] at h
          by_cases hsk : m.student_.prog_skills < 3
          · simp [hsk] at h
            exact ⟨ptr, by simp, sp, hd, Or.inr (Or.inl ⟨h.symm, hta2, hin, hsk⟩)⟩
          · simp [hsk] at h
            exact ⟨ptr, by simp, sp, hd,
              Or.inr (Or.inr ⟨h.symm, hta2, hin, Nat.le_of_not_lt hsk⟩)⟩
        · have hin2 : sp.has_instructor = false := by simpa using hin
          simp only [hin2, Bool.false_eq_true, if_false] at h
          exact hrest h

/-- What `HandleCurrentPosition` returns, split into its two halves: the check of the
student's own tile, then the scan of the adjacent spaces in the maze `m1` left by the
first half. -/
theorem HandleCurrentPosition_cases {dirs : List PlayerDirectionAction} {m m1 : Maze}
    {r : MoveResult} (h : m.HandleCurrentPosition dirs = some (r, m1)) :
    ∃ res sp0, m.SpaceAt m.student_.position = some sp0 ∧
      m.HandleOccupiedSpace m.student_.position = some (res, m1) ∧
      ((res = MoveResult.CaughtByTA ∧ r = MoveResult.CaughtByTA) ∨
       (res ≠ MoveResult.CaughtByTA ∧
        ∃ ptrs, m1.SpacesAdjacentToStudent dirs = some ptrs ∧
          (m1.scanAdjacent ptrs = some (some r) ∨
           (m1.scanAdjacent ptrs = some none ∧ r = res)))) := by
  unfold Maze.HandleCurrentPosition at h
  cases hs : m.SpaceAt m.student_.position with
  | none => simp [hs] at h
  | some sp0 =>
    simp only [hs] at h
    cases ho : m.HandleOccupiedSpace m.student_.position with
    | none => simp [ho] at h
    | some p =>
      obtain ⟨res, m2⟩ := p
      simp only [ho] at h
      by_cases hc : res = MoveResult.CaughtByTA
      · simp [hc] at h
        refine ⟨res, sp0, rfl, ?_, Or.inl ⟨hc, h.1.symm⟩⟩
        rw [h.2]
      · simp only [hc, if_false] at h
        cases ha : m2.SpacesAdjacentToStudent dirs with
        | none => simp [ha] at h
        | some ptrs =>
          simp only [ha] at h
          cases hsc : m2.scanAdjacent ptrs with
          | none => simp [hsc] at h
          | some o =>
            cases o with
            | none =>
              simp [hsc] at h
              obtain ⟨h1, h2⟩ := h
              subst h2
              exact ⟨res, sp0, rfl, rfl, Or.inr ⟨hc, ptrs, ha, Or.inr ⟨hsc, h1.symm⟩⟩⟩
            | some r1 =>
              simp [hsc] at h
              obtain ⟨h1, h2⟩ := h
              subst h2
              subst h1
              exact ⟨res, sp0, rfl, rfl, Or.inr ⟨hc, ptrs, ha, Or.inl hsc⟩⟩

/-! ### Operations preserve the layout -/

theorem map_modify_absorb {α β : Type} (g : α → β) (f : α → α) (hf : ∀ x, g (f x) = g x) :
    ∀ (n : Nat) (l : List α), (l.modify f n).map g = l.map g := by
  intro n l
  induction l generalizing n with
  | nil => cases n <;> rfl
  | cons x xs ih =>
    cases n with
    | zero => simp [List.modify, hf]
    | succ k => simp [ih k]

theorem mapSpace_erase_absorb (f : OpenSpace → OpenSpace) (hf : ∀ s, (f s).erase = s.erase)
    (loc : MazeLocation) :
    MazeLocation.mapSpace OpenSpace.erase (MazeLocation.mapSpace f loc)
      = MazeLocation.mapSpace OpenSpace.erase loc := by
  cases loc with
  | wall p => rfl
  | space s => simp [MazeLocation.mapSpace, hf]

theorem MazeLevel.layout_modifyTile (l : MazeLevel) (i j : Nat) (f : OpenSpace → OpenSpace)
    (hf : ∀ s, (f s).erase = s.erase) : (l.modifySpace i j f).layout = l.layout := by
  unfold MazeLevel.layout MazeLevel.modifySpace
  simp only
  congr 1
  apply map_modify_absorb
  intro row
  apply map_modify_absorb
  exact mapSpace_erase_absorb f hf

theorem Maze.layout_modifySpace (m : Maze) (p : MazePosition) (f : OpenSpace → OpenSpace)
    (hf : ∀ s, (f s).erase = s.erase) : (m.modifySpace p f).layout = m.layout := by
  unfold Maze.layout Maze.modifySpace
  simp only
  apply map_modify_absorb
  intro l
  exact MazeLevel.layout_modifyTile l p.row p.col f hf

theorem MazeLevel.layout_Reset (l : MazeLevel) : l.Reset.layout = l.layout := by
  unfold MazeLevel.layout MazeLevel.Reset
  simp only [List.map_map]
  congr 1
  apply List.map_congr_left
  intro row _
  simp only [Function.comp_apply, List.map_map]
  apply List.map_congr_left
  intro loc _
  cases loc <;> rfl

theorem Maze.layout_Occupy (m : Maze) (person : PersonRef) (p : MazePosition) :
    (m.Occupy person p).layout = m.layout := by
  cases person with
  | student => exact Maze.layout_modifySpace m p _ (fun _ => rfl)
  | ta level idx => exact Maze.layout_modifySpace m p _ (fun _ => rfl)
  | instructor => rfl

theorem Maze.layout_Unoccupy (m : Maze) (person : PersonRef) (p : MazePosition) :
    (m.Unoccupy person p).layout = m.layout := by
  cases person with
  | student => exact Maze.layout_modifySpace m p _ (fun _ => rfl)
  | ta level idx => exact Maze.layout_modifySpace m p _ (fun _ => rfl)
  | instructor => rfl

theorem Maze.layout_setPersonPosition (m : Maze) (person : PersonRef) (p : MazePosition) :
    (m.setPersonPosition person p).layout = m.layout := by
  cases person <;> rfl

theorem Maze.layout_modifyTA (m : Maze) (level idx : Nat) (f : TA → TA) :
    (m.modifyTA level idx f).layout = m.layout := rfl

theorem Maze.layout_MovePerson {m m1 : Maze} {person : PersonRef} {move : PlayerAction}
    {b : Bool} (h : m.MovePerson person move = some (b, m1)) : m1.layout = m.layout := by
  unfold Maze.MovePerson at h
  split at h
  · simp at h; rw [← h.2]
  · simp at h; rw [← h.2]
  · cases hp : m.personPosition person with
    | none => simp [hp] at h
    | some pos =>
      simp only [hp] at h
      cases hs : m.SpaceAt pos with
      | none => simp [hs] at h
      | some sp =>
        simp only [hs] at h
        cases hd : PlayerActionToDirection move with
        | none => simp [hd] at h
        | some dir =>
          simp only [hd] at h
          cases hs2 : (m.Unoccupy person pos).SpaceAt (pos.Translate dir 1) with
          | none => simp [hs2] at h
          | some sp2 =>
            simp [hs2] at h
            rw [← h.2, Maze.layout_setPersonPosition, Maze.layout_Occupy, Maze.layout_Unoccupy]

theorem Maze.layout_HandleOccupiedSpace {m m1 : Maze} {ptr : MazePosition} {res : MoveResult}
    (h : m.HandleOccupiedSpace ptr = some (res, m1)) : m1.layout = m.layout := by
  obtain ⟨sp, _, hc⟩ := HandleOccupiedSpace_cases h
  rcases hc with ⟨_, h1, _⟩ | ⟨_, h1, _⟩ | ⟨_, h1, _⟩ | ⟨_, _, _, h1⟩
  · rw [h1]
  · rw [h1]
  · rw [h1]
  · rw [h1, Maze.layout_modifySpace]
    all_goals first | rfl | (intro s; rfl)

theorem Maze.layout_HandleCurrentPosition {dirs : List PlayerDirectionAction} {m m1 : Maze}
    {r : MoveResult} (h : m.HandleCurrentPosition dirs = some (r, m1)) :
    m1.layout = m.layout := by
  obtain ⟨res, sp0, _, ho, _⟩ := HandleCurrentPosition_cases h
  exact Maze.layout_HandleOccupiedSpace ho

theorem Maze.layout_studentStep {m m1 : Maze} {s_move : PlayerAction} {b : Bool}
    (h : m.studentStep s_move = some (m1, b)) : m1.layout = m.layout := by
  unfold Maze.studentStep at h
  split at h
  · cases hs : m.SpaceAt m.student_.position with
    | none => simp [hs] at h
    | some sp =>
      simp only [hs] at h
      split at h
      · simp at h
      · split at h
        · simp at h
        · split at h
          · simp at h
          · simp at h
            rw [← h.1]
            show Maze.layout (Maze.modifySpace (Maze.modifySpace m _ _) _ _) = _
            rw [Maze.layout_modifySpace, Maze.layout_modifySpace]
            all_goals first | rfl | (intro s; rfl)
  · simp at h
    rw [← h.1]
    rfl
  · cases hm : m.MovePerson PersonRef.student s_move with
    | none => simp [hm] at h
    | some r =>
      obtain ⟨b1, m2⟩ := r
      simp [hm] at h
      rw [← h.1]
      exact Maze.layout_MovePerson hm

theorem Maze.layout_moveTA {dirs : List PlayerDirectionAction} {m m1 : Maze}
    {level idx draw : Nat} {a : Bool} (h : m.moveTA dirs level idx draw a = some m1) :
    m1.layout = m.layout := by
  unfold Maze.moveTA at h
  cases ht : m.taAtIndex level idx with
  | none => simp [ht] at h
  | some ta =>
    simp only [ht] at h
    split at h
    · simp at h
    · split at h
      · simp at h
      · rename_i b m2 hmp
        simp at h
        have h2 := Maze.layout_MovePerson hmp
        rw [Maze.layout_modifyTA] at h2
        cases a with
        | true => simp at h; rw [← h, Maze.layout_modifyTA, h2]
        | false => simp at h; rw [← h, h2]

theorem Maze.layout_moveTAs {dirs : List PlayerDirectionAction} {level : Nat}
    {draws : Nat → Nat} {a : Bool} :
    ∀ (idxs : List Nat) (m m1 : Maze), Maze.moveTAs dirs level draws a idxs m = some m1 →
      m1.layout = m.layout := by
  intro idxs
  induction idxs with
  | nil => intro m m1 h; simp [Maze.moveTAs] at h; rw [h]
  | cons i rest ih =>
    intro m m1 h
    unfold Maze.moveTAs at h
    cases hm : m.moveTA dirs level i (draws i) a with
    | none => simp [hm] at h
    | some m2 =>
      simp only [hm] at h
      rw [ih m2 m1 h, Maze.layout_moveTA hm]

theorem Maze.layout_MovePeople {dirs : List PlayerDirectionAction} {m m1 : Maze}
    {choice : PlayerAction} {draws : Nat → Nat}
    (h : m.MovePeople dirs choice draws = some m1) : m1.layout = m.layout := by
  unfold Maze.MovePeople at h
  split at h
  · simp at h
  · split at h
    · simp at h
    · rename_i m2 a hst
      split at h
      · simp at h
      · rw [Maze.layout_moveTAs _ _ _ h, Maze.layout_studentStep hst]

theorem Maze.layout_placeTALoop {li : Nat} :
    ∀ (ptrs : List (Nat × Nat)) (m m1 : Maze) (tas : List TA),
      Maze.placeTALoop li ptrs m = some (tas, m1) → m1.layout = m.layout := by
  intro ptrs
  induction ptrs with
  | nil => intro m m1 tas h; simp [Maze.placeTALoop] at h; rw [h.2]
  | cons p rest ih =>
    intro m m1 tas h
    obtain ⟨i, j⟩ := p
    unfold Maze.placeTALoop at h
    split at h
    · simp at h
    · split at h
      · simp at h
      · rename_i tas1 m2 hrec
        simp at h
        rw [← h.2, ih _ _ _ hrec, Maze.layout_modifySpace]
        intro s; rfl

theorem Maze.layout_PlaceTAsAtLevel {m m1 : Maze} {li : Nat} {seed : List Nat} {tas : List TA}
    (h : m.PlaceTAsAtLevel li seed = .ok (tas, m1)) : m1.layout = m.layout := by
  unfold Maze.PlaceTAsAtLevel at h
  split at h
  · simp at h
  · split at h
    · simp at h
    · simp at h
    · split at h
      · simp at h
      · rename_i r hr
        simp at h
        subst h
        exact Maze.layout_placeTALoop _ _ _ _ hr

theorem Maze.layout_foldl_skill (li : Nat) :
    ∀ (ptrs : List (Nat × Nat)) (m : Maze),
      (ptrs.foldl (fun acc ptr =>
        acc.modifySpace ⟨li, ptr.1, ptr.2⟩ (fun s => { s with has_skill := true })) m).layout
        = m.layout := by
  intro ptrs
  induction ptrs with
  | nil => intro m; rfl
  | cons p rest ih =>
    intro m
    simp only [List.foldl_cons]
    rw [ih, Maze.layout_modifySpace]
    intro s; rfl

theorem Maze.layout_PlaceSkillsAtLevel {m m1 : Maze} {li : Nat} {seed : List Nat}
    (h : m.PlaceSkillsAtLevel li seed = .ok m1) : m1.layout = m.layout := by
  unfold Maze.PlaceSkillsAtLevel at h
  split at h
  · simp at h
  · split at h
    · simp at h
    · simp at h
    · simp at h
      subst h
      exact Maze.layout_foldl_skill li _ m

theorem Maze.layout_PlaceTAs {seeds : Nat → List Nat} :
    ∀ (lis : List Nat) (m m1 : Maze), Maze.PlaceTAs seeds lis m = .ok m1 →
      m1.layout = m.layout := by
  intro lis
  induction lis with
  | nil => intro m m1 h; simp [Maze.PlaceTAs] at h; rw [h]
  | cons li rest ih =>
    intro m m1 h
    unfold Maze.PlaceTAs at h
    split at h
    · simp at h
    · rename_i tas m2 hp
      rw [ih _ _ h]
      show m2.layout = _
      exact Maze.layout_PlaceTAsAtLevel hp

theorem Maze.layout_PlaceSkills {seeds : Nat → List Nat} :
    ∀ (lis : List Nat) (m m1 : Maze), Maze.PlaceSkills seeds lis m = .ok m1 →
      m1.layout = m.layout := by
  intro lis
  induction lis with
  | nil => intro m m1 h; simp [Maze.PlaceSkills] at h; rw [h]
  | cons li rest ih =>
    intro m m1 h
    unfold Maze.PlaceSkills at h
    split at h
    · simp at h
    · rename_i m2 hp
      rw [ih _ _ h]
      exact Maze.layout_PlaceSkillsAtLevel hp

theorem Maze.layout_ResetLevel {m m1 : Maze} {li : Nat} {taSeed skillSeed : List Nat}
    (h : m.ResetLevel li taSeed skillSeed = .ok m1) : m1.layout = m.layout := by
  unfold Maze.ResetLevel at h
  split at h
  · simp at h
  · split at h
    · simp at h
    · dsimp only at h
      split at h
      · simp at h
      · split at h
        · simp at h
        · split at h
          · simp at h
          · split at h
            · simp at h
            · rename_i tas m4 hp
              have h1 := Maze.layout_PlaceSkillsAtLevel h
              have h2 := Maze.layout_PlaceTAsAtLevel hp
              rw [h1]
              show m4.layout = _
              rw [h2]
              show Maze.layout (Maze.modifySpace _ _ _) = _
              rw [Maze.layout_modifySpace]
              · show (m.levels_.modify MazeLevel.Reset li).map MazeLevel.layout = _
                exact map_modify_absorb _ _ MazeLevel.layout_Reset _ _
              · intro s; rfl

theorem Maze.layout_resetAllLoop {taSeeds skillSeeds : Nat → List Nat} :
    ∀ (lis : List Nat) (m m1 : Maze), Maze.resetAllLoop taSeeds skillSeeds lis m = .ok m1 →
      m1.layout = m.layout := by
  intro lis
  induction lis with
  | nil => intro m m1 h; simp [Maze.resetAllLoop] at h; rw [h]
  | cons li rest ih =>
    intro m m1 h
    unfold Maze.resetAllLoop at h
    split at h
    · simp at h
    · rename_i m2 hr
      split at h
      · simp at h
      · split at h
        · simp at h
        · rw [ih _ _ h, Maze.layout_modifySpace, Maze.layout_ResetLevel hr]
          intro s; rfl

theorem Maze.layout_ResetAllLevels {m m1 : Maze} {taSeeds skillSeeds : Nat → List Nat}
    (h : m.ResetAllLevels taSeeds skillSeeds = .ok m1) : m1.layout = m.layout := by
  unfold Maze.ResetAllLevels at h
  split at h
  · simp at h
  · rename_i m2 hr
    split at h
    · simp at h
    · split at h
      · simp at h
      · dsimp only at h
        split at h
        · simp at h
        · simp at h
          rw [← h]
          show Maze.layout (Maze.modifySpace _ _ _) = _
          rw [Maze.layout_modifySpace, Maze.layout_resetAllLoop _ _ _ hr]
          intro s; rfl

/-! ### Parsing -/

theorem parseCell_ok {level i j : Nat} {c : Char} {st st1 : ParseState} {loc : MazeLocation}
    (h : parseCell level i j c st = .ok (loc, st1)) :
    loc.pos = ⟨level, i, j⟩ ∧
    (st.has_ladder = true → st1.has_ladder = true) ∧
    (∀ sp, loc = MazeLocation.space sp → sp.has_ladder = true → st1.has_ladder = true) ∧
    (st1.start_location_ = st.start_location_ ∨
      (st1.start_location_ = some (i, j) ∧
        ∃ sp, loc = MazeLocation.space sp ∧ sp.is_beginning = true)) := by
  unfold parseCell at h
  dsimp only at h
  split at h
  · simp at h
    obtain ⟨h1, h2⟩ := h
    subst h1; subst h2
    simp [MazeLocation.pos, OpenSpace.new]
  · split at h
    · simp at h
      obtain ⟨h1, h2⟩ := h
      subst h1; subst h2
      simp [MazeLocation.pos]
    · split at h
      · split at h
        · simp at h
        · simp at h
          obtain ⟨h1, h2⟩ := h
          subst h1; subst h2
          simp [MazeLocation.pos, OpenSpace.new]
      · split at h
        · split at h
          · simp at h
          · simp at h
            obtain ⟨h1, h2⟩ := h
            subst h1; subst h2
            simp [MazeLocation.pos, OpenSpace.new]
        · split at h
          · split at h
            · simp at h
            · simp at h
              obtain ⟨h1, h2⟩ := h
              subst h1; subst h2
              simp [MazeLocation.pos, OpenSpace.new]
          · simp at h

theorem parseRow_ok {level i : Nat} :
    ∀ (cs : List Char) (j : Nat) (st st1 : ParseState) (row : List MazeLocation),
      parseRow level i j cs st = .ok (row, st1) →
      row.length = cs.length ∧
      (∀ (k : Nat) (loc : MazeLocation), row[k]? = some loc → loc.pos = ⟨level, i, j + k⟩) ∧
      (st.has_ladder = true → st1.has_ladder = true) ∧
      (∀ (k : Nat) (sp : OpenSpace), row[k]? = some (MazeLocation.space sp) →
        sp.has_ladder = true → st1.has_ladder = true) ∧
      (st1.start_location_ = st.start_location_ ∨
        ∃ (k : Nat) (sp : OpenSpace), st1.start_location_ = some (i, j + k) ∧
          row[k]? = some (MazeLocation.space sp) ∧ sp.is_beginning = true) := by
  intro cs
  induction cs with
  | nil =>
    intro j st st1 row h
    simp [parseRow] at h
    obtain ⟨h1, h2⟩ := h
    subst h1; subst h2
    simp
  | cons c cs ih =>
    intro j st st1 row h
    unfold parseRow at h
    split at h
    · simp at h
    · rename_i loc st2 hcell
      split at h
      · simp at h
      · rename_i row1 st3 hrest
        simp at h
        obtain ⟨h1, h2⟩ := h
        subst h1; subst h2
        obtain ⟨c1, c2, c3, c4⟩ := parseCell_ok hcell
        obtain ⟨r1, r2, r3, r4, r5⟩ := ih (j + 1) st2 st3 row1 hrest
        refine ⟨by simp [r1], ?_, fun hl => r3 (c2 hl), ?_, ?_⟩
        · intro k loc1 hk
          cases k with
          | zero => simp at hk; subst hk; simpa using c1
          | succ k =>
            simp at hk
            have := r2 k loc1 hk
            rw [this]
            congr 1
            omega
        · intro k sp hk hl
          cases k with
          | zero => simp at hk; exact r3 (c3 sp hk hl)
          | succ k => simp at hk; exact r4 k sp hk hl
        · rcases r5 with r5 | ⟨k, sp, e1, e2, e3⟩
          · rcases c4 with c4 | ⟨c4, sp, e2, e3⟩
            · exact Or.inl (r5.trans c4)
            · exact Or.inr ⟨0, sp, by rw [r5, c4]; rfl, by simp [e2], e3⟩
          · refine Or.inr ⟨k + 1, sp, ?_, by simpa using e2, e3⟩
            rw [e1]
            congr 2
            omega

theorem parseRows_ok {level width : Nat} :
    ∀ (n i : Nat) (is rest : List (List Char)) (st st1 : ParseState)
      (rows : List (List MazeLocation)),
      parseRows level width n i is st = .ok (rows, st1, rest) →
      rows.length = n ∧
      (∀ row ∈ rows, row.length = width) ∧
      (∀ (a b : Nat) (row : List MazeLocation) (loc : MazeLocation),
        rows[a]? = some row → row[b]? = some loc → loc.pos = ⟨level, i + a, b⟩) ∧
      (st.has_ladder = true → st1.has_ladder = true) ∧
      (∀ (a b : Nat) (row : List MazeLocation) (sp : OpenSpace),
        rows[a]? = some row → row[b]? = some (MazeLocation.space sp) →
        sp.has_ladder = true → st1.has_ladder = true) ∧
      (st1.start_location_ = st.start_location_ ∨
        ∃ (a b : Nat) (row : List MazeLocation) (sp : OpenSpace),
          st1.start_location_ = some (i + a, b) ∧ rows[a]? = some row ∧
          row[b]? = some (MazeLocation.space sp) ∧ sp.is_beginning = true) := by
  intro n
  induction n with
  | zero =>
    intro i is rest st st1 rows h
    simp [parseRows] at h
    obtain ⟨h1, h2, _⟩ := h
    subst h1; subst h2
    simp
  | succ n ih =>
    intro i is rest st st1 rows h
    unfold parseRows at h
    split at h
    · simp at h
    · rename_i row_str is1
      split at h
      · simp at h
      · rename_i hw
        split at h
        · simp at h
        · rename_i row st2 hrow
          split at h
          · simp at h
          · rename_i rows1 st3 is2 hrest
            simp at h
            obtain ⟨h1, h2, _⟩ := h
            subst h1; subst h2
            obtain ⟨r1, r2, r3, r4, r5⟩ := parseRow_ok _ _ _ _ _ hrow
            obtain ⟨q1, q2, q3, q4, q5, q6⟩ := ih _ _ _ _ _ _ hrest
            have hw2 : row_str.length = width := by simpa using hw
            refine ⟨by simp [q1], ?_, ?_, fun hl => q4 (r3 hl), ?_, ?_⟩
            · intro rw1 hmem
              rcases List.mem_cons.mp hmem with e | e
              · rw [e, r1, hw2]
              · exact q2 rw1 e
            · intro a b rw1 loc ha hb
              cases a with
              | zero =>
                simp at ha; subst ha
                have := r2 b loc hb
                simpa using this
              | succ a =>
                simp at ha
                have := q3 a b rw1 loc ha hb
                rw [this]
                congr 1
                omega
            · intro a b rw1 sp ha hb hl
              cases a with
              | zero => simp at ha; subst ha; exact q4 (r4 b sp hb hl)
              | succ a => simp at ha; exact q5 a b rw1 sp ha hb hl
            · rcases q6 with q6 | ⟨a, b, rw1, sp, e1, e2, e3, e4⟩
              · rcases r5 with r5 | ⟨k, sp, e1, e2, e3⟩
                · exact Or.inl (q6.trans r5)
                · refine Or.inr ⟨0, k, row, sp, ?_, by simp, e2, e3⟩
                  rw [q6, e1]
                  simp
              · refine Or.inr ⟨a + 1, b, rw1, sp, ?_, by simpa using e2, e3, e4⟩
                rw [e1]
                congr 2
                omega

theorem MazeLevel.parse_ok {is rest : List (List Char)} {level height width : Nat}
    {l : MazeLevel} (h : MazeLevel.parse is level height width = .ok (l, rest)) :
    LevelOk level height width l := by
  unfold MazeLevel.parse at h
  split at h
  · simp at h
  · rename_i rows st rest1 hrows
    obtain ⟨q1, q2, q3, _, q5, q6⟩ := parseRows_ok _ _ _ _ _ _ _ hrows
    split at h
    · simp at h
    · rename_i hstart
      split at h
      · simp at h
      · split at h
        · simp at h
        · rename_i hboth
          simp at h
          obtain ⟨h1, _⟩ := h
          subst h1
          have tile : ∀ (i j : Nat) (loc : MazeLocation),
              MazeLevel.tileAt ⟨rows, st.start_location_, st.instructor_location_, height, width⟩
                i j = some loc → ∃ row, rows[i]? = some row ∧ row[j]? = some loc := by
            intro i j loc ht
            unfold MazeLevel.tileAt at ht
            cases hr : rows[i]? with
            | none => simp [hr] at ht
            | some row => exact ⟨row, rfl, by simpa [hr] using ht⟩
          refine ⟨rfl, rfl, q1, q2, ?_, ?_, ?_⟩
          · intro i j loc ht
            obtain ⟨row, e1, e2⟩ := tile i j loc ht
            simpa using q3 i j row loc e1 e2
          · rcases q6 with q6 | ⟨a, b, row, sp, e1, e2, e3, e4⟩
            · exact absurd q6 hstart
            · refine ⟨a, b, sp, by simpa using e1, ?_, e4⟩
              simp [MazeLevel.tileAt, e2, e3]
          · intro i j sp ht hl
            obtain ⟨row, e1, e2⟩ := tile i j _ ht
            have hlad := q5 i j row sp e1 e2 hl
            simp only [hlad, Bool.true_and] at hboth
            simpa using hboth

theorem parseLevels_ok {height width : Nat} :
    ∀ (n i : Nat) (is : List (List Char)) (levels : List MazeLevel),
      parseLevels height width n i is = .ok levels →
      levels.length = n ∧
      ∀ k l, levels[k]? = some l → LevelOk (i + k) height width l := by
  intro n
  induction n with
  | zero =>
    intro i is levels h
    simp [parseLevels] at h
    subst h
    simp
  | succ n ih =>
    intro i is levels h
    unfold parseLevels at h
    split at h
    · simp at h
    · rename_i level rest hl
      split at h
      · simp at h
      · rename_i levels1 hrest
        simp at h
        subst h
        obtain ⟨q1, q2⟩ := ih _ _ _ hrest
        refine ⟨by simp [q1], ?_⟩
        intro k l hk
        cases k with
        | zero =>
          simp at hk
          subst hk
          exact MazeLevel.parse_ok hl
        | succ k =>
          simp at hk
          have := q2 k l hk
          have e : i + (k + 1) = i + 1 + k := by omega
          rw [e]
          exact this

/-! ### Construction yields a well-formed maze, and every operation keeps it so -/

theorem tileAt_layout (l : MazeLevel) (i j : Nat) :
    l.layout.tileAt i j = (l.tileAt i j).map (MazeLocation.mapSpace OpenSpace.erase) := by
  unfold MazeLevel.tileAt MazeLevel.layout
  simp only [List.getElem?_map]
  cases l.locations_[i]? with
  | none => rfl
  | some row => simp

theorem mapSpace_erase_pos (loc : MazeLocation) :
    (MazeLocation.mapSpace OpenSpace.erase loc).pos = loc.pos := by
  cases loc <;> rfl

theorem mapSpace_erase_eq_space {loc : MazeLocation} {sp : OpenSpace}
    (h : MazeLocation.mapSpace OpenSpace.erase loc = MazeLocation.space sp) :
    ∃ sp0, loc = MazeLocation.space sp0 ∧ sp0.is_beginning = sp.is_beginning ∧
      sp0.has_ladder = sp.has_ladder ∧ sp0.pos = sp.pos := by
  cases loc with
  | wall p => simp [MazeLocation.mapSpace] at h
  | space s =>
    simp [MazeLocation.mapSpace] at h
    subst h
    exact ⟨s, rfl, rfl, rfl, rfl⟩

theorem LayoutOk_of_levels {levels : List MazeLevel} {height width : Nat}
    (hn : 1 ≤ levels.length ∧ levels.length < INT_RANGE)
    (hh : 1 ≤ height ∧ height < INT_RANGE) (hw : 1 ≤ width ∧ width < INT_RANGE)
    (hok : ∀ k l, levels[k]? = some l → LevelOk k height width l)
    (hlast : ∀ l, levels[levels.length - 1]? = some l → l.instructor_location_ ≠ none) :
    LayoutOk (levels.map MazeLevel.layout) := by
  have look : ∀ (li : Nat) (l1 : MazeLevel), (levels.map MazeLevel.layout)[li]? = some l1 →
      ∃ l, levels[li]? = some l ∧ l1 = l.layout := by
    intro li l1 h
    rw [List.getElem?_map] at h
    cases hl : levels[li]? with
    | none => simp [hl] at h
    | some l => exact ⟨l, rfl, by simpa [hl] using h.symm⟩
  have mem : ∀ l1 ∈ levels.map MazeLevel.layout,
      ∃ (k : Nat) (l : MazeLevel), levels[k]? = some l ∧ l1 = l.layout := by
    intro l1 h1
    obtain ⟨k, hk⟩ := List.mem_iff_getElem?.mp h1
    obtain ⟨l, e1, e2⟩ := look k l1 hk
    exact ⟨k, l, e1, e2⟩
  refine ⟨by simpa using hn, ?_, ?_, ?_, ?_⟩
  · intro l1 h1
    obtain ⟨k, l, e1, e2⟩ := mem l1 h1
    have ok := hok k l e1
    subst e2
    refine ⟨?_, ?_, ?_, ?_, ?_, ?_⟩
    · show 1 ≤ l.height_
      rw [ok.height_eq]; exact hh.1
    · show l.height_ < INT_RANGE
      rw [ok.height_eq]; exact hh.2
    · show 1 ≤ l.width_
      rw [ok.width_eq]; exact hw.1
    · show l.width_ < INT_RANGE
      rw [ok.width_eq]; exact hw.2
    · show (l.locations_.map _).length = l.height_
      rw [List.length_map, ok.rows, ok.height_eq]
    · intro row hrow
      have hrow2 : row ∈ l.locations_.map (List.map (MazeLocation.mapSpace OpenSpace.erase)) :=
        hrow
      obtain ⟨row0, hr0, e⟩ := List.mem_map.mp hrow2
      show row.length = l.width_
      rw [← e, List.length_map, ok.cols row0 hr0, ok.width_eq]
  · intro li l1 i j loc h1 ht
    obtain ⟨l, e1, e2⟩ := look li l1 h1
    subst e2
    rw [tileAt_layout] at ht
    cases hl : l.tileAt i j with
    | none => simp [hl] at ht
    | some loc0 =>
      simp [hl] at ht
      rw [← ht, mapSpace_erase_pos]
      exact (hok li l e1).pos i j loc0 hl
  · intro l1 h1
    obtain ⟨k, l, e1, e2⟩ := mem l1 h1
    obtain ⟨i, j, sp, s1, s2, s3⟩ := (hok k l e1).start
    subst e2
    refine ⟨i, j, sp.erase, s1, ?_, s3⟩
    rw [tileAt_layout, s2]
    rfl
  · intro li l1 i j sp h1 ht hl
    obtain ⟨l, e1, e2⟩ := look li l1 h1
    subst e2
    rw [tileAt_layout] at ht
    cases hl0 : l.tileAt i j with
    | none => simp [hl0] at ht
    | some loc0 =>
      simp [hl0] at ht
      obtain ⟨sp0, e3, _, e4, _⟩ := mapSpace_erase_eq_space ht
      subst e3
      have hnone := (hok li l e1).ladder i j sp0 hl0 (by rw [e4]; exact hl)
      have hlt : li < levels.length := by
        have := List.getElem?_eq_some_iff.mp e1
        exact this.1
      rw [List.length_map]
      by_contra hcon
      have heq : li = levels.length - 1 := by omega
      rw [heq] at e1
      exact hlast l e1 hnone

theorem Maze.construct_wellFormed {info : MazeInfo} {is : List (List Char)}
    {taSeeds skillSeeds : Nat → List Nat} {m : Maze} (hinfo : info.InRange)
    (h : Maze.construct info is taSeeds skillSeeds = .ok m) : m.WellFormed := by
  unfold Maze.construct at h
  split at h
  · simp at h
  · rename_i hpos
    split at h
    · simp at h
    · rename_i levels hlev
      split at h
      · simp at h
      · rename_i last hlast
        split at h
        · simp at h
        · rename_i ii ij hinst
          split at h
          · simp at h
          · split at h
            · simp at h
            · split at h
              · simp at h
              · dsimp only at h
                split at h
                · simp at h
                · split at h
                  · simp at h
                  · split at h
                    · simp at h
                    · rename_i m5 hta
                      have e1 := Maze.layout_PlaceSkills _ _ _ h
                      have e2 := Maze.layout_PlaceTAs _ _ _ hta
                      unfold Maze.WellFormed
                      rw [e1, e2]
                      show LayoutOk (Maze.layout (Maze.modifySpace (Maze.mk
                        (Maze.modifySpace (Maze.mk levels _ _ _) _ _).levels_ _ _ _) _ _))
                      rw [Maze.layout_modifySpace]
                      · show LayoutOk (Maze.layout (Maze.modifySpace (Maze.mk levels _ _ _) _ _))
                        rw [Maze.layout_modifySpace]
                        · show LayoutOk (levels.map MazeLevel.layout)
                          obtain ⟨q1, q2⟩ := parseLevels_ok _ _ _ _ hlev
                          obtain ⟨i1, i2, i3⟩ := hinfo
                          simp only [not_or, not_lt] at hpos
                          obtain ⟨p1, p2, p3⟩ := hpos
                          unfold INT_RANGE at *
                          refine @LayoutOk_of_levels levels info.height.toNat
                            info.width.toNat ?_ ?_ ?_ ?_ ?_
                          · rw [q1]; unfold INT_RANGE; omega
                          · unfold INT_RANGE; omega
                          · unfold INT_RANGE; omega
                          · intro k l hk
                            simpa using q2 k l hk
                          · intro l hl
                            rw [q1, hlast] at hl
                            simp at hl
                            subst hl
                            rw [hinst]
                            simp
                        · intro s; rfl
                      · intro s; rfl

theorem Reachable.wellFormed {dirs : List PlayerDirectionAction} {m : Maze}
    (h : Reachable dirs m) : m.WellFormed := by
  induction h with
  | construct info is taSeeds skillSeeds m hinfo h => exact Maze.construct_wellFormed hinfo h
  | turn m m1 choice draws _ h ih =>
    unfold Maze.WellFormed at *
    rw [Maze.layout_MovePeople h]; exact ih
  | handle m m1 res _ h ih =>
    unfold Maze.WellFormed at *
    rw [Maze.layout_HandleCurrentPosition h]; exact ih
  | resetCurrent m m1 taSeed skillSeed _ h ih =>
    unfold Maze.WellFormed at *
    rw [Maze.layout_ResetLevel h]; exact ih
  | resetAll m m1 taSeeds skillSeeds _ h ih =>
    unfold Maze.WellFormed at *
    rw [Maze.layout_ResetAllLevels h]; exact ih

/-! ### What a well-formed maze provides -/

theorem Maze.layout_getElem? (m : Maze) (li : Nat) :
    m.layout[li]? = (m.levels_[li]?).map MazeLevel.layout := by
  unfold Maze.layout
  rw [List.getElem?_map]

theorem Maze.WellFormed.count {m : Maze} (h : m.WellFormed) :
    1 ≤ m.levels_.length ∧ m.levels_.length < INT_RANGE := by
  have := LayoutOk.count h
  simpa [Maze.layout] using this

theorem Maze.WellFormed.tile_pos {m : Maze} (h : m.WellFormed) {li i j : Nat} {l : MazeLevel}
    {loc : MazeLocation} (hl : m.levels_[li]? = some l) (ht : l.tileAt i j = some loc) :
    loc.pos = ⟨li, i, j⟩ := by
  have h1 : m.layout[li]? = some l.layout := by rw [Maze.layout_getElem?, hl]; rfl
  have h2 : l.layout.tileAt i j = some (MazeLocation.mapSpace OpenSpace.erase loc) := by
    rw [tileAt_layout, ht]; rfl
  have := LayoutOk.pos h li l.layout i j _ h1 h2
  rwa [mapSpace_erase_pos] at this

theorem Maze.WellFormed.dims {m : Maze} (h : m.WellFormed) {li : Nat} {l : MazeLevel}
    (hl : m.levels_[li]? = some l) :
    1 ≤ l.height_ ∧ l.height_ < INT_RANGE ∧ 1 ≤ l.width_ ∧ l.width_ < INT_RANGE := by
  have h1 : l.layout ∈ m.layout := by
    apply List.mem_iff_getElem?.mpr
    exact ⟨li, by rw [Maze.layout_getElem?, hl]; rfl⟩
  obtain ⟨a, b, c, d, _⟩ := LayoutOk.dims h l.layout h1
  exact ⟨a, b, c, d⟩

theorem Maze.WellFormed.start {m : Maze} (h : m.WellFormed) {li : Nat} {l : MazeLevel}
    (hl : m.levels_[li]? = some l) :
    ∃ i j sp, l.start_location_ = some (i, j) ∧
      l.tileAt i j = some (MazeLocation.space sp) ∧ sp.is_beginning = true ∧
      sp.pos = ⟨li, i, j⟩ := by
  have h1 : l.layout ∈ m.layout := by
    apply List.mem_iff_getElem?.mpr
    exact ⟨li, by rw [Maze.layout_getElem?, hl]; rfl⟩
  obtain ⟨i, j, sp, s1, s2, s3⟩ := LayoutOk.start h l.layout h1
  rw [tileAt_layout] at s2
  cases ht : l.tileAt i j with
  | none => simp [ht] at s2
  | some loc =>
    simp [ht] at s2
    obtain ⟨sp0, e1, e2, _, _⟩ := mapSpace_erase_eq_space s2
    subst e1
    refine ⟨i, j, sp0, s1, ht, by rw [e2]; exact s3, ?_⟩
    exact h.tile_pos hl ht

theorem Maze.WellFormed.ladder {m : Maze} (h : m.WellFormed) {li i j : Nat} {l : MazeLevel}
    {sp : OpenSpace} (hl : m.levels_[li]? = some l)
    (ht : l.tileAt i j = some (MazeLocation.space sp)) (hlad : sp.has_ladder = true) :
    li + 1 < m.levels_.length := by
  have h1 : m.layout[li]? = some l.layout := by rw [Maze.layout_getElem?, hl]; rfl
  have h2 : l.layout.tileAt i j = some (MazeLocation.space sp.erase) := by
    rw [tileAt_layout, ht]; rfl
  have := LayoutOk.ladder h li l.layout i j sp.erase h1 h2 hlad
  simpa [Maze.layout] using this

theorem deref_eq_some {m : Maze} {p : MazePosition} {sp : OpenSpace}
    (h : m.deref p = some sp) :
    ∃ l, m.levels_[p.level]? = some l ∧ l.tileAt p.row p.col = some (MazeLocation.space sp) := by
  unfold Maze.deref at h
  cases hl : m.levels_[p.level]? with
  | none => simp [hl] at h
  | some l =>
    simp only [hl] at h
    refine ⟨l, rfl, ?_⟩
    cases ht : l.tileAt p.row p.col with
    | none => simp [ht] at h
    | some loc =>
      cases loc with
      | wall q => simp [ht, MazeLocation.asSpace] at h
      | space s =>
        simp [ht, MazeLocation.asSpace] at h
        rw [h]

theorem SpaceAt_eq_some {m : Maze} {p : MazePosition} {sp : OpenSpace} :
    m.SpaceAt p = some sp ↔
      ∃ l, m.levels_[p.level]? = some l ∧ p.row < l.height_ ∧ p.col < l.width_ ∧
        l.tileAt p.row p.col = some (MazeLocation.space sp) := by
  unfold Maze.SpaceAt Maze.LocationAt MazeLevel.LocationAt
  constructor
  · intro h
    split at h
    · simp at h
    · cases hl : m.levels_[p.level]? with
      | none => simp [hl] at h
      | some l =>
        simp only [hl] at h
        split at h
        · simp at h
        · rename_i hb
          simp only [not_or, not_le] at hb
          refine ⟨l, rfl, hb.1, hb.2, ?_⟩
          cases ht : l.tileAt p.row p.col with
          | none => simp [ht] at h
          | some loc =>
            cases loc with
            | wall q => simp [ht, MazeLocation.asSpace] at h
            | space s =>
              simp [ht, MazeLocation.asSpace] at h
              rw [h]
  · rintro ⟨l, hl, hr, hc, ht⟩
    have hlt : p.level < m.levels_.length := (List.getElem?_eq_some_iff.mp hl).1
    have h1 : ¬ p.level ≥ m.levels_.length := by omega
    have h2 : ¬ (p.row ≥ l.height_ ∨ p.col ≥ l.width_) := by omega
    simp only [h1, if_false, hl, h2, ht]
    rfl

theorem Maze.WellFormed.deref_pos {m : Maze} (h : m.WellFormed) {p : MazePosition}
    {sp : OpenSpace} (hd : m.deref p = some sp) : sp.pos = p := by
  obtain ⟨l, hl, ht⟩ := deref_eq_some hd
  have := h.tile_pos hl ht
  simpa [MazeLocation.pos] using this

theorem Maze.WellFormed.SpaceAt_pos {m : Maze} (h : m.WellFormed) {p : MazePosition}
    {sp : OpenSpace} (hs : m.SpaceAt p = some sp) : sp.pos = p :=
  h.deref_pos (SpaceAt_deref hs)

/-! ### Sessions reach reachable states -/

theorem Maze.step_reachable {dirs : List PlayerDirectionAction} {m m1 : Maze} {s : Step}
    (hm : Reachable dirs m) (h : m.step dirs s = some m1) : Reachable dirs m1 := by
  cases s with
  | turn choice draws => exact Reachable.turn m m1 choice _ hm h
  | turnToward choice want => exact Reachable.turn m m1 choice _ hm h
  | handle =>
    simp only [Maze.step] at h
    cases hh : m.HandleCurrentPosition dirs with
    | none => simp [hh] at h
    | some p =>
      obtain ⟨r, m2⟩ := p
      simp [hh] at h
      subst h
      exact Reachable.handle m m2 r hm hh
  | resetCurrent taSeed skillSeed =>
    simp only [Maze.step] at h
    cases hh : m.ResetCurrentLevel taSeed skillSeed with
    | error e => rw [hh] at h; simp [Except.toOption] at h
    | ok m2 =>
      rw [hh] at h
      simp [Except.toOption] at h
      subst h
      exact Reachable.resetCurrent m m2 taSeed skillSeed hm hh
  | resetAll taSeeds skillSeeds =>
    simp only [Maze.step] at h
    cases hh : m.ResetAllLevels (fun i => taSeeds.getD i []) (fun i => skillSeeds.getD i []) with
    | error e => rw [hh] at h; simp [Except.toOption] at h
    | ok m2 =>
      rw [hh] at h
      simp [Except.toOption] at h
      subst h
      exact Reachable.resetAll m m2 _ _ hm hh

theorem Maze.run_reachable {dirs : List PlayerDirectionAction} :
    ∀ (steps : List Step) (m m1 : Maze), Reachable dirs m → Maze.run dirs steps m = some m1 →
      Reachable dirs m1 := by
  intro steps
  induction steps with
  | nil => intro m m1 hm h; simp [Maze.run] at h; subst h; exact hm
  | cons s rest ih =>
    intro m m1 hm h
    unfold Maze.run at h
    cases hs : m.step dirs s with
    | none => simp [hs] at h
    | some m2 =>
      simp only [hs] at h
      exact ih m2 m1 (Maze.step_reachable hm hs) h

theorem play_reachable {dirs : List PlayerDirectionAction} {info : MazeInfo}
    {text : List String} {taSeeds skillSeeds : List (List Nat)} {steps : List Step} {m : Maze}
    (hinfo : info.InRange) (h : play dirs info text taSeeds skillSeeds steps = some m) :
    Reachable dirs m := by
  unfold play at h
  split at h
  · rename_i m0 hc
    exact Maze.run_reachable steps m0 m (Reachable.construct _ _ _ _ m0 hinfo hc) h
  · simp at h

theorem hallInfo_inRange : hallInfo.InRange := by
  unfold MazeInfo.InRange hallInfo INT_RANGE
  decide

/-! ### The adjacency scan -/

theorem scan_trigger {dirs : List PlayerDirectionAction} {m : Maze} {ptrs : List MazePosition}
    {r : MoveResult} (ha : m.SpacesAdjacentToStudent dirs = some ptrs)
    (hs : m.scanAdjacent ptrs = some (some r)) :
    ∃ sp, m.AdjacentToStudent sp ∧
      ((r = MoveResult.CaughtByTA ∧ sp.has_ta = true ∧
          ∃ ta, m.TaAt sp.pos = some ta ∧ ta.appeased_turns ≤ 1) ∨
       (r = MoveResult.FailedByInstructor ∧ sp.has_ta = false ∧ sp.has_instructor = true ∧
          m.student_.prog_skills < 3) ∨
       (r = MoveResult.SatisfiedInstructor ∧ sp.has_ta = false ∧ sp.has_instructor = true ∧
          3 ≤ m.student_.prog_skills)) := by
  obtain ⟨ptr, hmem, sp, hd, hc⟩ := scanAdjacent_cases ptrs r hs
  refine ⟨sp, ?_, hc⟩
  unfold Maze.SpacesAdjacentToStudent Maze.SpacesAdjacentTo at ha
  cases h0 : m.SpaceAt m.student_.position with
  | none => simp [h0] at ha
  | some sp0 =>
    simp only [h0] at ha
    obtain ⟨dir, _, he, hsome⟩ := adjacentLoop_mem dirs ptrs ha ptr hmem
    cases h1 : m.SpaceAt ptr with
    | none => simp [h1] at hsome
    | some sp1 =>
      have := SpaceAt_deref h1
      rw [hd] at this
      simp at this
      subst this
      exact ⟨sp0, dir, h0, by rw [← he]; exact h1⟩

/-- C1: whenever `HandleCurrentPosition` returns `SatisfiedInstructor`, the skill count in
the maze it leaves (after any skill picked up in the same call) is at least 3 and a tile
adjacent to the student has `has_instructor` set; whenever it returns `FailedByInstructor`,
the skill count is below 3 and a tile adjacent to the student has `has_instructor` set. -/
theorem C1_instructor_outcome_sound (dirs : List PlayerDirectionAction) (m m1 : Maze)
    (r : MoveResult) (h : m.HandleCurrentPosition dirs = some (r, m1)) :
    (r = MoveResult.SatisfiedInstructor →
      3 ≤ m1.student_.prog_skills ∧
      ∃ sp, m1.AdjacentToStudent sp ∧ sp.has_instructor = true) ∧
    (r = MoveResult.FailedByInstructor →
      m1.student_.prog_skills < 3 ∧
      ∃ sp, m1.AdjacentToStudent sp ∧ sp.has_instructor = true) := by
  obtain ⟨res, sp0, _, ho, hc⟩ := HandleCurrentPosition_cases h
  have hres : res = MoveResult.CaughtByTA ∨ res = MoveResult.NoEvent ∨
      res = MoveResult.AcquiredSkill := by
    obtain ⟨sp, _, hc1⟩ := HandleOccupiedSpace_cases ho
    rcases hc1 with ⟨e, _⟩ | ⟨e, _⟩ | ⟨e, _⟩ | ⟨e, _⟩ <;> simp [e]
  rcases hc with ⟨_, e⟩ | ⟨_, ptrs, ha, hs | ⟨_, e⟩⟩
  · subst e
    exact ⟨fun c => (by cases c), fun c => (by cases c)⟩
  · obtain ⟨sp, hadj, hcase⟩ := scan_trigger ha hs
    rcases hcase with ⟨e, _⟩ | ⟨e, _, hin, hsk⟩ | ⟨e, _, hin, hsk⟩
    · subst e
      exact ⟨fun c => (by cases c), fun c => (by cases c)⟩
    · subst e
      exact ⟨fun c => (by cases c), fun _ => ⟨hsk, sp, hadj, hin⟩⟩
    · subst e
      exact ⟨fun _ => ⟨hsk, sp, hadj, hin⟩, fun c => (by cases c)⟩
  · subst e
    rcases hres with e | e | e <;> subst e <;>
      exact ⟨fun c => (by cases c), fun c => (by cases c)⟩

/-- Witness of C1: in the session `hallCrossing` the call returns `FailedByInstructor`. -/
theorem C1_instructor_outcome_sound_witness :
    ∃ m m1 : Maze, hallCrossing = some m ∧
      m.HandleCurrentPosition specOrder = some (MoveResult.FailedByInstructor, m1) ∧
      m1.student_.prog_skills < 3 ∧
      ∃ sp, m1.AdjacentToStudent sp ∧ sp.has_instructor = true := by
  have h1 : hallCrossing.isSome = true := by decide
  obtain ⟨m, hm⟩ := Option.isSome_iff_exists.mp h1
  have h2 : (hallCrossing.bind (fun m => (m.HandleCurrentPosition specOrder).map Prod.fst))
      = some MoveResult.FailedByInstructor := by decide
  rw [hm] at h2
  simp only [Option.some_bind] at h2
  cases hh : m.HandleCurrentPosition specOrder with
  | none => simp [hh] at h2
  | some p =>
    obtain ⟨r, m1⟩ := p
    simp [hh] at h2
    subst h2
    exact ⟨m, m1, hm, hh,
      (C1_instructor_outcome_sound specOrder m m1 MoveResult.FailedByInstructor hh).2 rfl⟩

/-- C3: whenever `HandleCurrentPosition` returns `CaughtByTA`, the tile that triggered it
(the student's own tile or a tile adjacent to the student) has `has_ta` set and the TA that
`TaAt` finds for it has an appeasement counter of at most 1; a TA whose counter exceeds 1
never causes the result. -/
theorem C3_caught_only_by_unappeased (dirs : List PlayerDirectionAction) (m m1 : Maze)
    (h : m.HandleCurrentPosition dirs = some (MoveResult.CaughtByTA, m1)) :
    ∃ sp ta, (m1.SpaceAt m1.student_.position = some sp ∨ m1.AdjacentToStudent sp) ∧
      sp.has_ta = true ∧ m1.TaAt sp.pos = some ta ∧ ta.appeased_turns ≤ 1 := by
  obtain ⟨res, sp0, hs0, ho, hc⟩ := HandleCurrentPosition_cases h
  obtain ⟨sp, hd, hc1⟩ := HandleOccupiedSpace_cases ho
  have hsp : sp = sp0 := by
    have := SpaceAt_deref hs0
    rw [hd] at this
    simpa using this
  subst hsp
  rcases hc with ⟨e, _⟩ | ⟨hne, ptrs, ha, hs | ⟨_, e⟩⟩
  · rcases hc1 with ⟨_, e1, hta, ta, ht, hle⟩ | ⟨e1, _⟩ | ⟨e1, _⟩ | ⟨e1, _⟩
    · subst e1
      exact ⟨sp, ta, Or.inl hs0, hta, ht, hle⟩
    · rw [e] at e1; cases e1
    · rw [e] at e1; cases e1
    · rw [e] at e1; cases e1
  · obtain ⟨sp1, hadj, hcase⟩ := scan_trigger ha hs
    rcases hcase with ⟨_, hta, ta, ht, hle⟩ | ⟨e, _⟩ | ⟨e, _⟩
    · exact ⟨sp1, ta, Or.inr hadj, hta, ht, hle⟩
    · cases e
    · cases e
  · exact absurd e.symm hne

/-- Witness of C3: in the session `hallCaught` the call returns `CaughtByTA`. -/
theorem C3_caught_only_by_unappeased_witness :
    ∃ m m1 : Maze, hallCaught = some m ∧
      m.HandleCurrentPosition specOrder = some (MoveResult.CaughtByTA, m1) ∧
      ∃ sp ta, (m1.SpaceAt m1.student_.position = some sp ∨ m1.AdjacentToStudent sp) ∧
        sp.has_ta = true ∧ m1.TaAt sp.pos = some ta ∧ ta.appeased_turns ≤ 1 := by
  have h1 : hallCaught.isSome = true := by decide
  obtain ⟨m, hm⟩ := Option.isSome_iff_exists.mp h1
  have h2 : (hallCaught.bind (fun m => (m.HandleCurrentPosition specOrder).map Prod.fst))
      = some MoveResult.CaughtByTA := by decide
  rw [hm] at h2
  simp only [Option.some_bind] at h2
  cases hh : m.HandleCurrentPosition specOrder with
  | none => simp [hh] at h2
  | some p =>
    obtain ⟨r, m1⟩ := p
    simp [hh] at h2
    subst h2
    exact ⟨m, m1, hm, hh, C3_caught_only_by_unappeased specOrder m m1 hh⟩

/-! ### The actions offered -/

theorem PlayerDirectionToAction_ne_special (d : PlayerDirectionAction) :
    PlayerDirectionToAction d ≠ PlayerAction.ClimbUp ∧
    PlayerDirectionToAction d ≠ PlayerAction.DemonstrateSkill := by
  cases d <;> simp [PlayerDirectionToAction]

theorem ValidMovementsAt_directional (dirs : List PlayerDirectionAction) (m : Maze)
    (pos : MazePosition) (a : PlayerAction) (h : a ∈ m.ValidMovementsAt dirs pos) :
    ∃ d, d ∈ dirs ∧ m.CanMoveInDirection pos d = true ∧ a = PlayerDirectionToAction d := by
  unfold Maze.ValidMovementsAt at h
  obtain ⟨d, hd, e⟩ := List.mem_map.mp h
  have := List.mem_filter.mp hd
  exact ⟨d, this.1, this.2, e.symm⟩

/-- C8: `ValidActionsAt` offers `ClimbUp` exactly when the student's current tile has
`has_ladder` set and `DemonstrateSkill` exactly when the skill count is positive;
`ValidMovementsAt`, the list offered to the TAs, contains neither. -/
theorem C8_special_actions_offered (dirs : List PlayerDirectionAction) (m : Maze)
    (pos : MazePosition) :
    (PlayerAction.ClimbUp ∈ m.ValidActionsAt dirs m.student_.position ↔
      ∃ sp, m.SpaceAt m.student_.position = some sp ∧ sp.has_ladder = true) ∧
    (PlayerAction.DemonstrateSkill ∈ m.ValidActionsAt dirs m.student_.position ↔
      0 < m.student_.prog_skills) ∧
    PlayerAction.ClimbUp ∉ m.ValidMovementsAt dirs pos ∧
    PlayerAction.DemonstrateSkill ∉ m.ValidMovementsAt dirs pos := by
  have hmv : ∀ p, PlayerAction.ClimbUp ∉ m.ValidMovementsAt dirs p ∧
      PlayerAction.DemonstrateSkill ∉ m.ValidMovementsAt dirs p := by
    intro p
    constructor
    · intro h
      obtain ⟨d, _, _, e⟩ := ValidMovementsAt_directional dirs m p _ h
      exact (PlayerDirectionToAction_ne_special d).1 e.symm
    · intro h
      obtain ⟨d, _, _, e⟩ := ValidMovementsAt_directional dirs m p _ h
      exact (PlayerDirectionToAction_ne_special d).2 e.symm
  refine ⟨?_, ?_, (hmv pos).1, (hmv pos).2⟩
  · unfold Maze.ValidActionsAt
    simp only [List.mem_append, (hmv m.student_.position).1, false_or]
    cases hs : m.SpaceAt m.student_.position with
    | none => simp
    | some sp =>
      by_cases hl : sp.has_ladder = true
      · simp [hl]
      · simp [hl]
  · unfold Maze.ValidActionsAt
    simp only [List.mem_append, (hmv m.student_.position).2, false_or]
    by_cases hk : 0 < m.student_.prog_skills
    · simp [IntrepidStudent.HasSkills, hk]
    · simp [IntrepidStudent.HasSkills, hk]

theorem PlayerDirectionToAction_injective (d e : PlayerDirectionAction)
    (h : PlayerDirectionToAction d = PlayerDirectionToAction e) : d = e := by
  cases d <;> cases e <;> simp [PlayerDirectionToAction] at h <;> rfl

theorem mem_ValidMovementsAt (dirs : List PlayerDirectionAction) (m : Maze)
    (pos : MazePosition) (d : PlayerDirectionAction) :
    PlayerDirectionToAction d ∈ m.ValidMovementsAt dirs pos ↔
      d ∈ dirs ∧ m.CanMoveInDirection pos d = true := by
  constructor
  · intro h
    obtain ⟨e, he, hc, heq⟩ := ValidMovementsAt_directional dirs m pos _ h
    have := PlayerDirectionToAction_injective _ _ heq
    subst this
    exact ⟨he, hc⟩
  · rintro ⟨hd, hc⟩
    unfold Maze.ValidMovementsAt
    exact List.mem_map.mpr ⟨d, List.mem_filter.mpr ⟨hd, hc⟩, rfl⟩

theorem Translate_level (p : MazePosition) (d : PlayerDirectionAction) (n : Nat) :
    (p.Translate d n).level = p.level := by
  cases d <;> simp only [MazePosition.Translate]

theorem Translate_Up (p : MazePosition) (n : Nat) :
    p.Translate PlayerDirectionAction.Up n = ⟨p.level, usub p.row n, p.col⟩ := by
  simp only [MazePosition.Translate]

theorem Translate_Down (p : MazePosition) (n : Nat) :
    p.Translate PlayerDirectionAction.Down n = ⟨p.level, uadd p.row n, p.col⟩ := by
  simp only [MazePosition.Translate]

theorem Translate_Left (p : MazePosition) (n : Nat) :
    p.Translate PlayerDirectionAction.Left n = ⟨p.level, p.row, usub p.col n⟩ := by
  simp only [MazePosition.Translate]

theorem Translate_Right (p : MazePosition) (n : Nat) :
    p.Translate PlayerDirectionAction.Right n = ⟨p.level, p.row, uadd p.col n⟩ := by
  simp only [MazePosition.Translate]

theorem usub_one_of_pos (r : Nat) (h : 0 < r) (h2 : r < UINT) : usub r 1 = r - 1 := by
  unfold usub UINT at *
  omega

theorem usub_one_zero : usub 0 1 = UINT - 1 := by
  unfold usub UINT
  omega

theorem uadd_one_of_lt (r : Nat) (h : r + 1 < UINT) : uadd r 1 = r + 1 := by
  unfold uadd UINT at *
  omega

theorem translate_in_grid (l : MazeLevel) (pos : MazePosition) (d : PlayerDirectionAction)
    (hh : l.height_ < INT_RANGE) (hw : l.width_ < INT_RANGE)
    (hr : pos.row < l.height_) (hc : pos.col < l.width_) :
    ((pos.Translate d 1).row < l.height_ ∧ (pos.Translate d 1).col < l.width_ ∧
      ∃ sp, l.tileAt (pos.Translate d 1).row (pos.Translate d 1).col
        = some (MazeLocation.space sp)) ↔
    l.OccupiableCell (pos.row + d.dRow) (pos.col + d.dCol) := by
  unfold INT_RANGE at hh hw
  unfold MazeLevel.OccupiableCell
  have z1 : ((pos.row : Int) + 0).toNat = pos.row := by omega
  have z2 : ((pos.col : Int) + 0).toNat = pos.col := by omega
  cases d with
  | Up =>
    have hrow : (pos.Translate PlayerDirectionAction.Up 1).row = usub pos.row 1 := by
      rw [Translate_Up]
    have hcol : (pos.Translate PlayerDirectionAction.Up 1).col = pos.col := by
      rw [Translate_Up]
    have hdr : PlayerDirectionAction.Up.dRow = -1 := rfl
    have hdc : PlayerDirectionAction.Up.dCol = 0 := rfl
    rw [hrow, hcol, hdr, hdc, z2]
    by_cases h0 : pos.row = 0
    · have e1 : usub pos.row 1 = 4294967295 := by rw [h0]; unfold usub UINT; omega
      rw [e1]
      constructor
      · rintro ⟨h1, _⟩; omega
      · rintro ⟨h1, _⟩; omega
    · have e1 : usub pos.row 1 = pos.row - 1 :=
        usub_one_of_pos _ (by omega) (by unfold UINT; omega)
      have e2 : ((pos.row : Int) + -1).toNat = pos.row - 1 := by omega
      rw [e1, e2]
      constructor
      · rintro ⟨h1, h2, h3⟩; exact ⟨by omega, by omega, by omega, by omega, h3⟩
      · rintro ⟨h1, h2, h3, h4, h5⟩; exact ⟨by omega, by omega, h5⟩
  | Down =>
    have hrow : (pos.Translate PlayerDirectionAction.Down 1).row = uadd pos.row 1 := by
      rw [Translate_Down]
    have hcol : (pos.Translate PlayerDirectionAction.Down 1).col = pos.col := by
      rw [Translate_Down]
    have hdr : PlayerDirectionAction.Down.dRow = 1 := rfl
    have hdc : PlayerDirectionAction.Down.dCol = 0 := rfl
    have e1 : uadd pos.row 1 = pos.row + 1 := uadd_one_of_lt _ (by unfold UINT; omega)
    have e2 : ((pos.row : Int) + 1).toNat = pos.row + 1 := by omega
    rw [hrow, hcol, hdr, hdc, z2, e1, e2]
    constructor
    · rintro ⟨h1, h2, h3⟩; exact ⟨by omega, by omega, by omega, by omega, h3⟩
    · rintro ⟨h1, h2, h3, h4, h5⟩; exact ⟨by omega, by omega, h5⟩
  | Left =>
    have hrow : (pos.Translate PlayerDirectionAction.Left 1).row = pos.row := by
      rw [Translate_Left]
    have hcol : (pos.Translate PlayerDirectionAction.Left 1).col = usub pos.col 1 := by
      rw [Translate_Left]
    have hdr : PlayerDirectionAction.Left.dRow = 0 := rfl
    have hdc : PlayerDirectionAction.Left.dCol = -1 := rfl
    rw [hrow, hcol, hdr, hdc, z1]
    by_cases h0 : pos.col = 0
    · have e1 : usub pos.col 1 = 4294967295 := by rw [h0]; unfold usub UINT; omega
      rw [e1]
      constructor
      · rintro ⟨_, h1, _⟩; omega
      · rintro ⟨_, _, h1, _⟩; omega
    · have e1 : usub pos.col 1 = pos.col - 1 :=
        usub_one_of_pos _ (by omega) (by unfold UINT; omega)
      have e2 : ((pos.col : Int) + -1).toNat = pos.col - 1 := by omega
      rw [e1, e2]
      constructor
      · rintro ⟨h1, h2, h3⟩; exact ⟨by omega, by omega, by omega, by omega, h3⟩
      · rintro ⟨h1, h2, h3, h4, h5⟩; exact ⟨by omega, by omega, h5⟩
  | Right =>
    have hrow : (pos.Translate PlayerDirectionAction.Right 1).row = pos.row := by
      rw [Translate_Right]
    have hcol : (pos.Translate PlayerDirectionAction.Right 1).col = uadd pos.col 1 := by
      rw [Translate_Right]
    have hdr : PlayerDirectionAction.Right.dRow = 0 := rfl
    have hdc : PlayerDirectionAction.Right.dCol = 1 := rfl
    have e1 : uadd pos.col 1 = pos.col + 1 := uadd_one_of_lt _ (by unfold UINT; omega)
    have e2 : ((pos.col : Int) + 1).toNat = pos.col + 1 := by omega
    rw [hrow, hcol, hdr, hdc, z1, e1, e2]
    constructor
    · rintro ⟨h1, h2, h3⟩; exact ⟨by omega, by omega, by omega, by omega, h3⟩
    · rintro ⟨h1, h2, h3, h4, h5⟩; exact ⟨by omega, by omega, h5⟩

theorem CanMoveInDirection_iff {m : Maze} (hwf : m.WellFormed) (pos : MazePosition)
    (d : PlayerDirectionAction) :
    m.CanMoveInDirection pos d = true ↔
      ∃ l, m.levels_[pos.level]? = some l ∧ l.OccupiableCell pos.row pos.col ∧
        l.OccupiableCell (pos.row + d.dRow) (pos.col + d.dCol) := by
  unfold Maze.CanMoveInDirection
  constructor
  · intro h
    cases hs : m.SpaceAt pos with
    | none => simp [hs] at h
    | some sp =>
      simp only [hs] at h
      have hp := hwf.SpaceAt_pos hs
      rw [hp] at h
      obtain ⟨l, hl, hr, hc, ht⟩ := SpaceAt_eq_some.mp hs
      obtain ⟨_, hh, _, hw⟩ := hwf.dims hl
      obtain ⟨sp2, hs2⟩ := Option.isSome_iff_exists.mp h
      obtain ⟨l2, hl2, hr2, hc2, ht2⟩ := SpaceAt_eq_some.mp hs2
      rw [Translate_level, hl] at hl2
      simp at hl2
      subst hl2
      refine ⟨l, hl, ?_, ?_⟩
      · exact ⟨by omega, by omega, by omega, by omega, sp, by simpa using ht⟩
      · exact (translate_in_grid l pos d hh hw hr hc).mp ⟨hr2, hc2, sp2, ht2⟩
  · rintro ⟨l, hl, ⟨a1, a2, a3, a4, sp, a5⟩, hcell⟩
    have hr : pos.row < l.height_ := by omega
    have hc : pos.col < l.width_ := by omega
    have hs : m.SpaceAt pos = some sp :=
      SpaceAt_eq_some.mpr ⟨l, hl, hr, hc, by simpa using a5⟩
    have hp := hwf.SpaceAt_pos hs
    obtain ⟨_, hh, _, hw⟩ := hwf.dims hl
    obtain ⟨hr2, hc2, sp2, ht2⟩ := (translate_in_grid l pos d hh hw hr hc).mpr hcell
    have hs2 : m.SpaceAt (pos.Translate d 1) = some sp2 :=
      SpaceAt_eq_some.mpr ⟨l, by rw [Translate_level]; exact hl, hr2, hc2, ht2⟩
    simp [hs, hp, hs2]

/-- C7: in a well-formed maze, the move in direction `d` is in `ValidMovementsAt(pos)`
exactly when `pos` is an occupiable tile inside its level grid and the cell one step from
`pos` in direction `d`, computed in the integers, lies inside the grid and is occupiable.
In particular `MoveUp` is never offered from row 0 and `MoveLeft` never from column 0,
where the unsigned coordinate wraps around. -/
theorem C7_directional_move_legal_iff (dirs : List PlayerDirectionAction) (m : Maze)
    (hwf : m.WellFormed) (hall : ∀ d : PlayerDirectionAction, d ∈ dirs)
    (pos : MazePosition) (d : PlayerDirectionAction) :
    (PlayerDirectionToAction d ∈ m.ValidMovementsAt dirs pos ↔
      ∃ l, m.levels_[pos.level]? = some l ∧ l.OccupiableCell pos.row pos.col ∧
        l.OccupiableCell (pos.row + d.dRow) (pos.col + d.dCol)) ∧
    (pos.row = 0 → PlayerAction.MoveUp ∉ m.ValidMovementsAt dirs pos) ∧
    (pos.col = 0 → PlayerAction.MoveLeft ∉ m.ValidMovementsAt dirs pos) := by
  have key : ∀ e : PlayerDirectionAction,
      PlayerDirectionToAction e ∈ m.ValidMovementsAt dirs pos ↔
        ∃ l, m.levels_[pos.level]? = some l ∧ l.OccupiableCell pos.row pos.col ∧
          l.OccupiableCell (pos.row + e.dRow) (pos.col + e.dCol) := by
    intro e
    rw [mem_ValidMovementsAt, CanMoveInDirection_iff hwf]
    simp [hall e]
  refine ⟨key d, ?_, ?_⟩
  · intro h0 hmem
    obtain ⟨l, _, _, hcell⟩ := (key PlayerDirectionAction.Up).mp hmem
    have := hcell.1
    simp [PlayerDirectionAction.dRow, h0] at this
  · intro h0 hmem
    obtain ⟨l, _, _, hcell⟩ := (key PlayerDirectionAction.Left).mp hmem
    have := hcell.2.2.1
    simp [PlayerDirectionAction.dCol, h0] at this

theorem specOrder_complete : ∀ d : PlayerDirectionAction, d ∈ specOrder := by
  intro d
  cases d <;> simp [specOrder]

/-- Witness of C7: the maze reached by the session `hallCrossing`, at the start tile
(row 1, column 0) and direction `Left`. -/
theorem C7_directional_move_legal_iff_witness :
    ∃ m : Maze, hallCrossing = some m ∧ m.WellFormed ∧
      (∀ d : PlayerDirectionAction, d ∈ specOrder) ∧
      (PlayerDirectionToAction PlayerDirectionAction.Left
          ∈ m.ValidMovementsAt specOrder ⟨0, 1, 0⟩ ↔
        ∃ l, m.levels_[(⟨0, 1, 0⟩ : MazePosition).level]? = some l ∧
          l.OccupiableCell (⟨0, 1, 0⟩ : MazePosition).row (⟨0, 1, 0⟩ : MazePosition).col ∧
          l.OccupiableCell
            ((⟨0, 1, 0⟩ : MazePosition).row + PlayerDirectionAction.Left.dRow)
            ((⟨0, 1, 0⟩ : MazePosition).col + PlayerDirectionAction.Left.dCol)) ∧
      ((⟨0, 1, 0⟩ : MazePosition).row = 0 →
        PlayerAction.MoveUp ∉ m.ValidMovementsAt specOrder ⟨0, 1, 0⟩) ∧
      ((⟨0, 1, 0⟩ : MazePosition).col = 0 →
        PlayerAction.MoveLeft ∉ m.ValidMovementsAt specOrder ⟨0, 1, 0⟩) := by
  have h1 : hallCrossing.isSome = true := by decide
  obtain ⟨m, hm⟩ := Option.isSome_iff_exists.mp h1
  have hwf : m.WellFormed := (play_reachable hallInfo_inRange hm).wellFormed
  exact ⟨m, hm, hwf, specOrder_complete,
    C7_directional_move_legal_iff specOrder m hwf specOrder_complete ⟨0, 1, 0⟩
      PlayerDirectionAction.Left⟩

/-! ### Moving a person -/

theorem deref_setPersonPosition (m : Maze) (person : PersonRef) (p q : MazePosition) :
    (m.setPersonPosition person p).deref q = m.deref q := by
  cases person <;> rfl

theorem deref_Occupy (m : Maze) (person : PersonRef) (p q : MazePosition) :
    (m.Occupy person p).deref q
      = if q = p then (m.deref q).map (person.setFlag true) else m.deref q := by
  cases person with
  | student => exact deref_modifySpace m p q _
  | ta level idx => exact deref_modifySpace m p q _
  | instructor =>
    show m.deref q = _
    by_cases h : q = p
    · simp only [h, if_true]
      cases m.deref p <;> rfl
    · simp [h]

theorem deref_Unoccupy (m : Maze) (person : PersonRef) (p q : MazePosition) :
    (m.Unoccupy person p).deref q
      = if q = p then (m.deref q).map (person.setFlag false) else m.deref q := by
  cases person with
  | student => exact deref_modifySpace m p q _
  | ta level idx => exact deref_modifySpace m p q _
  | instructor =>
    show m.deref q = _
    by_cases h : q = p
    · simp only [h, if_true]
      cases m.deref p <;> rfl
    · simp [h]

theorem SpaceAt_Unoccupy_isSome (m : Maze) (person : PersonRef) (p q : MazePosition) :
    ((m.Unoccupy person p).SpaceAt q).isSome = (m.SpaceAt q).isSome := by
  cases person with
  | student =>
    show ((m.modifySpace p _).SpaceAt q).isSome = _
    rw [SpaceAt_modifySpace]
    split <;> simp
  | ta level idx =>
    show ((m.modifySpace p _).SpaceAt q).isSome = _
    rw [SpaceAt_modifySpace]
    split <;> simp
  | instructor => rfl

theorem taAtIndex_modifyTA (m : Maze) (level idx : Nat) (f : TA → TA) :
    (m.modifyTA level idx f).taAtIndex level idx = (m.taAtIndex level idx).map f := by
  unfold Maze.taAtIndex Maze.modifyTA
  simp only [List.getElem?_modify_eq]
  cases m.tas_[level]? with
  | none => rfl
  | some roster => simp

theorem personPosition_setPersonPosition (m : Maze) (person : PersonRef) (p q : MazePosition)
    (h : m.personPosition person = some q) :
    (m.setPersonPosition person p).personPosition person = some p := by
  cases person with
  | student => rfl
  | instructor => rfl
  | ta level idx =>
    simp only [Maze.personPosition, Maze.setPersonPosition] at h ⊢
    rw [taAtIndex_modifyTA]
    cases ht : m.taAtIndex level idx with
    | none => simp [ht] at h
    | some ta => rfl

theorem personPosition_Occupy (m : Maze) (person other : PersonRef) (p : MazePosition) :
    (m.Occupy person p).personPosition other = m.personPosition other := by
  cases person <;> cases other <;> rfl

theorem personPosition_Unoccupy (m : Maze) (person other : PersonRef) (p : MazePosition) :
    (m.Unoccupy person p).personPosition other = m.personPosition other := by
  cases person <;> cases other <;> rfl

theorem Translate_one_ne (p : MazePosition) (d : PlayerDirectionAction) :
    p.Translate d 1 ≠ p := by
  intro h
  cases d with
  | Up =>
    rw [Translate_Up] at h
    have := congrArg MazePosition.row h
    simp only at this
    unfold usub UINT at *
    omega
  | Down =>
    rw [Translate_Down] at h
    have := congrArg MazePosition.row h
    simp only at this
    unfold uadd UINT at *
    omega
  | Left =>
    rw [Translate_Left] at h
    have := congrArg MazePosition.col h
    simp only at this
    unfold usub UINT at *
    omega
  | Right =>
    rw [Translate_Right] at h
    have := congrArg MazePosition.col h
    simp only at this
    unfold uadd UINT at *
    omega

theorem PlayerActionToDirection_of (d : PlayerDirectionAction) :
    PlayerActionToDirection (PlayerDirectionToAction d) = some d := by
  cases d <;> rfl

/-- What `MovePerson` does for a move in direction `d` that `CanMoveInDirection` allows. -/
theorem MovePerson_directional {m : Maze} (hwf : m.WellFormed) (person : PersonRef)
    (pos : MazePosition) (d : PlayerDirectionAction)
    (hp : m.personPosition person = some pos) (hc : m.CanMoveInDirection pos d = true) :
    pos.Translate d 1 ≠ pos ∧ (m.SpaceAt pos).isSome = true ∧
    (m.SpaceAt (pos.Translate d 1)).isSome = true ∧
    m.MovePerson person (PlayerDirectionToAction d)
      = some (true, ((m.Unoccupy person pos).Occupy person (pos.Translate d 1)).setPersonPosition
          person (pos.Translate d 1)) := by
  unfold Maze.CanMoveInDirection at hc
  cases hs : m.SpaceAt pos with
  | none => simp [hs] at hc
  | some sp =>
    simp only [hs] at hc
    rw [hwf.SpaceAt_pos hs] at hc
    have hne : pos.Translate d 1 ≠ pos := Translate_one_ne pos d
    refine ⟨hne, rfl, hc, ?_⟩
    have hs2 : ((m.Unoccupy person pos).SpaceAt (pos.Translate d 1)).isSome = true := by
      rw [SpaceAt_Unoccupy_isSome]; exact hc
    obtain ⟨sp2, hsp2⟩ := Option.isSome_iff_exists.mp hs2
    cases d <;>
      simp only [Maze.MovePerson, PlayerDirectionToAction, PlayerActionToDirection, hp, hs,
        hsp2] at hsp2 ⊢

/-- C9: `MovePerson` with `ClimbUp` or `DemonstrateSkill` returns false and leaves the maze
as it is.  With a move that `ValidMovementsAt` offers at the person's position, in a
well-formed maze, it returns true, the person's position becomes the tile one step away,
the person's occupancy flag (`has_student` for the student, `has_ta` for a TA) is set on
that tile and cleared on the tile left, and nothing else of any tile changes. -/
theorem C9_MovePerson_effect (dirs : List PlayerDirectionAction) (m : Maze)
    (hwf : m.WellFormed) (person : PersonRef) (move : PlayerAction) :
    ((move = PlayerAction.ClimbUp ∨ move = PlayerAction.DemonstrateSkill) →
      m.MovePerson person move = some (false, m)) ∧
    (∀ pos, m.personPosition person = some pos → move ∈ m.ValidMovementsAt dirs pos →
      ∃ dir m1, PlayerActionToDirection move = some dir ∧
        m.MovePerson person move = some (true, m1) ∧
        m1.personPosition person = some (pos.Translate dir 1) ∧
        (∀ q, m1.deref q =
          if q = pos.Translate dir 1 then (m.deref q).map (person.setFlag true)
          else if q = pos then (m.deref q).map (person.setFlag false)
          else m.deref q) ∧
        m1.layout = m.layout) := by
  constructor
  · rintro (h | h) <;> subst h <;> rfl
  · intro pos hp hmem
    obtain ⟨d, _, hc, e⟩ := ValidMovementsAt_directional dirs m pos move hmem
    subst e
    obtain ⟨hne, _, _, hmv⟩ := MovePerson_directional hwf person pos d hp hc
    refine ⟨d, _, PlayerActionToDirection_of d, hmv, ?_, ?_, Maze.layout_MovePerson hmv⟩
    · apply personPosition_setPersonPosition _ _ _ pos
      rw [personPosition_Occupy, personPosition_Unoccupy]
      exact hp
    · intro q
      rw [deref_setPersonPosition, deref_Occupy, deref_Unoccupy]
      by_cases h1 : q = pos.Translate d 1
      · have h2 : ¬ q = pos := by rw [h1]; exact hne
        simp [h1, hne]
      · simp [h1]

theorem fact_of_session {o : Option Maze} {m : Maze} (hm : o = some m) {P : Maze → Bool}
    (h : o.map P = some true) : P m = true := by
  rw [hm] at h
  simpa using h

/-- Witness of C9: the student of the freshly constructed `hallStart` stepping right. -/
theorem C9_MovePerson_effect_witness :
    ∃ m : Maze, hallStart = some m ∧ m.WellFormed ∧
      m.personPosition PersonRef.student = some ⟨0, 1, 0⟩ ∧
      PlayerAction.MoveRight ∈ m.ValidMovementsAt specOrder ⟨0, 1, 0⟩ ∧
      ∃ dir m1, PlayerActionToDirection PlayerAction.MoveRight = some dir ∧
        m.MovePerson PersonRef.student PlayerAction.MoveRight = some (true, m1) ∧
        m1.personPosition PersonRef.student = some ((⟨0, 1, 0⟩ : MazePosition).Translate dir 1) ∧
        (∀ q, m1.deref q =
          if q = (⟨0, 1, 0⟩ : MazePosition).Translate dir 1 then
            (m.deref q).map (PersonRef.student.setFlag true)
          else if q = ⟨0, 1, 0⟩ then (m.deref q).map (PersonRef.student.setFlag false)
          else m.deref q) ∧
        m1.layout = m.layout := by
  have h1 : hallStart.isSome = true := by decide
  obtain ⟨m, hm⟩ := Option.isSome_iff_exists.mp h1
  have hwf : m.WellFormed := (play_reachable hallInfo_inRange hm).wellFormed
  have hp : m.personPosition PersonRef.student = some ⟨0, 1, 0⟩ := by
    have := fact_of_session hm
      (P := fun m => decide (m.personPosition PersonRef.student = some ⟨0, 1, 0⟩)) (by decide)
    simpa using this
  have hv : PlayerAction.MoveRight ∈ m.ValidMovementsAt specOrder ⟨0, 1, 0⟩ := by
    have := fact_of_session hm
      (P := fun m => decide (PlayerAction.MoveRight ∈ m.ValidMovementsAt specOrder ⟨0, 1, 0⟩))
      (by decide)
    simpa using this
  exact ⟨m, hm, hwf, hp, hv,
    (C9_MovePerson_effect specOrder m hwf PersonRef.student PlayerAction.MoveRight).2
      ⟨0, 1, 0⟩ hp hv⟩

/-! ### Climbing a ladder -/

theorem deref_of_tile {m : Maze} {li i j : Nat} {l : MazeLevel} {sp : OpenSpace}
    (hl : m.levels_[li]? = some l) (ht : l.tileAt i j = some (MazeLocation.space sp)) :
    m.deref ⟨li, i, j⟩ = some sp := by
  unfold Maze.deref
  simp only [hl, ht]
  rfl

/-- C10: in a well-formed maze, when the student stands on a tile with `has_ladder` on
level `L` and chooses `ClimbUp`, the student's step of `MovePeople` succeeds; afterwards the
student's position is the start tile of level `L + 1`, that tile has `has_student` set, the
tile left has `has_student` cleared, no other tile changed and the skill count is the same. -/
theorem C10_climb_effect (m : Maze) (hwf : m.WellFormed) (sp : OpenSpace)
    (hs : m.SpaceAt m.student_.position = some sp) (hlad : sp.has_ladder = true) :
    ∃ m1 next i j st,
      m.studentStep PlayerAction.ClimbUp = some (m1, false) ∧
      m.levels_[m.student_.position.level + 1]? = some next ∧
      next.start_location_ = some (i, j) ∧
      m1.student_.position = ⟨m.student_.position.level + 1, i, j⟩ ∧
      m1.deref ⟨m.student_.position.level + 1, i, j⟩ = some st ∧
      st.is_beginning = true ∧ st.has_student = true ∧
      m1.deref m.student_.position = some { sp with has_student := false } ∧
      (∀ q, q ≠ m.student_.position → q ≠ ⟨m.student_.position.level + 1, i, j⟩ →
        m1.deref q = m.deref q) ∧
      m1.student_.prog_skills = m.student_.prog_skills := by
  obtain ⟨l, hl0, _, _, ht0⟩ := SpaceAt_eq_some.mp hs
  have hlt := hwf.ladder hl0 ht0 hlad
  have hcount := hwf.count
  have e : uadd m.student_.position.level 1 = m.student_.position.level + 1 := by
    apply uadd_one_of_lt
    unfold INT_RANGE at hcount
    unfold UINT
    omega
  obtain ⟨next, hnext⟩ : ∃ next, m.levels_[m.student_.position.level + 1]? = some next :=
    ⟨m.levels_[m.student_.position.level + 1], List.getElem?_eq_getElem hlt⟩
  obtain ⟨i, j, st, hst1, hst2, hst3, hst4⟩ := hwf.start hnext
  have hd0 : m.deref ⟨m.student_.position.level + 1, i, j⟩ = some st :=
    deref_of_tile hnext hst2
  have hne : (⟨m.student_.position.level + 1, i, j⟩ : MazePosition) ≠ m.student_.position := by
    intro h
    have := congrArg MazePosition.level h
    simp at this
  have hlev : (m.modifySpace m.student_.position
      (fun s => { s with has_student := false })).levels_[m.student_.position.level + 1]?
        = some next := by
    rw [levels_modifySpace, hnext]
    simp
  have hd2 : ((m.modifySpace m.student_.position
      (fun s => { s with has_student := false })).modifySpace
        ⟨m.student_.position.level + 1, i, j⟩ (fun s => { s with has_student := true })).deref
        ⟨m.student_.position.level + 1, i, j⟩ = some { st with has_student := true } := by
    rw [deref_modifySpace, deref_modifySpace]
    simp [hne, hd0]
  refine ⟨{ ((m.modifySpace m.student_.position
      (fun s => { s with has_student := false })).modifySpace
        ⟨m.student_.position.level + 1, i, j⟩ (fun s => { s with has_student := true })) with
      student_ := ⟨st.pos, m.student_.prog_skills⟩ },
    next, i, j, { st with has_student := true }, ?_, hnext, hst1, ?_, ?_, hst3, rfl,
    ?_, ?_, ?_⟩
  · unfold Maze.studentStep
    simp only [hs, e, hlev, hst1, hd2]
    rfl
  · exact hst4
  · show Maze.deref (Maze.modifySpace _ _ _) _ = _
    exact hd2
  · show Maze.deref (Maze.modifySpace (Maze.modifySpace m _ _) _ _) _ = _
    rw [deref_modifySpace, deref_modifySpace]
    have hne2 : ¬ m.student_.position = ⟨m.student_.position.level + 1, i, j⟩ :=
      fun h => hne h.symm
    simp [hne2, SpaceAt_deref hs]
  · intro q hq1 hq2
    show Maze.deref (Maze.modifySpace (Maze.modifySpace m _ _) _ _) _ = _
    rw [deref_modifySpace, deref_modifySpace]
    simp [hq1, hq2]
  · rfl

theorem towerInfo_inRange : towerInfo.InRange := by
  unfold MazeInfo.InRange towerInfo INT_RANGE
  decide

/-- Witness of C10: the student of the session `towerLadder` stands on the ladder tile. -/
theorem C10_climb_effect_witness :
    ∃ (m : Maze) (sp : OpenSpace), towerLadder = some m ∧ m.WellFormed ∧
      m.SpaceAt m.student_.position = some sp ∧ sp.has_ladder = true ∧
      ∃ m1 next i j st,
        m.studentStep PlayerAction.ClimbUp = some (m1, false) ∧
        m.levels_[m.student_.position.level + 1]? = some next ∧
        next.start_location_ = some (i, j) ∧
        m1.student_.position = ⟨m.student_.position.level + 1, i, j⟩ ∧
        m1.deref ⟨m.student_.position.level + 1, i, j⟩ = some st ∧
        st.is_beginning = true ∧ st.has_student = true ∧
        m1.deref m.student_.position = some { sp with has_student := false } ∧
        (∀ q, q ≠ m.student_.position → q ≠ ⟨m.student_.position.level + 1, i, j⟩ →
          m1.deref q = m.deref q) ∧
        m1.student_.prog_skills = m.student_.prog_skills := by
  have h1 : towerLadder.isSome = true := by decide
  obtain ⟨m, hm⟩ := Option.isSome_iff_exists.mp h1
  have hwf : m.WellFormed := (play_reachable towerInfo_inRange hm).wellFormed
  have hl := fact_of_session hm
    (P := fun m => match m.SpaceAt m.student_.position with
      | some sp => sp.has_ladder
      | none => false) (by decide)
  cases hs : m.SpaceAt m.student_.position with
  | none => simp [hs] at hl
  | some sp =>
    simp only [hs] at hl
    exact ⟨m, sp, hm, hwf, hs, hl, C10_climb_effect m hwf sp hs hl⟩

/-! ### A turn and the appeasement counters -/

theorem taAtIndex_modifyTA_other (m : Maze) (level idx l k : Nat) (f : TA → TA) :
    (m.modifyTA level idx f).taAtIndex l k
      = if l = level ∧ k = idx then (m.taAtIndex l k).map f else m.taAtIndex l k := by
  unfold Maze.taAtIndex Maze.modifyTA
  simp only [List.getElem?_modify]
  cases hr : m.tas_[l]? with
  | none => simp
  | some roster =>
    by_cases hl : level = l
    · subst hl
      simp only [Option.map_eq_map, Option.map_some', if_true, true_and, List.getElem?_modify]
      by_cases hk : idx = k
      · subst hk; simp
      · have hk2 : ¬ k = idx := fun h => hk h.symm
        simp [hk, hk2]
    · have hl2 : ¬ l = level := fun h => hl h.symm
      simp [hl, hl2]

theorem student_modifyTA (m : Maze) (level idx : Nat) (f : TA → TA) :
    (m.modifyTA level idx f).student_ = m.student_ := rfl

theorem taAtIndex_Occupy (m : Maze) (person : PersonRef) (p : MazePosition) (l k : Nat) :
    (m.Occupy person p).taAtIndex l k = m.taAtIndex l k := by
  cases person <;> rfl

theorem taAtIndex_Unoccupy (m : Maze) (person : PersonRef) (p : MazePosition) (l k : Nat) :
    (m.Unoccupy person p).taAtIndex l k = m.taAtIndex l k := by
  cases person <;> rfl

theorem student_Occupy (m : Maze) (person : PersonRef) (p : MazePosition) :
    (m.Occupy person p).student_ = m.student_ := by
  cases person <;> rfl

theorem student_Unoccupy (m : Maze) (person : PersonRef) (p : MazePosition) :
    (m.Unoccupy person p).student_ = m.student_ := by
  cases person <;> rfl

/-- `MovePerson` on a TA changes no counter and nothing of the student. -/
theorem MovePerson_ta_frame {m m1 : Maze} {level idx : Nat} {move : PlayerAction} {b : Bool}
    (h : m.MovePerson (PersonRef.ta level idx) move = some (b, m1)) :
    m1.student_ = m.student_ ∧
    ∀ l k, (m1.taAtIndex l k).map TA.appeased_turns = (m.taAtIndex l k).map TA.appeased_turns := by
  unfold Maze.MovePerson at h
  split at h
  · simp at h; rw [← h.2]; exact ⟨rfl, fun _ _ => rfl⟩
  · simp at h; rw [← h.2]; exact ⟨rfl, fun _ _ => rfl⟩
  · cases hp : m.personPosition (PersonRef.ta level idx) with
    | none => simp [hp] at h
    | some pos =>
      simp only [hp] at h
      cases hs : m.SpaceAt pos with
      | none => simp [hs] at h
      | some sp =>
        simp only [hs] at h
        cases hd : PlayerActionToDirection move with
        | none => simp [hd] at h
        | some dir =>
          simp only [hd] at h
          cases hs2 : (m.Unoccupy (PersonRef.ta level idx) pos).SpaceAt (pos.Translate dir 1) with
          | none => simp [hs2] at h
          | some sp2 =>
            simp [hs2] at h
            rw [← h.2]
            constructor
            · show (Maze.modifyTA _ _ _ _).student_ = _
              rw [student_modifyTA, student_Occupy, student_Unoccupy]
            · intro l k
              show ((Maze.modifyTA _ _ _ _).taAtIndex l k).map _ = _
              rw [taAtIndex_modifyTA_other, taAtIndex_Occupy, taAtIndex_Unoccupy]
              split
              · cases m.taAtIndex l k <;> rfl
              · rfl

/-- One iteration of the TA loop: the TA at `idx` has its counter decremented (saturating),
then raised by 10 when the student demonstrated; the other TAs keep theirs. -/
theorem moveTA_counters {dirs : List PlayerDirectionAction} {m m1 : Maze}
    {level idx draw : Nat} {a : Bool} (h : m.moveTA dirs level idx draw a = some m1) :
    m1.student_ = m.student_ ∧
    ∀ l k, (m1.taAtIndex l k).map TA.appeased_turns
      = (m.taAtIndex l k).map (fun t =>
          if l = level ∧ k = idx then
            (if a then t.DecrementAppeasement.Appease else t.DecrementAppeasement).appeased_turns
          else t.appeased_turns) := by
  unfold Maze.moveTA at h
  cases ht : m.taAtIndex level idx with
  | none => simp [ht] at h
  | some ta =>
    simp only [ht] at h
    split at h
    · simp at h
    · split at h
      · simp at h
      · rename_i b m2 hmp
        obtain ⟨f1, f2⟩ := MovePerson_ta_frame hmp
        have key : ∀ l k, (m2.taAtIndex l k).map TA.appeased_turns
            = (m.taAtIndex l k).map (fun t =>
                if l = level ∧ k = idx then t.DecrementAppeasement.appeased_turns
                else t.appeased_turns) := by
          intro l k
          rw [f2, taAtIndex_modifyTA_other]
          by_cases hlk : l = level ∧ k = idx
          · simp only [hlk, and_self, if_true]
            cases m.taAtIndex level idx <;> rfl
          · simp only [hlk, if_false]
        cases a with
        | false =>
          simp at h
          subst h
          exact ⟨f1, fun l k => by simpa using key l k⟩
        | true =>
          simp at h
          subst h
          refine ⟨f1, ?_⟩
          intro l k
          rw [taAtIndex_modifyTA_other]
          by_cases hlk : l = level ∧ k = idx
          · simp only [hlk, and_self, if_true]
            have k1 := key level idx
            simp only [and_self, if_true] at k1
            cases h2 : m2.taAtIndex level idx with
            | none =>
              rw [h2] at k1
              cases h0 : m.taAtIndex level idx with
              | none => rfl
              | some t0 => rw [h0] at k1; simp at k1
            | some t2 =>
              rw [h2] at k1
              cases h0 : m.taAtIndex level idx with
              | none => rw [h0] at k1; simp at k1
              | some t0 =>
                rw [h0] at k1
                simp only [Option.map_some', Option.some.injEq] at k1 ⊢
                simp only [TA.Appease, k1]
          · simp only [hlk, if_false]
            have := key l k
            simp only [hlk, if_false] at this
            exact this

theorem counter_congr (t2 t0 : TA) (e : t2.appeased_turns = t0.appeased_turns) (a : Bool) :
    (if a then t2.DecrementAppeasement.Appease else t2.DecrementAppeasement).appeased_turns
      = (if a then t0.DecrementAppeasement.Appease
          else t0.DecrementAppeasement).appeased_turns := by
  cases a
  · simp only [TA.DecrementAppeasement, e, Bool.false_eq_true, if_false]
    split
    · rfl
    · exact e
  · simp only [TA.Appease, TA.DecrementAppeasement, e, if_true]
    split
    · rfl
    · rw [e]

theorem moveTAs_counters {dirs : List PlayerDirectionAction} {level : Nat}
    {draws : Nat → Nat} {a : Bool} :
    ∀ (idxs : List Nat) (m m1 : Maze), idxs.Nodup →
      Maze.moveTAs dirs level draws a idxs m = some m1 →
      m1.student_ = m.student_ ∧
      ∀ l k, (m1.taAtIndex l k).map TA.appeased_turns
        = (m.taAtIndex l k).map (fun t =>
            if l = level ∧ k ∈ idxs then
              (if a then t.DecrementAppeasement.Appease
                else t.DecrementAppeasement).appeased_turns
            else t.appeased_turns) := by
  intro idxs
  induction idxs with
  | nil =>
    intro m m1 _ h
    simp [Maze.moveTAs] at h
    subst h
    refine ⟨rfl, fun l k => ?_⟩
    cases m.taAtIndex l k <;> simp
  | cons i rest ih =>
    intro m m1 hnd h
    unfold Maze.moveTAs at h
    cases hm : m.moveTA dirs level i (draws i) a with
    | none => simp [hm] at h
    | some m2 =>
      simp only [hm] at h
      obtain ⟨s1, c1⟩ := moveTA_counters hm
      obtain ⟨s2, c2⟩ := ih m2 m1 (List.nodup_cons.mp hnd).2 h
      refine ⟨s2.trans s1, fun l k => ?_⟩
      have hni : i ∉ rest := (List.nodup_cons.mp hnd).1
      have e1 := c1 l k
      have e2 := c2 l k
      cases h0 : m.taAtIndex l k with
      | none =>
        rw [h0] at e1
        cases h2 : m2.taAtIndex l k with
        | none => rw [h2] at e2; simpa using e2
        | some t2 => rw [h2] at e1; simp at e1
      | some t0 =>
        rw [h0] at e1
        cases h2 : m2.taAtIndex l k with
        | none => rw [h2] at e1; simp at e1
        | some t2 =>
          rw [h2] at e1 e2
          simp only [Option.map_some', Option.some.injEq] at e1
          rw [e2]
          simp only [Option.map_some', Option.some.injEq, List.mem_cons]
          by_cases hl : l = level
          · by_cases hk : k = i
            · have hkr : k ∉ rest := by rw [hk]; exact hni
              simp only [hl, hk, true_and, hni, if_false, true_or, if_true] at e1 ⊢
              exact e1
            · by_cases hkr : k ∈ rest
              · simp only [hl, hk, hkr, true_and, and_false, if_false, or_true, if_true,
                  false_or] at e1 ⊢
                exact counter_congr t2 t0 e1 a
              · simp only [hl, hk, hkr, true_and, and_false, if_false, or_self] at e1 ⊢
                exact e1
          · simp only [hl, false_and, if_false] at e1 ⊢
            exact e1

theorem counter_after_demo (t : TA) :
    t.DecrementAppeasement.Appease.appeased_turns
      = counterAfterDemonstration t.appeased_turns := by
  unfold TA.Appease TA.DecrementAppeasement counterAfterDemonstration uadd
  by_cases h : t.appeased_turns = 0
  · simp [h]
  · have hp : t.appeased_turns > 0 := Nat.pos_of_ne_zero h
    simp only [hp, if_true, h, if_false]
    congr 1
    omega

/-- C6, amended: in every turn in which the student chooses `DemonstrateSkill` the skill
count was positive and is decremented by one, and every TA of the student's level ends the
turn with the counter `c + 9` when its counter before the turn was `c ≥ 1` and with `10`
when it was `0` (32-bit unsigned arithmetic): the decrement saturates at 0. -/
theorem C6_demonstrate_counters (dirs : List PlayerDirectionAction) (m m1 : Maze)
    (draws : Nat → Nat)
    (h : m.MovePeople dirs PlayerAction.DemonstrateSkill draws = some m1) :
    0 < m.student_.prog_skills ∧
    m1.student_.prog_skills = m.student_.prog_skills - 1 ∧
    m1.student_.position = m.student_.position ∧
    ∀ idx ta, m.taAtIndex m.student_.position.level idx = some ta →
      ∃ ta1, m1.taAtIndex m.student_.position.level idx = some ta1 ∧
        ta1.appeased_turns = counterAfterDemonstration ta.appeased_turns := by
  unfold Maze.MovePeople at h
  cases hg : IntrepidStudent.GetMove (m.ValidActionsAt dirs m.student_.position)
      PlayerAction.DemonstrateSkill with
  | none => simp [hg] at h
  | some s_move =>
    simp only [hg] at h
    unfold IntrepidStudent.GetMove at hg
    split at hg
    · rename_i hmem
      simp at hg
      subst hg
      have hpos : 0 < m.student_.prog_skills :=
        ((C8_special_actions_offered dirs m m.student_.position).2.1).mp hmem
      simp only [Maze.studentStep] at h
      cases hr : m.tas_[m.student_.position.level]? with
      | none =>
        rw [show ({ m with student_ := m.student_.DecrementSkills } : Maze).tas_ = m.tas_
          from rfl] at h
        have hp2 : ({ m with student_ := m.student_.DecrementSkills } : Maze).student_.position
            = m.student_.position := by
          simp only [IntrepidStudent.DecrementSkills]; split <;> rfl
        rw [hp2, hr] at h
        simp at h
      | some roster =>
        have hp2 : ({ m with student_ := m.student_.DecrementSkills } : Maze).student_.position
            = m.student_.position := by
          simp only [IntrepidStudent.DecrementSkills]; split <;> rfl
        rw [show ({ m with student_ := m.student_.DecrementSkills } : Maze).tas_ = m.tas_
          from rfl, hp2, hr] at h
        simp only at h
        obtain ⟨s1, c1⟩ := moveTAs_counters _ _ _ (List.nodup_range _) h
        refine ⟨hpos, ?_, ?_, ?_⟩
        · rw [s1]
          simp [IntrepidStudent.DecrementSkills, hpos]
        · rw [s1]; exact hp2
        · intro idx ta hta
          have hlt : idx < roster.length := by
            unfold Maze.taAtIndex at hta
            rw [hr] at hta
            exact (List.getElem?_eq_some_iff.mp hta).1
          have e := c1 m.student_.position.level idx
          have hta2 : ({ m with student_ := m.student_.DecrementSkills } : Maze).taAtIndex
              m.student_.position.level idx = some ta := hta
          rw [hta2] at e
          simp only [List.mem_range, hlt, and_self, if_true, Option.map_some'] at e
          cases h1 : m1.taAtIndex m.student_.position.level idx with
          | none => rw [h1] at e; simp at e
          | some ta1 =>
            rw [h1] at e
            simp only [Option.map_some', Option.some.injEq] at e
            exact ⟨ta1, rfl, by rw [e, counter_after_demo]⟩
    · simp at hg

/-- Witness of C6 (amended): the student of the session `hallOneSkill` holds one skill and
demonstrates it. -/
theorem C6_demonstrate_counters_witness :
    ∃ m m1 : Maze, hallOneSkill = some m ∧
      m.MovePeople specOrder PlayerAction.DemonstrateSkill (fun _ => 0) = some m1 ∧
      0 < m.student_.prog_skills ∧
      m1.student_.prog_skills = m.student_.prog_skills - 1 ∧
      m1.student_.position = m.student_.position ∧
      ∀ idx ta, m.taAtIndex m.student_.position.level idx = some ta →
        ∃ ta1, m1.taAtIndex m.student_.position.level idx = some ta1 ∧
          ta1.appeased_turns = counterAfterDemonstration ta.appeased_turns := by
  have h1 : hallOneSkill.isSome = true := by decide
  obtain ⟨m, hm⟩ := Option.isSome_iff_exists.mp h1
  have h2 := fact_of_session hm
    (P := fun m => (m.MovePeople specOrder PlayerAction.DemonstrateSkill (fun _ => 0)).isSome)
    (by decide)
  obtain ⟨m1, hm1⟩ := Option.isSome_iff_exists.mp h2
  exact ⟨m, m1, hm, hm1,
    C6_demonstrate_counters specOrder m m1 (fun _ => 0) hm1⟩

/-- Counterexample to C6 as stated: in the state reached by the session `hallOneSkill` the
student holds one skill and the first TA of the level has the counter 0; after the turn in
which the student demonstrates the skill that TA has the counter 10, which is not 9 higher
than 0. -/
theorem C6_counter_from_zero_is_ten :
    ∃ (m m1 : Maze) (ta ta1 : TA), hallOneSkill = some m ∧ Reachable specOrder m ∧
      m.student_.prog_skills = 1 ∧
      m.MovePeople specOrder PlayerAction.DemonstrateSkill (fun _ => 0) = some m1 ∧
      m.taAtIndex m.student_.position.level 0 = some ta ∧
      m1.taAtIndex m.student_.position.level 0 = some ta1 ∧
      ta.appeased_turns = 0 ∧ ta1.appeased_turns = 10 ∧
      ta1.appeased_turns ≠ ta.appeased_turns + 9 := by
  have h1 : hallOneSkill.isSome = true := by decide
  obtain ⟨m, hm⟩ := Option.isSome_iff_exists.mp h1
  have hreach : Reachable specOrder m := play_reachable hallInfo_inRange hm
  have h2 := fact_of_session hm
    (P := fun m => (m.MovePeople specOrder PlayerAction.DemonstrateSkill (fun _ => 0)).isSome)
    (by decide)
  obtain ⟨m1, hm1⟩ := Option.isSome_iff_exists.mp h2
  have hsk := fact_of_session hm (P := fun m => decide (m.student_.prog_skills = 1))
    (by decide)
  have hc0 := fact_of_session hm
    (P := fun m => decide ((m.taAtIndex m.student_.position.level 0).map TA.appeased_turns
      = some 0)) (by decide)
  have hc1 := fact_of_session hm
    (P := fun m => decide
      (((m.MovePeople specOrder PlayerAction.DemonstrateSkill (fun _ => 0)).bind
        (fun m1 => (m1.taAtIndex m.student_.position.level 0).map TA.appeased_turns))
      = some 10)) (by decide)
  simp only [decide_eq_true_eq] at hsk hc0 hc1
  rw [hm1] at hc1
  simp only [Option.some_bind] at hc1
  cases ht : m.taAtIndex m.student_.position.level 0 with
  | none => rw [ht] at hc0; simp at hc0
  | some ta =>
    rw [ht] at hc0
    simp only [Option.map_some', Option.some.injEq] at hc0
    cases ht1 : m1.taAtIndex m.student_.position.level 0 with
    | none => rw [ht1] at hc1; simp at hc1
    | some ta1 =>
      rw [ht1] at hc1
      simp only [Option.map_some', Option.some.injEq] at hc1
      exact ⟨m, m1, ta, ta1, hm, hreach, hsk, hm1, ht, ht1, hc0, hc1, by rw [hc0, hc1]; decide⟩

/-! ### Picking up a skill -/

theorem afterPickup_student (m : Maze) :
    m.afterPickup.student_ = m.student_.IncrementSkills := rfl

theorem afterPickup_tas (m : Maze) : m.afterPickup.tas_ = m.tas_ := rfl

theorem afterPickup_layout (m : Maze) : m.afterPickup.layout = m.layout := by
  unfold Maze.afterPickup
  rw [Maze.layout_modifySpace]
  · rfl
  · intro s; rfl

theorem afterPickup_deref (m : Maze) (q : MazePosition) :
    m.afterPickup.deref q
      = if q = m.student_.position then
          (m.deref q).map (fun s => { s with has_skill := false })
        else m.deref q := by
  unfold Maze.afterPickup
  rw [deref_modifySpace]
  rfl

/-- In a well-formed maze the loop of `SpacesAdjacentTo` never throws. -/
theorem adjacentLoop_total {m : Maze} (hwf : m.WellFormed) (from_pos : MazePosition) :
    ∀ dirs : List PlayerDirectionAction, ∃ ptrs, m.adjacentLoop from_pos dirs = some ptrs := by
  intro dirs
  induction dirs with
  | nil => exact ⟨[], rfl⟩
  | cons d rest ih =>
    obtain ⟨ptrs, hp⟩ := ih
    unfold Maze.adjacentLoop
    by_cases hc : m.CanMoveInDirection from_pos d = true
    · simp only [hc, if_true]
      have hc2 := hc
      unfold Maze.CanMoveInDirection at hc2
      cases hs : m.SpaceAt from_pos with
      | none => simp [hs] at hc2
      | some s =>
        simp only [hs] at hc2
        rw [hwf.SpaceAt_pos hs] at hc2
        obtain ⟨s2, hs2⟩ := Option.isSome_iff_exists.mp hc2
        simp only [hs2, hp]
        exact ⟨_, rfl⟩
    · simp only [hc]
      exact ⟨ptrs, hp⟩

theorem uadd_one_skills (n : Nat) : uadd n 1 = (n + 1) % UINT := rfl

/-- C2 on the code: in the state reached by the session `hallCrossing` the first TA of the
level stands on the student's own position with the counter 0, but the tile has lost
`has_ta` (the second TA cleared it when it left the tile after the first had entered), and
`HandleCurrentPosition` returns `FailedByInstructor`, not `CaughtByTA`. -/
theorem C2_flagless_TA_not_caught :
    ∃ (m m1 : Maze) (ta : TA) (sp : OpenSpace), hallCrossing = some m ∧
      Reachable specOrder m ∧
      m.taAtIndex m.student_.position.level 0 = some ta ∧
      ta.position = m.student_.position ∧ ta.appeased_turns ≤ 1 ∧
      m.SpaceAt m.student_.position = some sp ∧ sp.has_ta = false ∧
      m.HandleCurrentPosition specOrder = some (MoveResult.FailedByInstructor, m1) := by
  have h1 : hallCrossing.isSome = true := by decide
  obtain ⟨m, hm⟩ := Option.isSome_iff_exists.mp h1
  have hreach : Reachable specOrder m := play_reachable hallInfo_inRange hm
  have hta := fact_of_session hm
    (P := fun m => match m.taAtIndex m.student_.position.level 0 with
      | some ta => decide (ta.position = m.student_.position) &&
          decide (ta.appeased_turns ≤ 1)
      | none => false) (by decide)
  have hsp := fact_of_session hm
    (P := fun m => match m.SpaceAt m.student_.position with
      | some sp => !sp.has_ta
      | none => false) (by decide)
  have hres := fact_of_session hm
    (P := fun m => match m.HandleCurrentPosition specOrder with
      | some (r, _) => decide (r = MoveResult.FailedByInstructor)
      | none => false) (by decide)
  cases ht : m.taAtIndex m.student_.position.level 0 with
  | none => simp [ht] at hta
  | some ta =>
    simp only [ht, Bool.and_eq_true, decide_eq_true_eq] at hta
    cases hs : m.SpaceAt m.student_.position with
    | none => simp [hs] at hsp
    | some sp =>
      simp only [hs, Bool.not_eq_true'] at hsp
      cases hh : m.HandleCurrentPosition specOrder with
      | none => simp [hh] at hres
      | some p =>
        obtain ⟨r, m1⟩ := p
        simp only [hh, decide_eq_true_eq] at hres
        subst hres
        exact ⟨m, m1, ta, sp, hm, hreach, ht, hta.1, hta.2, hs, hsp, hh⟩

/-- C5 on the code: in the state reached by the session `hallMaskedInstructor` the student's
tile has neither `has_ta` nor `has_skill`, every TA of the maze is appeased (counter above
1), the tile above the student is the instructor's tile, the student has fewer than 3
skills, and `HandleCurrentPosition` returns `NoEvent`: the appeased TA standing on the
instructor's tile hides the instructor. -/
theorem C5_appeased_TA_masks_instructor :
    ∃ (m m1 : Maze) (sp0 sp : OpenSpace), hallMaskedInstructor = some m ∧
      Reachable specOrder m ∧
      m.SpaceAt m.student_.position = some sp0 ∧ sp0.has_ta = false ∧ sp0.has_skill = false ∧
      (∀ roster ∈ m.tas_, ∀ ta ∈ roster, 1 < ta.appeased_turns) ∧
      m.AdjacentToStudent sp ∧ sp.has_instructor = true ∧ sp.pos = m.instructor_.position ∧
      sp.has_ta = true ∧ m.student_.prog_skills < 3 ∧
      m.HandleCurrentPosition specOrder = some (MoveResult.NoEvent, m1) := by
  have h1 : hallMaskedInstructor.isSome = true := by decide
  obtain ⟨m, hm⟩ := Option.isSome_iff_exists.mp h1
  have hreach : Reachable specOrder m := play_reachable hallInfo_inRange hm
  have hown := fact_of_session hm
    (P := fun m => match m.SpaceAt m.student_.position with
      | some sp0 => !sp0.has_ta && !sp0.has_skill &&
          (match m.SpaceAt (sp0.pos.Translate PlayerDirectionAction.Up 1) with
            | some sp => sp.has_instructor && sp.has_ta &&
                decide (sp.pos = m.instructor_.position)
            | none => false)
      | none => false) (by decide)
  have htas := fact_of_session hm
    (P := fun m => m.tas_.all (fun roster =>
      roster.all (fun ta => decide (1 < ta.appeased_turns)))) (by decide)
  have hskill := fact_of_session hm (P := fun m => decide (m.student_.prog_skills < 3))
    (by decide)
  have hres := fact_of_session hm
    (P := fun m => match m.HandleCurrentPosition specOrder with
      | some (r, _) => decide (r = MoveResult.NoEvent)
      | none => false) (by decide)
  cases hs0 : m.SpaceAt m.student_.position with
  | none => simp [hs0] at hown
  | some sp0 =>
    simp only [hs0] at hown
    cases hs : m.SpaceAt (sp0.pos.Translate PlayerDirectionAction.Up 1) with
    | none => simp [hs] at hown
    | some sp =>
      simp only [hs, Bool.and_eq_true, Bool.not_eq_true', decide_eq_true_eq] at hown
      obtain ⟨⟨h01, h02⟩, ⟨h03, h04⟩, h05⟩ := hown
      cases hh : m.HandleCurrentPosition specOrder with
      | none => simp [hh] at hres
      | some p =>
        obtain ⟨r, m1⟩ := p
        simp only [hh, decide_eq_true_eq] at hres hskill
        subst hres
        refine ⟨m, m1, sp0, sp, hm, hreach, hs0, h01, h02, ?_,
          ⟨sp0, PlayerDirectionAction.Up, hs0, hs⟩, h03, h05, h04, hskill, hh⟩
        intro roster hr ta hta
        simp only [List.all_eq_true, decide_eq_true_eq] at htas
        exact htas roster hr ta hta

/-! ### The defects and counterexamples for every enumeration order of the directions -/

theorem mem_allOrders_four :
    ∀ a b c d : PlayerDirectionAction, [a, b, c, d].Perm specOrder → [a, b, c, d] ∈ allOrders := by
  intro a b c d
  cases a <;> cases b <;> cases c <;> cases d <;> decide

theorem mem_allOrders (dirs : List PlayerDirectionAction) (h : dirs.Perm specOrder) :
    dirs ∈ allOrders := by
  have hl : dirs.length = 4 := by rw [h.length_eq]; rfl
  match dirs, hl, h with
  | [a, b, c, d], _, h => exact mem_allOrders_four a b c d h

theorem playToward_reachable {dirs : List PlayerDirectionAction} {info : MazeInfo}
    {text : List String} {tas skills : List (List MazePosition)} {steps : List Step} {m : Maze}
    (hinfo : info.InRange) (h : playToward dirs info text tas skills steps = some m) :
    Reachable dirs m :=
  play_reachable hinfo h

theorem crossInfo_inRange : (⟨1, 5, 5⟩ : MazeInfo).InRange := by
  unfold MazeInfo.InRange INT_RANGE
  decide

theorem crossingCheck_all : ∀ dirs ∈ allOrders, crossingCheck dirs = true := by decide

theorem maskedInstructorCheck_all : ∀ dirs ∈ allOrders, maskedInstructorCheck dirs = true := by
  decide

theorem skillNextToTACheck_all : ∀ dirs ∈ allOrders, skillNextToTACheck dirs = true := by
  decide

theorem oneSkillCheck_all : ∀ dirs ∈ allOrders, oneSkillCheck dirs = true := by decide

/-- C2 on the code, for every order in which the standard library enumerates the four
directions: a state reachable by construction and one turn in which a TA with counter 0
stands on the student's position while `HandleCurrentPosition` returns
`FailedByInstructor`. -/
theorem flagless_TA_not_caught_every_order (dirs : List PlayerDirectionAction)
    (hperm : dirs.Perm specOrder) :
    ∃ (m m1 : Maze) (ta : TA), Reachable dirs m ∧
      m.taAtIndex m.student_.position.level 0 = some ta ∧
      ta.position = m.student_.position ∧ ta.appeased_turns ≤ 1 ∧
      m.HandleCurrentPosition dirs = some (MoveResult.FailedByInstructor, m1) := by
  have hc := crossingCheck_all dirs (mem_allOrders dirs hperm)
  unfold crossingCheck at hc
  cases hm : crossing dirs with
  | none => simp [hm] at hc
  | some m =>
    simp only [hm, Bool.and_eq_true] at hc
    obtain ⟨h1, h2⟩ := hc
    cases ht : m.taAtIndex m.student_.position.level 0 with
    | none => simp [ht] at h1
    | some ta =>
      simp only [ht, Bool.and_eq_true, decide_eq_true_eq] at h1
      cases hh : m.HandleCurrentPosition dirs with
      | none => simp [hh] at h2
      | some p =>
        obtain ⟨r, m1⟩ := p
        simp only [hh, decide_eq_true_eq] at h2
        subst h2
        exact ⟨m, m1, ta, playToward_reachable crossInfo_inRange hm, ht, h1.1, h1.2, hh⟩

/-- C5 on the code, for every enumeration order of the directions: a reachable state in
which the student's tile has neither `has_ta` nor `has_skill`, every TA is appeased, the
instructor's tile is adjacent to the student, the student has fewer than 3 skills, and
`HandleCurrentPosition` returns `NoEvent`. -/
theorem appeased_TA_masks_instructor_every_order (dirs : List PlayerDirectionAction)
    (hperm : dirs.Perm specOrder) :
    ∃ (m m1 : Maze) (sp0 sp : OpenSpace), Reachable dirs m ∧
      m.SpaceAt m.student_.position = some sp0 ∧ sp0.has_ta = false ∧ sp0.has_skill = false ∧
      (∀ roster ∈ m.tas_, ∀ ta ∈ roster, 1 < ta.appeased_turns) ∧
      m.AdjacentToStudent sp ∧ sp.has_instructor = true ∧ sp.pos = m.instructor_.position ∧
      m.student_.prog_skills < 3 ∧
      m.HandleCurrentPosition dirs = some (MoveResult.NoEvent, m1) := by
  have hc := maskedInstructorCheck_all dirs (mem_allOrders dirs hperm)
  unfold maskedInstructorCheck at hc
  cases hm : maskedInstructor dirs with
  | none => simp [hm] at hc
  | some m =>
    simp only [hm, Bool.and_eq_true] at hc
    obtain ⟨⟨⟨hown, htas⟩, hskill⟩, hres⟩ := hc
    cases hs0 : m.SpaceAt m.student_.position with
    | none => simp [hs0] at hown
    | some sp0 =>
      simp only [hs0] at hown
      cases hs : m.SpaceAt (sp0.pos.Translate PlayerDirectionAction.Up 1) with
      | none => simp [hs] at hown
      | some sp =>
        simp only [hs, Bool.and_eq_true, Bool.not_eq_true', decide_eq_true_eq] at hown
        obtain ⟨⟨h01, h02⟩, ⟨h03, _⟩, h05⟩ := hown
        cases hh : m.HandleCurrentPosition dirs with
        | none => simp [hh] at hres
        | some p =>
          obtain ⟨r, m1⟩ := p
          simp only [hh, decide_eq_true_eq] at hres hskill
          subst hres
          refine ⟨m, m1, sp0, sp, playToward_reachable hallInfo_inRange hm, hs0, h01, h02, ?_,
            ⟨sp0, PlayerDirectionAction.Up, hs0, hs⟩, h03, h05, hskill, hh⟩
          intro roster hr ta hta
          simp only [List.all_eq_true, decide_eq_true_eq] at htas
          exact htas roster hr ta hta

/-- The counterexample to C4 as stated, for every enumeration order of the directions. -/
theorem pickup_then_caught_every_order (dirs : List PlayerDirectionAction)
    (hperm : dirs.Perm specOrder) :
    ∃ (m m1 : Maze) (sp : OpenSpace), Reachable dirs m ∧
      m.SpaceAt m.student_.position = some sp ∧ sp.has_skill = true ∧ sp.has_ta = false ∧
      (∀ roster ∈ m.tas_, ∀ ta ∈ roster, ta.position ≠ m.student_.position) ∧
      m.HandleCurrentPosition dirs = some (MoveResult.CaughtByTA, m1) ∧
      m1.student_.prog_skills = m.student_.prog_skills + 1 := by
  have hc := skillNextToTACheck_all dirs (mem_allOrders dirs hperm)
  unfold skillNextToTACheck at hc
  cases hm : skillNextToTA dirs with
  | none => simp [hm] at hc
  | some m =>
    simp only [hm, Bool.and_eq_true] at hc
    obtain ⟨⟨hf, hno⟩, hres⟩ := hc
    cases hs : m.SpaceAt m.student_.position with
    | none => simp [hs] at hf
    | some sp =>
      simp only [hs, Bool.and_eq_true, Bool.not_eq_true'] at hf
      cases hh : m.HandleCurrentPosition dirs with
      | none => simp [hh] at hres
      | some p =>
        obtain ⟨r, m1⟩ := p
        simp only [hh, Bool.and_eq_true, decide_eq_true_eq] at hres
        obtain ⟨hr, hskill⟩ := hres
        subst hr
        refine ⟨m, m1, sp, playToward_reachable hallInfo_inRange hm, hs, hf.1, hf.2, ?_, hh,
          hskill⟩
        intro roster hr ta hta
        simp only [List.all_eq_true, decide_eq_true_eq] at hno
        exact hno roster hr ta hta

/-- The counterexample to C6 as stated, for every enumeration order of the directions. -/
theorem counter_from_zero_is_ten_every_order (dirs : List PlayerDirectionAction)
    (hperm : dirs.Perm specOrder) :
    ∃ (m m1 : Maze) (ta ta1 : TA), Reachable dirs m ∧ m.student_.prog_skills = 1 ∧
      m.MovePeople dirs PlayerAction.DemonstrateSkill (fun _ => 0) = some m1 ∧
      m.taAtIndex m.student_.position.level 0 = some ta ∧
      m1.taAtIndex m.student_.position.level 0 = some ta1 ∧
      ta.appeased_turns = 0 ∧ ta1.appeased_turns = 10 := by
  have hc := oneSkillCheck_all dirs (mem_allOrders dirs hperm)
  unfold oneSkillCheck at hc
  cases hm : oneSkill dirs with
  | none => simp [hm] at hc
  | some m =>
    simp only [hm, Bool.and_eq_true, decide_eq_true_eq] at hc
    obtain ⟨⟨hsk, hc0⟩, hc1⟩ := hc
    cases hmv : m.MovePeople dirs PlayerAction.DemonstrateSkill (fun _ => 0) with
    | none => rw [hmv] at hc1; simp at hc1
    | some m1 =>
      rw [hmv] at hc1
      simp only [Option.some_bind] at hc1
      cases ht : m.taAtIndex m.student_.position.level 0 with
      | none => rw [ht] at hc0; simp at hc0
      | some ta =>
        rw [ht] at hc0
        simp only [Option.map_some', Option.some.injEq] at hc0
        cases ht1 : m1.taAtIndex m.student_.position.level 0 with
        | none => rw [ht1] at hc1; simp at hc1
        | some ta1 =>
          rw [ht1] at hc1
          simp only [Option.map_some', Option.some.injEq] at hc1
          exact ⟨m, m1, ta, ta1, playToward_reachable hallInfo_inRange hm, hsk, hmv, ht,
            ht1, hc0, hc1⟩

/-! ### The instructor outcomes when nothing hides the instructor -/

theorem adjacentLoop_complete {m : Maze} {from_pos : MazePosition} :
    ∀ (dirs : List PlayerDirectionAction) (ptrs : List MazePosition),
      m.adjacentLoop from_pos dirs = some ptrs →
      ∀ d ∈ dirs, m.CanMoveInDirection from_pos d = true → from_pos.Translate d 1 ∈ ptrs := by
  intro dirs
  induction dirs with
  | nil => intro ptrs _ d hd; simp at hd
  | cons e rest ih =>
    intro ptrs h d hd hc
    unfold Maze.adjacentLoop at h
    by_cases he : m.CanMoveInDirection from_pos e = true
    · simp only [he, if_true] at h
      cases hs : m.SpaceAt (from_pos.Translate e 1) with
      | none => simp [hs] at h
      | some sp =>
        simp only [hs] at h
        cases hr : m.adjacentLoop from_pos rest with
        | none => simp [hr] at h
        | some l =>
          simp [hr] at h
          subst h
          rcases List.mem_cons.mp hd with h1 | h1
          · subst h1; simp
          · exact List.mem_cons_of_mem _ (ih l hr d h1 hc)
    · simp only [he] at h
      rcases List.mem_cons.mp hd with h1 | h1
      · subst h1; exact absurd hc he
      · exact ih ptrs h d h1 hc

theorem scanAdjacent_instructor {m : Maze} :
    ∀ ptrs : List MazePosition,
      (∀ ptr ∈ ptrs, ∃ sp, m.deref ptr = some sp ∧
        (m.ScanPasses sp ∨ (sp.has_ta = false ∧ sp.has_instructor = true))) →
      (∃ ptr ∈ ptrs, ∃ sp, m.deref ptr = some sp ∧ sp.has_ta = false ∧
        sp.has_instructor = true) →
      m.scanAdjacent ptrs = some (some
        (if m.student_.prog_skills < 3 then MoveResult.FailedByInstructor
          else MoveResult.SatisfiedInstructor)) := by
  intro ptrs
  induction ptrs with
  | nil => intro _ h; obtain ⟨ptr, hp, _⟩ := h; simp at hp
  | cons ptr rest ih =>
    intro hall hex
    obtain ⟨sp, hd, hcase⟩ := hall ptr (by simp)
    unfold Maze.scanAdjacent
    simp only [hd]
    rcases hcase with (⟨h1, ta, h2, h3⟩ | ⟨h1, h2⟩) | ⟨h1, h2⟩
    · have hap : ta.IsAppeased = true := by simpa [TA.IsAppeased] using h3
      simp only [h1, if_true, h2, hap, Bool.not_true, Bool.false_eq_true, if_false]
      apply ih (fun p hp => hall p (List.mem_cons_of_mem _ hp))
      obtain ⟨q, hq, sq, hdq, hq1, hq2⟩ := hex
      rcases List.mem_cons.mp hq with e | e
      · subst e
        rw [hd] at hdq
        simp at hdq
        subst hdq
        rw [h1] at hq1
        cases hq1
      · exact ⟨q, e, sq, hdq, hq1, hq2⟩
    · simp only [h1, h2, Bool.false_eq_true, if_false]
      apply ih (fun p hp => hall p (List.mem_cons_of_mem _ hp))
      obtain ⟨q, hq, sq, hdq, hq1, hq2⟩ := hex
      rcases List.mem_cons.mp hq with e | e
      · subst e
        rw [hd] at hdq
        simp at hdq
        subst hdq
        rw [h2] at hq2
        cases hq2
      · exact ⟨q, e, sq, hdq, hq1, hq2⟩
    · simp only [h1, h2, Bool.false_eq_true, if_false, if_true]
      split <;> rfl

/-- What the code does by design around C5: in a well-formed maze, when the student's tile
holds an appeased TA or has neither `has_ta` nor `has_skill`, every adjacent open space is
harmless or is a `has_instructor` tile without `has_ta`, and there is such an instructor
tile, `HandleCurrentPosition` returns `FailedByInstructor` for fewer than 3 skills and
`SatisfiedInstructor` otherwise, and changes nothing. -/
theorem instructor_outcome_when_unmasked (dirs : List PlayerDirectionAction) (m : Maze)
    (hwf : m.WellFormed) (hall : ∀ d : PlayerDirectionAction, d ∈ dirs) (sp0 : OpenSpace)
    (hs : m.SpaceAt m.student_.position = some sp0)
    (hown : (sp0.has_ta = true ∧ ∃ ta, m.TaAt sp0.pos = some ta ∧ 1 < ta.appeased_turns) ∨
      (sp0.has_ta = false ∧ sp0.has_skill = false))
    (hadj : ∀ sp, m.AdjacentToStudent sp →
      m.ScanPasses sp ∨ (sp.has_ta = false ∧ sp.has_instructor = true))
    (hinst : ∃ sp, m.AdjacentToStudent sp ∧ sp.has_ta = false ∧ sp.has_instructor = true) :
    m.HandleCurrentPosition dirs
      = some (if m.student_.prog_skills < 3 then MoveResult.FailedByInstructor
          else MoveResult.SatisfiedInstructor, m) := by
  have hpos : sp0.pos = m.student_.position := hwf.SpaceAt_pos hs
  have ho : m.HandleOccupiedSpace m.student_.position = some (MoveResult.NoEvent, m) := by
    unfold Maze.HandleOccupiedSpace
    simp only [SpaceAt_deref hs]
    rcases hown with ⟨h1, ta, h2, h3⟩ | ⟨h1, h2⟩
    · have hap : ta.IsAppeased = true := by simpa [TA.IsAppeased] using h3
      simp [h1, h2, hap]
    · simp [h1, h2]
  obtain ⟨ptrs, hp⟩ := adjacentLoop_total hwf m.student_.position dirs
  have ha : m.SpacesAdjacentToStudent dirs = some ptrs := by
    unfold Maze.SpacesAdjacentToStudent Maze.SpacesAdjacentTo
    simp only [hs, hpos]
    exact hp
  have hscan := scanAdjacent_instructor (m := m) ptrs
    (by
      intro ptr hmem
      obtain ⟨dir, _, he, hsome⟩ := adjacentLoop_mem dirs ptrs hp ptr hmem
      obtain ⟨sp1, hsp1⟩ := Option.isSome_iff_exists.mp hsome
      exact ⟨sp1, SpaceAt_deref hsp1, hadj sp1 ⟨sp0, dir, hs, by rw [hpos, ← he]; exact hsp1⟩⟩)
    (by
      obtain ⟨sp, ⟨sp0', dir, hs', hsp⟩, h1, h2⟩ := hinst
      rw [hs] at hs'
      simp at hs'
      subst hs'
      rw [hpos] at hsp
      refine ⟨m.student_.position.Translate dir 1, ?_, sp, SpaceAt_deref hsp, h1, h2⟩
      apply adjacentLoop_complete dirs ptrs hp dir (hall dir)
      unfold Maze.CanMoveInDirection
      simp [hs, hpos, hsp])
  unfold Maze.HandleCurrentPosition
  simp only [hs, ho, ha, hscan]
  simp

/-- What the code does by design around C2: when the student's tile has `has_ta` set and the
TA that `TaAt` finds for it has a counter of at most 1, `HandleCurrentPosition` returns
`CaughtByTA` and changes nothing. -/
theorem caught_when_flagged (dirs : List PlayerDirectionAction) (m : Maze) (sp0 : OpenSpace)
    (ta : TA) (hs : m.SpaceAt m.student_.position = some sp0) (hta : sp0.has_ta = true)
    (ht : m.TaAt sp0.pos = some ta) (hle : ta.appeased_turns ≤ 1) :
    m.HandleCurrentPosition dirs = some (MoveResult.CaughtByTA, m) := by
  have hap : ta.IsAppeased = false := by
    simp only [TA.IsAppeased, decide_eq_false_iff_not]
    omega
  unfold Maze.HandleCurrentPosition Maze.HandleOccupiedSpace
  simp [hs, SpaceAt_deref hs, hta, ht, hap]

/-! ## The TA move, parsing and construction in detail -/

/-! ### The move of a TA -/

theorem PlayerActionToDirection_eq_some {a : PlayerAction} {d : PlayerDirectionAction}
    (h : PlayerActionToDirection a = some d) : PlayerDirectionToAction d = a := by
  cases a <;> cases d <;> simp [PlayerActionToDirection, PlayerDirectionToAction] at h ⊢

/-- Claim C11: for every list of valid moves with at least one directional move and every
value of the random engine, `TA::GetMove` returns an action of that list that is a directional
move, and the counter of the TA it leaves behind is `c - 1` when it was `c > 0` and `0` when
it was `0`, whatever the draw is; the position of the TA is not touched. -/
theorem C11_TA_GetMove_member (t : TA) (valid_moves : List PlayerAction) (draw : Nat)
    (h : ∃ a ∈ valid_moves, (PlayerActionToDirection a).isSome = true) :
    (∃ (a : PlayerAction) (d : PlayerDirectionAction),
      (t.GetMove valid_moves draw).2 = some a ∧ a ∈ valid_moves ∧
      PlayerActionToDirection a = some d) ∧
    (0 < t.appeased_turns →
      (t.GetMove valid_moves draw).1.appeased_turns = t.appeased_turns - 1) ∧
    (t.appeased_turns = 0 → (t.GetMove valid_moves draw).1.appeased_turns = 0) ∧
    (t.GetMove valid_moves draw).1.position = t.position ∧
    ∀ draw2 : Nat, (t.GetMove valid_moves draw2).1 = (t.GetMove valid_moves draw).1 := by
  obtain ⟨a0, ha0, hd0⟩ := h
  obtain ⟨d0, hd0⟩ := Option.isSome_iff_exists.mp hd0
  have hmem : d0 ∈ valid_moves.filterMap PlayerActionToDirection :=
    List.mem_filterMap.mpr ⟨a0, ha0, hd0⟩
  have hpos : 0 < (valid_moves.filterMap PlayerActionToDirection).length :=
    List.length_pos_of_mem hmem
  have hlt : draw % (valid_moves.filterMap PlayerActionToDirection).length <
      (valid_moves.filterMap PlayerActionToDirection).length := Nat.mod_lt _ hpos
  refine ⟨?_, ?_, ?_, ?_, ?_⟩
  · refine ⟨PlayerDirectionToAction ((valid_moves.filterMap PlayerActionToDirection).get
      ⟨_, hlt⟩), (valid_moves.filterMap PlayerActionToDirection).get ⟨_, hlt⟩, ?_, ?_, ?_⟩
    · simp only [TA.GetMove]
      rw [List.getElem?_eq_getElem hlt]
      rfl
    · have hin := List.get_mem (valid_moves.filterMap PlayerActionToDirection) _ hlt
      obtain ⟨a, ha, hd⟩ := List.mem_filterMap.mp hin
      rw [PlayerActionToDirection_eq_some hd]
      exact ha
    · generalize (valid_moves.filterMap PlayerActionToDirection).get ⟨_, hlt⟩ = d
      cases d <;> rfl
  · intro hc
    simp only [TA.GetMove, TA.DecrementAppeasement, hc, if_true]
  · intro hc
    simp only [TA.GetMove, TA.DecrementAppeasement]
    rw [if_neg (by omega)]
    exact hc
  · simp only [TA.GetMove, TA.DecrementAppeasement]
    split <;> rfl
  · intro draw2
    rfl

theorem C11_TA_GetMove_member_witness :
    ((⟨⟨0, 1, 1⟩, 3⟩ : TA).GetMove [.ClimbUp, .MoveLeft, .MoveDown] 5).2 = some .MoveDown ∧
    ((⟨⟨0, 1, 1⟩, 3⟩ : TA).GetMove [.ClimbUp, .MoveLeft, .MoveDown] 5).1.appeased_turns = 2 ∧
    ∃ (a : PlayerAction) (d : PlayerDirectionAction),
      ((⟨⟨0, 1, 1⟩, 3⟩ : TA).GetMove [.ClimbUp, .MoveLeft, .MoveDown] 5).2 = some a ∧
      a ∈ [PlayerAction.ClimbUp, .MoveLeft, .MoveDown] ∧ PlayerActionToDirection a = some d :=
  ⟨by decide, by decide,
    (C11_TA_GetMove_member ⟨⟨0, 1, 1⟩, 3⟩ [.ClimbUp, .MoveLeft, .MoveDown] 5
      ⟨.MoveLeft, by decide, by decide⟩).1⟩

/-! ### The header check of the constructor -/

/-- Claim C19: when the level count, the height or the width of the header is less than 1,
`Maze::Maze` throws the `runtime_error` of its first check.  The outcome is the same for
every content of the rest of the stream and every seed, and it is not the error of a level
parse: no level is read. -/
theorem C19_header_below_one_fails (info : MazeInfo) (is : List (List Char))
    (taSeeds skillSeeds : Nat → List Nat)
    (h : info.levels < 1 ∨ info.height < 1 ∨ info.width < 1) :
    Maze.construct info is taSeeds skillSeeds
        = .error "Levels, height, and width must all be >= 1." ∧
      Maze.construct info is taSeeds skillSeeds = Maze.construct info [] taSeeds skillSeeds ∧
      ∀ (level : Nat) (err : String) (row col : Option Nat),
        Maze.construct info is taSeeds skillSeeds
          ≠ .error (ConstructWhatString level err row col) := by
  have hc : info.levels < 1 ∨ info.width < 1 ∨ info.height < 1 := by
    rcases h with h | h | h
    · exact Or.inl h
    · exact Or.inr (Or.inr h)
    · exact Or.inr (Or.inl h)
  have e : ∀ is1 : List (List Char), Maze.construct info is1 taSeeds skillSeeds
      = .error "Levels, height, and width must all be >= 1." := by
    intro is1
    unfold Maze.construct
    rw [if_pos hc]
  refine ⟨e is, by rw [e is, e []], ?_⟩
  intro level err row col
  rw [e is]
  intro hcon
  have h2 := Except.error.inj hcon
  have h3 : ("Levels, height, and width must all be >= 1.").data.head? =
      (ConstructWhatString level err row col).data.head? := by rw [h2]
  simp [ConstructWhatString, String.append_assoc] at h3

theorem C19_header_below_one_fails_witness :
    Maze.construct ⟨0, 3, 4⟩ (hallText.map String.toList) (fun _ => []) (fun _ => [])
        = .error "Levels, height, and width must all be >= 1." :=
  (C19_header_below_one_fails ⟨0, 3, 4⟩ (hallText.map String.toList) (fun _ => [])
    (fun _ => []) (Or.inl (by decide))).1

/-! ### Level parsing as a function of the text -/

theorem Clean.nil : Clean [] := ⟨by simp, by simp, by simp, by simp⟩

theorem Clean.prefix {xs ys : List Char} (h : Clean (xs ++ ys)) : Clean xs := by
  refine ⟨fun c hc => h.glyph c (List.mem_append_left _ hc), ?_, ?_, ?_⟩
  · have := h.start
    rw [List.count_append] at this
    omega
  · have := h.ladder
    rw [List.count_append] at this
    omega
  · have := h.instructor
    rw [List.count_append] at this
    omega

theorem Tracks_init : (⟨false, none, none⟩ : ParseState).Tracks [] := ⟨by simp, by simp, by simp⟩

theorem Tracks_read {st : ParseState} {seen : List Char} (h : st.Tracks seen) (i j : Nat)
    (c : Char) : (st.read i j c).Tracks (seen ++ [c]) := by
  obtain ⟨h1, h2, h3⟩ := h
  refine ⟨?_, ?_, ?_⟩
  · simp only [ParseState.read, Bool.or_eq_true, decide_eq_true_eq, List.mem_append,
      List.mem_singleton, h1]
    constructor
    · rintro (h | h)
      · exact Or.inl h
      · exact Or.inr h.symm
    · rintro (h | h)
      · exact Or.inl h
      · exact Or.inr h.symm
  · simp only [ParseState.read, List.mem_append, List.mem_singleton]
    by_cases hc : c = '@'
    · simp [hc]
    · rw [if_neg hc, h2]
      constructor
      · exact Or.inl
      · rintro (h | h)
        · exact h
        · exact absurd h.symm hc
  · simp only [ParseState.read, List.mem_append, List.mem_singleton]
    by_cases hc : c = '%'
    · simp [hc]
    · rw [if_neg hc, h3]
      constructor
      · exact Or.inl
      · rintro (h | h)
        · exact h
        · exact absurd h.symm hc

theorem parseCell_clean {st : ParseState} {seen : List Char} (ht : st.Tracks seen)
    (level i j : Nat) (c : Char) (hc : Clean (seen ++ [c])) :
    parseCell level i j c st = .ok (tileFor level i j c, st.read i j c) := by
  have hg : IsGlyph c := hc.glyph c (by simp)
  have h1 := hc.start
  have h2 := hc.ladder
  have h3 := hc.instructor
  rw [List.count_append] at h1 h2 h3
  obtain ⟨t1, t2, t3⟩ := ht
  rcases hg with e | e | e | e | e
  · subst e
    simp [parseCell, tileFor, ParseState.read, OpenSpace.new]
  · subst e
    simp [parseCell, tileFor, ParseState.read]
  · subst e
    have hno : st.start_location_ = none := by
      by_contra hcon
      have := List.count_pos_iff.mpr (t2.mp hcon)
      simp at h1
      omega
    simp [parseCell, tileFor, ParseState.read, OpenSpace.new, hno]
  · subst e
    have hno : st.has_ladder = false := by
      cases hl : st.has_ladder with
      | false => rfl
      | true =>
        have := List.count_pos_iff.mpr (t1.mp hl)
        simp at h2
        omega
    simp [parseCell, tileFor, ParseState.read, OpenSpace.new, hno]
  · subst e
    have hno : st.instructor_location_ = none := by
      by_contra hcon
      have := List.count_pos_iff.mpr (t3.mp hcon)
      simp at h3
      omega
    simp [parseCell, tileFor, ParseState.read, OpenSpace.new, hno]

theorem parseCell_unknown (level i j : Nat) (c : Char) (st : ParseState) (hc : ¬ IsGlyph c) :
    parseCell level i j c st = .error (ConstructWhatString level
      ("unknown character: " ++ String.singleton c) (some (i + 1)) (some (j + 1))) := by
  unfold IsGlyph at hc
  simp only [not_or] at hc
  obtain ⟨h1, h2, h3, h4, h5⟩ := hc
  simp [parseCell, h1, h2, h3, h4, h5]

theorem parseCell_error_form {level i j : Nat} {c : Char} {st : ParseState} {e : String}
    (h : parseCell level i j c st = .error e) : IsParseError level e := by
  unfold parseCell at h
  dsimp only at h
  split at h
  · simp at h
  · split at h
    · simp at h
    · split at h
      · split at h
        · exact ⟨_, _, _, (Except.error.inj h).symm⟩
        · simp at h
      · split at h
        · split at h
          · exact ⟨_, _, _, (Except.error.inj h).symm⟩
          · simp at h
        · split at h
          · split at h
            · exact ⟨_, _, _, (Except.error.inj h).symm⟩
            · simp at h
          · exact ⟨_, _, _, (Except.error.inj h).symm⟩

theorem Clean.snoc_other {seen : List Char} (h : Clean seen) {c : Char} (hg : IsGlyph c)
    (h1 : c ≠ '@') (h2 : c ≠ '^') (h3 : c ≠ '%') : Clean (seen ++ [c]) := by
  refine ⟨?_, ?_, ?_, ?_⟩
  · intro d hd
    rcases List.mem_append.mp hd with hd | hd
    · exact h.glyph d hd
    · rw [List.mem_singleton.mp hd]; exact hg
  · rw [List.count_append, List.count_singleton]
    have := h.start
    simp [h1]
    exact this
  · rw [List.count_append, List.count_singleton]
    have := h.ladder
    simp [h2]
    exact this
  · rw [List.count_append, List.count_singleton]
    have := h.instructor
    simp [h3]
    exact this

theorem Clean.snoc_new {seen : List Char} (h : Clean seen) {c : Char} (hg : IsGlyph c)
    (hnew : c ∉ seen) : Clean (seen ++ [c]) := by
  have h0 : seen.count c = 0 := List.count_eq_zero.mpr hnew
  refine ⟨?_, ?_, ?_, ?_⟩
  · intro d hd
    rcases List.mem_append.mp hd with hd | hd
    · exact h.glyph d hd
    · rw [List.mem_singleton.mp hd]; exact hg
  · rw [List.count_append, List.count_singleton]
    have := h.start
    by_cases e : c = '@'
    · subst e; simp [h0]
    · simp [e]; exact this
  · rw [List.count_append, List.count_singleton]
    have := h.ladder
    by_cases e : c = '^'
    · subst e; simp [h0]
    · simp [e]; exact this
  · rw [List.count_append, List.count_singleton]
    have := h.instructor
    by_cases e : c = '%'
    · subst e; simp [h0]
    · simp [e]; exact this

theorem parseCell_ok_clean {st : ParseState} {seen : List Char} (ht : st.Tracks seen)
    (hs : Clean seen) {level i j : Nat} {c : Char} {r : MazeLocation × ParseState}
    (h : parseCell level i j c st = .ok r) : Clean (seen ++ [c]) := by
  obtain ⟨t1, t2, t3⟩ := ht
  unfold parseCell at h
  dsimp only at h
  split at h
  · rename_i e
    subst e
    exact hs.snoc_other (Or.inl rfl) (by decide) (by decide) (by decide)
  · split at h
    · rename_i e
      subst e
      exact hs.snoc_other (Or.inr (Or.inl rfl)) (by decide) (by decide) (by decide)
    · split at h
      · rename_i e
        subst e
        split at h
        · simp at h
        · rename_i hno
          exact hs.snoc_new (Or.inr (Or.inr (Or.inl rfl))) (fun hm => hno (t2.mpr hm))
      · split at h
        · rename_i e
          subst e
          split at h
          · simp at h
          · rename_i hno
            exact hs.snoc_new (Or.inr (Or.inr (Or.inr (Or.inl rfl))))
              (fun hm => hno (t1.mpr hm))
        · split at h
          · rename_i e
            subst e
            split at h
            · simp at h
            · rename_i hno
              exact hs.snoc_new (Or.inr (Or.inr (Or.inr (Or.inr rfl))))
                (fun hm => hno (t3.mpr hm))
          · simp at h

/-! Rows -/

theorem Tracks_readRow :
    ∀ (cs : List Char) (i j : Nat) (st : ParseState) (seen : List Char), st.Tracks seen →
      (ParseState.readRow i j cs st).Tracks (seen ++ cs) := by
  intro cs
  induction cs with
  | nil => intro i j st seen h; simpa [ParseState.readRow] using h
  | cons c cs ih =>
    intro i j st seen h
    have := ih i (j + 1) (st.read i j c) (seen ++ [c]) (Tracks_read h i j c)
    simpa [ParseState.readRow] using this

theorem parseRow_clean {level i : Nat} :
    ∀ (cs : List Char) (j : Nat) (st : ParseState) (seen : List Char), st.Tracks seen →
      Clean (seen ++ cs) →
      parseRow level i j cs st = .ok (tilesFor level i j cs, ParseState.readRow i j cs st) := by
  intro cs
  induction cs with
  | nil => intro j st seen _ _; rfl
  | cons c cs ih =>
    intro j st seen ht hc
    have hc1 : Clean (seen ++ [c]) := by
      have : seen ++ c :: cs = (seen ++ [c]) ++ cs := by simp
      rw [this] at hc
      exact hc.prefix
    have hc2 : Clean ((seen ++ [c]) ++ cs) := by simpa using hc
    unfold parseRow
    rw [parseCell_clean ht level i j c hc1]
    dsimp only
    rw [ih (j + 1) (st.read i j c) (seen ++ [c]) (Tracks_read ht i j c) hc2]
    rfl

theorem parseRow_ok_clean {level i : Nat} :
    ∀ (cs : List Char) (j : Nat) (st : ParseState) (seen : List Char)
      (r : List MazeLocation × ParseState), st.Tracks seen → Clean seen →
      parseRow level i j cs st = .ok r → Clean (seen ++ cs) := by
  intro cs
  induction cs with
  | nil => intro j st seen r _ hs _; simpa using hs
  | cons c cs ih =>
    intro j st seen r ht hs h
    unfold parseRow at h
    split at h
    · simp at h
    · rename_i loc st1 hcell
      have hc1 := parseCell_ok_clean ht hs hcell
      have e := parseCell_clean ht level i j c hc1
      rw [e] at hcell
      simp at hcell
      obtain ⟨_, e2⟩ := hcell
      subst e2
      split at h
      · simp at h
      · rename_i row st2 hrest
        have := ih (j + 1) _ (seen ++ [c]) _ (Tracks_read ht i j c) hc1 hrest
        simpa using this

theorem parseRow_error_form {level i : Nat} :
    ∀ (cs : List Char) (j : Nat) (st : ParseState) (e : String),
      parseRow level i j cs st = .error e → IsParseError level e := by
  intro cs
  induction cs with
  | nil => intro j st e h; simp [parseRow] at h
  | cons c cs ih =>
    intro j st e h
    unfold parseRow at h
    split at h
    · rename_i e1 hcell
      simp at h
      subst h
      exact parseCell_error_form hcell
    · split at h
      · rename_i e1 hrest
        simp at h
        subst h
        exact ih _ _ _ hrest
      · simp at h

/-! Levels -/

theorem Tracks_readRows :
    ∀ (rows : List (List Char)) (i : Nat) (st : ParseState) (seen : List Char),
      st.Tracks seen → (ParseState.readRows i rows st).Tracks (seen ++ rows.flatten) := by
  intro rows
  induction rows with
  | nil => intro i st seen h; simpa [ParseState.readRows] using h
  | cons r rs ih =>
    intro i st seen h
    have := ih (i + 1) (ParseState.readRow i 0 r st) (seen ++ r) (Tracks_readRow r i 0 st seen h)
    simpa [ParseState.readRows] using this

theorem parseRows_clean {level width : Nat} :
    ∀ (n i : Nat) (is : List (List Char)) (st : ParseState) (seen : List Char),
      st.Tracks seen → n ≤ is.length → (∀ row ∈ is.take n, row.length = width) →
      Clean (seen ++ (is.take n).flatten) →
      parseRows level width n i is st
        = .ok (rowsFor level i (is.take n), ParseState.readRows i (is.take n) st, is.drop n) := by
  intro n
  induction n with
  | zero => intro i is st seen _ _ _ _; simp [parseRows, rowsFor, ParseState.readRows]
  | succ n ih =>
    intro i is st seen ht hlen hw hc
    cases is with
    | nil => simp at hlen
    | cons r is1 =>
      simp only [List.take_succ_cons, List.flatten_cons] at hc hw ⊢
      have hr : r.length = width := hw r (by simp)
      have hc1 : Clean (seen ++ r) := by
        rw [← List.append_assoc] at hc
        exact hc.prefix
      have hc2 : Clean ((seen ++ r) ++ (is1.take n).flatten) := by
        rw [List.append_assoc]; exact hc
      unfold parseRows
      simp only [hr, ne_eq, not_true_eq_false, if_false]
      rw [parseRow_clean r 0 st seen ht hc1]
      dsimp only
      rw [ih (i + 1) is1 (ParseState.readRow i 0 r st) (seen ++ r) (Tracks_readRow r i 0 st seen ht)
        (by simpa using hlen) (fun row hrow => hw row (List.mem_cons_of_mem _ hrow)) hc2]
      simp [rowsFor, ParseState.readRows]

theorem parseRows_ok_clean {level width : Nat} :
    ∀ (n i : Nat) (is : List (List Char)) (st : ParseState) (seen : List Char)
      (r : List (List MazeLocation) × ParseState × List (List Char)),
      st.Tracks seen → Clean seen → parseRows level width n i is st = .ok r →
      n ≤ is.length ∧ (∀ row ∈ is.take n, row.length = width) ∧
        Clean (seen ++ (is.take n).flatten) := by
  intro n
  induction n with
  | zero => intro i is st seen r _ hs _; simpa using hs
  | succ n ih =>
    intro i is st seen r ht hs h
    unfold parseRows at h
    split at h
    · simp at h
    · rename_i row_str is1
      split at h
      · simp at h
      · rename_i hw
        have hw2 : row_str.length = width := by simpa using hw
        split at h
        · simp at h
        · rename_i row st1 hrow
          have hc1 := parseRow_ok_clean row_str 0 st seen _ ht hs hrow
          have e := @parseRow_clean level i row_str 0 st seen ht hc1
          rw [e] at hrow
          simp at hrow
          obtain ⟨_, e2⟩ := hrow
          subst e2
          split at h
          · simp at h
          · rename_i rows st2 is2 hrest
            obtain ⟨q1, q2, q3⟩ := ih (i + 1) is1 _ (seen ++ row_str) _
              (Tracks_readRow row_str i 0 st seen ht) hc1 hrest
            refine ⟨by simpa using q1, ?_, ?_⟩
            · intro rw1 hmem
              simp only [List.take_succ_cons, List.mem_cons] at hmem
              rcases hmem with e3 | e3
              · rw [e3]; exact hw2
              · exact q2 rw1 e3
            · simpa using q3

theorem parseRows_error_form {level width : Nat} :
    ∀ (n i : Nat) (is : List (List Char)) (st : ParseState) (e : String),
      parseRows level width n i is st = .error e → IsParseError level e := by
  intro n
  induction n with
  | zero => intro i is st e h; simp [parseRows] at h
  | succ n ih =>
    intro i is st e h
    unfold parseRows at h
    split at h
    · exact ⟨_, _, _, (Except.error.inj h).symm⟩
    · split at h
      · exact ⟨_, _, _, (Except.error.inj h).symm⟩
      · split at h
        · rename_i e1 hrow
          simp at h
          subst h
          exact parseRow_error_form _ _ _ _ hrow
        · split at h
          · rename_i e1 hrest
            simp at h
            subst h
            exact ih _ _ _ _ hrest
          · simp at h

theorem LevelTextOk.clean {is : List (List Char)} {height width : Nat}
    (h : LevelTextOk is height width) : Clean (is.take height).flatten := by
  obtain ⟨_, _, h3, h4, h5⟩ := h
  refine ⟨?_, by omega, by omega, by omega⟩
  intro c hc
  obtain ⟨row, hrow, hcr⟩ := List.mem_flatten.mp hc
  exact h3 row hrow c hcr

theorem MazeLevel.parse_of_textOk {is : List (List Char)} {height width : Nat} (level : Nat)
    (h : LevelTextOk is height width) :
    MazeLevel.parse is level height width = .ok (levelFor is level height width, is.drop height) := by
  have hc := h.clean
  obtain ⟨h1, h2, h3, h4, h5⟩ := h
  have e := @parseRows_clean level width height 0 is ⟨false, none, none⟩ [] Tracks_init h1 h2
    (by simpa using hc)
  have ht := Tracks_readRows (is.take height) 0 ⟨false, none, none⟩ [] Tracks_init
  simp only [List.nil_append] at ht
  obtain ⟨t1, t2, t3⟩ := ht
  unfold MazeLevel.parse
  rw [e]
  dsimp only
  have hs : (ParseState.readRows 0 (is.take height) ⟨false, none, none⟩).start_location_ ≠ none :=
    t2.mpr (List.count_pos_iff.mp (by omega))
  rw [if_neg hs]
  by_cases hl : '^' ∈ (is.take height).flatten
  · have hl1 := List.count_pos_iff.mpr hl
    have hi0 : (is.take height).flatten.count '%' = 0 := by omega
    have hi : (ParseState.readRows 0 (is.take height) ⟨false, none, none⟩).instructor_location_
        = none := by
      by_contra hcon
      have := List.count_pos_iff.mpr (t3.mp hcon)
      omega
    have hlad := t1.mpr hl
    simp [hlad, hi, levelFor]
  · have hl0 : (is.take height).flatten.count '^' = 0 := List.count_eq_zero.mpr hl
    have hlad : (ParseState.readRows 0 (is.take height) ⟨false, none, none⟩).has_ladder = false := by
      cases hx : (ParseState.readRows 0 (is.take height) ⟨false, none, none⟩).has_ladder with
      | false => rfl
      | true => exact absurd (t1.mp hx) hl
    have hi : (ParseState.readRows 0 (is.take height) ⟨false, none, none⟩).instructor_location_
        ≠ none := t3.mpr (List.count_pos_iff.mp (by omega))
    simp [hlad, hi, levelFor]

theorem MazeLevel.parse_ok_textOk {is rest : List (List Char)} {level height width : Nat}
    {l : MazeLevel} (h : MazeLevel.parse is level height width = .ok (l, rest)) :
    LevelTextOk is height width ∧ l = levelFor is level height width ∧ rest = is.drop height := by
  have hok : LevelTextOk is height width := by
    unfold MazeLevel.parse at h
    split at h
    · simp at h
    · rename_i rows st rest1 hrows
      obtain ⟨q1, q2, q3⟩ := parseRows_ok_clean _ _ _ _ [] _ Tracks_init Clean.nil hrows
      simp only [List.nil_append] at q3
      have e := @parseRows_clean level width height 0 is ⟨false, none, none⟩ [] Tracks_init q1 q2
        (by simpa using q3)
      rw [e] at hrows
      simp at hrows
      obtain ⟨_, e2, _⟩ := hrows
      have ht := Tracks_readRows (is.take height) 0 ⟨false, none, none⟩ [] Tracks_init
      simp only [List.nil_append] at ht
      rw [e2] at ht
      obtain ⟨t1, t2, t3⟩ := ht
      have c1 := q3.start
      have c2 := q3.ladder
      have c3 := q3.instructor
      split at h
      · simp at h
      · rename_i hstart
        have s1 := List.count_pos_iff.mpr (t2.mp hstart)
        split at h
        · simp at h
        · rename_i hnone
          split at h
          · simp at h
          · rename_i hboth
            refine ⟨q1, q2, ?_, by omega, ?_⟩
            · intro row hrow c hc
              exact q3.glyph c (List.mem_flatten.mpr ⟨row, hrow, hc⟩)
            · cases hl : st.has_ladder with
              | true =>
                have l1 := List.count_pos_iff.mpr (t1.mp hl)
                have hi : st.instructor_location_ = none := by
                  simpa [hl] using hboth
                have i0 : (is.take height).flatten.count '%' = 0 := by
                  rw [List.count_eq_zero]
                  intro hm
                  exact (t3.mpr hm) hi
                omega
              | false =>
                have l0 : (is.take height).flatten.count '^' = 0 := by
                  rw [List.count_eq_zero]
                  intro hm
                  have := t1.mpr hm
                  rw [hl] at this
                  exact Bool.noConfusion this
                have hi : st.instructor_location_ ≠ none := by
                  simpa [hl] using hnone
                have i1 := List.count_pos_iff.mpr (t3.mp hi)
                omega
  have e := MazeLevel.parse_of_textOk level hok
  rw [e] at h
  simp at h
  exact ⟨hok, h.1.symm, h.2.symm⟩

theorem MazeLevel.parse_error_form {is : List (List Char)} {level height width : Nat}
    {e : String} (h : MazeLevel.parse is level height width = .error e) :
    IsParseError level e := by
  unfold MazeLevel.parse at h
  split at h
  · rename_i e1 hrows
    simp at h
    subst h
    exact parseRows_error_form _ _ _ _ _ hrows
  · split at h
    · exact ⟨_, _, _, (Except.error.inj h).symm⟩
    · split at h
      · exact ⟨_, _, _, (Except.error.inj h).symm⟩
      · split at h
        · exact ⟨_, _, _, (Except.error.inj h).symm⟩
        · simp at h

/-! The tiles and the two pointers of a parsed level, cell by cell -/

theorem tilesFor_length (level i : Nat) :
    ∀ (cs : List Char) (j : Nat), (tilesFor level i j cs).length = cs.length := by
  intro cs
  induction cs with
  | nil => intro j; rfl
  | cons c cs ih => intro j; simp [tilesFor, ih]

theorem tilesFor_getElem? (level i : Nat) :
    ∀ (cs : List Char) (j k : Nat),
      (tilesFor level i j cs)[k]? = (cs[k]?).map (tileFor level i (j + k)) := by
  intro cs
  induction cs with
  | nil => intro j k; simp [tilesFor]
  | cons c cs ih =>
    intro j k
    cases k with
    | zero => simp [tilesFor]
    | succ k =>
      simp only [tilesFor, List.getElem?_cons_succ]
      rw [ih (j + 1) k]
      have e : j + 1 + k = j + (k + 1) := by omega
      rw [e]

theorem rowsFor_length (level : Nat) :
    ∀ (rows : List (List Char)) (i : Nat), (rowsFor level i rows).length = rows.length := by
  intro rows
  induction rows with
  | nil => intro i; rfl
  | cons r rs ih => intro i; simp [rowsFor, ih]

theorem rowsFor_getElem? (level : Nat) :
    ∀ (rows : List (List Char)) (i a : Nat),
      (rowsFor level i rows)[a]? = (rows[a]?).map (tilesFor level (i + a) 0) := by
  intro rows
  induction rows with
  | nil => intro i a; simp [rowsFor]
  | cons r rs ih =>
    intro i a
    cases a with
    | zero => simp [rowsFor]
    | succ a =>
      simp only [rowsFor, List.getElem?_cons_succ]
      rw [ih (i + 1) a]
      have e : i + 1 + a = i + (a + 1) := by omega
      rw [e]

theorem rowsFor_mem_length (level : Nat) :
    ∀ (rows : List (List Char)) (i : Nat) (width : Nat),
      (∀ row ∈ rows, row.length = width) →
      ∀ trow ∈ rowsFor level i rows, trow.length = width := by
  intro rows
  induction rows with
  | nil => intro i width _ trow h; simp [rowsFor] at h
  | cons r rs ih =>
    intro i width hw trow h
    simp only [rowsFor, List.mem_cons] at h
    rcases h with e | e
    · rw [e, tilesFor_length]; exact hw r (by simp)
    · exact ih (i + 1) width (fun row hrow => hw row (List.mem_cons_of_mem _ hrow)) trow e

theorem charAt_take (is : List (List Char)) (n i j : Nat) :
    charAt (is.take n) i j = if i < n then charAt is i j else none := by
  unfold charAt
  rw [List.getElem?_take]
  by_cases h : i < n
  · simp [h]
  · simp [h]

theorem levelFor_tileAt (is : List (List Char)) (level height width i j : Nat) :
    (levelFor is level height width).tileAt i j
      = if i < height then (charAt is i j).map (tileFor level i j) else none := by
  unfold MazeLevel.tileAt levelFor
  simp only [rowsFor_getElem?, Nat.zero_add]
  have e := charAt_take is height i j
  by_cases h : i < height
  · rw [if_pos h] at e ⊢
    rw [← e]
    unfold charAt
    cases (is.take height)[i]? with
    | none => rfl
    | some row => simp [tilesFor_getElem?]
  · rw [if_neg h]
    rw [List.getElem?_take, if_neg h]
    rfl

theorem mem_of_getElem?_some {α : Type} {l : List α} {k : Nat} {x : α} (h : l[k]? = some x) :
    x ∈ l := List.mem_iff_getElem?.mpr ⟨k, h⟩

/-- A pointer of the parse state that is assigned when the character `g` is read, after
one row: it points to the cell of row `i` holding `g`, or is what it was. -/
theorem readRow_ptr (F : ParseState → Option (Nat × Nat)) (g : Char)
    (hF : ∀ (st : ParseState) (i j : Nat) (c : Char),
      F (st.read i j c) = if c = g then some (i, j) else F st) (i : Nat) :
    ∀ (cs : List Char) (j : Nat) (st : ParseState), (F st ≠ none → g ∉ cs) →
      cs.count g ≤ 1 → ∀ (a b : Nat),
      (F (ParseState.readRow i j cs st) = some (a, b) ↔
        F st = some (a, b) ∨ (a = i ∧ ∃ k, b = j + k ∧ cs[k]? = some g)) := by
  intro cs
  induction cs with
  | nil =>
    intro j st _ _ a b
    simp [ParseState.readRow]
  | cons c cs ih =>
    intro j st h1 h2 a b
    simp only [ParseState.readRow]
    by_cases hc : c = g
    · subst hc
      have hcs : c ∉ cs := by
        rw [List.count_cons_self] at h2
        exact List.count_eq_zero.mp (by omega)
      have hst : F st = none := by
        by_contra hcon
        exact h1 hcon (List.mem_cons_self _ _)
      rw [ih (j + 1) (st.read i j c) (fun _ => hcs)
        (by rw [List.count_cons_self] at h2; omega) a b, hF, if_pos rfl, hst]
      constructor
      · rintro (h | ⟨_, k, _, hk⟩)
        · simp only [Option.some.injEq, Prod.mk.injEq] at h
          exact Or.inr ⟨h.1.symm, 0, by omega, by simp⟩
        · exact absurd (mem_of_getElem?_some hk) hcs
      · rintro (h | ⟨ha, k, hb, hk⟩)
        · simp at h
        · cases k with
          | zero => left; simp [ha, hb]
          | succ k =>
            simp only [List.getElem?_cons_succ] at hk
            exact absurd (mem_of_getElem?_some hk) hcs
    · have hcnt : cs.count g ≤ 1 := by
        rw [List.count_cons_of_ne (Ne.symm hc)] at h2
        exact h2
      rw [ih (j + 1) (st.read i j c)
        (by rw [hF, if_neg hc]; intro hn; exact fun hm => h1 hn (List.mem_cons_of_mem _ hm))
        hcnt a b, hF, if_neg hc]
      constructor
      · rintro (h | ⟨ha, k, hb, hk⟩)
        · exact Or.inl h
        · exact Or.inr ⟨ha, k + 1, by omega, by simpa using hk⟩
      · rintro (h | ⟨ha, k, hb, hk⟩)
        · exact Or.inl h
        · cases k with
          | zero =>
            simp at hk
            exact absurd hk hc
          | succ k =>
            simp only [List.getElem?_cons_succ] at hk
            exact Or.inr ⟨ha, k, by omega, hk⟩

theorem charAt_cons_zero (r : List Char) (rs : List (List Char)) (b : Nat) :
    charAt (r :: rs) 0 b = r[b]? := by
  simp [charAt]

theorem charAt_cons_succ (r : List Char) (rs : List (List Char)) (k b : Nat) :
    charAt (r :: rs) (k + 1) b = charAt rs k b := by
  simp [charAt]

theorem charAt_mem {rows : List (List Char)} {a b : Nat} {c : Char}
    (h : charAt rows a b = some c) : c ∈ rows.flatten := by
  unfold charAt at h
  cases hr : rows[a]? with
  | none => simp [hr] at h
  | some row =>
    simp [hr] at h
    exact List.mem_flatten.mpr ⟨row, mem_of_getElem?_some hr, mem_of_getElem?_some h⟩

/-- The same after the rows of a level: the pointer is what it was, or points to the cell
holding `g`. -/
theorem readRows_ptr (F : ParseState → Option (Nat × Nat)) (g : Char)
    (hF : ∀ (st : ParseState) (i j : Nat) (c : Char),
      F (st.read i j c) = if c = g then some (i, j) else F st) :
    ∀ (rows : List (List Char)) (i : Nat) (st : ParseState),
      (F st ≠ none → g ∉ rows.flatten) → rows.flatten.count g ≤ 1 → ∀ (a b : Nat),
      (F (ParseState.readRows i rows st) = some (a, b) ↔
        F st = some (a, b) ∨ ∃ k, a = i + k ∧ charAt rows k b = some g) := by
  intro rows
  induction rows with
  | nil =>
    intro i st _ _ a b
    simp [ParseState.readRows, charAt]
  | cons r rs ih =>
    intro i st h1 h2 a b
    simp only [ParseState.readRows]
    simp only [List.flatten_cons, List.count_append] at h2
    have hr1 : F st ≠ none → g ∉ r := fun hn hm =>
      h1 hn (by simp [hm])
    have hrow := readRow_ptr F g hF i r 0 st hr1 (by omega)
    have hnext : F (ParseState.readRow i 0 r st) ≠ none → g ∉ rs.flatten := by
      intro hn
      cases hx : F (ParseState.readRow i 0 r st) with
      | none => exact absurd hx hn
      | some p =>
        obtain ⟨pa, pb⟩ := p
        rcases (hrow pa pb).mp hx with h | ⟨_, k, _, hk⟩
        · intro hm
          exact h1 (by rw [h]; simp) (by simp [hm])
        · have := List.count_pos_iff.mpr (mem_of_getElem?_some hk)
          exact List.count_eq_zero.mp (by omega)
    rw [ih (i + 1) _ hnext (by omega) a b, hrow a b]
    constructor
    · rintro ((h | ⟨ha, k, hb, hk⟩) | ⟨k, ha, hk⟩)
      · exact Or.inl h
      · exact Or.inr ⟨0, by omega, by rw [charAt_cons_zero, hb]; simpa using hk⟩
      · exact Or.inr ⟨k + 1, by omega, by rw [charAt_cons_succ]; exact hk⟩
    · rintro (h | ⟨k, ha, hk⟩)
      · exact Or.inl (Or.inl h)
      · cases k with
        | zero =>
          rw [charAt_cons_zero] at hk
          exact Or.inl (Or.inr ⟨by omega, b, by omega, hk⟩)
        | succ k =>
          rw [charAt_cons_succ] at hk
          exact Or.inr ⟨k, by omega, hk⟩

theorem levelFor_start {is : List (List Char)} {height width : Nat}
    (h : LevelTextOk is height width) (level a b : Nat) :
    (levelFor is level height width).start_location_ = some (a, b) ↔
      a < height ∧ charAt is a b = some '@' := by
  have hc := h.clean
  have := readRows_ptr (fun st => st.start_location_) '@'
    (fun st i j c => rfl) (is.take height) 0 ⟨false, none, none⟩
    (fun hn => absurd rfl hn) hc.start a b
  show (ParseState.readRows 0 (is.take height) ⟨false, none, none⟩).start_location_ = _ ↔ _
  rw [this]
  constructor
  · rintro (h | ⟨k, ha, hk⟩)
    · simp at h
    · have e : k = a := by omega
      subst e
      rw [charAt_take] at hk
      by_cases hlt : k < height
      · rw [if_pos hlt] at hk; exact ⟨hlt, hk⟩
      · rw [if_neg hlt] at hk; simp at hk
  · rintro ⟨hlt, hk⟩
    exact Or.inr ⟨a, by omega, by rw [charAt_take, if_pos hlt]; exact hk⟩

theorem levelFor_instructor {is : List (List Char)} {height width : Nat}
    (h : LevelTextOk is height width) (level a b : Nat) :
    (levelFor is level height width).instructor_location_ = some (a, b) ↔
      a < height ∧ charAt is a b = some '%' := by
  have hc := h.clean
  have := readRows_ptr (fun st => st.instructor_location_) '%'
    (fun st i j c => rfl) (is.take height) 0 ⟨false, none, none⟩
    (fun hn => absurd rfl hn) hc.instructor a b
  show (ParseState.readRows 0 (is.take height) ⟨false, none, none⟩).instructor_location_ = _ ↔ _
  rw [this]
  constructor
  · rintro (h | ⟨k, ha, hk⟩)
    · simp at h
    · have e : k = a := by omega
      subst e
      rw [charAt_take] at hk
      by_cases hlt : k < height
      · rw [if_pos hlt] at hk; exact ⟨hlt, hk⟩
      · rw [if_neg hlt] at hk; simp at hk
  · rintro ⟨hlt, hk⟩
    exact Or.inr ⟨a, by omega, by rw [charAt_take, if_pos hlt]; exact hk⟩

/-! Counting tiles -/

theorem tileFor_isStart (level i j : Nat) (c : Char) :
    (tileFor level i j c).isStart = decide (c = '@') := by
  unfold tileFor
  by_cases h : c = '#'
  · subst h; rfl
  · rw [if_neg h]; rfl

theorem tileFor_isLadder (level i j : Nat) (c : Char) :
    (tileFor level i j c).isLadder = decide (c = '^') := by
  unfold tileFor
  by_cases h : c = '#'
  · subst h; rfl
  · rw [if_neg h]; rfl

theorem tilesFor_countP (level i : Nat) (P : MazeLocation → Bool) (g : Char)
    (hP : ∀ (j : Nat) (c : Char), P (tileFor level i j c) = decide (c = g)) :
    ∀ (cs : List Char) (j : Nat), (tilesFor level i j cs).countP P = cs.count g := by
  intro cs
  induction cs with
  | nil => intro j; rfl
  | cons c cs ih =>
    intro j
    simp only [tilesFor, List.countP_cons, List.count_cons, ih (j + 1), hP]
    by_cases h : c = g
    · simp [h]
    · simp [h]

theorem rowsFor_countP (level : Nat) (P : MazeLocation → Bool) (g : Char)
    (hP : ∀ (i j : Nat) (c : Char), P (tileFor level i j c) = decide (c = g)) :
    ∀ (rows : List (List Char)) (i : Nat),
      (rowsFor level i rows).flatten.countP P = rows.flatten.count g := by
  intro rows
  induction rows with
  | nil => intro i; rfl
  | cons r rs ih =>
    intro i
    simp only [rowsFor, List.flatten_cons, List.countP_append, List.count_append, ih (i + 1),
      tilesFor_countP level i P g (hP i) r 0]

theorem charAt_isSome {is : List (List Char)} {height width : Nat}
    (h : LevelTextOk is height width) {i j : Nat} (hi : i < height) (hj : j < width) :
    ∃ c, charAt is i j = some c ∧ IsGlyph c := by
  obtain ⟨h1, h2, h3, _, _⟩ := h
  have hlt : i < is.length := by omega
  have hmem : is[i] ∈ is.take height :=
    List.mem_iff_getElem?.mpr ⟨i, by rw [List.getElem?_take, if_pos hi]; simp [hlt]⟩
  have hw := h2 _ hmem
  have hj2 : j < is[i].length := by omega
  refine ⟨is[i][j], ?_, h3 _ hmem _ (List.getElem_mem _)⟩
  simp [charAt, hlt, hj2]

/-! ### The claims about level parsing -/

/-- Claim C15: in a level that parsed, the tile of every cell `(i, j)` is a wall (not
occupiable, displayed as `#`) exactly when the character read there is `#`, and otherwise an
open space; it stores the position `(L, i, j)`; `is_beginning` is set exactly when the
character is `@`, `has_ladder` exactly when it is `^`; `has_student`, `has_ta` and
`has_skill` are false. -/
theorem C15_parsed_tiles (is rest : List (List Char)) (L height width : Nat) (l : MazeLevel)
    (hp : MazeLevel.parse is L height width = .ok (l, rest)) (i j : Nat) (hi : i < height)
    (hj : j < width) :
    ∃ (c : Char) (loc : MazeLocation), charAt is i j = some c ∧ l.tileAt i j = some loc ∧
      loc.pos = ⟨L, i, j⟩ ∧ (loc.occupiable = false ↔ c = '#') ∧
      (c = '#' → loc = MazeLocation.wall ⟨L, i, j⟩ ∧ loc.DisplayCharacter = '#') ∧
      (c ≠ '#' → ∃ sp : OpenSpace, loc = MazeLocation.space sp ∧
        (sp.is_beginning = true ↔ c = '@') ∧ (sp.has_ladder = true ↔ c = '^') ∧
        sp.has_student = false ∧ sp.has_ta = false ∧ sp.has_skill = false) := by
  obtain ⟨hok, hl, _⟩ := MazeLevel.parse_ok_textOk hp
  obtain ⟨c, hc, _⟩ := charAt_isSome hok hi hj
  subst hl
  refine ⟨c, tileFor L i j c, hc, ?_, ?_⟩
  · rw [levelFor_tileAt, if_pos hi, hc]; rfl
  · by_cases h : c = '#'
    · subst h
      refine ⟨rfl, by simp [tileFor, MazeLocation.occupiable], fun _ => ⟨rfl, rfl⟩,
        fun hne => absurd rfl hne⟩
    · refine ⟨by simp [tileFor, h, MazeLocation.pos, OpenSpace.new],
        by simp [tileFor, h, MazeLocation.occupiable],
        fun e => absurd e h, fun _ => ⟨{ OpenSpace.new ⟨L, i, j⟩ with
          is_beginning := decide (c = '@'), has_ladder := decide (c = '^') },
          by simp only [tileFor, if_neg h], ?_⟩⟩
      simp [OpenSpace.new]

theorem C15_parsed_tiles_witness :
    ∃ (c : Char) (loc : MazeLocation),
      charAt (hallText.map String.toList) 1 0 = some c ∧
      (levelFor (hallText.map String.toList) 0 3 4).tileAt 1 0 = some loc ∧
      loc.pos = ⟨0, 1, 0⟩ ∧ (loc.occupiable = false ↔ c = '#') ∧
      (c = '#' → loc = MazeLocation.wall ⟨0, 1, 0⟩ ∧ loc.DisplayCharacter = '#') ∧
      (c ≠ '#' → ∃ sp : OpenSpace, loc = MazeLocation.space sp ∧
        (sp.is_beginning = true ↔ c = '@') ∧ (sp.has_ladder = true ↔ c = '^') ∧
        sp.has_student = false ∧ sp.has_ta = false ∧ sp.has_skill = false) :=
  C15_parsed_tiles (hallText.map String.toList) [] 0 3 4
    (levelFor (hallText.map String.toList) 0 3 4) (by rfl) 1 0 (by decide) (by decide)

/-- Claim C12: when parsing a level of declared height `h` and width `w` succeeds, the grid
has `h` rows of `w` tiles each, one tile is the start tile (the one `start_location_`
points to), and the number of ladder tiles plus the number of instructor tiles is one: either
one `^` was read and `instructor_location_` is null, or one `%` was read, to whose tile
`instructor_location_` points, and no tile has `has_ladder`.  Success already needs
`h >= 1` and `w >= 1`. -/
theorem C12_parsed_level_shape (is rest : List (List Char)) (L h w : Nat) (l : MazeLevel)
    (hp : MazeLevel.parse is L h w = .ok (l, rest)) :
    (1 ≤ h ∧ 1 ≤ w) ∧
    (l.locations_.length = h ∧ ∀ row ∈ l.locations_, row.length = w) ∧
    (l.locations_.flatten.countP MazeLocation.isStart = 1 ∧
      ∃ (a b : Nat) (sp : OpenSpace), l.start_location_ = some (a, b) ∧
        l.tileAt a b = some (MazeLocation.space sp) ∧ sp.is_beginning = true) ∧
    (l.locations_.flatten.countP MazeLocation.isLadder
        + (if l.instructor_location_ = none then 0 else 1) = 1 ∧
      l.locations_.flatten.countP MazeLocation.isLadder = (is.take h).flatten.count '^' ∧
      (if l.instructor_location_ = none then 0 else 1) = (is.take h).flatten.count '%' ∧
      ∀ a b : Nat, l.instructor_location_ = some (a, b) ↔
        a < h ∧ charAt is a b = some '%') := by
  have hlv := MazeLevel.parse_ok hp
  obtain ⟨hok, hl, _⟩ := MazeLevel.parse_ok_textOk hp
  have hc := hok.clean
  have hstart : l.locations_.flatten.countP MazeLocation.isStart = 1 := by
    rw [hl]
    show (rowsFor L 0 (is.take h)).flatten.countP MazeLocation.isStart = 1
    rw [rowsFor_countP L MazeLocation.isStart '@' (tileFor_isStart L)]
    exact hok.2.2.2.1
  have hlad : l.locations_.flatten.countP MazeLocation.isLadder
      = (is.take h).flatten.count '^' := by
    rw [hl]
    exact rowsFor_countP L MazeLocation.isLadder '^' (tileFor_isLadder L) _ 0
  have hinst : ∀ a b : Nat, l.instructor_location_ = some (a, b) ↔
      a < h ∧ charAt is a b = some '%' := by
    intro a b
    rw [hl]
    exact levelFor_instructor hok L a b
  have hcount : (if l.instructor_location_ = none then 0 else 1)
      = (is.take h).flatten.count '%' := by
    have hi := hc.instructor
    cases hx : l.instructor_location_ with
    | none =>
      simp only [if_true]
      symm
      rw [List.count_eq_zero]
      intro hm
      obtain ⟨row, hrow, hcr⟩ := List.mem_flatten.mp hm
      obtain ⟨a, ha⟩ := List.mem_iff_getElem?.mp hrow
      obtain ⟨b, hb⟩ := List.mem_iff_getElem?.mp hcr
      have hlt : a < h := by
        by_contra hcon
        rw [List.getElem?_take, if_neg hcon] at ha
        simp at ha
      have hch : charAt is a b = some '%' := by
        rw [List.getElem?_take, if_pos hlt] at ha
        simp [charAt, ha, hb]
      have := (hinst a b).mpr ⟨hlt, hch⟩
      rw [hx] at this
      simp at this
    | some p =>
      obtain ⟨a, b⟩ := p
      have hab := (hinst a b).mp hx
      have hm : '%' ∈ (is.take h).flatten :=
        charAt_mem (by rw [charAt_take, if_pos hab.1]; exact hab.2)
      have := List.count_pos_iff.mpr hm
      simp
      omega
  have hpos : 1 ≤ h ∧ 1 ≤ w := by
    obtain ⟨a, b, sp, e1, e2, _⟩ := hlv.start
    rw [hl, levelFor_start hok] at e1
    have ha : a < h := e1.1
    have hb : b < w := by
      have e3 := e1.2
      unfold charAt at e3
      cases hr : is[a]? with
      | none => simp [hr] at e3
      | some row =>
        simp [hr] at e3
        have hrow : row ∈ is.take h := List.mem_iff_getElem?.mpr
          ⟨a, by rw [List.getElem?_take, if_pos ha]; exact hr⟩
        have hw := hok.2.1 row hrow
        have := (List.getElem?_eq_some_iff.mp e3).1
        omega
    omega
  refine ⟨hpos, ⟨hlv.rows, hlv.cols⟩, ⟨hstart, hlv.start⟩, ?_, hlad, hcount, hinst⟩
  rw [hlad, hcount]
  exact hok.2.2.2.2

theorem C12_parsed_level_shape_witness :
    (1 ≤ 3 ∧ 1 ≤ 4) ∧
    ((levelFor (hallText.map String.toList) 0 3 4).locations_.length = 3 ∧
      ∀ row ∈ (levelFor (hallText.map String.toList) 0 3 4).locations_, row.length = 4) ∧
    ((levelFor (hallText.map String.toList) 0 3 4).locations_.flatten.countP
        MazeLocation.isStart = 1 ∧
      ∃ (a b : Nat) (sp : OpenSpace),
        (levelFor (hallText.map String.toList) 0 3 4).start_location_ = some (a, b) ∧
        (levelFor (hallText.map String.toList) 0 3 4).tileAt a b = some (MazeLocation.space sp) ∧
        sp.is_beginning = true) ∧
    ((levelFor (hallText.map String.toList) 0 3 4).locations_.flatten.countP
          MazeLocation.isLadder
        + (if (levelFor (hallText.map String.toList) 0 3 4).instructor_location_ = none
            then 0 else 1) = 1 ∧
      (levelFor (hallText.map String.toList) 0 3 4).locations_.flatten.countP
          MazeLocation.isLadder = ((hallText.map String.toList).take 3).flatten.count '^' ∧
      (if (levelFor (hallText.map String.toList) 0 3 4).instructor_location_ = none
          then 0 else 1) = ((hallText.map String.toList).take 3).flatten.count '%' ∧
      ∀ a b : Nat, (levelFor (hallText.map String.toList) 0 3 4).instructor_location_
          = some (a, b) ↔ a < 3 ∧ charAt (hallText.map String.toList) a b = some '%') :=
  C12_parsed_level_shape (hallText.map String.toList) [] 0 3 4
    (levelFor (hallText.map String.toList) 0 3 4) (by rfl)

/-- Claim C13: parsing a level of declared height `h` and width `w` throws a
`MazeLevelParseError` exactly when fewer than `h` rows can be read, or one of the `h` rows
has a length other than `w`, or one of them holds a character other than blank, `#`, `@`,
`^`, `%`, or the number of `@` in them is not 1, or the number of `^` plus the number of `%`
is not 1; otherwise it returns a level and leaves the stream after the `h` rows. -/
theorem C13_parse_fails_iff (is : List (List Char)) (L h w : Nat) :
    ((∃ e, MazeLevel.parse is L h w = .error e ∧ IsParseError L e) ↔
      (is.length < h ∨ (∃ row ∈ is.take h, row.length ≠ w) ∨
        (∃ row ∈ is.take h, ∃ c ∈ row, ¬ IsGlyph c) ∨
        (is.take h).flatten.count '@' ≠ 1 ∨
        (is.take h).flatten.count '^' + (is.take h).flatten.count '%' ≠ 1)) ∧
    (¬ (is.length < h ∨ (∃ row ∈ is.take h, row.length ≠ w) ∨
        (∃ row ∈ is.take h, ∃ c ∈ row, ¬ IsGlyph c) ∨
        (is.take h).flatten.count '@' ≠ 1 ∨
        (is.take h).flatten.count '^' + (is.take h).flatten.count '%' ≠ 1) →
      ∃ l, MazeLevel.parse is L h w = .ok (l, is.drop h)) ∧
    (∀ e, MazeLevel.parse is L h w = .error e → IsParseError L e) := by
  have key : LevelTextOk is h w ↔ ¬ (is.length < h ∨ (∃ row ∈ is.take h, row.length ≠ w) ∨
        (∃ row ∈ is.take h, ∃ c ∈ row, ¬ IsGlyph c) ∨
        (is.take h).flatten.count '@' ≠ 1 ∨
        (is.take h).flatten.count '^' + (is.take h).flatten.count '%' ≠ 1) := by
    unfold LevelTextOk
    simp only [not_or, not_exists, not_and, not_not, not_lt]
  refine ⟨⟨?_, ?_⟩, ?_, fun e he => MazeLevel.parse_error_form he⟩
  · rintro ⟨e, he, _⟩
    by_contra hcon
    have := MazeLevel.parse_of_textOk L (key.mpr hcon)
    rw [this] at he
    simp at he
  · intro hd
    cases hx : MazeLevel.parse is L h w with
    | error e => exact ⟨e, rfl, MazeLevel.parse_error_form hx⟩
    | ok r =>
      obtain ⟨l, rest⟩ := r
      exact absurd hd (key.mp (MazeLevel.parse_ok_textOk hx).1)
  · intro hn
    exact ⟨_, MazeLevel.parse_of_textOk L (key.mpr hn)⟩

theorem C13_parse_fails_iff_witness :
    ∃ l, MazeLevel.parse (hallText.map String.toList) 0 3 4
      = .ok (l, (hallText.map String.toList).drop 3) :=
  (C13_parse_fails_iff (hallText.map String.toList) 0 3 4).2.1 (by decide)

/-! The text of the errors -/

theorem ConstructWhatString_cell (level r c : Nat) (err : String) :
    ConstructWhatString level err (some r) (some c)
      = "Error parsing row " ++ toString r ++ ", column " ++ toString c ++ " of maze level "
          ++ toString (level + 1) ++ ": " ++ err ++ "." := by
  simp only [ConstructWhatString, String.append_assoc]
  rw [← String.append_assoc "Error parsing " "row "]
  rfl

theorem ConstructWhatString_level (level : Nat) (err : String) :
    ConstructWhatString level err none none
      = "Error parsing maze level " ++ toString (level + 1) ++ ": " ++ err ++ "." := by
  simp [ConstructWhatString, String.append_assoc]

theorem parseRow_first_unknown {level i : Nat} :
    ∀ (cs : List Char) (j : Nat) (st : ParseState) (seen : List Char) (b : Nat) (c : Char),
      st.Tracks seen → Clean (seen ++ cs.take b) → cs[b]? = some c → ¬ IsGlyph c →
      parseRow level i j cs st = .error (ConstructWhatString level
        ("unknown character: " ++ String.singleton c) (some (i + 1)) (some (j + b + 1))) := by
  intro cs
  induction cs with
  | nil => intro j st seen b c _ _ h _; simp at h
  | cons c0 cs ih =>
    intro j st seen b c ht hc hb hg
    cases b with
    | zero =>
      simp at hb
      subst hb
      unfold parseRow
      rw [parseCell_unknown level i j c0 st hg]
    | succ b =>
      simp only [List.getElem?_cons_succ] at hb
      simp only [List.take_succ_cons] at hc
      have hc1 : Clean (seen ++ [c0]) := by
        have : seen ++ c0 :: cs.take b = (seen ++ [c0]) ++ cs.take b := by simp
        rw [this] at hc
        exact hc.prefix
      unfold parseRow
      rw [parseCell_clean ht level i j c0 hc1]
      dsimp only
      rw [ih (j + 1) (st.read i j c0) (seen ++ [c0]) b c (Tracks_read ht i j c0)
        (by simpa using hc) hb hg]
      have e : j + 1 + b + 1 = j + (b + 1) + 1 := by omega
      rw [e]

theorem parseRows_first_unknown {level width : Nat} :
    ∀ (a n i : Nat) (is : List (List Char)) (st : ParseState) (seen : List Char)
      (row : List Char) (b : Nat) (c : Char),
      st.Tracks seen → a < n → is[a]? = some row → (∀ r ∈ is.take (a + 1), r.length = width) →
      Clean (seen ++ ((is.take a).flatten ++ row.take b)) → row[b]? = some c → ¬ IsGlyph c →
      parseRows level width n i is st = .error (ConstructWhatString level
        ("unknown character: " ++ String.singleton c) (some (i + a + 1)) (some (b + 1))) := by
  intro a
  induction a with
  | zero =>
    intro n i is st seen row b c ht hn hrow hw hc hb hg
    cases n with
    | zero => omega
    | succ n =>
      cases is with
      | nil => simp at hrow
      | cons r0 is1 =>
        simp at hrow
        subst hrow
        have hr : r0.length = width := hw r0 (by simp)
        unfold parseRows
        simp only [hr, ne_eq, not_true_eq_false, if_false]
        rw [parseRow_first_unknown r0 0 st seen b c ht (by simpa using hc) hb hg]
        simp
  | succ a ih =>
    intro n i is st seen row b c ht hn hrow hw hc hb hg
    cases n with
    | zero => omega
    | succ n =>
      cases is with
      | nil => simp at hrow
      | cons r0 is1 =>
        simp only [List.getElem?_cons_succ] at hrow
        simp only [List.take_succ_cons, List.flatten_cons] at hc hw
        have hr : r0.length = width := hw r0 (by simp)
        have hc1 : Clean (seen ++ r0) := by
          have : seen ++ (r0 ++ (is1.take a).flatten ++ row.take b)
              = (seen ++ r0) ++ ((is1.take a).flatten ++ row.take b) := by simp
          rw [this] at hc
          exact hc.prefix
        unfold parseRows
        simp only [hr, ne_eq, not_true_eq_false, if_false]
        rw [parseRow_clean r0 0 st seen ht hc1]
        dsimp only
        rw [ih n (i + 1) is1 _ (seen ++ r0) row b c (Tracks_readRow r0 i 0 st seen ht)
          (by omega) hrow (fun r hr => hw r (List.mem_cons_of_mem _ hr)) (by simpa using hc)
          hb hg]
        have e : i + 1 + a + 1 = i + (a + 1) + 1 := by omega
        rw [e]

/-- Claim C14: the errors of a level parse name one-indexed coordinates.  When, for the level
with index `L`, everything read before the cell of row `i` and column `j` is without defect
(the rows up to row `i` have the declared width, every character before the cell has a case
in the `switch` and none of `@`, `^`, `%` came twice) and the character `c` of the cell has
no case, the text of the error is
`Error parsing row <i+1>, column <j+1> of maze level <L+1>: unknown character: c.`;
when all rows are read without defect, a missing `@`, a missing `^`/`%` and the presence of
both `^` and `%` give `Error parsing maze level <L+1>: <reason>.`, with no row. -/
theorem C14_parse_error_text (is : List (List Char)) (L h w : Nat) :
    (∀ (i j : Nat) (row : List Char) (c : Char), i < h → is[i]? = some row →
      (∀ r ∈ is.take (i + 1), r.length = w) → Clean ((is.take i).flatten ++ row.take j) →
      row[j]? = some c → ¬ IsGlyph c →
      MazeLevel.parse is L h w = .error
        ("Error parsing row " ++ toString (i + 1) ++ ", column " ++ toString (j + 1)
          ++ " of maze level " ++ toString (L + 1) ++ ": "
          ++ ("unknown character: " ++ String.singleton c) ++ ".")) ∧
    (h ≤ is.length → (∀ r ∈ is.take h, r.length = w) → Clean (is.take h).flatten →
      ((is.take h).flatten.count '@' = 0 →
        MazeLevel.parse is L h w = .error
          ("Error parsing maze level " ++ toString (L + 1) ++ ": "
            ++ "no beginning location found" ++ ".")) ∧
      ((is.take h).flatten.count '@' = 1 → (is.take h).flatten.count '^' = 0 →
        (is.take h).flatten.count '%' = 0 →
        MazeLevel.parse is L h w = .error
          ("Error parsing maze level " ++ toString (L + 1) ++ ": "
            ++ "no ladder or instructor found" ++ ".")) ∧
      ((is.take h).flatten.count '@' = 1 → (is.take h).flatten.count '^' = 1 →
        (is.take h).flatten.count '%' = 1 →
        MazeLevel.parse is L h w = .error
          ("Error parsing maze level " ++ toString (L + 1) ++ ": "
            ++ "found both an instructor and a ladder" ++ "."))) := by
  constructor
  · intro i j row c hi hrow hw hc hj hg
    have e := @parseRows_first_unknown L w i h 0 is ⟨false, none, none⟩ [] row j c Tracks_init
      hi hrow hw (by simpa using hc) hj hg
    unfold MazeLevel.parse
    rw [e]
    dsimp only
    rw [ConstructWhatString_cell, Nat.zero_add]
  · intro hlen hw hc
    have e := @parseRows_clean L w h 0 is ⟨false, none, none⟩ [] Tracks_init hlen hw
      (by simpa using hc)
    have ht := Tracks_readRows (is.take h) 0 ⟨false, none, none⟩ [] Tracks_init
    simp only [List.nil_append] at ht
    obtain ⟨t1, t2, t3⟩ := ht
    have hstart : (is.take h).flatten.count '@' = 1 →
        (ParseState.readRows 0 (is.take h) ⟨false, none, none⟩).start_location_ ≠ none :=
      fun h1 => t2.mpr (List.count_pos_iff.mp (by omega))
    refine ⟨?_, ?_, ?_⟩
    · intro h0
      have hs : (ParseState.readRows 0 (is.take h) ⟨false, none, none⟩).start_location_ = none := by
        by_contra hcon
        have := List.count_pos_iff.mpr (t2.mp hcon)
        omega
      unfold MazeLevel.parse
      rw [e]
      dsimp only
      rw [if_pos hs, ConstructWhatString_level]
    · intro h1 h2 h3
      have hl : (ParseState.readRows 0 (is.take h) ⟨false, none, none⟩).has_ladder = false := by
        cases hx : (ParseState.readRows 0 (is.take h) ⟨false, none, none⟩).has_ladder with
        | false => rfl
        | true =>
          have := List.count_pos_iff.mpr (t1.mp hx)
          omega
      have hi : (ParseState.readRows 0 (is.take h) ⟨false, none, none⟩).instructor_location_
          = none := by
        by_contra hcon
        have := List.count_pos_iff.mpr (t3.mp hcon)
        omega
      unfold MazeLevel.parse
      rw [e]
      dsimp only
      rw [if_neg (hstart h1), if_pos (by simp [hl, hi]), ConstructWhatString_level]
    · intro h1 h2 h3
      have hl : (ParseState.readRows 0 (is.take h) ⟨false, none, none⟩).has_ladder = true :=
        t1.mpr (List.count_pos_iff.mp (by omega))
      have hi : (ParseState.readRows 0 (is.take h) ⟨false, none, none⟩).instructor_location_
          ≠ none := t3.mpr (List.count_pos_iff.mp (by omega))
      unfold MazeLevel.parse
      rw [e]
      dsimp only
      rw [if_neg (hstart h1), if_neg (by simp [hl]), if_pos (by simp [hl, hi]),
        ConstructWhatString_level]

theorem C14_parse_error_text_witness :
    MazeLevel.parse ["@ ^".toList, " x ".toList] 1 2 3
      = .error "Error parsing row 2, column 2 of maze level 2: unknown character: x." :=
  (C14_parse_error_text ["@ ^".toList, " x ".toList] 1 2 3).1 1 1 " x ".toList 'x'
    (by decide) rfl (by decide) ⟨by decide, by decide, by decide, by decide⟩ rfl (by decide)

/-! ### Resetting a level -/

theorem Reset_tileAt (l : MazeLevel) (i j : Nat) :
    l.Reset.tileAt i j = (l.tileAt i j).map (MazeLocation.mapSpace
      (fun s => { s with has_ta := false, has_skill := false, has_student := false })) := by
  unfold MazeLevel.tileAt MazeLevel.Reset
  simp only [List.getElem?_map]
  cases l.locations_[i]? with
  | none => rfl
  | some row => simp

theorem Reset_Reset (l : MazeLevel) : l.Reset.Reset = l.Reset := by
  unfold MazeLevel.Reset
  simp only [List.map_map]
  congr 1
  apply List.map_congr_left
  intro row _
  simp only [Function.comp, List.map_map]
  apply List.map_congr_left
  intro loc _
  cases loc <;> rfl

theorem tileFor_reset (level i j : Nat) (c : Char) :
    MazeLocation.mapSpace
      (fun s => { s with has_ta := false, has_skill := false, has_student := false })
      (tileFor level i j c) = tileFor level i j c := by
  unfold tileFor
  split <;> rfl

theorem tilesFor_reset (level i : Nat) :
    ∀ (cs : List Char) (j : Nat), (tilesFor level i j cs).map (MazeLocation.mapSpace
      (fun s => { s with has_ta := false, has_skill := false, has_student := false }))
      = tilesFor level i j cs := by
  intro cs
  induction cs with
  | nil => intro j; rfl
  | cons c cs ih => intro j; simp only [tilesFor, List.map_cons, ih, tileFor_reset]

theorem rowsFor_reset (level : Nat) :
    ∀ (rows : List (List Char)) (i : Nat), (rowsFor level i rows).map (List.map
      (MazeLocation.mapSpace
        (fun s => { s with has_ta := false, has_skill := false, has_student := false })))
      = rowsFor level i rows := by
  intro rows
  induction rows with
  | nil => intro i; rfl
  | cons r rs ih => intro i; simp only [rowsFor, List.map_cons, ih, tilesFor_reset]

/-- Claim C16: `MazeLevel::Reset` leaves every open space with `has_student`, `has_ta` and
`has_skill` false and with `is_beginning`, `has_ladder`, `has_instructor` and its position
as they were; walls, the dimensions and the two tile pointers are unchanged.  Hence a second
`Reset` changes nothing, and `Reset` of a level that was just parsed gives that level. -/
theorem C16_Reset_effect (l : MazeLevel) :
    (∀ i j : Nat,
      (∀ p, l.tileAt i j = some (MazeLocation.wall p) →
        l.Reset.tileAt i j = some (MazeLocation.wall p)) ∧
      (∀ sp, l.tileAt i j = some (MazeLocation.space sp) →
        ∃ sp1, l.Reset.tileAt i j = some (MazeLocation.space sp1) ∧
          sp1.has_student = false ∧ sp1.has_ta = false ∧ sp1.has_skill = false ∧
          sp1.is_beginning = sp.is_beginning ∧ sp1.has_ladder = sp.has_ladder ∧
          sp1.has_instructor = sp.has_instructor ∧ sp1.pos = sp.pos) ∧
      (l.tileAt i j = none → l.Reset.tileAt i j = none)) ∧
    (l.Reset.height_ = l.height_ ∧ l.Reset.width_ = l.width_ ∧
      l.Reset.start_location_ = l.start_location_ ∧
      l.Reset.instructor_location_ = l.instructor_location_) ∧
    l.Reset.Reset = l.Reset ∧
    (∀ (is rest : List (List Char)) (L h w : Nat),
      MazeLevel.parse is L h w = .ok (l, rest) → l.Reset = l) := by
  refine ⟨?_, ⟨rfl, rfl, rfl, rfl⟩, Reset_Reset l, ?_⟩
  · intro i j
    refine ⟨?_, ?_, ?_⟩
    · intro p h
      rw [Reset_tileAt, h]; rfl
    · intro sp h
      rw [Reset_tileAt, h]
      exact ⟨_, rfl, rfl, rfl, rfl, rfl, rfl, rfl, rfl⟩
    · intro h
      rw [Reset_tileAt, h]; rfl
  · intro is rest L h w hp
    obtain ⟨_, hl, _⟩ := MazeLevel.parse_ok_textOk hp
    subst hl
    unfold MazeLevel.Reset levelFor
    simp only [rowsFor_reset]

theorem C16_Reset_effect_witness :
    (levelFor (hallText.map String.toList) 0 3 4).Reset
      = levelFor (hallText.map String.toList) 0 3 4 :=
  (C16_Reset_effect (levelFor (hallText.map String.toList) 0 3 4)).2.2.2
    (hallText.map String.toList) [] 0 3 4 (by rfl)

/-! ### Looking up a tile -/

theorem Maze.WellFormed.gridOk {m : Maze} (h : m.WellFormed) {li : Nat} {l : MazeLevel}
    (hl : m.levels_[li]? = some l) : l.GridOk := by
  have h1 : l.layout ∈ m.layout := by
    apply List.mem_iff_getElem?.mpr
    exact ⟨li, by rw [Maze.layout_getElem?, hl]; rfl⟩
  obtain ⟨_, _, _, _, e, f⟩ := LayoutOk.dims h l.layout h1
  refine ⟨?_, ?_, ?_⟩
  · simpa [MazeLevel.layout] using e
  · intro row hrow
    have := f (row.map (MazeLocation.mapSpace OpenSpace.erase))
      (by simp only [MazeLevel.layout]; exact List.mem_map_of_mem _ hrow)
    simpa [MazeLevel.layout] using this
  · intro i j loc ht
    have := h.tile_pos hl ht
    rw [this]
    exact ⟨rfl, rfl⟩

theorem LevelOk.toGridOk {li height width : Nat} {l : MazeLevel} (h : LevelOk li height width l) :
    l.GridOk := by
  refine ⟨by rw [h.rows, h.height_eq], ?_, ?_⟩
  · intro row hrow
    rw [h.cols row hrow, h.width_eq]
  · intro i j loc ht
    rw [h.pos i j loc ht]
    exact ⟨rfl, rfl⟩

theorem MazeLevel.GridOk.tileAt_isSome {l : MazeLevel} (h : l.GridOk) {i j : Nat}
    (hi : i < l.height_) (hj : j < l.width_) : ∃ loc, l.tileAt i j = some loc := by
  obtain ⟨h1, h2, _⟩ := h
  have hi2 : i < l.locations_.length := by omega
  have hrow := h2 l.locations_[i] (List.getElem_mem _)
  have hj2 : j < l.locations_[i].length := by omega
  exact ⟨l.locations_[i][j], by simp [MazeLevel.tileAt, hi2, hj2]⟩

/-- Claim C17: for a level whose grid agrees with its dimensions (every level of a maze),
`MazeLevel::LocationAt(pos)` returns the tile stored at row `pos.row` and column `pos.col`
when `pos.row < height` and `pos.col < width`, and `None` otherwise; `Maze::LocationAt(pos)`
returns `None` when `pos.level` is not below the number of levels and otherwise what the
level returns, and a tile it returns stores the position `pos`. -/
theorem C17_LocationAt (m : Maze) (hwf : m.WellFormed) (l : MazeLevel) (hl : l.GridOk)
    (pos : MazePosition) :
    ((pos.row < l.height_ ∧ pos.col < l.width_ →
        ∃ loc, l.tileAt pos.row pos.col = some loc ∧ l.LocationAt pos = some loc) ∧
      (¬ (pos.row < l.height_ ∧ pos.col < l.width_) → l.LocationAt pos = none) ∧
      ((l.LocationAt pos).isSome = true ↔ pos.row < l.height_ ∧ pos.col < l.width_)) ∧
    ((m.levels_.length ≤ pos.level → m.LocationAt pos = none) ∧
      (∀ lv, m.levels_[pos.level]? = some lv → m.LocationAt pos = lv.LocationAt pos) ∧
      ((m.LocationAt pos).isSome = true ↔ ∃ lv, m.levels_[pos.level]? = some lv ∧
        pos.row < lv.height_ ∧ pos.col < lv.width_) ∧
      ∀ loc, m.LocationAt pos = some loc → loc.pos = pos) := by
  have lvl : ∀ lv : MazeLevel, lv.GridOk →
      (pos.row < lv.height_ ∧ pos.col < lv.width_ →
        ∃ loc, lv.tileAt pos.row pos.col = some loc ∧ lv.LocationAt pos = some loc) ∧
      (¬ (pos.row < lv.height_ ∧ pos.col < lv.width_) → lv.LocationAt pos = none) := by
    intro lv hlv
    constructor
    · rintro ⟨hr, hc⟩
      obtain ⟨loc, hloc⟩ := hlv.tileAt_isSome hr hc
      refine ⟨loc, hloc, ?_⟩
      unfold MazeLevel.LocationAt
      rw [if_neg (by omega)]
      exact hloc
    · intro hn
      unfold MazeLevel.LocationAt
      rw [if_pos (by omega)]
  have lvl_iff : ∀ lv : MazeLevel, lv.GridOk →
      ((lv.LocationAt pos).isSome = true ↔ pos.row < lv.height_ ∧ pos.col < lv.width_) := by
    intro lv hlv
    constructor
    · intro hs
      by_contra hcon
      rw [(lvl lv hlv).2 hcon] at hs
      simp at hs
    · intro hin
      obtain ⟨loc, _, e⟩ := (lvl lv hlv).1 hin
      rw [e]; rfl
  have mz : ∀ lv, m.levels_[pos.level]? = some lv → m.LocationAt pos = lv.LocationAt pos := by
    intro lv hlv
    have hlt : pos.level < m.levels_.length := (List.getElem?_eq_some_iff.mp hlv).1
    unfold Maze.LocationAt
    rw [if_neg (by omega), hlv]
  refine ⟨⟨(lvl l hl).1, (lvl l hl).2, lvl_iff l hl⟩, ?_, mz, ?_, ?_⟩
  · intro hge
    unfold Maze.LocationAt
    rw [if_pos hge]
  · constructor
    · intro hs
      cases hx : m.levels_[pos.level]? with
      | none =>
        unfold Maze.LocationAt at hs
        split at hs
        · simp at hs
        · simp [hx] at hs
      | some lv =>
        rw [mz lv hx] at hs
        exact ⟨lv, rfl, (lvl_iff lv (hwf.gridOk hx)).mp hs⟩
    · rintro ⟨lv, hlv, hin⟩
      rw [mz lv hlv]
      exact (lvl_iff lv (hwf.gridOk hlv)).mpr hin
  · intro loc hloc
    cases hx : m.levels_[pos.level]? with
    | none =>
      unfold Maze.LocationAt at hloc
      split at hloc
      · simp at hloc
      · simp [hx] at hloc
    | some lv =>
      rw [mz lv hx] at hloc
      unfold MazeLevel.LocationAt at hloc
      split at hloc
      · simp at hloc
      · exact hwf.tile_pos hx hloc

theorem C17_LocationAt_witness :
    ∃ (m : Maze) (l : MazeLevel), hallStart = some m ∧ m.levels_[0]? = some l ∧
      (((⟨0, 2, 3⟩ : MazePosition).row < l.height_ ∧ (⟨0, 2, 3⟩ : MazePosition).col < l.width_ →
        ∃ loc, l.tileAt (⟨0, 2, 3⟩ : MazePosition).row (⟨0, 2, 3⟩ : MazePosition).col = some loc ∧
          l.LocationAt ⟨0, 2, 3⟩ = some loc) ∧
      (¬ ((⟨0, 2, 3⟩ : MazePosition).row < l.height_ ∧
          (⟨0, 2, 3⟩ : MazePosition).col < l.width_) → l.LocationAt ⟨0, 2, 3⟩ = none) ∧
      ((l.LocationAt ⟨0, 2, 3⟩).isSome = true ↔
        (⟨0, 2, 3⟩ : MazePosition).row < l.height_ ∧
          (⟨0, 2, 3⟩ : MazePosition).col < l.width_)) ∧
      ∀ loc, m.LocationAt ⟨0, 2, 3⟩ = some loc → loc.pos = ⟨0, 2, 3⟩ := by
  have h1 : hallStart.isSome = true := by decide
  obtain ⟨m, hm⟩ := Option.isSome_iff_exists.mp h1
  have hwf : m.WellFormed := (play_reachable hallInfo_inRange hm).wellFormed
  have h2 : (m.levels_[0]?).isSome = true := by
    have := fact_of_session hm (P := fun m => (m.levels_[0]?).isSome) (by decide)
    simpa using this
  obtain ⟨l, hl⟩ := Option.isSome_iff_exists.mp h2
  have key := C17_LocationAt m hwf l (hwf.gridOk hl) ⟨0, 2, 3⟩
  exact ⟨m, l, hm, hl, key.1, key.2.2.2.2⟩

/-! ### Choosing empty spaces -/

theorem shuffleWith_perm {α : Type} :
    ∀ (seed : List Nat) (l : List α), (shuffleWith seed l).Perm l := by
  intro seed
  induction seed with
  | nil => intro l; cases l <;> exact List.Perm.refl _
  | cons k ks ih =>
    intro l
    cases l with
    | nil => exact List.Perm.refl _
    | cons x xs =>
      have hlt : k % (xs.length + 1) < (x :: xs).length := by
        simp only [List.length_cons]
        exact Nat.mod_lt _ (by omega)
      unfold shuffleWith
      rw [List.getElem?_eq_getElem hlt]
      dsimp only
      refine (List.Perm.cons _ (ih _)).trans ?_
      rw [List.eraseIdx_eq_take_drop_succ]
      refine List.perm_middle.symm.trans ?_
      rw [← List.drop_eq_getElem_cons hlt, List.take_append_drop]

theorem tileAt_of_mem_flatten {l : MazeLevel} {loc : MazeLocation}
    (h : loc ∈ l.locations_.flatten) : ∃ i j, l.tileAt i j = some loc := by
  obtain ⟨row, hrow, hloc⟩ := List.mem_flatten.mp h
  obtain ⟨i, hi⟩ := List.mem_iff_getElem?.mp hrow
  obtain ⟨j, hj⟩ := List.mem_iff_getElem?.mp hloc
  exact ⟨i, j, by simp [MazeLevel.tileAt, hi, hj]⟩

theorem mem_flatten_of_tileAt {l : MazeLevel} {loc : MazeLocation} {i j : Nat}
    (h : l.tileAt i j = some loc) : loc ∈ l.locations_.flatten := by
  unfold MazeLevel.tileAt at h
  cases hr : l.locations_[i]? with
  | none => simp [hr] at h
  | some row =>
    simp only [hr] at h
    exact List.mem_flatten.mpr ⟨row, mem_of_getElem?_some hr, mem_of_getElem?_some h⟩

theorem MazeLevel.GridOk.tileAt_lt {l : MazeLevel} (hl : l.GridOk) {i j : Nat}
    {loc : MazeLocation} (h : l.tileAt i j = some loc) : i < l.height_ ∧ j < l.width_ := by
  obtain ⟨h1, h2, _⟩ := hl
  unfold MazeLevel.tileAt at h
  cases hr : l.locations_[i]? with
  | none => simp [hr] at h
  | some row =>
    simp only [hr] at h
    have hi := (List.getElem?_eq_some_iff.mp hr).1
    have hj := (List.getElem?_eq_some_iff.mp h).1
    have := h2 row (mem_of_getElem?_some hr)
    omega

theorem mem_emptyPositions {l : MazeLevel} {p : MazePosition} :
    p ∈ l.emptyPositions ↔
      ∃ sp, MazeLocation.space sp ∈ l.locations_.flatten ∧ sp.IsEmpty = true ∧ sp.pos = p := by
  unfold MazeLevel.emptyPositions
  rw [List.mem_filterMap]
  constructor
  · rintro ⟨loc, hloc, hf⟩
    cases loc with
    | wall q => simp at hf
    | space s =>
      by_cases he : s.IsEmpty = true
      · simp [he] at hf
        exact ⟨s, hloc, he, hf⟩
      · simp [he] at hf
  · rintro ⟨sp, hm, he, hp⟩
    exact ⟨_, hm, by simp [he, hp]⟩

theorem emptyPositions_length (l : MazeLevel) :
    l.emptyPositions.length = l.locations_.flatten.countP MazeLocation.isEmptySpace := by
  unfold MazeLevel.emptyPositions
  rw [List.length_filterMap_eq_countP]
  congr 1
  funext loc
  cases loc with
  | wall q => rfl
  | space s =>
    by_cases he : s.IsEmpty = true
    · simp [he, MazeLocation.isEmptySpace]
    · simp [he, MazeLocation.isEmptySpace]

theorem row_keys_nodup (r : List MazeLocation)
    (h : ∀ (b : Nat) (loc : MazeLocation), r[b]? = some loc → loc.pos.col = b) :
    (r.map (fun loc => (loc.pos.row, loc.pos.col))).Nodup := by
  apply List.Nodup.of_map Prod.snd
  have e : (r.map (fun loc => (loc.pos.row, loc.pos.col))).map Prod.snd
      = List.range r.length := by
    apply List.ext_getElem?
    intro b
    by_cases hb : b < r.length
    · have := h b r[b] (List.getElem?_eq_getElem hb)
      rw [List.getElem?_eq_getElem (by simpa using hb),
        List.getElem?_eq_getElem (by simpa using hb)]
      simp [this]
    · rw [List.getElem?_eq_none (by simpa using hb), List.getElem?_eq_none (by simpa using hb)]
  rw [e]
  exact List.nodup_range _

theorem grid_keys_nodup :
    ∀ (rows : List (List MazeLocation)) (i0 : Nat),
      (∀ (a b : Nat) (row : List MazeLocation) (loc : MazeLocation), rows[a]? = some row →
        row[b]? = some loc → loc.pos.row = i0 + a ∧ loc.pos.col = b) →
      (rows.flatten.map (fun loc => (loc.pos.row, loc.pos.col))).Nodup := by
  intro rows
  induction rows with
  | nil => intro i0 _; simp
  | cons r rs ih =>
    intro i0 h
    simp only [List.flatten_cons, List.map_append]
    apply List.Nodup.append
    · exact row_keys_nodup r (fun b loc hb => (h 0 b r loc (by simp) hb).2)
    · apply ih (i0 + 1)
      intro a b row loc ha hb
      have := h (a + 1) b row loc (by simpa using ha) hb
      exact ⟨by omega, this.2⟩
    · intro x hx1 hx2
      obtain ⟨loc1, hl1, e1⟩ := List.mem_map.mp hx1
      obtain ⟨loc2, hl2, e2⟩ := List.mem_map.mp hx2
      obtain ⟨b1, hb1⟩ := List.mem_iff_getElem?.mp hl1
      obtain ⟨row2, hrow2, hloc2⟩ := List.mem_flatten.mp hl2
      obtain ⟨a2, ha2⟩ := List.mem_iff_getElem?.mp hrow2
      obtain ⟨b2, hb2⟩ := List.mem_iff_getElem?.mp hloc2
      have p1 := (h 0 b1 r loc1 (by simp) hb1).1
      have p2 := (h (a2 + 1) b2 row2 loc2 (by simpa using ha2) hb2).1
      have e3 : loc1.pos.row = loc2.pos.row := by
        have := congrArg Prod.fst (e1.trans e2.symm)
        simpa using this
      omega

theorem emptyPositions_keys_sublist (xs : List MazeLocation) :
    ((xs.filterMap fun loc =>
        match loc with
        | .wall _ => none
        | .space s => if s.IsEmpty then some s.pos else none).map
      (fun p : MazePosition => (p.row, p.col))).Sublist
    (xs.map (fun loc => (loc.pos.row, loc.pos.col))) := by
  induction xs with
  | nil => simp
  | cons x xs ih =>
    cases x with
    | wall q =>
      simp only [List.filterMap_cons, List.map_cons]
      exact List.Sublist.cons _ ih
    | space s =>
      by_cases he : s.IsEmpty = true
      · simp only [List.filterMap_cons, he, if_true, List.map_cons, MazeLocation.pos]
        exact List.Sublist.cons₂ _ ih
      · simp only [List.filterMap_cons, he, List.map_cons]
        exact List.Sublist.cons _ ih

theorem MazeLevel.GridOk.emptyPositions_nodup {l : MazeLevel} (hl : l.GridOk) :
    (l.emptyPositions.map (fun p : MazePosition => (p.row, p.col))).Nodup := by
  apply List.Nodup.sublist (emptyPositions_keys_sublist l.locations_.flatten)
  apply grid_keys_nodup l.locations_ 0
  intro a b row loc ha hb
  have := hl.2.2 a b loc (by simp [MazeLevel.tileAt, ha, hb])
  exact ⟨by omega, this.2⟩

theorem takeSpaces_eq (l : MazeLevel) :
    ∀ (count : Nat) (ps : List MazePosition),
      (∀ p ∈ ps, ∃ sp, l.LocationAt p = some (MazeLocation.space sp)) →
      l.takeSpaces count ps
        = some ((ps.take count).map (fun p : MazePosition => (p.row, p.col))) := by
  intro count
  induction count with
  | zero => intro ps _; simp [MazeLevel.takeSpaces]
  | succ n ih =>
    intro ps h
    cases ps with
    | nil => simp [MazeLevel.takeSpaces]
    | cons p rest =>
      obtain ⟨sp, hsp⟩ := h p (by simp)
      simp only [MazeLevel.takeSpaces, hsp, Option.bind_some, MazeLocation.asSpace]
      rw [ih rest (fun q hq => h q (List.mem_cons_of_mem _ hq))]
      simp

theorem MazeLevel.GridOk.emptyPositions_tile {l : MazeLevel} (hl : l.GridOk) {p : MazePosition}
    (hp : p ∈ l.emptyPositions) :
    ∃ sp, l.tileAt p.row p.col = some (MazeLocation.space sp) ∧ sp.IsEmpty = true ∧
      l.LocationAt p = some (MazeLocation.space sp) := by
  obtain ⟨sp, hm, he, hpos⟩ := mem_emptyPositions.mp hp
  obtain ⟨i, j, ht⟩ := tileAt_of_mem_flatten hm
  have hij := hl.2.2 i j _ ht
  simp only [MazeLocation.pos] at hij
  have hlt := hl.tileAt_lt ht
  have hr : p.row = i := by rw [← hpos]; exact hij.1
  have hc : p.col = j := by rw [← hpos]; exact hij.2
  refine ⟨sp, by rw [hr, hc]; exact ht, he, ?_⟩
  unfold MazeLevel.LocationAt
  rw [if_neg (by omega), hr, hc]
  exact ht

/-- Claim C18: for every level whose grid agrees with its dimensions and stored positions
(every level of a maze), every count and every outcome of the shuffle,
`MazeLevel::RandomEmptySpaces(count)` returns `None` exactly when no open space of the level
is empty; otherwise it returns `min(count, number of empty spaces)` pairwise distinct tile
pointers, each to an open space that is empty now (all six flags false).  It throws in
neither case, and the level is only read: the function has no other result than the
pointers. -/
theorem C18_RandomEmptySpaces (l : MazeLevel) (hl : l.GridOk) (count : Nat) (seed : List Nat) :
    (l.RandomEmptySpaces count seed = some none ↔
      ∀ (i j : Nat) (sp : OpenSpace), l.tileAt i j = some (MazeLocation.space sp) →
        sp.IsEmpty = false) ∧
    ((∃ (i j : Nat) (sp : OpenSpace), l.tileAt i j = some (MazeLocation.space sp) ∧
        sp.IsEmpty = true) →
      ∃ ptrs : List (Nat × Nat), l.RandomEmptySpaces count seed = some (some ptrs) ∧
        ptrs.length = min count (l.locations_.flatten.countP MazeLocation.isEmptySpace) ∧
        ptrs.Nodup ∧
        ∀ p ∈ ptrs, ∃ sp : OpenSpace, l.tileAt p.1 p.2 = some (MazeLocation.space sp) ∧
          sp.IsEmpty = true ∧ sp.has_instructor = false ∧ sp.has_ladder = false ∧
          sp.has_student = false ∧ sp.has_ta = false ∧ sp.has_skill = false ∧
          sp.is_beginning = false) := by
  have hperm := shuffleWith_perm seed l.emptyPositions
  have htake := takeSpaces_eq l count (shuffleWith seed l.emptyPositions)
    (fun p hp => by
      obtain ⟨sp, _, _, h3⟩ := hl.emptyPositions_tile (hperm.mem_iff.mp hp)
      exact ⟨sp, h3⟩)
  have hnonempty : (∃ (i j : Nat) (sp : OpenSpace),
      l.tileAt i j = some (MazeLocation.space sp) ∧ sp.IsEmpty = true) →
      l.emptyPositions.isEmpty = false := by
    rintro ⟨i, j, sp, ht, he⟩
    have hm : sp.pos ∈ l.emptyPositions :=
      mem_emptyPositions.mpr ⟨sp, mem_flatten_of_tileAt ht, he, rfl⟩
    cases hx : l.emptyPositions with
    | nil => rw [hx] at hm; simp at hm
    | cons a b => rfl
  have hsome : (∃ (i j : Nat) (sp : OpenSpace),
      l.tileAt i j = some (MazeLocation.space sp) ∧ sp.IsEmpty = true) →
      l.RandomEmptySpaces count seed = some (some
        (((shuffleWith seed l.emptyPositions).take count).map
          (fun p : MazePosition => (p.row, p.col)))) := by
    intro hex
    unfold MazeLevel.RandomEmptySpaces MazeLevel.EmptySpacePositions
    rw [hnonempty hex]
    simp only [Bool.false_eq_true, if_false]
    rw [htake]
    rfl
  constructor
  · constructor
    · intro hnone i j sp ht
      cases he : sp.IsEmpty with
      | false => rfl
      | true =>
        rw [hsome ⟨i, j, sp, ht, he⟩] at hnone
        simp at hnone
    · intro hall
      have hemp : l.emptyPositions = [] := by
        cases hx : l.emptyPositions with
        | nil => rfl
        | cons p rest =>
          have hp : p ∈ l.emptyPositions := by rw [hx]; simp
          obtain ⟨sp, ht, he, _⟩ := hl.emptyPositions_tile hp
          rw [hall _ _ sp ht] at he
          exact Bool.noConfusion he
      unfold MazeLevel.RandomEmptySpaces MazeLevel.EmptySpacePositions
      rw [hemp]
      rfl
  · intro hex
    refine ⟨_, hsome hex, ?_, ?_, ?_⟩
    · rw [List.length_map, List.length_take, hperm.length_eq, emptyPositions_length]
    · rw [List.map_take]
      apply List.Nodup.sublist (List.take_sublist _ _)
      exact ((hperm.map _).nodup_iff).mpr hl.emptyPositions_nodup
    · intro p hp
      obtain ⟨q, hq, e⟩ := List.mem_map.mp hp
      have hq2 : q ∈ l.emptyPositions := hperm.mem_iff.mp (List.mem_of_mem_take hq)
      obtain ⟨sp, ht, he, _⟩ := hl.emptyPositions_tile hq2
      subst e
      refine ⟨sp, ht, he, ?_⟩
      unfold OpenSpace.IsEmpty at he
      simp only [Bool.and_eq_true, Bool.not_eq_true'] at he
      obtain ⟨⟨⟨⟨⟨a, b⟩, c⟩, d⟩, e⟩, f⟩ := he
      exact ⟨a, b, c, d, e, f⟩

theorem C18_RandomEmptySpaces_witness :
    ∃ ptrs : List (Nat × Nat),
      (levelFor (hallText.map String.toList) 0 3 4).RandomEmptySpaces 3 [5, 4]
        = some (some ptrs) ∧
      ptrs.length = min 3 ((levelFor (hallText.map String.toList) 0 3 4).locations_.flatten.countP
        MazeLocation.isEmptySpace) ∧
      ptrs.Nodup ∧
      ∀ p ∈ ptrs, ∃ sp : OpenSpace,
        (levelFor (hallText.map String.toList) 0 3 4).tileAt p.1 p.2
          = some (MazeLocation.space sp) ∧
        sp.IsEmpty = true ∧ sp.has_instructor = false ∧ sp.has_ladder = false ∧
        sp.has_student = false ∧ sp.has_ta = false ∧ sp.has_skill = false ∧
        sp.is_beginning = false :=
  (C18_RandomEmptySpaces (levelFor (hallText.map String.toList) 0 3 4)
    (@MazeLevel.parse_ok (hallText.map String.toList) [] 0 3 4
      (levelFor (hallText.map String.toList) 0 3 4) (by rfl)).toGridOk 3 [5, 4]).2
    ⟨0, 2, OpenSpace.new ⟨0, 0, 2⟩, by rfl, by rfl⟩

/-! ### The instructor and the ladders of a constructed maze -/

theorem parseLevels_chunks {height width : Nat} :
    ∀ (n i : Nat) (is : List (List Char)) (levels : List MazeLevel),
      parseLevels height width n i is = .ok levels →
      levels.length = n ∧
      ∀ (k : Nat) (l : MazeLevel), levels[k]? = some l →
        LevelTextOk (is.drop (k * height)) height width ∧
        l = levelFor (is.drop (k * height)) (i + k) height width := by
  intro n
  induction n with
  | zero =>
    intro i is levels h
    simp [parseLevels] at h
    subst h
    simp
  | succ n ih =>
    intro i is levels h
    unfold parseLevels at h
    split at h
    · simp at h
    · rename_i level rest hl
      split at h
      · simp at h
      · rename_i levels1 hrest
        simp at h
        subst h
        obtain ⟨t1, t2, t3⟩ := MazeLevel.parse_ok_textOk hl
        obtain ⟨q1, q2⟩ := ih _ _ _ hrest
        refine ⟨by simp [q1], ?_⟩
        intro k l hk
        cases k with
        | zero =>
          simp at hk
          subst hk
          simpa using ⟨t1, t2⟩
        | succ k =>
          simp at hk
          have := q2 k l hk
          rw [t3, List.drop_drop] at this
          have e1 : height + k * height = (k + 1) * height := by
            rw [Nat.add_mul]; omega
          have e2 : i + 1 + k = i + (k + 1) := by omega
          rw [e1, e2] at this
          exact this

theorem levelFor_instructor_isSome {is : List (List Char)} {height width : Nat} (level : Nat) :
    (levelFor is level height width).instructor_location_ ≠ none ↔
      '%' ∈ (is.take height).flatten := by
  have ht := Tracks_readRows (is.take height) 0 ⟨false, none, none⟩ [] Tracks_init
  simp only [List.nil_append] at ht
  exact ht.instructor

theorem levelFor_no_instructor_flag (is : List (List Char)) (level height width i j : Nat)
    (sp : OpenSpace)
    (h : (levelFor is level height width).tileAt i j = some (MazeLocation.space sp)) :
    sp.has_instructor = false := by
  rw [levelFor_tileAt] at h
  split at h
  · cases hc : charAt is i j with
    | none => simp [hc] at h
    | some c =>
      simp only [hc, Option.map_some', Option.some.injEq] at h
      unfold tileFor at h
      split at h
      · simp at h
      · simp only [MazeLocation.space.injEq] at h
        rw [← h]
        rfl
  · simp at h

theorem layout_countP_isLadder (l : MazeLevel) :
    l.layout.locations_.flatten.countP MazeLocation.isLadder
      = l.locations_.flatten.countP MazeLocation.isLadder := by
  unfold MazeLevel.layout
  simp only
  rw [← List.map_flatten, List.countP_map]
  congr 1
  funext loc
  cases loc <;> rfl

theorem levelFor_ladders {is : List (List Char)} {height width : Nat}
    (h : LevelTextOk is height width) (level : Nat) :
    (levelFor is level height width).locations_.flatten.countP MazeLocation.isLadder
      = if (levelFor is level height width).instructor_location_ = none then 1 else 0 := by
  have e : (levelFor is level height width).locations_.flatten.countP MazeLocation.isLadder
      = (is.take height).flatten.count '^' :=
    rowsFor_countP level MazeLocation.isLadder '^' (tileFor_isLadder level) _ 0
  rw [e]
  have hi := @levelFor_instructor_isSome is height width level
  have hc := h.clean.instructor
  have hsum := h.2.2.2.2
  by_cases hn : (levelFor is level height width).instructor_location_ = none
  · rw [if_pos hn]
    have : '%' ∉ (is.take height).flatten := fun hm => (hi.mpr hm) hn
    have := List.count_eq_zero.mpr this
    omega
  · rw [if_neg hn]
    have := List.count_pos_iff.mpr (hi.mp hn)
    omega

/-! What the placement of TAs and skills leaves alone, seen through any tile pointer -/

theorem deref_modifySpace_proj {β : Type} (π : OpenSpace → β) (m : Maze) (p : MazePosition)
    (f : OpenSpace → OpenSpace) (hf : ∀ s, π (f s) = π s) (q : MazePosition) :
    ((m.modifySpace p f).deref q).map π = (m.deref q).map π := by
  rw [deref_modifySpace]
  split
  · cases m.deref q with
    | none => rfl
    | some s => simp [hf]
  · rfl

theorem deref_placeTALoop_proj {β : Type} (π : OpenSpace → β)
    (hta : ∀ s : OpenSpace, π { s with has_ta := true } = π s) {li : Nat} :
    ∀ (ptrs : List (Nat × Nat)) (m m1 : Maze) (tas : List TA),
      Maze.placeTALoop li ptrs m = some (tas, m1) →
      ∀ q, (m1.deref q).map π = (m.deref q).map π := by
  intro ptrs
  induction ptrs with
  | nil => intro m m1 tas h q; simp [Maze.placeTALoop] at h; rw [h.2]
  | cons p rest ih =>
    intro m m1 tas h q
    obtain ⟨i, j⟩ := p
    unfold Maze.placeTALoop at h
    split at h
    · simp at h
    · split at h
      · simp at h
      · rename_i tas1 m2 hrec
        simp at h
        rw [← h.2, ih _ _ _ hrec q, deref_modifySpace_proj π _ _ _ hta]

theorem deref_PlaceTAsAtLevel_proj {β : Type} (π : OpenSpace → β)
    (hta : ∀ s : OpenSpace, π { s with has_ta := true } = π s) {m m1 : Maze} {li : Nat}
    {seed : List Nat} {tas : List TA} (h : m.PlaceTAsAtLevel li seed = .ok (tas, m1))
    (q : MazePosition) : (m1.deref q).map π = (m.deref q).map π := by
  unfold Maze.PlaceTAsAtLevel at h
  split at h
  · simp at h
  · split at h
    · simp at h
    · simp at h
    · split at h
      · simp at h
      · rename_i r hr
        simp at h
        subst h
        exact deref_placeTALoop_proj π hta _ _ _ _ hr q

theorem deref_PlaceTAs_proj {β : Type} (π : OpenSpace → β)
    (hta : ∀ s : OpenSpace, π { s with has_ta := true } = π s) {seeds : Nat → List Nat} :
    ∀ (lis : List Nat) (m m1 : Maze), Maze.PlaceTAs seeds lis m = .ok m1 →
      ∀ q, (m1.deref q).map π = (m.deref q).map π := by
  intro lis
  induction lis with
  | nil => intro m m1 h q; simp [Maze.PlaceTAs] at h; rw [h]
  | cons li rest ih =>
    intro m m1 h q
    unfold Maze.PlaceTAs at h
    split at h
    · simp at h
    · rename_i tas m2 hp
      rw [ih _ _ h q]
      show (m2.deref q).map π = _
      exact deref_PlaceTAsAtLevel_proj π hta hp q

theorem deref_foldl_skill_proj {β : Type} (π : OpenSpace → β)
    (hsk : ∀ s : OpenSpace, π { s with has_skill := true } = π s) (li : Nat) :
    ∀ (ptrs : List (Nat × Nat)) (m : Maze) (q : MazePosition),
      ((ptrs.foldl (fun acc ptr =>
        acc.modifySpace ⟨li, ptr.1, ptr.2⟩ (fun s => { s with has_skill := true })) m).deref
          q).map π = (m.deref q).map π := by
  intro ptrs
  induction ptrs with
  | nil => intro m q; rfl
  | cons p rest ih =>
    intro m q
    simp only [List.foldl_cons]
    rw [ih, deref_modifySpace_proj π _ _ _ hsk]

theorem deref_PlaceSkillsAtLevel_proj {β : Type} (π : OpenSpace → β)
    (hsk : ∀ s : OpenSpace, π { s with has_skill := true } = π s) {m m1 : Maze} {li : Nat}
    {seed : List Nat} (h : m.PlaceSkillsAtLevel li seed = .ok m1) (q : MazePosition) :
    (m1.deref q).map π = (m.deref q).map π := by
  unfold Maze.PlaceSkillsAtLevel at h
  split at h
  · simp at h
  · split at h
    · simp at h
    · simp at h
    · simp at h
      subst h
      exact deref_foldl_skill_proj π hsk li _ m q

theorem deref_PlaceSkills_proj {β : Type} (π : OpenSpace → β)
    (hsk : ∀ s : OpenSpace, π { s with has_skill := true } = π s) {seeds : Nat → List Nat} :
    ∀ (lis : List Nat) (m m1 : Maze), Maze.PlaceSkills seeds lis m = .ok m1 →
      ∀ q, (m1.deref q).map π = (m.deref q).map π := by
  intro lis
  induction lis with
  | nil => intro m m1 h q; simp [Maze.PlaceSkills] at h; rw [h]
  | cons li rest ih =>
    intro m m1 h q
    unfold Maze.PlaceSkills at h
    split at h
    · simp at h
    · rename_i m2 hp
      rw [ih _ _ h q]
      exact deref_PlaceSkillsAtLevel_proj π hsk hp q

theorem Maze.construct_ok_parts {info : MazeInfo} {is : List (List Char)}
    {taSeeds skillSeeds : Nat → List Nat} {m : Maze}
    (h : Maze.construct info is taSeeds skillSeeds = .ok m) :
    ∃ (levels : List MazeLevel) (last : MazeLevel) (ii ij : Nat),
      ¬ (info.levels < 1 ∨ info.width < 1 ∨ info.height < 1) ∧
      parseLevels info.height.toNat info.width.toNat info.levels.toNat 0 is = .ok levels ∧
      levels[info.levels.toNat - 1]? = some last ∧
      last.instructor_location_ = some (ii, ij) ∧
      (∀ (i : Nat) (l : MazeLevel), levels[i]? = some l → i < info.levels.toNat - 1 →
        l.instructor_location_ = none) ∧
      m.layout = levels.map MazeLevel.layout ∧
      ∀ q : MazePosition, (m.deref q).map (fun s => s.has_instructor)
        = if q = ⟨info.levels.toNat - 1, ii, ij⟩ then
            ((Maze.mk levels ⟨⟨0, 0, 0⟩, 0⟩ [] ⟨⟨0, 0, 0⟩⟩).deref q).map (fun _ => true)
          else
            ((Maze.mk levels ⟨⟨0, 0, 0⟩, 0⟩ [] ⟨⟨0, 0, 0⟩⟩).deref q).map
              (fun s => s.has_instructor) := by
  unfold Maze.construct at h
  split at h
  · simp at h
  · rename_i hpos
    split at h
    · simp at h
    · rename_i levels hlev
      split at h
      · simp at h
      · rename_i last hlast
        split at h
        · simp at h
        · rename_i ii ij hinst
          split at h
          · simp at h
          · rename_i hany
            split at h
            · simp at h
            · split at h
              · simp at h
              · rename_i si sj hstart
                dsimp only at h
                split at h
                · simp at h
                · split at h
                  · simp at h
                  · split at h
                    · simp at h
                    · rename_i m5 hta
                      refine ⟨levels, last, ii, ij, hpos, hlev, hlast, hinst, ?_, ?_, ?_⟩
                      · intro i l hl hi
                        by_contra hcon
                        apply hany
                        rw [List.any_eq_true]
                        refine ⟨i, List.mem_range.mpr (by omega), ?_⟩
                        simp [hl, hcon, hi]
                      · rw [Maze.layout_PlaceSkills _ _ _ h, Maze.layout_PlaceTAs _ _ _ hta]
                        show Maze.layout (Maze.modifySpace (Maze.mk
                          (Maze.modifySpace (Maze.mk levels _ _ _) _ _).levels_ _ _ _) _ _) = _
                        rw [Maze.layout_modifySpace]
                        · show Maze.layout (Maze.modifySpace (Maze.mk levels _ _ _) _ _) = _
                          rw [Maze.layout_modifySpace]
                          · rfl
                          · intro s; rfl
                        · intro s; rfl
                      · intro q
                        rw [deref_PlaceSkills_proj (fun s => s.has_instructor) (fun s => rfl)
                          _ _ _ h q,
                          deref_PlaceTAs_proj (fun s => s.has_instructor) (fun s => rfl)
                          _ _ _ hta q]
                        show (Maze.deref (Maze.modifySpace (Maze.mk
                          (Maze.modifySpace (Maze.mk levels _ _ _) _ _).levels_ _ _ _) _ _)
                            q).map _ = _
                        rw [deref_modifySpace]
                        have e : ∀ (x : IntrepidStudent) (y : List (List TA)) (z : Instructor),
                            Maze.deref (Maze.mk (Maze.modifySpace (Maze.mk levels
                              ⟨⟨0, 0, 0⟩, 0⟩ [] ⟨⟨0, 0, 0⟩⟩) ⟨0, si, sj⟩
                              (fun s => { s with has_student := true })).levels_ x y z) q
                            = Maze.deref (Maze.modifySpace (Maze.mk levels
                              ⟨⟨0, 0, 0⟩, 0⟩ [] ⟨⟨0, 0, 0⟩⟩) ⟨0, si, sj⟩
                              (fun s => { s with has_student := true })) q :=
                          fun _ _ _ => rfl
                        rw [e]
                        have e2 := deref_modifySpace_proj (fun s => s.has_instructor)
                          (Maze.mk levels ⟨⟨0, 0, 0⟩, 0⟩ [] ⟨⟨0, 0, 0⟩⟩) ⟨0, si, sj⟩
                          (fun s => { s with has_student := true }) (fun s => rfl) q
                        by_cases hq : q = ⟨info.levels.toNat - 1, ii, ij⟩
                        · rw [if_pos hq, if_pos hq, Option.map_map]
                          have e3 : ∀ o : Option OpenSpace, o.map (fun _ => true)
                              = (o.map (fun s => s.has_instructor)).map (fun _ => true) := by
                            intro o; cases o <;> rfl
                          show Option.map (fun _ => true) _ = _
                          rw [e3, e2, ← e3]
                        · rw [if_neg hq, if_neg hq]
                          exact e2

theorem Maze.level_of_layout {m : Maze} {levels : List MazeLevel}
    (h : m.layout = levels.map MazeLevel.layout) (li : Nat) :
    (∀ l, m.levels_[li]? = some l → ∃ l0, levels[li]? = some l0 ∧ l.layout = l0.layout) ∧
    (∀ l0, levels[li]? = some l0 → ∃ l, m.levels_[li]? = some l ∧ l.layout = l0.layout) := by
  have e : (m.levels_[li]?).map MazeLevel.layout = (levels[li]?).map MazeLevel.layout := by
    rw [← Maze.layout_getElem?, h, List.getElem?_map]
  constructor
  · intro l hl
    rw [hl] at e
    cases hx : levels[li]? with
    | none => rw [hx] at e; simp at e
    | some l0 =>
      rw [hx] at e
      simp only [Option.map_some', Option.some.injEq] at e
      exact ⟨l0, rfl, e⟩
  · intro l0 hl0
    rw [hl0] at e
    cases hx : m.levels_[li]? with
    | none => rw [hx] at e; simp at e
    | some l =>
      rw [hx] at e
      simp only [Option.map_some', Option.some.injEq] at e
      exact ⟨l, rfl, e⟩

/-- What a successful construction establishes about the instructor and the ladders. -/
theorem Maze.construct_ok_instructor {info : MazeInfo} {is : List (List Char)}
    {taSeeds skillSeeds : Nat → List Nat} {m : Maze}
    (h : Maze.construct info is taSeeds skillSeeds = .ok m) :
    ∃ (last : MazeLevel) (ii ij : Nat) (sp : OpenSpace),
      (1 ≤ info.levels.toNat ∧ m.levels_.length = info.levels.toNat) ∧
      (m.levels_[info.levels.toNat - 1]? = some last ∧
        last.instructor_location_ = some (ii, ij) ∧
        m.deref ⟨info.levels.toNat - 1, ii, ij⟩ = some sp ∧ sp.has_instructor = true) ∧
      (∀ (q : MazePosition) (sp1 : OpenSpace), m.deref q = some sp1 →
        (sp1.has_instructor = true ↔ q = ⟨info.levels.toNat - 1, ii, ij⟩)) ∧
      (∀ (li : Nat) (l : MazeLevel), m.levels_[li]? = some l →
        (l.instructor_location_ ≠ none ↔ li = info.levels.toNat - 1)) ∧
      (∀ (li : Nat) (l : MazeLevel), m.levels_[li]? = some l → li + 1 < info.levels.toNat →
        l.locations_.flatten.countP MazeLocation.isLadder = 1) ∧
      (∀ k : Nat, k < info.levels.toNat →
        (levelText is info.height.toNat k).flatten.count '%'
          = if k + 1 = info.levels.toNat then 1 else 0) := by
  obtain ⟨levels, last0, ii, ij, hpos, hlev, hlast, hinst, hearlier, hlayout, hderef⟩ :=
    Maze.construct_ok_parts h
  obtain ⟨hlen, hchunk⟩ := parseLevels_chunks _ _ _ _ hlev
  simp only [Nat.zero_add] at hchunk
  have hn : 1 ≤ info.levels.toNat := by
    simp only [not_or, not_lt] at hpos
    omega
  have hmlen : m.levels_.length = info.levels.toNat := by
    have := congrArg List.length hlayout
    simpa [Maze.layout, hlen] using this
  obtain ⟨last, hmlast, hlastlay⟩ := (Maze.level_of_layout hlayout _).2 last0 hlast
  have hlastinst : last.instructor_location_ = some (ii, ij) := by
    have := congrArg MazeLevel.instructor_location_ hlastlay
    exact this.trans hinst
  -- the tiles of the parsed levels carry no instructor flag
  have hparsed : ∀ (q : MazePosition) (s0 : OpenSpace),
      (Maze.mk levels ⟨⟨0, 0, 0⟩, 0⟩ [] ⟨⟨0, 0, 0⟩⟩).deref q = some s0 →
      s0.has_instructor = false := by
    intro q s0 hq
    obtain ⟨l0, hl0, ht⟩ := deref_eq_some hq
    obtain ⟨_, e⟩ := hchunk q.level l0 hl0
    rw [e] at ht
    exact levelFor_no_instructor_flag _ _ _ _ _ _ _ ht
  -- the instructor tile of the last level is an open space
  have hspace : ∃ s0, (Maze.mk levels ⟨⟨0, 0, 0⟩, 0⟩ [] ⟨⟨0, 0, 0⟩⟩).deref
      ⟨info.levels.toNat - 1, ii, ij⟩ = some s0 := by
    obtain ⟨tok, e⟩ := hchunk _ last0 hlast
    have hi := hinst
    rw [e, levelFor_instructor tok] at hi
    have ht := levelFor_tileAt (is.drop ((info.levels.toNat - 1) * info.height.toNat))
      (info.levels.toNat - 1) info.height.toNat info.width.toNat ii ij
    rw [if_pos hi.1, hi.2] at ht
    refine ⟨OpenSpace.new ⟨info.levels.toNat - 1, ii, ij⟩, ?_⟩
    unfold Maze.deref
    simp only [hlast]
    rw [e, ht]
    rfl
  obtain ⟨s0, hs0⟩ := hspace
  have hd := hderef ⟨info.levels.toNat - 1, ii, ij⟩
  rw [if_pos rfl, hs0] at hd
  cases hsp : m.deref ⟨info.levels.toNat - 1, ii, ij⟩ with
  | none => rw [hsp] at hd; simp at hd
  | some sp =>
    rw [hsp] at hd
    simp only [Option.map_some', Option.some.injEq] at hd
    refine ⟨last, ii, ij, sp, ⟨hn, hmlen⟩, ⟨hmlast, hlastinst, hsp, hd⟩, ?_, ?_, ?_, ?_⟩
    · intro q sp1 hq
      constructor
      · intro hflag
        by_contra hne
        have hd1 := hderef q
        rw [if_neg hne, hq] at hd1
        cases hx : (Maze.mk levels ⟨⟨0, 0, 0⟩, 0⟩ [] ⟨⟨0, 0, 0⟩⟩).deref q with
        | none => rw [hx] at hd1; simp at hd1
        | some s1 =>
          rw [hx] at hd1
          simp only [Option.map_some', Option.some.injEq] at hd1
          rw [hparsed q s1 hx] at hd1
          rw [hd1] at hflag
          exact Bool.noConfusion hflag
      · intro e
        subst e
        rw [hsp] at hq
        simp only [Option.some.injEq] at hq
        rw [← hq]
        exact hd
    · intro li l hl
      obtain ⟨l0, hl0, hlay⟩ := (Maze.level_of_layout hlayout li).1 l hl
      have einst : l.instructor_location_ = l0.instructor_location_ := by
        have := congrArg MazeLevel.instructor_location_ hlay
        exact this
      have hli : li < info.levels.toNat := by
        have := (List.getElem?_eq_some_iff.mp hl).1
        omega
      constructor
      · intro hne
        by_contra hcon
        exact hne (by rw [einst]; exact hearlier li l0 hl0 (by omega))
      · intro e
        subst e
        rw [hlast] at hl0
        simp only [Option.some.injEq] at hl0
        rw [einst, ← hl0, hinst]
        simp
    · intro li l hl hlt
      obtain ⟨l0, hl0, hlay⟩ := (Maze.level_of_layout hlayout li).1 l hl
      have hnone := hearlier li l0 hl0 (by omega)
      obtain ⟨tok, e⟩ := hchunk li l0 hl0
      have hlad := levelFor_ladders tok li
      rw [← e, if_pos hnone] at hlad
      rw [← layout_countP_isLadder, hlay, layout_countP_isLadder]
      exact hlad
    · intro k hk
      have hk2 : k < levels.length := by omega
      obtain ⟨tok, e⟩ := hchunk k levels[k] (List.getElem?_eq_getElem hk2)
      have hi := @levelFor_instructor_isSome (is.drop (k * info.height.toNat))
        info.height.toNat info.width.toNat k
      rw [← e] at hi
      have hc := tok.clean.instructor
      unfold levelText
      by_cases hk3 : k + 1 = info.levels.toNat
      · rw [if_pos hk3]
        have hk4 : k = info.levels.toNat - 1 := by omega
        have hl0 : levels[k]? = some last0 := by rw [hk4]; exact hlast
        rw [List.getElem?_eq_getElem hk2] at hl0
        simp only [Option.some.injEq] at hl0
        have hne : levels[k].instructor_location_ ≠ none := by
          rw [hl0, hinst]; simp
        have := List.count_pos_iff.mpr (hi.mp hne)
        omega
      · rw [if_neg hk3]
        have hnone := hearlier k levels[k] (List.getElem?_eq_getElem hk2) (by omega)
        rw [List.count_eq_zero]
        intro hm
        exact (hi.mpr hm) hnone

/-- Claim C20: `Maze::Maze` fails whenever the text of the final level holds no `%` or the
text of an earlier level holds one (when all levels parse, with the two `runtime_error`
texts of the constructor).  Hence in every maze that was constructed: the last level has an
instructor tile to which its `instructor_location_` points, `has_instructor` is set on that
tile and on no other tile of the maze, no other level has an instructor tile (the whole text
holds one `%`, in the final level), and every level but the last has one ladder tile. -/
theorem C20_instructor_on_final_level (info : MazeInfo) (is : List (List Char))
    (taSeeds skillSeeds : Nat → List Nat) :
    (('%' ∉ (levelText is info.height.toNat (info.levels.toNat - 1)).flatten ∨
        ∃ k, k + 1 < info.levels.toNat ∧ '%' ∈ (levelText is info.height.toNat k).flatten) →
      ∃ e, Maze.construct info is taSeeds skillSeeds = .error e) ∧
    (∀ (levels : List MazeLevel) (last : MazeLevel),
      ¬ (info.levels < 1 ∨ info.width < 1 ∨ info.height < 1) →
      parseLevels info.height.toNat info.width.toNat info.levels.toNat 0 is = .ok levels →
      levels[info.levels.toNat - 1]? = some last →
      (last.instructor_location_ = none →
        Maze.construct info is taSeeds skillSeeds
          = .error "Error parsing the maze: no instructor found on final level.") ∧
      (last.instructor_location_ ≠ none →
        (∃ (k : Nat) (l : MazeLevel), levels[k]? = some l ∧ k + 1 < info.levels.toNat ∧
          l.instructor_location_ ≠ none) →
        Maze.construct info is taSeeds skillSeeds
          = .error "Error parsing the maze: instructor found on a level other than the final one.")) ∧
    (∀ m : Maze, Maze.construct info is taSeeds skillSeeds = .ok m →
      ∃ (last : MazeLevel) (ii ij : Nat) (sp : OpenSpace),
        (1 ≤ info.levels.toNat ∧ m.levels_.length = info.levels.toNat) ∧
        (m.levels_[info.levels.toNat - 1]? = some last ∧
          last.instructor_location_ = some (ii, ij) ∧
          m.deref ⟨info.levels.toNat - 1, ii, ij⟩ = some sp ∧ sp.has_instructor = true) ∧
        (∀ (q : MazePosition) (sp1 : OpenSpace), m.deref q = some sp1 →
          (sp1.has_instructor = true ↔ q = ⟨info.levels.toNat - 1, ii, ij⟩)) ∧
        (∀ (li : Nat) (l : MazeLevel), m.levels_[li]? = some l →
          (l.instructor_location_ ≠ none ↔ li = info.levels.toNat - 1)) ∧
        (∀ (li : Nat) (l : MazeLevel), m.levels_[li]? = some l → li + 1 < info.levels.toNat →
          l.locations_.flatten.countP MazeLocation.isLadder = 1) ∧
        (∀ k : Nat, k < info.levels.toNat →
          (levelText is info.height.toNat k).flatten.count '%'
            = if k + 1 = info.levels.toNat then 1 else 0)) := by
  refine ⟨?_, ?_, fun m hm => Maze.construct_ok_instructor hm⟩
  · intro hdef
    cases hx : Maze.construct info is taSeeds skillSeeds with
    | error e => exact ⟨e, rfl⟩
    | ok m =>
      exfalso
      obtain ⟨last, ii, ij, sp, ⟨hn, _⟩, _, _, _, _, hcount⟩ := Maze.construct_ok_instructor hx
      rcases hdef with h1 | ⟨k, hk, h2⟩
      · have := hcount (info.levels.toNat - 1) (by omega)
        rw [if_pos (by omega)] at this
        have := List.count_eq_zero.mpr h1
        omega
      · have := hcount k (by omega)
        rw [if_neg (by omega)] at this
        exact (List.count_eq_zero.mp this) h2
  · intro levels last hpos hlev hlast
    constructor
    · intro hnone
      unfold Maze.construct
      rw [if_neg hpos, hlev]
      dsimp only
      rw [hlast]
      dsimp only
      rw [hnone]
    · intro hsome hex
      obtain ⟨k, l, hl, hk, hne⟩ := hex
      cases hi : last.instructor_location_ with
      | none => exact absurd hi hsome
      | some p =>
        obtain ⟨ii, ij⟩ := p
        unfold Maze.construct
        rw [if_neg hpos, hlev]
        dsimp only
        rw [hlast]
        dsimp only
        rw [hi]
        dsimp only
        rw [if_pos]
        rw [List.any_eq_true]
        refine ⟨k, List.mem_range.mpr (by omega), ?_⟩
        simp only [hl]
        simp [hne]
        omega

theorem C20_instructor_on_final_level_witness :
    ∃ e, Maze.construct ⟨2, 2, 4⟩ (["@%  ", "    ", "@  %", "    "].map String.toList)
      (fun _ => []) (fun _ => []) = .error e :=
  (C20_instructor_on_final_level ⟨2, 2, 4⟩ (["@%  ", "    ", "@  %", "    "].map String.toList)
    (fun _ => []) (fun _ => [])).1 (Or.inr ⟨0, by decide, by decide⟩)

/-! ## Positions, glyphs, placement and resets -/

/-! ### Translating a position -/

theorem usub_uadd_cancel (r n : Nat) (h : r < UINT) : usub (uadd r n) n = r := by
  unfold usub uadd UINT at *
  omega

theorem uadd_usub_cancel (r n : Nat) (h : r < UINT) : uadd (usub r n) n = r := by
  unfold usub uadd UINT at *
  omega

theorem usub_eq_emod (r n : Nat) : ((usub r n : Nat) : Int) = ((r : Int) - (n : Int)) % 4294967296 := by
  unfold usub UINT
  omega

theorem uadd_eq_emod (r n : Nat) : ((uadd r n : Nat) : Int) = ((r : Int) + (n : Int)) % 4294967296 := by
  unfold uadd UINT
  omega

/-- Claim C27: for every position whose row and column are values of `unsigned` (below
2^32), every direction `d` and every amount `n`, `Translate(d, n)` followed by
`Translate(opposite(d), n)` gives the position back: level, row and column, also when the
first step wraps around (row 0 moved up gives 2^32 - n, and down again gives 0). -/
theorem C27_Translate_round_trip (p : MazePosition) (d : PlayerDirectionAction) (n : Nat)
    (hr : p.row < UINT) (hc : p.col < UINT) :
    ((p.Translate d n).Translate d.opposite n).row = p.row ∧
    ((p.Translate d n).Translate d.opposite n).col = p.col ∧
    ((p.Translate d n).Translate d.opposite n).level = p.level ∧
    (p.Translate d n).Translate d.opposite n = p := by
  have key : (p.Translate d n).Translate d.opposite n = p := by
    cases p with
    | mk level row col =>
      cases d
      · simp only [PlayerDirectionAction.opposite, Translate_Up, Translate_Down]
        rw [uadd_usub_cancel row n hr]
      · simp only [PlayerDirectionAction.opposite, Translate_Up, Translate_Down]
        rw [usub_uadd_cancel row n hr]
      · simp only [PlayerDirectionAction.opposite, Translate_Left, Translate_Right]
        rw [uadd_usub_cancel col n hc]
      · simp only [PlayerDirectionAction.opposite, Translate_Left, Translate_Right]
        rw [usub_uadd_cancel col n hc]
  rw [key]
  exact ⟨rfl, rfl, rfl, rfl⟩

theorem C27_Translate_round_trip_witness :
    (((⟨0, 0, 3⟩ : MazePosition).Translate .Up 1).Translate
        PlayerDirectionAction.Up.opposite 1).row = (⟨0, 0, 3⟩ : MazePosition).row ∧
    (((⟨0, 0, 3⟩ : MazePosition).Translate .Up 1).Translate
        PlayerDirectionAction.Up.opposite 1).col = (⟨0, 0, 3⟩ : MazePosition).col ∧
    (((⟨0, 0, 3⟩ : MazePosition).Translate .Up 1).Translate
        PlayerDirectionAction.Up.opposite 1).level = (⟨0, 0, 3⟩ : MazePosition).level ∧
    ((⟨0, 0, 3⟩ : MazePosition).Translate .Up 1).Translate
        PlayerDirectionAction.Up.opposite 1 = ⟨0, 0, 3⟩ :=
  C27_Translate_round_trip ⟨0, 0, 3⟩ .Up 1 (by unfold UINT; decide) (by unfold UINT; decide)

/-- Claim C28: `MazePosition::Translate` never changes the level; `Up` changes only the row,
to `row - n` modulo 2^32, `Down` only the row, to `row + n` modulo 2^32, `Left` only the
column, to `col - n` modulo 2^32, and `Right` only the column, to `col + n` modulo 2^32. -/
theorem C28_Translate_frame (p : MazePosition) (n : Nat) :
    (∀ d : PlayerDirectionAction, (p.Translate d n).level = p.level) ∧
    (((p.Translate .Up n).row : Int) = ((p.row : Int) - (n : Int)) % 4294967296 ∧
      (p.Translate .Up n).col = p.col) ∧
    (((p.Translate .Down n).row : Int) = ((p.row : Int) + (n : Int)) % 4294967296 ∧
      (p.Translate .Down n).col = p.col) ∧
    (((p.Translate .Left n).col : Int) = ((p.col : Int) - (n : Int)) % 4294967296 ∧
      (p.Translate .Left n).row = p.row) ∧
    (((p.Translate .Right n).col : Int) = ((p.col : Int) + (n : Int)) % 4294967296 ∧
      (p.Translate .Right n).row = p.row) := by
  refine ⟨fun d => Translate_level p d n, ⟨?_, ?_⟩, ⟨?_, ?_⟩, ⟨?_, ?_⟩, ⟨?_, ?_⟩⟩
  · rw [Translate_Up]; exact usub_eq_emod _ _
  · rw [Translate_Up]
  · rw [Translate_Down]; exact uadd_eq_emod _ _
  · rw [Translate_Down]
  · rw [Translate_Left]; exact usub_eq_emod _ _
  · rw [Translate_Left]
  · rw [Translate_Right]; exact uadd_eq_emod _ _
  · rw [Translate_Right]

/-! ### The glyph of a tile -/

/-- Claim C29: for every combination of the six flags `OpenSpace::DisplayCharacter` returns
the glyph of the first flag that is set in the order student `*`, TA `T`, skill `$`,
start `@`, ladder `^`, instructor `%`, and a blank when none is set;
`Wall::DisplayCharacter` returns `#`. -/
theorem C29_DisplayCharacter_precedence (s : OpenSpace) (p : MazePosition) :
    (s.has_student = true → s.DisplayCharacter = '*') ∧
    (s.has_student = false → s.has_ta = true → s.DisplayCharacter = 'T') ∧
    (s.has_student = false → s.has_ta = false → s.has_skill = true →
      s.DisplayCharacter = '$') ∧
    (s.has_student = false → s.has_ta = false → s.has_skill = false →
      s.is_beginning = true → s.DisplayCharacter = '@') ∧
    (s.has_student = false → s.has_ta = false → s.has_skill = false →
      s.is_beginning = false → s.has_ladder = true → s.DisplayCharacter = '^') ∧
    (s.has_student = false → s.has_ta = false → s.has_skill = false →
      s.is_beginning = false → s.has_ladder = false → s.has_instructor = true →
      s.DisplayCharacter = '%') ∧
    (s.has_student = false → s.has_ta = false → s.has_skill = false →
      s.is_beginning = false → s.has_ladder = false → s.has_instructor = false →
      s.DisplayCharacter = ' ') ∧
    (MazeLocation.space s).DisplayCharacter = s.DisplayCharacter ∧
    (MazeLocation.wall p).DisplayCharacter = '#' := by
  refine ⟨?_, ?_, ?_, ?_, ?_, ?_, ?_, rfl, rfl⟩
  · intro h1
    simp [OpenSpace.DisplayCharacter, h1]
  · intro h1 h2
    simp [OpenSpace.DisplayCharacter, h1, h2]
  · intro h1 h2 h3
    simp [OpenSpace.DisplayCharacter, h1, h2, h3]
  · intro h1 h2 h3 h4
    simp [OpenSpace.DisplayCharacter, h1, h2, h3, h4]
  · intro h1 h2 h3 h4 h5
    simp [OpenSpace.DisplayCharacter, h1, h2, h3, h4, h5]
  · intro h1 h2 h3 h4 h5 h6
    simp [OpenSpace.DisplayCharacter, h1, h2, h3, h4, h5, h6]
  · intro h1 h2 h3 h4 h5 h6
    simp [OpenSpace.DisplayCharacter, h1, h2, h3, h4, h5, h6]

theorem C29_DisplayCharacter_precedence_witness :
    (⟨⟨0, 1, 1⟩, true, false, false, true, false, true⟩ : OpenSpace).DisplayCharacter = 'T' :=
  (C29_DisplayCharacter_precedence ⟨⟨0, 1, 1⟩, true, false, false, true, false, true⟩
    ⟨0, 0, 0⟩).2.1 rfl rfl

/-! ### Empty spaces of a level of the maze -/

theorem deref_of_levels {m : Maze} {l : MazeLevel} {q : MazePosition}
    (hl : m.levels_[q.level]? = some l) :
    m.deref q = (l.tileAt q.row q.col).bind MazeLocation.asSpace := by
  unfold Maze.deref
  rw [hl]

theorem mem_emptyKeys {m : Maze} (hwf : m.WellFormed) (li : Nat) (p : Nat × Nat) :
    p ∈ m.emptyKeys li ↔ m.EmptyAt li p := by
  unfold Maze.emptyKeys Maze.EmptyAt
  cases hl : m.levels_[li]? with
  | none =>
    simp only [List.not_mem_nil, false_iff]
    rintro ⟨sp, hd, _⟩
    unfold Maze.deref at hd
    simp [hl] at hd
  | some l =>
    have hg := hwf.gridOk hl
    simp only
    constructor
    · intro hp
      obtain ⟨pos, hpos, e⟩ := List.mem_map.mp hp
      obtain ⟨sp, ht, he, _⟩ := hg.emptyPositions_tile hpos
      refine ⟨sp, ?_, he⟩
      rw [@deref_of_levels m l ⟨li, p.1, p.2⟩ hl, ← e]
      simp [ht, MazeLocation.asSpace]
    · rintro ⟨sp, hd, he⟩
      obtain ⟨l1, hl1, ht⟩ := deref_eq_some hd
      simp only at hl1 ht
      rw [hl] at hl1
      simp only [Option.some.injEq] at hl1
      subst hl1
      have hpos := hg.2.2 _ _ _ ht
      simp only [MazeLocation.pos] at hpos
      refine List.mem_map.mpr ⟨sp.pos, mem_emptyPositions.mpr
        ⟨sp, mem_flatten_of_tileAt ht, he, rfl⟩, ?_⟩
      rw [hpos.1, hpos.2]

theorem emptyKeys_nodup {m : Maze} (hwf : m.WellFormed) (li : Nat) :
    (m.emptyKeys li).Nodup := by
  unfold Maze.emptyKeys
  cases hl : m.levels_[li]? with
  | none => simp
  | some l => exact (hwf.gridOk hl).emptyPositions_nodup

theorem length_eq_of_same_members {α : Type} {l1 l2 : List α} (d1 : l1.Nodup) (d2 : l2.Nodup)
    (h : ∀ a, a ∈ l1 ↔ a ∈ l2) : l1.length = l2.length :=
  ((List.perm_ext_iff_of_nodup d1 d2).mpr h).length_eq

/-- Removing the members of a duplicate-free sublist takes away as many elements. -/
theorem length_after_removal {α : Type} [DecidableEq α] {e e1 ptrs : List α} (de : e.Nodup)
    (d1 : e1.Nodup) (dp : ptrs.Nodup) (hsub : ∀ a ∈ ptrs, a ∈ e)
    (h : ∀ a, a ∈ e1 ↔ a ∈ e ∧ a ∉ ptrs) : e1.length + ptrs.length = e.length := by
  have hperm := List.filter_append_perm (fun a => decide (a ∈ ptrs)) e
  have h1 : (e.filter (fun a => decide (a ∈ ptrs))).length = ptrs.length := by
    apply length_eq_of_same_members (de.filter _) dp
    intro a
    simp only [List.mem_filter, decide_eq_true_eq]
    exact ⟨fun h => h.2, fun h => ⟨hsub a h, h⟩⟩
  have h2 : (e.filter (fun a => !decide (a ∈ ptrs))).length = e1.length := by
    apply length_eq_of_same_members (de.filter _) d1
    intro a
    simp only [List.mem_filter, Bool.not_eq_true', decide_eq_false_iff_not]
    exact (h a).symm
  have := hperm.length_eq
  rw [List.length_append, h1, h2] at this
  omega

/-! ### Setting a flag on chosen tiles of one level -/

theorem wellFormed_modifySpace {m : Maze} (hwf : m.WellFormed) (p : MazePosition)
    (f : OpenSpace → OpenSpace) (hf : ∀ s, (f s).erase = s.erase) :
    (m.modifySpace p f).WellFormed := by
  unfold Maze.WellFormed
  rw [Maze.layout_modifySpace m p f hf]
  exact hwf

theorem deref_foldl_modify (li : Nat) (f : OpenSpace → OpenSpace) (hf : ∀ s, f (f s) = f s) :
    ∀ (ptrs : List (Nat × Nat)) (m : Maze) (q : MazePosition),
      (ptrs.foldl (fun acc ptr => acc.modifySpace ⟨li, ptr.1, ptr.2⟩ f) m).deref q
        = if q.level = li ∧ (q.row, q.col) ∈ ptrs then (m.deref q).map f else m.deref q := by
  intro ptrs
  induction ptrs with
  | nil => intro m q; simp
  | cons p rest ih =>
    intro m q
    simp only [List.foldl_cons]
    rw [ih, deref_modifySpace]
    by_cases hq : q = ⟨li, p.1, p.2⟩
    · subst hq
      simp only [true_and, if_true, List.mem_cons, true_or]
      split
      · cases m.deref ⟨li, p.1, p.2⟩ with
        | none => rfl
        | some s => simp [hf]
      · rfl
    · simp only [hq, if_false]
      by_cases hlev : q.level = li
      · have hne : (q.row, q.col) ≠ p := by
          intro e
          apply hq
          cases q
          simp only at hlev
          simp only [MazePosition.mk.injEq]
          exact ⟨hlev, by rw [← e], by rw [← e]⟩
        simp only [hlev, true_and, List.mem_cons, hne, false_or]
      · simp [hlev]

theorem foldl_modify_frame (li : Nat) (f : OpenSpace → OpenSpace) :
    ∀ (ptrs : List (Nat × Nat)) (m : Maze),
      (ptrs.foldl (fun acc ptr => acc.modifySpace ⟨li, ptr.1, ptr.2⟩ f) m).tas_ = m.tas_ ∧
      (ptrs.foldl (fun acc ptr => acc.modifySpace ⟨li, ptr.1, ptr.2⟩ f) m).student_
        = m.student_ ∧
      (ptrs.foldl (fun acc ptr => acc.modifySpace ⟨li, ptr.1, ptr.2⟩ f) m).instructor_
        = m.instructor_ := by
  intro ptrs
  induction ptrs with
  | nil => intro m; exact ⟨rfl, rfl, rfl⟩
  | cons p rest ih =>
    intro m
    simp only [List.foldl_cons]
    obtain ⟨a, b, c⟩ := ih (m.modifySpace ⟨li, p.1, p.2⟩ f)
    exact ⟨a, b, c⟩

theorem layout_foldl_modify (li : Nat) (f : OpenSpace → OpenSpace)
    (hf : ∀ s, (f s).erase = s.erase) :
    ∀ (ptrs : List (Nat × Nat)) (m : Maze),
      (ptrs.foldl (fun acc ptr => acc.modifySpace ⟨li, ptr.1, ptr.2⟩ f) m).layout
        = m.layout := by
  intro ptrs
  induction ptrs with
  | nil => intro m; rfl
  | cons p rest ih =>
    intro m
    simp only [List.foldl_cons]
    rw [ih, Maze.layout_modifySpace _ _ _ hf]

/-- The loop of `Maze::PlaceTAsAtLevel` in a well-formed maze, over pointers to open spaces:
a fresh TA for each pointer, and `has_ta` set on each tile. -/
theorem placeTALoop_eq (li : Nat) :
    ∀ (ptrs : List (Nat × Nat)) (m : Maze), m.WellFormed →
      (∀ p ∈ ptrs, ∃ sp, m.deref ⟨li, p.1, p.2⟩ = some sp) →
      Maze.placeTALoop li ptrs m
        = some (ptrs.map (fun p => (⟨⟨li, p.1, p.2⟩, 0⟩ : TA)),
            ptrs.foldl (fun acc ptr =>
              acc.modifySpace ⟨li, ptr.1, ptr.2⟩ (fun s => { s with has_ta := true })) m) := by
  intro ptrs
  induction ptrs with
  | nil => intro m _ _; rfl
  | cons p rest ih =>
    intro m hwf h
    obtain ⟨i, j⟩ := p
    obtain ⟨sp, hsp⟩ := h (i, j) (by simp)
    have hpos : sp.pos = ⟨li, i, j⟩ := hwf.deref_pos hsp
    have hwf2 : (m.modifySpace ⟨li, i, j⟩ (fun s => { s with has_ta := true })).WellFormed :=
      wellFormed_modifySpace hwf _ _ (fun s => rfl)
    have h2 : ∀ p ∈ rest, ∃ sp1,
        (m.modifySpace ⟨li, i, j⟩ (fun s => { s with has_ta := true })).deref ⟨li, p.1, p.2⟩
          = some sp1 := by
      intro p hp
      obtain ⟨sp1, hsp1⟩ := h p (List.mem_cons_of_mem _ hp)
      rw [deref_modifySpace]
      split
      · exact ⟨_, by rw [hsp1]; rfl⟩
      · exact ⟨sp1, hsp1⟩
    unfold Maze.placeTALoop
    simp only [hsp]
    rw [ih _ hwf2 h2]
    simp [hpos]

/-! ### The two placements on one level -/

theorem RandomEmptySpaces_keys {m : Maze} (hwf : m.WellFormed) {li : Nat} {l : MazeLevel}
    (hl : m.levels_[li]? = some l) (count : Nat) (seed : List Nat) :
    (m.emptyKeys li = [] ∧ l.RandomEmptySpaces count seed = some none) ∨
    (m.emptyKeys li ≠ [] ∧ ∃ ptrs : List (Nat × Nat),
      l.RandomEmptySpaces count seed = some (some ptrs) ∧ ptrs.Nodup ∧
      (∀ p ∈ ptrs, m.EmptyAt li p) ∧ ptrs.length = min count (m.emptyKeys li).length ∧
      ((m.emptyKeys li).length ≤ count → ∀ p, m.EmptyAt li p → p ∈ ptrs)) := by
  have hg := hwf.gridOk hl
  have hkeys : m.emptyKeys li = l.emptyPositions.map (fun p : MazePosition => (p.row, p.col)) := by
    unfold Maze.emptyKeys
    rw [hl]
  have hperm := shuffleWith_perm seed l.emptyPositions
  cases hx : l.emptyPositions with
  | nil =>
    left
    refine ⟨by rw [hkeys, hx]; rfl, ?_⟩
    unfold MazeLevel.RandomEmptySpaces MazeLevel.EmptySpacePositions
    rw [hx]
    rfl
  | cons a rest =>
    right
    refine ⟨by rw [hkeys, hx]; simp, ?_⟩
    have htake := takeSpaces_eq l count (shuffleWith seed l.emptyPositions)
      (fun p hp => by
        obtain ⟨sp, _, _, h3⟩ := hg.emptyPositions_tile (hperm.mem_iff.mp hp)
        exact ⟨sp, h3⟩)
    have hres : l.RandomEmptySpaces count seed = some (some
        (((shuffleWith seed l.emptyPositions).take count).map
          (fun p : MazePosition => (p.row, p.col)))) := by
      unfold MazeLevel.RandomEmptySpaces MazeLevel.EmptySpacePositions
      have hne : l.emptyPositions.isEmpty = false := by rw [hx]; rfl
      rw [hne]
      simp only [Bool.false_eq_true, if_false]
      rw [htake]
      rfl
    have hpermk : ((shuffleWith seed l.emptyPositions).map
        (fun p : MazePosition => (p.row, p.col))).Perm (m.emptyKeys li) := by
      rw [hkeys]
      exact hperm.map _
    refine ⟨_, hres, ?_, ?_, ?_, ?_⟩
    · rw [List.map_take]
      apply List.Nodup.sublist (List.take_sublist _ _)
      exact (hpermk.nodup_iff).mpr (emptyKeys_nodup hwf li)
    · intro p hp
      rw [List.map_take] at hp
      exact (mem_emptyKeys hwf li p).mp (hpermk.mem_iff.mp (List.mem_of_mem_take hp))
    · rw [List.length_map, List.length_take, hperm.length_eq, hkeys, List.length_map]
    · intro hle p hp
      rw [List.map_take, List.take_of_length_le]
      · exact hpermk.mem_iff.mpr ((mem_emptyKeys hwf li p).mpr hp)
      · rw [hpermk.length_eq]
        exact hle

/-- `Maze::PlaceTAsAtLevel` on a level of a well-formed maze: it throws the capacity error
when the level has no empty space; otherwise it puts a fresh TA on each of
`min(2, number of empty spaces)` distinct empty spaces and sets `has_ta` there. -/
theorem PlaceTAsAtLevel_effect {m : Maze} (hwf : m.WellFormed) {li : Nat}
    (hli : li < m.levels_.length) (seed : List Nat) :
    (m.emptyKeys li = [] ∧ m.PlaceTAsAtLevel li seed
        = .error "Grid is not large enough to place TAs on one or more levels.") ∨
    (m.emptyKeys li ≠ [] ∧ ∃ ptrs : List (Nat × Nat),
      ptrs.Nodup ∧ (∀ p ∈ ptrs, m.EmptyAt li p) ∧
      ptrs.length = min 2 (m.emptyKeys li).length ∧
      ((m.emptyKeys li).length ≤ 2 → ∀ p, m.EmptyAt li p → p ∈ ptrs) ∧
      m.PlaceTAsAtLevel li seed
        = .ok (ptrs.map (fun p => (⟨⟨li, p.1, p.2⟩, 0⟩ : TA)),
            ptrs.foldl (fun acc ptr =>
              acc.modifySpace ⟨li, ptr.1, ptr.2⟩ (fun s => { s with has_ta := true })) m)) := by
  have hl : m.levels_[li]? = some m.levels_[li] := List.getElem?_eq_getElem hli
  rcases RandomEmptySpaces_keys hwf hl 2 seed with ⟨h0, hres⟩ | ⟨hne, ptrs, hres, h1, h2, h3, h4⟩
  · left
    refine ⟨h0, ?_⟩
    unfold Maze.PlaceTAsAtLevel
    simp only [hl, hres]
  · right
    refine ⟨hne, ptrs, h1, h2, h3, h4, ?_⟩
    unfold Maze.PlaceTAsAtLevel
    simp only [hl, hres]
    rw [placeTALoop_eq li ptrs m hwf (fun p hp => by
      obtain ⟨sp, hsp, _⟩ := h2 p hp
      exact ⟨sp, hsp⟩)]

/-- `Maze::PlaceSkillsAtLevel` on a level of a well-formed maze: it throws the capacity error
when the level has no empty space; otherwise it sets `has_skill` on
`min(3, number of empty spaces)` distinct empty spaces. -/
theorem PlaceSkillsAtLevel_effect {m : Maze} (hwf : m.WellFormed) {li : Nat}
    (hli : li < m.levels_.length) (seed : List Nat) :
    (m.emptyKeys li = [] ∧ m.PlaceSkillsAtLevel li seed
        = .error "Grid is not large enough to place skills on one or more levels.") ∨
    (m.emptyKeys li ≠ [] ∧ ∃ ptrs : List (Nat × Nat),
      ptrs.Nodup ∧ (∀ p ∈ ptrs, m.EmptyAt li p) ∧
      ptrs.length = min 3 (m.emptyKeys li).length ∧
      m.PlaceSkillsAtLevel li seed
        = .ok (ptrs.foldl (fun acc ptr =>
              acc.modifySpace ⟨li, ptr.1, ptr.2⟩ (fun s => { s with has_skill := true })) m)) := by
  have hl : m.levels_[li]? = some m.levels_[li] := List.getElem?_eq_getElem hli
  rcases RandomEmptySpaces_keys hwf hl 3 seed with ⟨h0, hres⟩ | ⟨hne, ptrs, hres, h1, h2, h3, _⟩
  · left
    refine ⟨h0, ?_⟩
    unfold Maze.PlaceSkillsAtLevel
    simp only [hl, hres]
  · right
    refine ⟨hne, ptrs, h1, h2, h3, ?_⟩
    unfold Maze.PlaceSkillsAtLevel
    simp only [hl, hres]

/-! ### Resetting the tiles of one level -/

theorem levels_resetTiles (m : Maze) (li k : Nat) :
    (m.resetTiles li).levels_[k]?
      = (m.levels_[k]?).map (fun l => if li = k then l.Reset else l) := by
  unfold Maze.resetTiles
  simp [List.getElem?_modify]

theorem deref_resetTiles (m : Maze) (li : Nat) (q : MazePosition) :
    (m.resetTiles li).deref q
      = if q.level = li then
          (m.deref q).map
            (fun s => { s with has_ta := false, has_skill := false, has_student := false })
        else m.deref q := by
  unfold Maze.deref
  rw [levels_resetTiles]
  cases hl : m.levels_[q.level]? with
  | none => simp
  | some l =>
    simp only [Option.map_some']
    by_cases hq : li = q.level
    · have hq2 : q.level = li := hq.symm
      simp only [hq, if_true, Reset_tileAt]
      cases l.tileAt q.row q.col with
      | none => rfl
      | some loc => cases loc <;> rfl
    · have hq2 : ¬ q.level = li := fun e => hq e.symm
      simp [hq, hq2]

theorem layout_resetTiles (m : Maze) (li : Nat) : (m.resetTiles li).layout = m.layout := by
  show (m.levels_.modify MazeLevel.Reset li).map MazeLevel.layout = _
  exact map_modify_absorb _ _ MazeLevel.layout_Reset _ _

theorem wellFormed_resetTiles {m : Maze} (hwf : m.WellFormed) (li : Nat) :
    (m.resetTiles li).WellFormed := by
  unfold Maze.WellFormed
  rw [layout_resetTiles]
  exact hwf

theorem levels_length_of_layout {m m1 : Maze} (h : m1.layout = m.layout) :
    m1.levels_.length = m.levels_.length := by
  have := congrArg List.length h
  simpa [Maze.layout] using this

/-- Membership in `freeKeys`, by the flags of the tile. -/
theorem mem_freeKeys {m : Maze} (hwf : m.WellFormed) (li : Nat) (p : Nat × Nat) :
    p ∈ m.freeKeys li ↔ ∃ sp, m.deref ⟨li, p.1, p.2⟩ = some sp ∧ sp.is_beginning = false ∧
      sp.has_ladder = false ∧ sp.has_instructor = false := by
  unfold Maze.freeKeys
  rw [mem_emptyKeys (wellFormed_resetTiles hwf li)]
  unfold Maze.EmptyAt
  rw [deref_resetTiles]
  simp only [if_true]
  constructor
  · rintro ⟨sp, hd, he⟩
    cases hx : m.deref ⟨li, p.1, p.2⟩ with
    | none => rw [hx] at hd; simp at hd
    | some s =>
      rw [hx] at hd
      simp only [Option.map_some', Option.some.injEq] at hd
      subst hd
      simp only [OpenSpace.IsEmpty, Bool.and_eq_true, Bool.not_eq_true'] at he
      exact ⟨s, rfl, he.2, he.1.1.1.1.2, he.1.1.1.1.1⟩
  · rintro ⟨sp, hd, h1, h2, h3⟩
    refine ⟨_, by rw [hd]; rfl, ?_⟩
    simp [OpenSpace.IsEmpty, h1, h2, h3]

theorem freeKeys_nodup {m : Maze} (hwf : m.WellFormed) (li : Nat) : (m.freeKeys li).Nodup :=
  emptyKeys_nodup (wellFormed_resetTiles hwf li) li

theorem EmptyAt_foldl_set (li : Nat) (f : OpenSpace → OpenSpace) (hf : ∀ s, f (f s) = f s)
    (hne : ∀ s, (f s).IsEmpty = false) (ptrs : List (Nat × Nat)) (m : Maze)
    (p : Nat × Nat) :
    (ptrs.foldl (fun acc ptr => acc.modifySpace ⟨li, ptr.1, ptr.2⟩ f) m).EmptyAt li p
      ↔ m.EmptyAt li p ∧ p ∉ ptrs := by
  unfold Maze.EmptyAt
  rw [deref_foldl_modify li f hf]
  simp only [true_and]
  by_cases hp : p ∈ ptrs
  · simp only [hp, if_true, not_true_eq_false, and_false, iff_false]
    rintro ⟨sp, hd, he⟩
    cases hx : m.deref ⟨li, p.1, p.2⟩ with
    | none => rw [hx] at hd; simp at hd
    | some s =>
      rw [hx] at hd
      simp only [Option.map_some', Option.some.injEq] at hd
      rw [← hd, hne] at he
      exact Bool.noConfusion he
  · simp only [hp, if_false, not_false_eq_true, and_true]

/-- The number of empty spaces of a level after a flag was set on the chosen empty spaces
`ptrs` of that level. -/
theorem emptyKeys_length_foldl_set {m : Maze} (hwf : m.WellFormed) (li : Nat)
    (f : OpenSpace → OpenSpace) (hf : ∀ s, f (f s) = f s) (hne : ∀ s, (f s).IsEmpty = false)
    (he : ∀ s, (f s).erase = s.erase) (ptrs : List (Nat × Nat)) (hd : ptrs.Nodup)
    (hsub : ∀ p ∈ ptrs, m.EmptyAt li p) :
    ((ptrs.foldl (fun acc ptr => acc.modifySpace ⟨li, ptr.1, ptr.2⟩ f) m).emptyKeys li).length
      + ptrs.length = (m.emptyKeys li).length := by
  have hwf2 : (ptrs.foldl (fun acc ptr => acc.modifySpace ⟨li, ptr.1, ptr.2⟩ f) m).WellFormed := by
    unfold Maze.WellFormed
    rw [layout_foldl_modify li f he]
    exact hwf
  apply length_after_removal (emptyKeys_nodup hwf li) (emptyKeys_nodup hwf2 li) hd
  · intro a ha
    exact (mem_emptyKeys hwf li a).mpr (hsub a ha)
  · intro a
    rw [mem_emptyKeys hwf2, mem_emptyKeys hwf, EmptyAt_foldl_set li f hf hne ptrs m]

theorem emptyKeys_congr {m m1 : Maze} (h : m1.levels_ = m.levels_) (li : Nat) :
    m1.emptyKeys li = m.emptyKeys li := by
  unfold Maze.emptyKeys
  rw [h]

theorem deref_congr {m m1 : Maze} (h : m1.levels_ = m.levels_) (q : MazePosition) :
    m1.deref q = m.deref q := by
  unfold Maze.deref
  rw [h]

theorem wellFormed_congr {m m1 : Maze} (h : m1.levels_ = m.levels_) (hwf : m.WellFormed) :
    m1.WellFormed := by
  unfold Maze.WellFormed Maze.layout at *
  rw [h]
  exact hwf

theorem isEmpty_set_ta (s : OpenSpace) : ({ s with has_ta := true } : OpenSpace).IsEmpty = false := by
  simp [OpenSpace.IsEmpty]

theorem isEmpty_set_skill (s : OpenSpace) :
    ({ s with has_skill := true } : OpenSpace).IsEmpty = false := by
  simp [OpenSpace.IsEmpty]

/-- What `Maze::ResetLevel` does to a well-formed maze when it completes. -/
theorem ResetLevel_effect {m m1 : Maze} (hwf : m.WellFormed) {li : Nat}
    {taSeed skillSeed : List Nat} (h : m.ResetLevel li taSeed skillSeed = .ok m1) :
    ∃ (si sj : Nat) (ptrs sptrs : List (Nat × Nat)),
      (∃ l, m.levels_[li]? = some l ∧ l.start_location_ = some (si, sj)) ∧
      li < m.tas_.length ∧ 3 ≤ (m.freeKeys li).length ∧
      (ptrs.Nodup ∧ ptrs.length = 2 ∧ ∀ p ∈ ptrs, p ∈ m.freeKeys li) ∧
      (sptrs.Nodup ∧ sptrs.length = min 3 ((m.freeKeys li).length - 2) ∧
        ∀ p ∈ sptrs, p ∈ m.freeKeys li ∧ p ∉ ptrs) ∧
      m1.student_ = ⟨⟨li, si, sj⟩, 0⟩ ∧ m1.instructor_ = m.instructor_ ∧
      m1.tas_ = m.tas_.set li (ptrs.map (fun p => (⟨⟨li, p.1, p.2⟩, 0⟩ : TA))) ∧
      m1.layout = m.layout ∧
      ∀ q : MazePosition, m1.deref q
        = if q.level = li then
            (m.deref q).map (fun s => { s with
              has_student := decide ((q.row, q.col) = (si, sj)),
              has_ta := decide ((q.row, q.col) ∈ ptrs),
              has_skill := decide ((q.row, q.col) ∈ sptrs) })
          else m.deref q := by
  have hlay := Maze.layout_ResetLevel h
  unfold Maze.ResetLevel at h
  cases hl : m.levels_[li]? with
  | none => simp [hl] at h
  | some l =>
    simp only [hl] at h
    obtain ⟨si, sj, sp0, hstart, htile, hbeg, hpos0⟩ := hwf.start hl
    simp only [hstart] at h
    have hli : li < m.levels_.length := (List.getElem?_eq_some_iff.mp hl).1
    -- the start tile after the reset of the tiles
    have hd0 : m.deref ⟨li, si, sj⟩ = some sp0 := by
      rw [@deref_of_levels m l ⟨li, si, sj⟩ hl, htile]; rfl
    have hd1 : (m.resetTiles li).deref ⟨li, si, sj⟩
        = some { sp0 with has_ta := false, has_skill := false, has_student := false } := by
      rw [deref_resetTiles, if_pos rfl, hd0]; rfl
    have hd1' : Maze.deref { m with levels_ := m.levels_.modify MazeLevel.Reset li } ⟨li, si, sj⟩
        = some { sp0 with has_ta := false, has_skill := false, has_student := false } := hd1
    simp only [hd1'] at h
    rw [deref_modifySpace, if_pos rfl] at h
    simp only [hd1', Option.map_some'] at h
    split at h
    · simp at h
    · rename_i hlen
      simp only [hpos0] at hlen
      have hlen2 : li < m.tas_.length := by
        have : ¬ (li ≥ m.tas_.length) := hlen
        omega
      simp only [hpos0] at h
      -- the maze on which the TAs are placed
      have hM3 : ∃ M3 : Maze, M3 = ⟨((m.resetTiles li).modifySpace ⟨li, si, sj⟩
          (fun s => { s with has_student := true })).levels_, ⟨⟨li, si, sj⟩, 0⟩, m.tas_,
          m.instructor_⟩ := ⟨_, rfl⟩
      obtain ⟨M3, hM3⟩ := hM3
      have h3 : (match M3.PlaceTAsAtLevel li taSeed with
          | Except.error e => Except.error e
          | Except.ok (tas, m4) =>
            Maze.PlaceSkillsAtLevel ⟨m4.levels_, m4.student_, m4.tas_.set li tas,
              m4.instructor_⟩ li skillSeed) = Except.ok m1 := by
        rw [hM3]; exact h
      have hwf3 : M3.WellFormed := by
        rw [hM3]
        exact wellFormed_congr rfl
          (wellFormed_modifySpace (wellFormed_resetTiles hwf li) _ _ (fun s => rfl))
      have hd3 : ∀ q, M3.deref q = if q.level = li then
          (m.deref q).map (fun s => { s with
            has_student := decide ((q.row, q.col) = (si, sj)),
            has_ta := false, has_skill := false })
          else m.deref q := by
        intro q
        have e1 : M3.deref q = ((m.resetTiles li).modifySpace ⟨li, si, sj⟩
            (fun s => { s with has_student := true })).deref q := by
          rw [hM3]; rfl
        rw [e1, deref_modifySpace, deref_resetTiles]
        by_cases hq : q = ⟨li, si, sj⟩
        · subst hq
          simp only [if_true, decide_True]
          cases m.deref ⟨li, si, sj⟩ <;> rfl
        · rw [if_neg hq]
          by_cases hlev : q.level = li
          · have hne : ¬ (q.row, q.col) = (si, sj) := by
              intro e
              apply hq
              cases q
              simp only [Prod.mk.injEq] at e
              simp only at hlev
              simp only [MazePosition.mk.injEq]
              exact ⟨hlev, e.1, e.2⟩
            simp only [hlev, if_true, hne, decide_False]
          · simp only [hlev, if_false]
      have hlay3 : M3.layout = m.layout := by
        rw [hM3]
        show Maze.layout (Maze.modifySpace (m.resetTiles li) _ _) = _
        rw [Maze.layout_modifySpace, layout_resetTiles]
        intro s; rfl
      have hli3 : li < M3.levels_.length := by
        rw [levels_length_of_layout hlay3]; exact hli
      have hE3 : ∀ p, M3.EmptyAt li p ↔ p ∈ m.freeKeys li := by
        intro p
        rw [mem_freeKeys hwf]
        unfold Maze.EmptyAt
        rw [hd3]
        simp only [if_true]
        constructor
        · rintro ⟨sp, hd, he⟩
          cases hx : m.deref ⟨li, p.1, p.2⟩ with
          | none => rw [hx] at hd; simp at hd
          | some s =>
            rw [hx] at hd
            simp only [Option.map_some', Option.some.injEq] at hd
            subst hd
            simp only [OpenSpace.IsEmpty, Bool.and_eq_true, Bool.not_eq_true'] at he
            exact ⟨s, rfl, he.2, he.1.1.1.1.2, he.1.1.1.1.1⟩
        · rintro ⟨s, hd, h1, h2, h3⟩
          have hne : ¬ p = (si, sj) := by
            intro e
            subst e
            rw [hd0] at hd
            simp only [Option.some.injEq] at hd
            rw [hd, h1] at hbeg
            exact Bool.noConfusion hbeg
          refine ⟨_, by rw [hd]; rfl, ?_⟩
          simp [OpenSpace.IsEmpty, h1, h2, h3, hne]
      have hlen3 : (M3.emptyKeys li).length = (m.freeKeys li).length :=
        length_eq_of_same_members (emptyKeys_nodup hwf3 li) (freeKeys_nodup hwf li)
          (fun p => by rw [mem_emptyKeys hwf3, hE3])
      rcases PlaceTAsAtLevel_effect hwf3 hli3 taSeed with
        ⟨_, herr⟩ | ⟨_, ptrs, hnd, hsub, hplen, _, hok⟩
      · rw [herr] at h3
        simp at h3
      · rw [hok] at h3
        simp only at h3
        have hM4 : ∃ M4 : Maze, M4 = ptrs.foldl (fun acc ptr =>
            acc.modifySpace ⟨li, ptr.1, ptr.2⟩ (fun s => { s with has_ta := true })) M3 :=
          ⟨_, rfl⟩
        obtain ⟨M4, hM4⟩ := hM4
        rw [← hM4] at h3
        have hwf4 : M4.WellFormed := by
          unfold Maze.WellFormed
          rw [hM4, layout_foldl_modify li (fun s => { s with has_ta := true }) (fun s => rfl)]
          exact hwf3
        obtain ⟨ft, fs, fi⟩ := foldl_modify_frame li
          (fun s => { s with has_ta := true }) ptrs M3
        rw [← hM4] at ft fs fi
        have hcount := emptyKeys_length_foldl_set hwf3 li (fun s => { s with has_ta := true })
          (fun s => rfl) isEmpty_set_ta (fun s => rfl) ptrs hnd hsub
        rw [← hM4] at hcount
        have hE4 : ∀ p, M4.EmptyAt li p ↔ M3.EmptyAt li p ∧ p ∉ ptrs := by
          intro p
          rw [hM4]
          exact EmptyAt_foldl_set li (fun s => { s with has_ta := true }) (fun s => rfl) isEmpty_set_ta ptrs M3 p
        have hd4 : ∀ q, M4.deref q = if q.level = li ∧ (q.row, q.col) ∈ ptrs then
            (M3.deref q).map (fun s => { s with has_ta := true }) else M3.deref q := by
          intro q
          rw [hM4]
          exact deref_foldl_modify li (fun s => { s with has_ta := true }) (fun s => rfl) ptrs M3 q
        -- the maze on which the skills are placed
        have hM5 : ∃ M5 : Maze, M5 = ⟨M4.levels_, M4.student_,
            M4.tas_.set li (ptrs.map (fun p => (⟨⟨li, p.1, p.2⟩, 0⟩ : TA))), M4.instructor_⟩ :=
          ⟨_, rfl⟩
        obtain ⟨M5, hM5⟩ := hM5
        rw [← hM5] at h3
        have hlev5 : M5.levels_ = M4.levels_ := by rw [hM5]
        have hwf5 : M5.WellFormed := wellFormed_congr hlev5 hwf4
        have hli5 : li < M5.levels_.length := by
          rw [hlev5, levels_length_of_layout (show M4.layout = M3.layout from by
            rw [hM4, layout_foldl_modify li (fun s => { s with has_ta := true }) (fun s => rfl)])]
          exact hli3
        rcases PlaceSkillsAtLevel_effect hwf5 hli5 skillSeed with
          ⟨_, herr⟩ | ⟨hne5, sptrs, hsnd, hssub, hsplen, hok2⟩
        · rw [herr] at h3
          simp at h3
        · rw [hok2] at h3
          simp only [Except.ok.injEq] at h3
          have hE5len : (M5.emptyKeys li).length = (M4.emptyKeys li).length := by
            rw [emptyKeys_congr hlev5]
          have hpos5 : 1 ≤ (M5.emptyKeys li).length := by
            cases hx : M5.emptyKeys li with
            | nil => exact absurd hx hne5
            | cons a b => simp
          have hfree3 : 3 ≤ (m.freeKeys li).length := by omega
          have hp2 : ptrs.length = 2 := by omega
          obtain ⟨gt, gs, gi⟩ := foldl_modify_frame li
            (fun s => { s with has_skill := true }) sptrs M5
          rw [h3] at gt gs gi
          have hE5 : ∀ p, M5.EmptyAt li p ↔ M4.EmptyAt li p := by
            intro p
            unfold Maze.EmptyAt
            rw [deref_congr hlev5]
          refine ⟨si, sj, ptrs, sptrs, ⟨l, rfl, hstart⟩, hlen2, hfree3,
            ⟨hnd, hp2, fun p hp => (hE3 p).mp (hsub p hp)⟩, ⟨hsnd, by omega, ?_⟩, ?_, ?_, ?_,
            hlay, ?_⟩
          · intro p hp
            have h4 := (hE4 p).mp ((hE5 p).mp (hssub p hp))
            exact ⟨(hE3 p).mp h4.1, h4.2⟩
          · rw [gs, hM5]
            show M4.student_ = _
            rw [fs, hM3]
          · rw [gi, hM5]
            show M4.instructor_ = _
            rw [fi, hM3]
          · rw [gt, hM5]
            show M4.tas_.set li _ = _
            rw [ft, hM3]
          · intro q
            have e5 := deref_foldl_modify li (fun s => { s with has_skill := true })
              (fun s => rfl) sptrs M5 q
            rw [h3] at e5
            rw [e5, deref_congr hlev5, hd4, hd3]
            by_cases hlev : q.level = li
            · simp only [hlev, true_and, if_true]
              have hdisj : (q.row, q.col) ∈ sptrs → (q.row, q.col) ∉ ptrs := fun hs =>
                ((hE4 _).mp ((hE5 _).mp (hssub _ hs))).2
              have hns : (q.row, q.col) ∈ sptrs → ¬ (q.row, q.col) = (si, sj) := by
                intro hs e
                have h4 := ((hE4 _).mp ((hE5 _).mp (hssub _ hs))).1
                have h5 := (hE3 _).mp h4
                rw [e, mem_freeKeys hwf] at h5
                obtain ⟨s, hd, h1, _⟩ := h5
                rw [hd0] at hd
                simp only [Option.some.injEq] at hd
                rw [hd, h1] at hbeg
                exact Bool.noConfusion hbeg
              have hnt : (q.row, q.col) ∈ ptrs → ¬ (q.row, q.col) = (si, sj) := by
                intro hs e
                have h5 := (hE3 _).mp (hsub _ hs)
                rw [e, mem_freeKeys hwf] at h5
                obtain ⟨s, hd, h1, _⟩ := h5
                rw [hd0] at hd
                simp only [Option.some.injEq] at hd
                rw [hd, h1] at hbeg
                exact Bool.noConfusion hbeg
              cases hx : m.deref q with
              | none => simp
              | some s =>
                by_cases hs : (q.row, q.col) ∈ sptrs
                · have := hdisj hs
                  have := hns hs
                  simp [*]
                · by_cases ht : (q.row, q.col) ∈ ptrs
                  · have := hnt ht
                    simp [*]
                  · simp [*]
            · simp only [hlev, false_and, if_false]

/-! ### The placement loops of the constructor -/

theorem EmptyAt_congr_deref {m m1 : Maze} {li : Nat} {p : Nat × Nat}
    (h : m1.deref ⟨li, p.1, p.2⟩ = m.deref ⟨li, p.1, p.2⟩) :
    m1.EmptyAt li p ↔ m.EmptyAt li p := by
  unfold Maze.EmptyAt
  rw [h]

theorem emptyKeys_length_congr {m m1 : Maze} (hwf : m.WellFormed) (hwf1 : m1.WellFormed)
    (li : Nat) (h : ∀ p : Nat × Nat, m1.deref ⟨li, p.1, p.2⟩ = m.deref ⟨li, p.1, p.2⟩) :
    (m1.emptyKeys li).length = (m.emptyKeys li).length :=
  length_eq_of_same_members (emptyKeys_nodup hwf1 li) (emptyKeys_nodup hwf li)
    (fun p => by rw [mem_emptyKeys hwf1, mem_emptyKeys hwf, EmptyAt_congr_deref (h p)])

/-- The loop of `Maze::PlaceTAs` over distinct levels of a well-formed maze, when it
completes: on each level `min(2, number of empty spaces)` distinct empty spaces get a fresh
TA and `has_ta`; the rosters are appended in the order of the levels. -/
theorem PlaceTAs_effect (seeds : Nat → List Nat) :
    ∀ (lis : List Nat) (m m1 : Maze), m.WellFormed → lis.Nodup →
      (∀ li ∈ lis, li < m.levels_.length) → Maze.PlaceTAs seeds lis m = .ok m1 →
      ∃ ptrs : Nat → List (Nat × Nat),
        (∀ li ∈ lis, (ptrs li).Nodup ∧ (∀ p ∈ ptrs li, m.EmptyAt li p) ∧
          (ptrs li).length = min 2 (m.emptyKeys li).length ∧
          1 ≤ (m.emptyKeys li).length) ∧
        m1.tas_ = m.tas_ ++ lis.map (fun li =>
          (ptrs li).map (fun p => (⟨⟨li, p.1, p.2⟩, 0⟩ : TA))) ∧
        m1.student_ = m.student_ ∧ m1.instructor_ = m.instructor_ ∧ m1.layout = m.layout ∧
        ∀ q : MazePosition, m1.deref q
          = if q.level ∈ lis ∧ (q.row, q.col) ∈ ptrs q.level then
              (m.deref q).map (fun s => { s with has_ta := true })
            else m.deref q := by
  intro lis
  induction lis with
  | nil =>
    intro m m1 _ _ _ h
    simp [Maze.PlaceTAs] at h
    subst h
    exact ⟨fun _ => [], by simp, by simp, rfl, rfl, rfl, by simp⟩
  | cons li rest ih =>
    intro m m1 hwf hnd hlt h
    have hli : li < m.levels_.length := hlt li (by simp)
    have hnotin : li ∉ rest := (List.nodup_cons.mp hnd).1
    unfold Maze.PlaceTAs at h
    rcases PlaceTAsAtLevel_effect hwf hli (seeds li) with
      ⟨_, herr⟩ | ⟨hne, ptrs0, hnd0, hsub0, hlen0, _, hok⟩
    · rw [herr] at h
      simp at h
    · rw [hok] at h
      simp only at h
      have hM : ∃ M : Maze, M = ptrs0.foldl (fun acc ptr =>
          acc.modifySpace ⟨li, ptr.1, ptr.2⟩ (fun s => { s with has_ta := true })) m :=
        ⟨_, rfl⟩
      obtain ⟨M, hM⟩ := hM
      rw [← hM] at h
      obtain ⟨ft, fs, fi⟩ := foldl_modify_frame li
        (fun s => { s with has_ta := true }) ptrs0 m
      rw [← hM] at ft fs fi
      have hlayM : M.layout = m.layout := by
        rw [hM, layout_foldl_modify li (fun s => { s with has_ta := true }) (fun s => rfl)]
      have hdM : ∀ q, M.deref q = if q.level = li ∧ (q.row, q.col) ∈ ptrs0 then
          (m.deref q).map (fun s => { s with has_ta := true }) else m.deref q := by
        intro q
        rw [hM]
        exact deref_foldl_modify li (fun s => { s with has_ta := true }) (fun s => rfl)
          ptrs0 m q
      have hwfM : M.WellFormed := by
        unfold Maze.WellFormed
        rw [hlayM]; exact hwf
      have hM2 : ∃ M2 : Maze, M2 = ⟨M.levels_, M.student_,
          M.tas_ ++ [ptrs0.map (fun p => (⟨⟨li, p.1, p.2⟩, 0⟩ : TA))], M.instructor_⟩ :=
        ⟨_, rfl⟩
      obtain ⟨M2, hM2⟩ := hM2
      have h2 : Maze.PlaceTAs seeds rest M2 = .ok m1 := by rw [hM2]; exact h
      have hlev2 : M2.levels_ = M.levels_ := by rw [hM2]
      have hwf2 : M2.WellFormed := wellFormed_congr hlev2 hwfM
      have hlen2 : M2.levels_.length = m.levels_.length := by
        rw [hlev2]; exact levels_length_of_layout hlayM
      obtain ⟨ptrs1, hp1, ht1, hs1, hi1, hl1, hd1⟩ := ih M2 m1 hwf2 (List.nodup_cons.mp hnd).2
        (fun lj hlj => by rw [hlen2]; exact hlt lj (List.mem_cons_of_mem _ hlj)) h2
      have hd2 : ∀ q, M2.deref q = M.deref q := fun q => deref_congr hlev2 q
      have hsame : ∀ (lj : Nat), lj ≠ li → ∀ p : Nat × Nat,
          M2.deref ⟨lj, p.1, p.2⟩ = m.deref ⟨lj, p.1, p.2⟩ := by
        intro lj hne2 p
        rw [hd2, hdM]
        simp [hne2]
      refine ⟨fun k => if k = li then ptrs0 else ptrs1 k, ?_, ?_, ?_, ?_, ?_, ?_⟩
      · intro lj hlj
        rcases List.mem_cons.mp hlj with e | e
        · subst e
          simp only [if_true]
          refine ⟨hnd0, hsub0, hlen0, ?_⟩
          cases hx : m.emptyKeys lj with
          | nil => exact absurd hx hne
          | cons a b => simp
        · have hne2 : lj ≠ li := fun e2 => hnotin (e2 ▸ e)
          simp only [hne2, if_false]
          obtain ⟨a1, a2, a3, a4⟩ := hp1 lj e
          have hlen := emptyKeys_length_congr hwf hwf2 lj (hsame lj hne2)
          refine ⟨a1, ?_, by rw [a3, hlen], by rw [← hlen]; exact a4⟩
          intro p hp
          exact (EmptyAt_congr_deref (hsame lj hne2 p)).mp (a2 p hp)
      · rw [ht1, hM2]
        show (M.tas_ ++ [_]) ++ _ = _
        rw [ft, List.append_assoc]
        congr 1
        simp only [List.map_cons, if_true, List.singleton_append, List.cons.injEq, true_and]
        apply List.map_congr_left
        intro lj hlj
        have hne2 : lj ≠ li := fun e2 => hnotin (e2 ▸ hlj)
        simp [hne2]
      · rw [hs1, hM2]
        exact fs
      · rw [hi1, hM2]
        exact fi
      · rw [hl1]
        show M2.levels_.map MazeLevel.layout = _
        rw [hlev2]
        exact hlayM
      · intro q
        rw [hd1, hd2, hdM]
        by_cases hq : q.level = li
        · simp only [hq, hnotin, false_and, if_false, true_and, List.mem_cons, true_or, if_true]
        · simp only [hq, false_and, if_false, List.mem_cons, false_or]

/-- The loop of `Maze::PlaceSkills` over distinct levels of a well-formed maze, when it
completes: on each level `min(3, number of empty spaces)` distinct empty spaces get
`has_skill`, and each level had an empty space. -/
theorem PlaceSkills_effect (seeds : Nat → List Nat) :
    ∀ (lis : List Nat) (m m1 : Maze), m.WellFormed → lis.Nodup →
      (∀ li ∈ lis, li < m.levels_.length) → Maze.PlaceSkills seeds lis m = .ok m1 →
      ∃ ptrs : Nat → List (Nat × Nat),
        (∀ li ∈ lis, (ptrs li).Nodup ∧ (∀ p ∈ ptrs li, m.EmptyAt li p) ∧
          (ptrs li).length = min 3 (m.emptyKeys li).length ∧
          1 ≤ (m.emptyKeys li).length) ∧
        m1.tas_ = m.tas_ ∧ m1.student_ = m.student_ ∧ m1.instructor_ = m.instructor_ ∧
        m1.layout = m.layout ∧
        ∀ q : MazePosition, m1.deref q
          = if q.level ∈ lis ∧ (q.row, q.col) ∈ ptrs q.level then
              (m.deref q).map (fun s => { s with has_skill := true })
            else m.deref q := by
  intro lis
  induction lis with
  | nil =>
    intro m m1 _ _ _ h
    simp [Maze.PlaceSkills] at h
    subst h
    exact ⟨fun _ => [], by simp, rfl, rfl, rfl, rfl, by simp⟩
  | cons li rest ih =>
    intro m m1 hwf hnd hlt h
    have hli : li < m.levels_.length := hlt li (by simp)
    have hnotin : li ∉ rest := (List.nodup_cons.mp hnd).1
    unfold Maze.PlaceSkills at h
    rcases PlaceSkillsAtLevel_effect hwf hli (seeds li) with
      ⟨_, herr⟩ | ⟨hne, ptrs0, hnd0, hsub0, hlen0, hok⟩
    · rw [herr] at h
      simp at h
    · rw [hok] at h
      simp only at h
      have hM : ∃ M : Maze, M = ptrs0.foldl (fun acc ptr =>
          acc.modifySpace ⟨li, ptr.1, ptr.2⟩ (fun s => { s with has_skill := true })) m :=
        ⟨_, rfl⟩
      obtain ⟨M, hM⟩ := hM
      rw [← hM] at h
      obtain ⟨ft, fs, fi⟩ := foldl_modify_frame li
        (fun s => { s with has_skill := true }) ptrs0 m
      rw [← hM] at ft fs fi
      have hlayM : M.layout = m.layout := by
        rw [hM, layout_foldl_modify li (fun s => { s with has_skill := true }) (fun s => rfl)]
      have hdM : ∀ q, M.deref q = if q.level = li ∧ (q.row, q.col) ∈ ptrs0 then
          (m.deref q).map (fun s => { s with has_skill := true }) else m.deref q := by
        intro q
        rw [hM]
        exact deref_foldl_modify li (fun s => { s with has_skill := true }) (fun s => rfl)
          ptrs0 m q
      have hwfM : M.WellFormed := by
        unfold Maze.WellFormed
        rw [hlayM]; exact hwf
      have hlenM : M.levels_.length = m.levels_.length := levels_length_of_layout hlayM
      obtain ⟨ptrs1, hp1, ht1, hs1, hi1, hl1, hd1⟩ := ih M m1 hwfM (List.nodup_cons.mp hnd).2
        (fun lj hlj => by rw [hlenM]; exact hlt lj (List.mem_cons_of_mem _ hlj)) h
      have hsame : ∀ (lj : Nat), lj ≠ li → ∀ p : Nat × Nat,
          M.deref ⟨lj, p.1, p.2⟩ = m.deref ⟨lj, p.1, p.2⟩ := by
        intro lj hne2 p
        rw [hdM]
        simp [hne2]
      refine ⟨fun k => if k = li then ptrs0 else ptrs1 k, ?_, by rw [ht1, ft],
        by rw [hs1, fs], by rw [hi1, fi], by rw [hl1, hlayM], ?_⟩
      · intro lj hlj
        rcases List.mem_cons.mp hlj with e | e
        · subst e
          simp only [if_true]
          refine ⟨hnd0, hsub0, hlen0, ?_⟩
          cases hx : m.emptyKeys lj with
          | nil => exact absurd hx hne
          | cons a b => simp
        · have hne2 : lj ≠ li := fun e2 => hnotin (e2 ▸ e)
          simp only [hne2, if_false]
          obtain ⟨a1, a2, a3, a4⟩ := hp1 lj e
          have hlen := emptyKeys_length_congr hwf hwfM lj (hsame lj hne2)
          refine ⟨a1, ?_, by rw [a3, hlen], by rw [← hlen]; exact a4⟩
          intro p hp
          exact (EmptyAt_congr_deref (hsame lj hne2 p)).mp (a2 p hp)
      · intro q
        rw [hd1, hdM]
        by_cases hq : q.level = li
        · simp only [hq, hnotin, false_and, if_false, true_and, List.mem_cons, true_or, if_true]
        · simp only [hq, false_and, if_false, List.mem_cons, false_or]

/-- The steps of a construction that completes: the parsed levels, the maze with the student
and the instructor placed, and the two placement loops. -/
theorem Maze.construct_ok_steps {info : MazeInfo} {is : List (List Char)}
    {taSeeds skillSeeds : Nat → List Nat} {m : Maze}
    (h : Maze.construct info is taSeeds skillSeeds = .ok m) :
    ∃ (levels : List MazeLevel) (first last : MazeLevel) (si sj ii ij : Nat)
      (start_loc instructor_loc : OpenSpace) (M4 M5 : Maze),
      parseLevels info.height.toNat info.width.toNat info.levels.toNat 0 is = .ok levels ∧
      levels[0]? = some first ∧ first.start_location_ = some (si, sj) ∧
      levels[info.levels.toNat - 1]? = some last ∧
      last.instructor_location_ = some (ii, ij) ∧
      ((Maze.mk levels ⟨⟨0, 0, 0⟩, 0⟩ [] ⟨⟨0, 0, 0⟩⟩).modifySpace ⟨0, si, sj⟩
        (fun s => { s with has_student := true })).deref ⟨0, si, sj⟩ = some start_loc ∧
      (((Maze.mk levels ⟨⟨0, 0, 0⟩, 0⟩ [] ⟨⟨0, 0, 0⟩⟩).modifySpace ⟨0, si, sj⟩
        (fun s => { s with has_student := true })).modifySpace ⟨info.levels.toNat - 1, ii, ij⟩
        (fun s => { s with has_instructor := true })).deref
          ⟨info.levels.toNat - 1, ii, ij⟩ = some instructor_loc ∧
      M4.levels_ = (((Maze.mk levels ⟨⟨0, 0, 0⟩, 0⟩ [] ⟨⟨0, 0, 0⟩⟩).modifySpace ⟨0, si, sj⟩
        (fun s => { s with has_student := true })).modifySpace ⟨info.levels.toNat - 1, ii, ij⟩
        (fun s => { s with has_instructor := true })).levels_ ∧
      M4.student_ = ⟨start_loc.pos, 0⟩ ∧ M4.tas_ = [] ∧
      M4.instructor_ = ⟨instructor_loc.pos⟩ ∧
      Maze.PlaceTAs taSeeds (List.range M4.levels_.length) M4 = .ok M5 ∧
      Maze.PlaceSkills skillSeeds (List.range M5.levels_.length) M5 = .ok m := by
  unfold Maze.construct at h
  split at h
  · simp at h
  · split at h
    · simp at h
    · rename_i levels hlev
      split at h
      · simp at h
      · rename_i last hlast
        split at h
        · simp at h
        · rename_i ii ij hinst
          split at h
          · simp at h
          · split at h
            · simp at h
            · rename_i first hfirst
              split at h
              · simp at h
              · rename_i si sj hstart
                dsimp only at h
                split at h
                · simp at h
                · rename_i start_loc hsl
                  split at h
                  · simp at h
                  · rename_i instructor_loc hil
                    split at h
                    · simp at h
                    · rename_i m5 hta
                      exact ⟨levels, first, last, si, sj, ii, ij, start_loc, instructor_loc,
                        ⟨(((Maze.mk levels ⟨⟨0, 0, 0⟩, 0⟩ [] ⟨⟨0, 0, 0⟩⟩).modifySpace ⟨0, si, sj⟩
                          (fun s => { s with has_student := true })).modifySpace
                          ⟨info.levels.toNat - 1, ii, ij⟩
                          (fun s => { s with has_instructor := true })).levels_,
                          ⟨start_loc.pos, 0⟩, [], ⟨instructor_loc.pos⟩⟩,
                        m5, hlev, hfirst, hstart, hlast, hinst, hsl, hil, rfl, rfl, rfl, rfl,
                        hta, h⟩

theorem levelFor_flags (is : List (List Char)) (level height width i j : Nat) (sp : OpenSpace)
    (h : (levelFor is level height width).tileAt i j = some (MazeLocation.space sp)) :
    sp.has_instructor = false ∧ sp.has_skill = false ∧ sp.has_student = false ∧
      sp.has_ta = false := by
  rw [levelFor_tileAt] at h
  split at h
  · cases hc : charAt is i j with
    | none => simp [hc] at h
    | some c =>
      simp only [hc, Option.map_some', Option.some.injEq] at h
      unfold tileFor at h
      split at h
      · simp at h
      · simp only [MazeLocation.space.injEq] at h
        rw [← h]
        exact ⟨rfl, rfl, rfl, rfl⟩
  · simp at h

theorem EmptyAt_of_deref_set {m m1 : Maze} {li : Nat} {p : Nat × Nat} {c : Prop}
    [Decidable c] {f : OpenSpace → OpenSpace} (hne : ∀ s, (f s).IsEmpty = false)
    (hd : m1.deref ⟨li, p.1, p.2⟩
      = if c then (m.deref ⟨li, p.1, p.2⟩).map f else m.deref ⟨li, p.1, p.2⟩) :
    m1.EmptyAt li p ↔ m.EmptyAt li p ∧ ¬ c := by
  unfold Maze.EmptyAt
  rw [hd]
  by_cases hc : c
  · simp only [hc, if_true, not_true_eq_false, and_false, iff_false]
    rintro ⟨sp, hd2, he⟩
    cases hx : m.deref ⟨li, p.1, p.2⟩ with
    | none => rw [hx] at hd2; simp at hd2
    | some s =>
      rw [hx] at hd2
      simp only [Option.map_some', Option.some.injEq] at hd2
      rw [← hd2, hne] at he
      exact Bool.noConfusion he
  · simp only [hc, if_false, not_false_eq_true, and_true]

/-- The tile pointers of the maze `Maze::Maze` has parsed: open spaces of the parsed levels,
without any of `has_instructor`, `has_skill`, `has_student`, `has_ta`. -/
theorem parsed_deref_flags {height width n : Nat} {is : List (List Char)}
    {levels : List MazeLevel} (hlev : parseLevels height width n 0 is = .ok levels)
    (x : IntrepidStudent) (y : List (List TA)) (z : Instructor) (q : MazePosition)
    (s0 : OpenSpace) (hq : (Maze.mk levels x y z).deref q = some s0) :
    q.level < n ∧ s0.has_instructor = false ∧ s0.has_skill = false ∧
      s0.has_student = false ∧ s0.has_ta = false := by
  obtain ⟨hlen, hchunk⟩ := parseLevels_chunks _ _ _ _ hlev
  obtain ⟨l0, hl0, ht⟩ := deref_eq_some hq
  simp only at hl0 ht
  have hlt := (List.getElem?_eq_some_iff.mp hl0).1
  obtain ⟨_, e⟩ := hchunk q.level l0 hl0
  rw [e] at ht
  exact ⟨by omega, levelFor_flags _ _ _ _ _ _ _ ht⟩

/-- What a construction that completes has built. -/
theorem Maze.construct_effect {info : MazeInfo} {is : List (List Char)}
    {taSeeds skillSeeds : Nat → List Nat} {m : Maze} (hinfo : info.InRange)
    (h : Maze.construct info is taSeeds skillSeeds = .ok m) :
    ∃ (levels : List MazeLevel) (si sj ii ij : Nat) (tptrs sptrs : Nat → List (Nat × Nat)),
      parseLevels info.height.toNat info.width.toNat info.levels.toNat 0 is = .ok levels ∧
      (∃ first, levels[0]? = some first ∧ first.start_location_ = some (si, sj)) ∧
      (∃ last, levels[info.levels.toNat - 1]? = some last ∧
        last.instructor_location_ = some (ii, ij)) ∧
      m.levels_.length = info.levels.toNat ∧
      m.student_ = ⟨⟨0, si, sj⟩, 0⟩ ∧ m.instructor_ = ⟨⟨info.levels.toNat - 1, ii, ij⟩⟩ ∧
      m.tas_ = (List.range info.levels.toNat).map (fun li =>
        (tptrs li).map (fun p => (⟨⟨li, p.1, p.2⟩, 0⟩ : TA))) ∧
      (∀ li, li < info.levels.toNat → 3 ≤ (m.freeKeys li).length ∧
        ((tptrs li).Nodup ∧ (tptrs li).length = 2 ∧ ∀ p ∈ tptrs li, p ∈ m.freeKeys li) ∧
        ((sptrs li).Nodup ∧ (sptrs li).length = min 3 ((m.freeKeys li).length - 2) ∧
          ∀ p ∈ sptrs li, p ∈ m.freeKeys li ∧ p ∉ tptrs li)) ∧
      ∀ q : MazePosition, m.deref q
        = ((Maze.mk levels ⟨⟨0, 0, 0⟩, 0⟩ [] ⟨⟨0, 0, 0⟩⟩).deref q).map (fun s => { s with
            has_student := decide (q = ⟨0, si, sj⟩),
            has_instructor := decide (q = ⟨info.levels.toNat - 1, ii, ij⟩),
            has_ta := decide ((q.row, q.col) ∈ tptrs q.level),
            has_skill := decide ((q.row, q.col) ∈ sptrs q.level) }) := by
  have hwf := Maze.construct_wellFormed hinfo h
  obtain ⟨levels0, _, _, _, _, hlev0, _, _, _, hlay, _⟩ := Maze.construct_ok_parts h
  obtain ⟨levels, first, last, si, sj, ii, ij, start_loc, instructor_loc, M4, M5, hlev, hfirst,
    hstart, hlast, hinst, hsl, hil, hM4l, hM4s, hM4t, hM4i, hta, hsk⟩ := Maze.construct_ok_steps h
  have elev : levels0 = levels := by
    rw [hlev0] at hlev
    exact Except.ok.inj hlev
  subst elev
  obtain ⟨hlen, _⟩ := parseLevels_chunks _ _ _ _ hlev0
  -- the mazes before the placements are well formed
  have hwf0 : (Maze.mk levels0 ⟨⟨0, 0, 0⟩, 0⟩ [] ⟨⟨0, 0, 0⟩⟩).WellFormed := by
    unfold Maze.WellFormed at hwf ⊢
    rw [hlay] at hwf
    exact hwf
  have hwf1 : ((Maze.mk levels0 ⟨⟨0, 0, 0⟩, 0⟩ [] ⟨⟨0, 0, 0⟩⟩).modifySpace ⟨0, si, sj⟩
      (fun s => { s with has_student := true })).WellFormed :=
    wellFormed_modifySpace hwf0 _ _ (fun s => rfl)
  have hwf3 : (((Maze.mk levels0 ⟨⟨0, 0, 0⟩, 0⟩ [] ⟨⟨0, 0, 0⟩⟩).modifySpace ⟨0, si, sj⟩
      (fun s => { s with has_student := true })).modifySpace ⟨info.levels.toNat - 1, ii, ij⟩
      (fun s => { s with has_instructor := true })).WellFormed :=
    wellFormed_modifySpace hwf1 _ _ (fun s => rfl)
  have hwf4 : M4.WellFormed := wellFormed_congr hM4l hwf3
  have hspos : start_loc.pos = ⟨0, si, sj⟩ := hwf1.deref_pos hsl
  have hipos : instructor_loc.pos = ⟨info.levels.toNat - 1, ii, ij⟩ := hwf3.deref_pos hil
  have hlen4 : M4.levels_.length = info.levels.toNat := by
    rw [hM4l]
    simp [Maze.modifySpace, hlen]
  -- the tiles before the placements
  have hd4 : ∀ q, M4.deref q
      = ((Maze.mk levels0 ⟨⟨0, 0, 0⟩, 0⟩ [] ⟨⟨0, 0, 0⟩⟩).deref q).map (fun s => { s with
          has_student := decide (q = ⟨0, si, sj⟩),
          has_instructor := decide (q = ⟨info.levels.toNat - 1, ii, ij⟩) }) := by
    intro q
    rw [deref_congr hM4l, deref_modifySpace, deref_modifySpace]
    cases hx : (Maze.mk levels0 ⟨⟨0, 0, 0⟩, 0⟩ [] ⟨⟨0, 0, 0⟩⟩).deref q with
    | none => simp
    | some s0 =>
      obtain ⟨_, f1, _, f3, _⟩ := parsed_deref_flags hlev0 _ _ _ q s0 hx
      cases s0 with
      | mk pos b l i sk st ta =>
        simp only at f1 f3
        subst f1 f3
        by_cases h1 : q = ⟨0, si, sj⟩
        · by_cases h2 : q = ⟨info.levels.toNat - 1, ii, ij⟩
          · rw [if_pos h2, if_pos h1, decide_eq_true h1, decide_eq_true h2]; rfl
          · rw [if_neg h2, if_pos h1, decide_eq_true h1, decide_eq_false h2]; rfl
        · by_cases h2 : q = ⟨info.levels.toNat - 1, ii, ij⟩
          · rw [if_pos h2, if_neg h1, decide_eq_false h1, decide_eq_true h2]; rfl
          · rw [if_neg h2, if_neg h1, decide_eq_false h1, decide_eq_false h2]; rfl
  -- the two placement loops
  rw [hlen4] at hta
  obtain ⟨tptrs, htp, htt, hts, hti, htl, htd⟩ := PlaceTAs_effect taSeeds _ M4 M5 hwf4
    (List.nodup_range _) (fun li hli => by rw [hlen4]; exact List.mem_range.mp hli) hta
  have hwf5 : M5.WellFormed := by
    unfold Maze.WellFormed
    rw [htl]; exact hwf4
  have hlen5 : M5.levels_.length = info.levels.toNat := by
    rw [levels_length_of_layout htl, hlen4]
  rw [hlen5] at hsk
  obtain ⟨sptrs, hsp, hst, hss, hsi, hsl2, hsd⟩ := PlaceSkills_effect skillSeeds _ M5 m hwf5
    (List.nodup_range _) (fun li hli => by rw [hlen5]; exact List.mem_range.mp hli) hsk
  -- the tiles of the constructed maze
  have hdm : ∀ q : MazePosition, m.deref q
      = ((Maze.mk levels0 ⟨⟨0, 0, 0⟩, 0⟩ [] ⟨⟨0, 0, 0⟩⟩).deref q).map (fun s => { s with
          has_student := decide (q = ⟨0, si, sj⟩),
          has_instructor := decide (q = ⟨info.levels.toNat - 1, ii, ij⟩),
          has_ta := decide ((q.row, q.col) ∈ tptrs q.level),
          has_skill := decide ((q.row, q.col) ∈ sptrs q.level) }) := by
    intro q
    rw [hsd, htd, hd4]
    cases hx : (Maze.mk levels0 ⟨⟨0, 0, 0⟩, 0⟩ [] ⟨⟨0, 0, 0⟩⟩).deref q with
    | none => simp
    | some s0 =>
      obtain ⟨hq, _, f2, _, f4⟩ := parsed_deref_flags hlev0 _ _ _ q s0 hx
      have hr : q.level ∈ List.range info.levels.toNat := List.mem_range.mpr hq
      cases s0 with
      | mk pos b l i sk st ta =>
        simp only at f2 f4
        subst f2 f4
        simp only [hr, true_and, Option.map_some']
        by_cases h1 : (q.row, q.col) ∈ tptrs q.level
        · by_cases h2 : (q.row, q.col) ∈ sptrs q.level
          · rw [if_pos h2, if_pos h1, decide_eq_true h1, decide_eq_true h2]; rfl
          · rw [if_neg h2, if_pos h1, decide_eq_true h1, decide_eq_false h2]
        · by_cases h2 : (q.row, q.col) ∈ sptrs q.level
          · rw [if_pos h2, if_neg h1, decide_eq_false h1, decide_eq_true h2]; rfl
          · rw [if_neg h2, if_neg h1, decide_eq_false h1, decide_eq_false h2]
  -- the start tile is a start tile
  obtain ⟨si0, sj0, sp0, hs0, ht0, hbeg0, _⟩ := @Maze.WellFormed.start _ hwf0 0 first hfirst
  have esd : (si0, sj0) = (si, sj) := by
    rw [hs0] at hstart
    exact Option.some.inj hstart
  simp only [Prod.mk.injEq] at esd
  obtain ⟨e1, e2⟩ := esd
  subst e1 e2
  have hdstart : (Maze.mk levels0 ⟨⟨0, 0, 0⟩, 0⟩ [] ⟨⟨0, 0, 0⟩⟩).deref ⟨0, si0, sj0⟩
      = some sp0 := by
    rw [@deref_of_levels _ first ⟨0, si0, sj0⟩ hfirst, ht0]; rfl
  -- the empty spaces before the placements are the free spaces
  have hfree : ∀ (li : Nat) (p : Nat × Nat), M4.EmptyAt li p ↔ p ∈ m.freeKeys li := by
    intro li p
    rw [mem_freeKeys hwf]
    unfold Maze.EmptyAt
    rw [hd4, hdm]
    cases hx : (Maze.mk levels0 ⟨⟨0, 0, 0⟩, 0⟩ [] ⟨⟨0, 0, 0⟩⟩).deref ⟨li, p.1, p.2⟩ with
    | none => simp
    | some s0 =>
      obtain ⟨_, _, f2, _, f4⟩ := parsed_deref_flags hlev0 _ _ _ _ s0 hx
      simp only [Option.map_some', Option.some.injEq, exists_eq_left', OpenSpace.IsEmpty,
        Bool.and_eq_true, Bool.not_eq_true', f2, f4, and_true]
      constructor
      · rintro ⟨⟨⟨a, b⟩, _⟩, d⟩
        exact ⟨d, b, a⟩
      · rintro ⟨a, b, d⟩
        refine ⟨⟨⟨d, b⟩, ?_⟩, a⟩
        rw [decide_eq_false_iff_not]
        intro e
        rw [e, hdstart] at hx
        simp only [Option.some.injEq] at hx
        rw [hx, a] at hbeg0
        exact Bool.noConfusion hbeg0
  have hlen4f : ∀ li, (M4.emptyKeys li).length = (m.freeKeys li).length := fun li =>
    length_eq_of_same_members (emptyKeys_nodup hwf4 li) (freeKeys_nodup hwf li)
      (fun p => by rw [mem_emptyKeys hwf4, hfree])
  have hper : ∀ li, li < info.levels.toNat → 3 ≤ (m.freeKeys li).length ∧
      ((tptrs li).Nodup ∧ (tptrs li).length = 2 ∧ ∀ p ∈ tptrs li, p ∈ m.freeKeys li) ∧
      ((sptrs li).Nodup ∧ (sptrs li).length = min 3 ((m.freeKeys li).length - 2) ∧
        ∀ p ∈ sptrs li, p ∈ m.freeKeys li ∧ p ∉ tptrs li) := by
    intro li hli
    have hr : li ∈ List.range info.levels.toNat := List.mem_range.mpr hli
    obtain ⟨tnd, tsub, tlen, _⟩ := htp li hr
    obtain ⟨snd, ssub, slen, sone⟩ := hsp li hr
    have hE5 : ∀ p, M5.EmptyAt li p ↔ M4.EmptyAt li p ∧ p ∉ tptrs li := by
      intro p
      have e := @EmptyAt_of_deref_set M4 M5 li p _ _ _ isEmpty_set_ta (htd ⟨li, p.1, p.2⟩)
      rw [e]
      simp only [hr, true_and]
    have hcount : (M5.emptyKeys li).length + (tptrs li).length = (M4.emptyKeys li).length :=
      length_after_removal (emptyKeys_nodup hwf4 li) (emptyKeys_nodup hwf5 li) tnd
        (fun p hp => (mem_emptyKeys hwf4 li p).mpr (tsub p hp))
        (fun p => by rw [mem_emptyKeys hwf5, mem_emptyKeys hwf4, hE5])
    rw [hlen4f] at tlen hcount
    refine ⟨by omega, ⟨tnd, by omega, fun p hp => (hfree li p).mp (tsub p hp)⟩,
      snd, by omega, fun p hp => ?_⟩
    have h5 := (hE5 p).mp (ssub p hp)
    exact ⟨(hfree li p).mp h5.1, h5.2⟩
  refine ⟨levels0, si0, sj0, ii, ij, tptrs, sptrs, hlev0, ⟨first, hfirst, hstart⟩,
    ⟨last, hlast, hinst⟩, ?_, ?_, ?_, ?_, hper, hdm⟩
  · rw [levels_length_of_layout hsl2, hlen5]
  · rw [hss, hts, hM4s, hspos]
  · rw [hsi, hti, hM4i, hipos]
  · rw [hst, htt, hM4t, List.nil_append]

/-! ### What a turn and an event detection leave alone -/

theorem deref_modifyTA (m : Maze) (level idx : Nat) (f : TA → TA) (q : MazePosition) :
    (m.modifyTA level idx f).deref q = m.deref q := rfl

theorem instructor_modifySpace (m : Maze) (p : MazePosition) (f : OpenSpace → OpenSpace) :
    (m.modifySpace p f).instructor_ = m.instructor_ := rfl

theorem rosterSizes_modifyTA (m : Maze) (level idx : Nat) (f : TA → TA) :
    (m.modifyTA level idx f).tas_.map List.length = m.tas_.map List.length := by
  unfold Maze.modifyTA
  apply List.ext_getElem?
  intro k
  simp only [List.getElem?_map, List.getElem?_modify]
  cases m.tas_[k]? with
  | none => rfl
  | some r =>
    by_cases h : level = k
    · simp [h, List.length_modify]
    · simp [h]

/-- A successful `MovePerson` rewrites only the occupancy flag of the person moved. -/
theorem deref_MovePerson_proj {β : Type} (π : OpenSpace → β) {person : PersonRef}
    (hπ : ∀ (s : OpenSpace) (b : Bool), π (person.setFlag b s) = π s) {m m1 : Maze}
    {move : PlayerAction} {b : Bool} (h : m.MovePerson person move = some (b, m1))
    (q : MazePosition) : (m1.deref q).map π = (m.deref q).map π := by
  unfold Maze.MovePerson at h
  split at h
  · simp at h; rw [← h.2]
  · simp at h; rw [← h.2]
  · cases hp : m.personPosition person with
    | none => simp [hp] at h
    | some pos =>
      simp only [hp] at h
      cases hs : m.SpaceAt pos with
      | none => simp [hs] at h
      | some sp =>
        simp only [hs] at h
        cases hd : PlayerActionToDirection move with
        | none => simp [hd] at h
        | some dir =>
          simp only [hd] at h
          cases hs2 : (m.Unoccupy person pos).SpaceAt (pos.Translate dir 1) with
          | none => simp [hs2] at h
          | some sp2 =>
            simp [hs2] at h
            rw [← h.2, deref_setPersonPosition, deref_Occupy, deref_Unoccupy]
            cases hx : m.deref q with
            | none => split <;> split <;> rfl
            | some s => split <;> split <;> simp [hπ]

/-- `MovePerson` on a TA keeps the student, the instructor and the sizes of the rosters. -/
theorem MovePerson_ta_shape {m m1 : Maze} {level idx : Nat} {move : PlayerAction} {b : Bool}
    (h : m.MovePerson (PersonRef.ta level idx) move = some (b, m1)) :
    m1.instructor_ = m.instructor_ ∧ m1.tas_.map List.length = m.tas_.map List.length := by
  unfold Maze.MovePerson at h
  split at h
  · simp at h; rw [← h.2]; exact ⟨rfl, rfl⟩
  · simp at h; rw [← h.2]; exact ⟨rfl, rfl⟩
  · cases hp : m.personPosition (PersonRef.ta level idx) with
    | none => simp [hp] at h
    | some pos =>
      simp only [hp] at h
      cases hs : m.SpaceAt pos with
      | none => simp [hs] at h
      | some sp =>
        simp only [hs] at h
        cases hd : PlayerActionToDirection move with
        | none => simp [hd] at h
        | some dir =>
          simp only [hd] at h
          cases hs2 : (m.Unoccupy (PersonRef.ta level idx) pos).SpaceAt (pos.Translate dir 1) with
          | none => simp [hs2] at h
          | some sp2 =>
            simp [hs2] at h
            rw [← h.2]
            constructor
            · rfl
            · show (Maze.modifyTA _ _ _ _).tas_.map List.length = _
              rw [rosterSizes_modifyTA]
              rfl

/-- One iteration of the TA loop of a turn rewrites only `has_ta` flags; it keeps the
student, the instructor and the sizes of the rosters. -/
theorem moveTA_frame {β : Type} (π : OpenSpace → β)
    (hta : ∀ (s : OpenSpace) (b : Bool), π { s with has_ta := b } = π s)
    {dirs : List PlayerDirectionAction} {m m1 : Maze}
    {level idx draw : Nat} {a : Bool} (h : m.moveTA dirs level idx draw a = some m1) :
    m1.student_ = m.student_ ∧ m1.instructor_ = m.instructor_ ∧
    m1.tas_.map List.length = m.tas_.map List.length ∧
    ∀ q, (m1.deref q).map π = (m.deref q).map π := by
  have hst := (moveTA_counters h).1
  unfold Maze.moveTA at h
  cases ht : m.taAtIndex level idx with
  | none => simp [ht] at h
  | some ta =>
    simp only [ht] at h
    split at h
    · simp at h
    · split at h
      · simp at h
      · rename_i b m2 hmp
        simp at h
        have hd := @deref_MovePerson_proj _ π (PersonRef.ta level idx) hta _ _ _ _ hmp
        obtain ⟨hi, hr⟩ := MovePerson_ta_shape hmp
        rw [rosterSizes_modifyTA] at hr
        cases a with
        | true =>
          simp at h
          rw [← h]
          refine ⟨by rw [← h] at hst; exact hst, hi, ?_, fun q => ?_⟩
          · rw [rosterSizes_modifyTA, hr]
          · rw [deref_modifyTA, hd q, deref_modifyTA]
        | false =>
          simp at h
          rw [← h]
          exact ⟨by rw [← h] at hst; exact hst, hi, hr, fun q => by rw [hd q, deref_modifyTA]⟩

theorem moveTAs_frame {β : Type} (π : OpenSpace → β)
    (hta : ∀ (s : OpenSpace) (b : Bool), π { s with has_ta := b } = π s)
    {dirs : List PlayerDirectionAction} {level : Nat} {draws : Nat → Nat} {a : Bool} :
    ∀ (idxs : List Nat) (m m1 : Maze), Maze.moveTAs dirs level draws a idxs m = some m1 →
      m1.student_ = m.student_ ∧ m1.instructor_ = m.instructor_ ∧
      m1.tas_.map List.length = m.tas_.map List.length ∧
      ∀ q, (m1.deref q).map π = (m.deref q).map π := by
  intro idxs
  induction idxs with
  | nil => intro m m1 h; simp [Maze.moveTAs] at h; rw [h]; exact ⟨rfl, rfl, rfl, fun _ => rfl⟩
  | cons i rest ih =>
    intro m m1 h
    unfold Maze.moveTAs at h
    cases hm : m.moveTA dirs level i (draws i) a with
    | none => simp [hm] at h
    | some m2 =>
      simp only [hm] at h
      obtain ⟨a1, a2, a3, a4⟩ := ih m2 m1 h
      obtain ⟨b1, b2, b3, b4⟩ := moveTA_frame π hta hm
      exact ⟨a1.trans b1, a2.trans b2, a3.trans b3, fun q => (a4 q).trans (b4 q)⟩

/-- The two ways in which `MovePerson` returns. -/
theorem MovePerson_cases {m m1 : Maze} {person : PersonRef} {move : PlayerAction} {b : Bool}
    (h : m.MovePerson person move = some (b, m1)) :
    (b = false ∧ m1 = m) ∨
    ∃ (pos : MazePosition) (dir : PlayerDirectionAction),
      m.personPosition person = some pos ∧ (m.SpaceAt pos).isSome = true ∧
      ((m.Unoccupy person pos).SpaceAt (pos.Translate dir 1)).isSome = true ∧
      m1 = ((m.Unoccupy person pos).Occupy person (pos.Translate dir 1)).setPersonPosition
        person (pos.Translate dir 1) := by
  unfold Maze.MovePerson at h
  split at h
  · simp at h; exact Or.inl ⟨h.1, h.2.symm⟩
  · simp at h; exact Or.inl ⟨h.1, h.2.symm⟩
  · cases hp : m.personPosition person with
    | none => simp [hp] at h
    | some pos =>
      simp only [hp] at h
      cases hs : m.SpaceAt pos with
      | none => simp [hs] at h
      | some sp =>
        simp only [hs] at h
        cases hd : PlayerActionToDirection move with
        | none => simp [hd] at h
        | some dir =>
          simp only [hd] at h
          cases hs2 : (m.Unoccupy person pos).SpaceAt (pos.Translate dir 1) with
          | none => simp [hs2] at h
          | some sp2 =>
            simp [hs2] at h
            exact Or.inr ⟨pos, dir, rfl, by rw [hs]; rfl, by rw [hs2]; rfl, h.2.symm⟩

/-- The student's part of a turn: either no tile changes and the student stays, or the
student's tile loses `has_student`, the tile the student goes to gets it, and the student's
position is that tile.  The rosters and the instructor are as before. -/
theorem studentStep_effect {m m1 : Maze} (hwf : m.WellFormed) {s_move : PlayerAction}
    {a : Bool} (h : m.studentStep s_move = some (m1, a)) :
    m1.tas_ = m.tas_ ∧ m1.instructor_ = m.instructor_ ∧
    ((m1.student_.position = m.student_.position ∧ ∀ q, m1.deref q = m.deref q) ∨
     ∃ pos2 : MazePosition, (m.deref pos2).isSome = true ∧ m1.student_.position = pos2 ∧
       ∀ q, m1.deref q
         = if q = pos2 then (m.deref q).map (fun s => { s with has_student := true })
           else if q = m.student_.position then
             (m.deref q).map (fun s => { s with has_student := false })
           else m.deref q) := by
  unfold Maze.studentStep at h
  split at h
  · cases hs : m.SpaceAt m.student_.position with
    | none => simp [hs] at h
    | some sp =>
      simp only [hs] at h
      split at h
      · simp at h
      · rename_i next hnext
        split at h
        · simp at h
        · rename_i i j hstart
          split at h
          · simp at h
          · rename_i start_loc hsl
            simp at h
            obtain ⟨h1, _⟩ := h
            have hwf2 : ((m.modifySpace m.student_.position
                (fun s => { s with has_student := false })).modifySpace
                ⟨uadd m.student_.position.level 1, i, j⟩
                (fun s => { s with has_student := true })).WellFormed :=
              wellFormed_modifySpace (wellFormed_modifySpace hwf _
                (fun s => { s with has_student := false }) (fun s => rfl)) _
                (fun s => { s with has_student := true }) (fun s => rfl)
            have hpos := hwf2.deref_pos hsl
            have hform : ∀ q, ((m.modifySpace m.student_.position
                (fun s => { s with has_student := false })).modifySpace
                ⟨uadd m.student_.position.level 1, i, j⟩
                (fun s => { s with has_student := true })).deref q
                = if q = ⟨uadd m.student_.position.level 1, i, j⟩ then
                    (m.deref q).map (fun s => { s with has_student := true })
                  else if q = m.student_.position then
                    (m.deref q).map (fun s => { s with has_student := false })
                  else m.deref q := by
              intro q
              rw [deref_modifySpace, deref_modifySpace]
              by_cases e1 : q = ⟨uadd m.student_.position.level 1, i, j⟩
              · rw [if_pos e1, if_pos e1]
                split
                · cases m.deref q <;> rfl
                · rfl
              · rw [if_neg e1, if_neg e1]
            rw [← h1]
            refine ⟨rfl, rfl, Or.inr ⟨⟨uadd m.student_.position.level 1, i, j⟩, ?_, hpos, hform⟩⟩
            have := hform ⟨uadd m.student_.position.level 1, i, j⟩
            rw [hsl, if_pos rfl] at this
            cases hx : m.deref ⟨uadd m.student_.position.level 1, i, j⟩ with
            | none => rw [hx] at this; simp at this
            | some s => rfl
  · simp at h
    rw [← h.1]
    refine ⟨rfl, rfl, Or.inl ⟨?_, fun _ => rfl⟩⟩
    show m.student_.DecrementSkills.position = _
    unfold IntrepidStudent.DecrementSkills
    split <;> rfl
  · cases hm : m.MovePerson PersonRef.student s_move with
    | none => simp [hm] at h
    | some r =>
      obtain ⟨b1, m2⟩ := r
      simp [hm] at h
      rw [← h.1]
      rcases MovePerson_cases hm with ⟨_, e⟩ | ⟨pos, dir, hp, _, hs2, e⟩
      · rw [e]
        exact ⟨rfl, rfl, Or.inl ⟨rfl, fun _ => rfl⟩⟩
      · have hpe : pos = m.student_.position := by
          simp only [Maze.personPosition, Option.some.injEq] at hp
          exact hp.symm
        subst hpe
        rw [e]
        refine ⟨rfl, rfl, Or.inr ⟨m.student_.position.Translate dir 1, ?_, rfl, fun q => ?_⟩⟩
        · obtain ⟨sp2, hsp2⟩ := Option.isSome_iff_exists.mp hs2
          have hd2 := SpaceAt_deref hsp2
          rw [deref_Unoccupy] at hd2
          cases hx : m.deref (m.student_.position.Translate dir 1) with
          | none => rw [hx] at hd2; simp at hd2
          | some s => rfl
        · rw [deref_setPersonPosition, deref_Occupy, deref_Unoccupy]
          by_cases e1 : q = m.student_.position.Translate dir 1
          · rw [if_pos e1, if_pos e1]
            split
            · cases m.deref q <;> rfl
            · rfl
          · rw [if_neg e1, if_neg e1]
            rfl

/-- An event detection rewrites only `has_skill` flags; it keeps the student's position,
the rosters and the instructor. -/
theorem HandleCurrentPosition_frame {β : Type} (π : OpenSpace → β)
    (hsk : ∀ (s : OpenSpace) (b : Bool), π { s with has_skill := b } = π s)
    {dirs : List PlayerDirectionAction} {m m1 : Maze} {r : MoveResult}
    (h : m.HandleCurrentPosition dirs = some (r, m1)) :
    m1.student_.position = m.student_.position ∧ m1.tas_ = m.tas_ ∧
    m1.instructor_ = m.instructor_ ∧ ∀ q, (m1.deref q).map π = (m.deref q).map π := by
  obtain ⟨res, sp0, _, ho, _⟩ := HandleCurrentPosition_cases h
  obtain ⟨sp, _, hc⟩ := HandleOccupiedSpace_cases ho
  rcases hc with ⟨_, h1, _⟩ | ⟨_, h1, _⟩ | ⟨_, h1, _⟩ | ⟨_, _, _, h1⟩
  · rw [h1]; exact ⟨rfl, rfl, rfl, fun _ => rfl⟩
  · rw [h1]; exact ⟨rfl, rfl, rfl, fun _ => rfl⟩
  · rw [h1]; exact ⟨rfl, rfl, rfl, fun _ => rfl⟩
  · rw [h1]
    refine ⟨rfl, rfl, rfl, fun q => ?_⟩
    rw [deref_modifySpace_proj π _ _ _ (fun s => hsk s false)]
    rfl

/-- The two parts of a turn. -/
theorem MovePeople_parts {dirs : List PlayerDirectionAction} {m m1 : Maze}
    {choice : PlayerAction} {draws : Nat → Nat}
    (h : m.MovePeople dirs choice draws = some m1) :
    ∃ (m2 : Maze) (a : Bool) (idxs : List Nat), m.studentStep choice = some (m2, a) ∧
      Maze.moveTAs dirs m2.student_.position.level draws a idxs m2 = some m1 := by
  unfold Maze.MovePeople at h
  split at h
  · simp at h
  · rename_i s_move hg
    have hc : s_move = choice := by
      unfold IntrepidStudent.GetMove at hg
      split at hg
      · exact (Option.some.inj hg).symm
      · simp at hg
    subst hc
    split at h
    · simp at h
    · rename_i m2 a hst
      split at h
      · simp at h
      · exact ⟨m2, a, _, hst, h⟩

/-- A turn in a well-formed maze: the tiles change by the student's step, up to `has_ta`
flags; the instructor and the sizes of the rosters are as before. -/
theorem MovePeople_frame {β : Type} (π : OpenSpace → β)
    (hta : ∀ (s : OpenSpace) (b : Bool), π { s with has_ta := b } = π s)
    {dirs : List PlayerDirectionAction} {m m1 : Maze} (hwf : m.WellFormed)
    {choice : PlayerAction} {draws : Nat → Nat}
    (h : m.MovePeople dirs choice draws = some m1) :
    m1.instructor_ = m.instructor_ ∧ m1.tas_.map List.length = m.tas_.map List.length ∧
    ((m1.student_.position = m.student_.position ∧
        ∀ q, (m1.deref q).map π = (m.deref q).map π) ∨
     ∃ pos2 : MazePosition, (m.deref pos2).isSome = true ∧ m1.student_.position = pos2 ∧
       ∀ q, (m1.deref q).map π
         = (if q = pos2 then (m.deref q).map (fun s => { s with has_student := true })
           else if q = m.student_.position then
             (m.deref q).map (fun s => { s with has_student := false })
           else m.deref q).map π) := by
  obtain ⟨m2, a, idxs, hst, hmv⟩ := MovePeople_parts h
  obtain ⟨a1, a2, a3, a4⟩ := moveTAs_frame π hta idxs m2 m1 hmv
  obtain ⟨b1, b2, b3⟩ := studentStep_effect hwf hst
  refine ⟨a2.trans b2, by rw [a3, b1], ?_⟩
  rcases b3 with ⟨c1, c2⟩ | ⟨pos2, c1, c2, c3⟩
  · exact Or.inl ⟨by rw [a1, c1], fun q => by rw [a4, c2]⟩
  · exact Or.inr ⟨pos2, c1, by rw [a1, c2], fun q => by rw [a4, c3]⟩

/-! ### Resetting all levels -/

theorem start_of_layout {m m1 : Maze} (hlay : m1.layout = m.layout) {li : Nat}
    {l l1 : MazeLevel} (hl : m.levels_[li]? = some l) (hl1 : m1.levels_[li]? = some l1) :
    l1.start_location_ = l.start_location_ ∧
      l1.instructor_location_ = l.instructor_location_ := by
  have e1 : m1.layout[li]? = some l1.layout := by rw [Maze.layout_getElem?, hl1]; rfl
  have e2 : m.layout[li]? = some l.layout := by rw [Maze.layout_getElem?, hl]; rfl
  rw [hlay, e2] at e1
  have e3 : l.layout = l1.layout := Option.some.inj e1
  have a := congrArg MazeLevel.start_location_ e3
  have b := congrArg MazeLevel.instructor_location_ e3
  exact ⟨a.symm, b.symm⟩

/-- The loop of `Maze::ResetAllLevels` over distinct levels of a well-formed maze, when it
completes: each level of the list has a fresh roster of two TAs and no `has_student` flag,
the other levels are as before, and the student has no skills. -/
theorem resetAllLoop_effect (taSeeds skillSeeds : Nat → List Nat) :
    ∀ (lis : List Nat) (m m1 : Maze), m.WellFormed → lis.Nodup →
      Maze.resetAllLoop taSeeds skillSeeds lis m = .ok m1 →
      m1.layout = m.layout ∧ m1.instructor_ = m.instructor_ ∧
      m1.tas_.length = m.tas_.length ∧
      (lis ≠ [] → m1.student_.prog_skills = 0) ∧
      (lis = [] → m1.student_ = m.student_) ∧
      (∀ k, k ∉ lis → m1.tas_[k]? = m.tas_[k]?) ∧
      (∀ k ∈ lis, k < m.tas_.length ∧ ∃ r, m1.tas_[k]? = some r ∧ r.length = 2 ∧
        ∀ t ∈ r, t.appeased_turns = 0 ∧ t.position.level = k) ∧
      (∀ q : MazePosition, q.level ∉ lis → m1.deref q = m.deref q) ∧
      (∀ q : MazePosition, q.level ∈ lis → ∃ bt bs : Bool, m1.deref q
        = (m.deref q).map (fun s => { s with
            has_student := false, has_ta := bt, has_skill := bs })) := by
  intro lis
  induction lis with
  | nil =>
    intro m m1 _ _ h
    simp [Maze.resetAllLoop] at h
    subst h
    exact ⟨rfl, rfl, rfl, fun c => absurd rfl c, fun _ => rfl, fun _ _ => rfl,
      fun k hk => absurd hk (List.not_mem_nil k), fun _ _ => rfl,
      fun q hq => absurd hq (List.not_mem_nil _)⟩
  | cons li rest ih =>
    intro m m2 hwf hnd h
    have hnotin : li ∉ rest := (List.nodup_cons.mp hnd).1
    have hndr : rest.Nodup := (List.nodup_cons.mp hnd).2
    unfold Maze.resetAllLoop at h
    cases hr : m.ResetLevel li (taSeeds li) (skillSeeds li) with
    | error e => rw [hr] at h; simp at h
    | ok m1 =>
      rw [hr] at h
      simp only at h
      obtain ⟨si, sj, ptrs, sptrs, ⟨l, hl, hstart⟩, hlt, _, ⟨_, hplen, _⟩, _, hstu, hins,
        htas, hlay, hd⟩ := ResetLevel_effect hwf hr
      cases hl1 : m1.levels_[li]? with
      | none => rw [hl1] at h; simp at h
      | some l1 =>
        rw [hl1] at h
        simp only at h
        have hs1 : l1.start_location_ = some (si, sj) := by
          rw [(start_of_layout hlay hl hl1).1, hstart]
        rw [hs1] at h
        simp only at h
        have hwf1 : m1.WellFormed := by
          unfold Maze.WellFormed; rw [hlay]; exact hwf
        have hwf1' : (m1.modifySpace ⟨li, si, sj⟩
            (fun s => { s with has_student := false })).WellFormed :=
          wellFormed_modifySpace hwf1 _ (fun s => { s with has_student := false })
            (fun s => rfl)
        obtain ⟨i1, i2, i3, i4, i5, i6, i7, i8, i9⟩ := ih _ m2 hwf1' hndr h
        have hd1 : ∀ q : MazePosition, q.level ≠ li →
            (m1.modifySpace ⟨li, si, sj⟩ (fun s => { s with has_student := false })).deref q
              = m.deref q := by
          intro q hq
          rw [deref_modifySpace, if_neg (fun e => hq (by rw [e])), hd, if_neg hq]
        have ht1 : (m1.modifySpace ⟨li, si, sj⟩
            (fun s => { s with has_student := false })).tas_
            = m.tas_.set li (ptrs.map (fun p => (⟨⟨li, p.1, p.2⟩, 0⟩ : TA))) := htas
        refine ⟨?_, i2.trans hins, ?_, fun _ => ?_, fun c => by simp at c, fun k hk => ?_,
          fun k hk => ?_, fun q hq => ?_, fun q hq => ?_⟩
        · rw [i1, Maze.layout_modifySpace _ _ (fun s => { s with has_student := false })
            (fun s => rfl), hlay]
        · rw [i3, ht1, List.length_set]
        · by_cases hre : rest = []
          · rw [i5 hre]
            show m1.student_.prog_skills = 0
            rw [hstu]
          · exact i4 hre
        · have hk1 : k ≠ li := fun e => hk (by rw [e]; exact List.mem_cons_self _ _)
          have hk2 : k ∉ rest := fun e => hk (List.mem_cons_of_mem _ e)
          rw [i6 k hk2, ht1, List.getElem?_set_ne (fun e => hk1 e.symm)]
        · rcases List.mem_cons.mp hk with e | hk2
          · subst e
            refine ⟨hlt, ptrs.map (fun p => (⟨⟨k, p.1, p.2⟩, 0⟩ : TA)), ?_, ?_, ?_⟩
            · rw [i6 k hnotin, ht1, List.getElem?_set_self hlt]
            · rw [List.length_map, hplen]
            · intro t ht
              obtain ⟨p, _, e⟩ := List.mem_map.mp ht
              rw [← e]
              exact ⟨rfl, rfl⟩
          · obtain ⟨a, b⟩ := i7 k hk2
            rw [ht1, List.length_set] at a
            exact ⟨a, b⟩
        · have hq1 : q.level ≠ li := fun e => hq (by rw [e]; exact List.mem_cons_self _ _)
          have hq2 : q.level ∉ rest := fun e => hq (List.mem_cons_of_mem _ e)
          rw [i8 q hq2, hd1 q hq1]
        · by_cases hq1 : q.level = li
          · have hq2 : q.level ∉ rest := by rw [hq1]; exact hnotin
            refine ⟨decide ((q.row, q.col) ∈ ptrs), decide ((q.row, q.col) ∈ sptrs), ?_⟩
            rw [i8 q hq2, deref_modifySpace, hd, if_pos hq1]
            by_cases hqs : q = ⟨li, si, sj⟩
            · rw [if_pos hqs]
              cases m.deref q <;> rfl
            · rw [if_neg hqs]
              have hne : ¬ (q.row, q.col) = (si, sj) := by
                intro e
                apply hqs
                cases q
                simp only [Prod.mk.injEq] at e
                simp only at hq1
                simp only [MazePosition.mk.injEq]
                exact ⟨hq1, e.1, e.2⟩
              rw [decide_eq_false hne]
          · have hq2 : q.level ∈ rest := by
              rcases List.mem_cons.mp hq with e | e
              · exact absurd e hq1
              · exact e
            obtain ⟨bt, bs, e⟩ := i9 q hq2
            exact ⟨bt, bs, by rw [e, hd1 q hq1]⟩

/-- What `Maze::ResetAllLevels` does to a well-formed maze when it completes. -/
theorem ResetAllLevels_effect {m m1 : Maze} (hwf : m.WellFormed)
    {taSeeds skillSeeds : Nat → List Nat}
    (h : m.ResetAllLevels taSeeds skillSeeds = .ok m1) :
    ∃ (si sj : Nat),
      (∃ first, m.levels_[0]? = some first ∧ first.start_location_ = some (si, sj)) ∧
      m1.layout = m.layout ∧ m1.instructor_ = m.instructor_ ∧
      m1.tas_.length = m.tas_.length ∧ m1.student_ = ⟨⟨0, si, sj⟩, 0⟩ ∧
      (∀ k, m.levels_.length ≤ k → m1.tas_[k]? = m.tas_[k]?) ∧
      (∀ k, k < m.levels_.length → k < m.tas_.length ∧ ∃ r, m1.tas_[k]? = some r ∧
        r.length = 2 ∧ ∀ t ∈ r, t.appeased_turns = 0 ∧ t.position.level = k) ∧
      ∀ q : MazePosition, ∃ bt bs : Bool, m1.deref q
        = (m.deref q).map (fun s => { s with
            has_student := decide (q = ⟨0, si, sj⟩), has_ta := bt, has_skill := bs }) := by
  unfold Maze.ResetAllLevels at h
  cases hr : Maze.resetAllLoop taSeeds skillSeeds (List.range m.levels_.length) m with
  | error e => rw [hr] at h; simp at h
  | ok m2 =>
    rw [hr] at h
    simp only at h
    obtain ⟨i1, i2, i3, i4, _, i6, i7, i8, i9⟩ :=
      resetAllLoop_effect taSeeds skillSeeds _ m m2 hwf (List.nodup_range _) hr
    have hn : 1 ≤ m.levels_.length := hwf.count.1
    have hwf2 : m2.WellFormed := by
      unfold Maze.WellFormed; rw [i1]; exact hwf
    cases hl2 : m2.levels_[0]? with
    | none => rw [hl2] at h; simp at h
    | some first2 =>
      rw [hl2] at h
      simp only at h
      obtain ⟨si, sj, sp0, hstart2, _, _, _⟩ := hwf2.start hl2
      rw [hstart2] at h
      simp only at h
      cases hd : (m2.modifySpace ⟨0, si, sj⟩ (fun s => { s with has_student := true })).deref
          ⟨0, si, sj⟩ with
      | none => rw [hd] at h; simp at h
      | some start_loc =>
        rw [hd] at h
        simp only [Except.ok.injEq] at h
        have hwf3 : (m2.modifySpace ⟨0, si, sj⟩
            (fun s => { s with has_student := true })).WellFormed :=
          wellFormed_modifySpace hwf2 _ (fun s => { s with has_student := true })
            (fun s => rfl)
        have hpos := hwf3.deref_pos hd
        have hl0 : ∃ first, m.levels_[0]? = some first := by
          cases hx : m.levels_[0]? with
          | none =>
            have := List.getElem?_eq_none_iff.mp hx
            omega
          | some f => exact ⟨f, rfl⟩
        obtain ⟨first, hfirst⟩ := hl0
        have hs0 : first.start_location_ = some (si, sj) := by
          rw [← (start_of_layout i1 hfirst hl2).1, hstart2]
        have hsk : m2.student_.prog_skills = 0 := i4 (by
          intro e
          have := congrArg List.length e
          rw [List.length_range, List.length_nil] at this
          omega)
        rw [← h]
        refine ⟨si, sj, ⟨first, hfirst, hs0⟩, ?_, i2, i3, ?_, fun k hk => ?_, fun k hk => ?_,
          fun q => ?_⟩
        · show Maze.layout (m2.modifySpace _ _) = _
          rw [Maze.layout_modifySpace _ _ (fun s => { s with has_student := true })
            (fun s => rfl), i1]
        · show (⟨start_loc.pos, m2.student_.prog_skills⟩ : IntrepidStudent) = _
          rw [hpos, hsk]
        · exact i6 k (by rw [List.mem_range]; omega)
        · exact i7 k (List.mem_range.mpr hk)
        · show ∃ bt bs : Bool, (m2.modifySpace ⟨0, si, sj⟩
              (fun s => { s with has_student := true })).deref q = _
          rw [deref_modifySpace]
          by_cases hq : q.level < m.levels_.length
          · obtain ⟨bt, bs, e⟩ := i9 q (List.mem_range.mpr hq)
            refine ⟨bt, bs, ?_⟩
            rw [e]
            by_cases hqs : q = ⟨0, si, sj⟩
            · rw [if_pos hqs, decide_eq_true hqs]
              cases m.deref q <;> rfl
            · rw [if_neg hqs, decide_eq_false hqs]
          · have e := i8 q (by rw [List.mem_range]; exact hq)
            have hnone : m.deref q = none := by
              unfold Maze.deref
              rw [List.getElem?_eq_none_iff.mpr (by omega)]
            rw [e, hnone]
            exact ⟨false, false, by split <;> rfl⟩

/-! ### Invariants of the reachable states -/

theorem start_tile_deref {m : Maze} (hwf : m.WellFormed) {li si sj : Nat} {l : MazeLevel}
    (hl : m.levels_[li]? = some l) (hs : l.start_location_ = some (si, sj)) :
    ∃ sp, m.deref ⟨li, si, sj⟩ = some sp ∧ sp.is_beginning = true := by
  obtain ⟨i, j, sp, h1, h2, h3, _⟩ := hwf.start hl
  rw [h1] at hs
  simp only [Option.some.injEq, Prod.mk.injEq] at hs
  obtain ⟨e1, e2⟩ := hs
  subst e1 e2
  exact ⟨sp, deref_of_tile hl h2, h3⟩

theorem Maze.WellFormed.SpaceAt_of_deref {m : Maze} (hwf : m.WellFormed) {p : MazePosition}
    {sp : OpenSpace} (h : m.deref p = some sp) : m.SpaceAt p = some sp := by
  obtain ⟨l, hl, ht⟩ := deref_eq_some h
  have hlt := (hwf.gridOk hl).tileAt_lt ht
  exact SpaceAt_eq_some.mpr ⟨l, hl, hlt.1, hlt.2, ht⟩

/-- A turn rewrites only `has_student` and `has_ta` flags. -/
theorem MovePeople_proj {β : Type} (π : OpenSpace → β)
    (hst : ∀ (s : OpenSpace) (b : Bool), π { s with has_student := b } = π s)
    (hta : ∀ (s : OpenSpace) (b : Bool), π { s with has_ta := b } = π s)
    {dirs : List PlayerDirectionAction} {m m1 : Maze} (hwf : m.WellFormed)
    {choice : PlayerAction} {draws : Nat → Nat}
    (h : m.MovePeople dirs choice draws = some m1) (q : MazePosition) :
    (m1.deref q).map π = (m.deref q).map π := by
  obtain ⟨_, _, hc⟩ := MovePeople_frame π hta hwf h
  rcases hc with ⟨_, e⟩ | ⟨pos2, _, _, e⟩
  · exact e q
  · rw [e q]
    split
    · cases m.deref q with
      | none => rfl
      | some s => simp [hst]
    · split
      · cases m.deref q with
        | none => rfl
        | some s => simp [hst]
      · rfl

/-- A completed `ResetLevel` rewrites only `has_student`, `has_ta` and `has_skill` flags. -/
theorem ResetLevel_proj {β : Type} (π : OpenSpace → β)
    (hall : ∀ (s : OpenSpace) (a b c : Bool),
      π { s with has_student := a, has_ta := b, has_skill := c } = π s)
    {m m1 : Maze} (hwf : m.WellFormed) {li : Nat} {taSeed skillSeed : List Nat}
    (h : m.ResetLevel li taSeed skillSeed = .ok m1) (q : MazePosition) :
    (m1.deref q).map π = (m.deref q).map π := by
  obtain ⟨si, sj, ptrs, sptrs, _, _, _, _, _, _, _, _, _, hd⟩ := ResetLevel_effect hwf h
  rw [hd]
  split
  · cases m.deref q with
    | none => rfl
    | some s => simp [hall]
  · rfl

/-- A completed `ResetAllLevels` rewrites only `has_student`, `has_ta` and `has_skill`
flags. -/
theorem ResetAllLevels_proj {β : Type} (π : OpenSpace → β)
    (hall : ∀ (s : OpenSpace) (a b c : Bool),
      π { s with has_student := a, has_ta := b, has_skill := c } = π s)
    {m m1 : Maze} (hwf : m.WellFormed) {taSeeds skillSeeds : Nat → List Nat}
    (h : m.ResetAllLevels taSeeds skillSeeds = .ok m1) (q : MazePosition) :
    (m1.deref q).map π = (m.deref q).map π := by
  obtain ⟨si, sj, _, _, _, _, _, _, _, hd⟩ := ResetAllLevels_effect hwf h
  obtain ⟨bt, bs, e⟩ := hd q
  rw [e]
  cases m.deref q with
  | none => rfl
  | some s => simp [hall]

theorem map_flag_eq {π : OpenSpace → Bool} {o1 o2 : Option OpenSpace}
    (h : o1.map π = o2.map π) {sp : OpenSpace} (h1 : o1 = some sp) :
    ∃ s, o2 = some s ∧ π s = π sp := by
  rw [h1] at h
  cases o2 with
  | none => simp at h
  | some s =>
    simp only [Option.map_some', Option.some.injEq] at h
    exact ⟨s, rfl, h.symm⟩

theorem StudentMarked_of_proj {m m1 : Maze}
    (hp : m1.student_.position = m.student_.position)
    (hd : ∀ q, (m1.deref q).map (fun s => s.has_student)
      = (m.deref q).map (fun s => s.has_student))
    (h : m.StudentMarked) : m1.StudentMarked := by
  obtain ⟨⟨sp0, h0⟩, huniq⟩ := h
  constructor
  · rw [hp]
    obtain ⟨s, hs, _⟩ := map_flag_eq (hd m.student_.position).symm h0
    exact ⟨s, hs⟩
  · intro q sp hq
    obtain ⟨s, hs, e⟩ := map_flag_eq (hd q) hq
    rw [hp, ← e]
    exact huniq q s hs

theorem StudentMarked_of_move {m m1 : Maze} {pos2 : MazePosition}
    (h2 : (m.deref pos2).isSome = true) (hp : m1.student_.position = pos2)
    (hd : ∀ q, (m1.deref q).map (fun s => s.has_student)
      = (if q = pos2 then (m.deref q).map (fun s => { s with has_student := true })
          else if q = m.student_.position then
            (m.deref q).map (fun s => { s with has_student := false })
          else m.deref q).map (fun s => s.has_student))
    (h : m.StudentMarked) : m1.StudentMarked := by
  obtain ⟨_, huniq⟩ := h
  obtain ⟨s2, hs2⟩ := Option.isSome_iff_exists.mp h2
  constructor
  · rw [hp]
    have := hd pos2
    rw [if_pos rfl, hs2] at this
    cases hx : m1.deref pos2 with
    | none => rw [hx] at this; simp at this
    | some s => exact ⟨s, rfl⟩
  · intro q sp hq
    have e := hd q
    rw [hq, hp] at *
    by_cases c1 : q = pos2
    · rw [if_pos c1] at e
      cases hx : m.deref q with
      | none => rw [hx] at e; simp at e
      | some s =>
        rw [hx] at e
        simp only [Option.map_some', Option.some.injEq] at e
        rw [e]
        exact ⟨fun _ => c1, fun _ => rfl⟩
    · rw [if_neg c1] at e
      by_cases c2 : q = m.student_.position
      · rw [if_pos c2] at e
        cases hx : m.deref q with
        | none => rw [hx] at e; simp at e
        | some s =>
          rw [hx] at e
          simp only [Option.map_some', Option.some.injEq] at e
          rw [e]
          exact ⟨fun c => Bool.noConfusion c, fun c => absurd c c1⟩
      · rw [if_neg c2] at e
        cases hx : m.deref q with
        | none => rw [hx] at e; simp at e
        | some s =>
          rw [hx] at e
          simp only [Option.map_some', Option.some.injEq] at e
          rw [e]
          constructor
          · intro c
            exact absurd ((huniq q s hx).mp c) c2
          · intro c
            exact absurd c c1

/-- After a completed `ResetLevel` of the level the student is on, or of any level when
no tile of another level has `has_student`, the start tile of that level is the one tile
with `has_student`, and the student stands on it. -/
theorem StudentMarked_ResetLevel {m m1 : Maze} (hwf : m.WellFormed) {li : Nat}
    {taSeed skillSeed : List Nat} (h : m.ResetLevel li taSeed skillSeed = .ok m1)
    (hoth : ∀ (q : MazePosition) (sp : OpenSpace), q.level ≠ li → m.deref q = some sp →
      sp.has_student = false) : m1.StudentMarked := by
  obtain ⟨si, sj, ptrs, sptrs, ⟨l, hl, hstart⟩, _, _, _, _, hstu, _, _, _, hd⟩ :=
    ResetLevel_effect hwf h
  obtain ⟨sp0, hsp0, _⟩ := start_tile_deref hwf hl hstart
  constructor
  · rw [hstu]
    show ∃ sp, m1.deref ⟨li, si, sj⟩ = some sp
    rw [hd, if_pos rfl, hsp0]
    exact ⟨_, rfl⟩
  · intro q sp hq
    rw [hstu]
    show sp.has_student = true ↔ q = ⟨li, si, sj⟩
    rw [hd] at hq
    by_cases c : q.level = li
    · rw [if_pos c] at hq
      cases hx : m.deref q with
      | none => rw [hx] at hq; simp at hq
      | some s =>
        rw [hx] at hq
        simp only [Option.map_some', Option.some.injEq] at hq
        rw [← hq]
        simp only [decide_eq_true_eq, Prod.mk.injEq]
        cases q
        simp only at c
        simp only [MazePosition.mk.injEq]
        constructor
        · rintro ⟨a, b⟩; exact ⟨c, a, b⟩
        · rintro ⟨_, a, b⟩; exact ⟨a, b⟩
    · rw [if_neg c] at hq
      have := hoth q sp c hq
      rw [this]
      constructor
      · intro x; exact Bool.noConfusion x
      · intro x; rw [x] at c; exact absurd rfl c

theorem construct_start_tile {info : MazeInfo} {is : List (List Char)}
    {taSeeds skillSeeds : Nat → List Nat} {m : Maze} (hinfo : info.InRange)
    (h : Maze.construct info is taSeeds skillSeeds = .ok m) {levels : List MazeLevel}
    {first : MazeLevel} {si sj : Nat}
    (hlev : parseLevels info.height.toNat info.width.toNat info.levels.toNat 0 is = .ok levels)
    (hfirst : levels[0]? = some first) (hstart : first.start_location_ = some (si, sj)) :
    ∃ l sp, m.levels_[0]? = some l ∧ l.start_location_ = some (si, sj) ∧
      m.deref ⟨0, si, sj⟩ = some sp ∧ sp.is_beginning = true := by
  have hwf := Maze.construct_wellFormed hinfo h
  obtain ⟨levels0, _, _, _, _, hlev0, _, _, _, hlay, _⟩ := Maze.construct_ok_parts h
  have elev : levels0 = levels := by
    rw [hlev0] at hlev
    exact Except.ok.inj hlev
  subst elev
  obtain ⟨l, hl, e⟩ := (Maze.level_of_layout hlay 0).2 first hfirst
  have hs : l.start_location_ = some (si, sj) := by
    have := congrArg MazeLevel.start_location_ e
    rw [← hstart]
    exact this
  obtain ⟨sp, hsp, hb⟩ := start_tile_deref hwf hl hs
  exact ⟨l, sp, hl, hs, hsp, hb⟩

/-- In every reachable state there is one roster for each level and each roster holds two
TAs. -/
theorem Reachable.rostersOk {dirs : List PlayerDirectionAction} {m : Maze}
    (h : Reachable dirs m) : m.RostersOk := by
  induction h with
  | construct info is taSeeds skillSeeds m hinfo h =>
    obtain ⟨levels, si, sj, ii, ij, tptrs, sptrs, _, _, _, hlen, _, _, htas, hper, _⟩ :=
      Maze.construct_effect hinfo h
    constructor
    · rw [htas, List.length_map, List.length_range, hlen]
    · intro r hr
      rw [htas] at hr
      obtain ⟨li, hli, e⟩ := List.mem_map.mp hr
      rw [← e, List.length_map]
      exact (hper li (List.mem_range.mp hli)).2.1.2.1
  | turn m m1 choice draws hm h ih =>
    obtain ⟨_, hs, _⟩ := MovePeople_frame (fun s => s.has_student) (fun _ _ => rfl)
      hm.wellFormed h
    have hl := levels_length_of_layout (Maze.layout_MovePeople h)
    have hlen : m1.tas_.length = m.tas_.length := by
      have := congrArg List.length hs
      simpa using this
    constructor
    · rw [hlen, hl]; exact ih.1
    · intro r hr
      have h1 : r.length ∈ m1.tas_.map List.length := List.mem_map.mpr ⟨r, hr, rfl⟩
      rw [hs] at h1
      obtain ⟨r0, hr0, e⟩ := List.mem_map.mp h1
      rw [← e]
      exact ih.2 r0 hr0
  | handle m m1 res hm h ih =>
    obtain ⟨_, ht, _, _⟩ := HandleCurrentPosition_frame (fun s => s.has_student)
      (fun _ _ => rfl) h
    have hl := levels_length_of_layout (Maze.layout_HandleCurrentPosition h)
    constructor
    · rw [ht, hl]; exact ih.1
    · rw [ht]; exact ih.2
  | resetCurrent m m1 taSeed skillSeed hm h ih =>
    obtain ⟨si, sj, ptrs, sptrs, _, _, _, ⟨_, hplen, _⟩, _, _, _, htas, hlay, _⟩ :=
      ResetLevel_effect hm.wellFormed h
    constructor
    · rw [htas, List.length_set, levels_length_of_layout hlay]; exact ih.1
    · intro r hr
      rw [htas] at hr
      rcases List.mem_or_eq_of_mem_set hr with c | c
      · exact ih.2 r c
      · rw [c, List.length_map, hplen]
  | resetAll m m1 taSeeds skillSeeds hm h ih =>
    obtain ⟨si, sj, _, hlay, _, hlen, _, _, hro, _⟩ := ResetAllLevels_effect hm.wellFormed h
    constructor
    · rw [hlen, levels_length_of_layout hlay]; exact ih.1
    · intro r hr
      obtain ⟨k, hk⟩ := List.mem_iff_getElem?.mp hr
      have hklt : k < m1.tas_.length := (List.getElem?_eq_some_iff.mp hk).1
      obtain ⟨_, r1, e1, e2, _⟩ := hro k (by rw [← ih.1, ← hlen]; exact hklt)
      rw [hk] at e1
      rw [Option.some.inj e1]
      exact e2

/-- In every reachable state the tile at the student's position is the one tile of the
maze with `has_student` set. -/
theorem Reachable.studentMarked {dirs : List PlayerDirectionAction} {m : Maze}
    (h : Reachable dirs m) : m.StudentMarked := by
  induction h with
  | construct info is taSeeds skillSeeds m hinfo h =>
    obtain ⟨levels, si, sj, ii, ij, tptrs, sptrs, hlev, ⟨first, hfirst, hstart⟩, _, _, hstu,
      _, _, _, hdm⟩ := Maze.construct_effect hinfo h
    obtain ⟨l, sp, _, _, hsp, _⟩ := construct_start_tile hinfo h hlev hfirst hstart
    constructor
    · rw [hstu]; exact ⟨sp, hsp⟩
    · intro q s hq
      rw [hstu]
      rw [hdm] at hq
      cases hx : (Maze.mk levels ⟨⟨0, 0, 0⟩, 0⟩ [] ⟨⟨0, 0, 0⟩⟩).deref q with
      | none => rw [hx] at hq; simp at hq
      | some s0 =>
        rw [hx] at hq
        simp only [Option.map_some', Option.some.injEq] at hq
        rw [← hq]
        simp only [decide_eq_true_eq]
  | turn m m1 choice draws hm h ih =>
    obtain ⟨_, _, hc⟩ := MovePeople_frame (fun s => s.has_student) (fun _ _ => rfl)
      hm.wellFormed h
    rcases hc with ⟨hp, hd⟩ | ⟨pos2, h2, hp, hd⟩
    · exact StudentMarked_of_proj hp hd ih
    · exact StudentMarked_of_move h2 hp hd ih
  | handle m m1 res hm h ih =>
    obtain ⟨hp, _, _, hd⟩ := HandleCurrentPosition_frame (fun s => s.has_student)
      (fun _ _ => rfl) h
    exact StudentMarked_of_proj hp hd ih
  | resetCurrent m m1 taSeed skillSeed hm h ih =>
    apply StudentMarked_ResetLevel hm.wellFormed h
    intro q sp hq hd
    cases hs : sp.has_student with
    | false => rfl
    | true =>
      have := (ih.2 q sp hd).mp hs
      rw [this] at hq
      exact absurd rfl hq
  | resetAll m m1 taSeeds skillSeeds hm h ih =>
    obtain ⟨si, sj, ⟨first, hfirst, hstart⟩, _, _, _, hstu, _, _, hd⟩ :=
      ResetAllLevels_effect hm.wellFormed h
    obtain ⟨sp0, hsp0, _⟩ := start_tile_deref hm.wellFormed hfirst hstart
    constructor
    · rw [hstu]
      show ∃ sp, m1.deref ⟨0, si, sj⟩ = some sp
      obtain ⟨bt, bs, e⟩ := hd ⟨0, si, sj⟩
      rw [e, hsp0]
      exact ⟨_, rfl⟩
    · intro q sp hq
      rw [hstu]
      obtain ⟨bt, bs, e⟩ := hd q
      rw [e] at hq
      cases hx : m.deref q with
      | none => rw [hx] at hq; simp at hq
      | some s =>
        rw [hx] at hq
        simp only [Option.map_some', Option.some.injEq] at hq
        rw [← hq]
        simp only [decide_eq_true_eq]

theorem InstructorMarked_of_proj {m m1 : Maze} (hlay : m1.layout = m.layout)
    (hd : ∀ q, (m1.deref q).map (fun s => s.has_instructor)
      = (m.deref q).map (fun s => s.has_instructor))
    (h : m.InstructorMarked) : m1.InstructorMarked := by
  obtain ⟨last, ii, ij, sp, hl, hi, ht, hf, huniq⟩ := h
  have hlen := levels_length_of_layout hlay
  have hd0 := deref_of_tile hl ht
  obtain ⟨s1, hs1, e1⟩ := map_flag_eq (hd ⟨m.levels_.length - 1, ii, ij⟩).symm hd0
  obtain ⟨l1, hl1, ht1⟩ := deref_eq_some hs1
  simp only at hl1 ht1
  refine ⟨l1, ii, ij, s1, by rw [hlen]; exact hl1, ?_, ht1, ?_, ?_⟩
  · rw [(start_of_layout hlay hl hl1).2, hi]
  · rw [e1]; exact hf
  · intro q sp1 hq
    obtain ⟨s, hs, e⟩ := map_flag_eq (hd q) hq
    rw [hlen, ← e]
    exact huniq q s hs

/-- In every reachable state the instructor tile of the last level is the one tile of the
maze with `has_instructor` set. -/
theorem Reachable.instructorMarked {dirs : List PlayerDirectionAction} {m : Maze}
    (h : Reachable dirs m) : m.InstructorMarked := by
  induction h with
  | construct info is taSeeds skillSeeds m hinfo h =>
    obtain ⟨last, ii, ij, sp, ⟨_, hlen⟩, ⟨hl, hi, hd, hf⟩, huniq, _⟩ :=
      Maze.construct_ok_instructor h
    obtain ⟨l1, hl1, ht1⟩ := deref_eq_some hd
    simp only at hl1 ht1
    rw [hl] at hl1
    have e := Option.some.inj hl1
    subst e
    refine ⟨last, ii, ij, sp, by rw [hlen]; exact hl, hi, ht1, hf, ?_⟩
    rw [hlen]
    exact huniq
  | turn m m1 choice draws hm h ih =>
    exact InstructorMarked_of_proj (Maze.layout_MovePeople h)
      (MovePeople_proj (fun s => s.has_instructor) (fun _ _ => rfl) (fun _ _ => rfl)
        hm.wellFormed h) ih
  | handle m m1 res hm h ih =>
    exact InstructorMarked_of_proj (Maze.layout_HandleCurrentPosition h)
      (HandleCurrentPosition_frame (fun s => s.has_instructor) (fun _ _ => rfl) h).2.2.2 ih
  | resetCurrent m m1 taSeed skillSeed hm h ih =>
    exact InstructorMarked_of_proj (Maze.layout_ResetLevel h)
      (ResetLevel_proj (fun s => s.has_instructor) (fun _ _ _ _ => rfl) hm.wellFormed h) ih
  | resetAll m m1 taSeeds skillSeeds hm h ih =>
    exact InstructorMarked_of_proj (Maze.layout_ResetAllLevels h)
      (ResetAllLevels_proj (fun s => s.has_instructor) (fun _ _ _ _ => rfl)
        hm.wellFormed h) ih

/-! ### The claims about placement and resets -/

theorem mapSpace_erase_eq {loc1 loc : MazeLocation}
    (h : MazeLocation.mapSpace OpenSpace.erase loc1 = MazeLocation.mapSpace OpenSpace.erase loc)
    (hs : loc1.asSpace = loc.asSpace) : loc1 = loc := by
  cases loc1 with
  | wall p =>
    cases loc with
    | wall q => simpa [MazeLocation.mapSpace] using h
    | space s => simp [MazeLocation.mapSpace] at h
  | space s1 =>
    cases loc with
    | wall q => simp [MazeLocation.mapSpace] at h
    | space s =>
      simp only [MazeLocation.asSpace, Option.some.injEq] at hs
      rw [hs]

/-- A level with the same layout and the same open spaces is the same level. -/
theorem level_eq_of_layout_deref {m m1 : Maze} (hlay : m1.layout = m.layout) {k : Nat}
    (hd : ∀ q : MazePosition, q.level = k → m1.deref q = m.deref q) :
    m1.levels_[k]? = m.levels_[k]? := by
  have hlen := levels_length_of_layout hlay
  cases hl : m.levels_[k]? with
  | none =>
    rw [List.getElem?_eq_none_iff] at hl ⊢
    omega
  | some l =>
    have hk : k < m1.levels_.length := by
      rw [hlen]; exact (List.getElem?_eq_some_iff.mp hl).1
    cases hl1 : m1.levels_[k]? with
    | none =>
      rw [List.getElem?_eq_none_iff] at hl1
      omega
    | some l1 =>
      have e1 : m1.layout[k]? = some l1.layout := by rw [Maze.layout_getElem?, hl1]; rfl
      have e2 : m.layout[k]? = some l.layout := by rw [Maze.layout_getElem?, hl]; rfl
      rw [hlay, e2] at e1
      have e3 : l.layout = l1.layout := Option.some.inj e1
      have ht : ∀ i j, (l1.tileAt i j).bind MazeLocation.asSpace
          = (l.tileAt i j).bind MazeLocation.asSpace := by
        intro i j
        have := hd ⟨k, i, j⟩ rfl
        rw [@deref_of_levels m1 l1 ⟨k, i, j⟩ hl1, @deref_of_levels m l ⟨k, i, j⟩ hl] at this
        exact this
      have htl : ∀ i j, (l1.tileAt i j).map (MazeLocation.mapSpace OpenSpace.erase)
          = (l.tileAt i j).map (MazeLocation.mapSpace OpenSpace.erase) := by
        intro i j
        rw [← tileAt_layout, ← tileAt_layout, e3]
      have hloc : l1.locations_ = l.locations_ := by
        apply List.ext_getElem?
        intro i
        have hrow : l1.locations_.length = l.locations_.length := by
          have := congrArg (fun x => x.locations_.length) e3
          simp only [MazeLevel.layout, List.length_map] at this
          exact this.symm
        cases hr : l.locations_[i]? with
        | none =>
          rw [List.getElem?_eq_none_iff] at hr ⊢
          omega
        | some r =>
          cases hr1 : l1.locations_[i]? with
          | none =>
            have := (List.getElem?_eq_some_iff.mp hr).1
            rw [List.getElem?_eq_none_iff] at hr1
            omega
          | some r1 =>
            congr 1
            have hrl : r1.length = r.length := by
              have := congrArg (fun x => (x.locations_[i]?).map List.length) e3
              simp only [MazeLevel.layout, List.getElem?_map, hr, hr1, Option.map_some',
                List.length_map, Option.some.injEq] at this
              exact this.symm
            apply List.ext_getElem?
            intro j
            have t1 := ht i j
            have t2 := htl i j
            simp only [MazeLevel.tileAt, hr, hr1] at t1 t2
            cases hc : r[j]? with
            | none =>
              rw [List.getElem?_eq_none_iff] at hc ⊢
              omega
            | some loc =>
              cases hc1 : r1[j]? with
              | none =>
                have := (List.getElem?_eq_some_iff.mp hc).1
                rw [List.getElem?_eq_none_iff] at hc1
                omega
              | some loc1 =>
                rw [hc, hc1] at t1 t2
                simp only [Option.map_some', Option.some.injEq, Option.some_bind] at t1 t2
                rw [mapSpace_erase_eq t2 t1]
      have f1 := congrArg MazeLevel.start_location_ e3
      have f2 := congrArg MazeLevel.instructor_location_ e3
      have f3 := congrArg MazeLevel.height_ e3
      have f4 := congrArg MazeLevel.width_ e3
      simp only [MazeLevel.layout] at f1 f2 f3 f4
      cases l1
      cases l
      simp only at hloc f1 f2 f3 f4
      subst hloc f1 f2 f3 f4
      rfl

/-- Claim C24: after `Maze::ResetLevel` of the level with index `L` completes (in a
well-formed maze, as every reachable one is), the student has skill count 0 and stands on
the start tile of level `L`, which has `has_student` set and is the only tile of level `L`
that has it; the roster of level `L` holds fresh TAs, each with appeasement counter 0; the
permanent part of level `L` is as before (the layout: walls, stored positions,
`is_beginning`, `has_ladder`, dimensions and the two tile pointers; and `has_instructor` of
every open space); every other level and every other roster is unchanged. -/
theorem C24_ResetLevel_fresh_level (m m1 : Maze) (hwf : m.WellFormed) (L : Nat)
    (taSeed skillSeed : List Nat) (h : m.ResetLevel L taSeed skillSeed = .ok m1) :
    ∃ (l : MazeLevel) (si sj : Nat) (roster : List TA),
      (m.levels_[L]? = some l ∧ l.start_location_ = some (si, sj)) ∧
      (m1.student_.prog_skills = 0 ∧ m1.student_.position = ⟨L, si, sj⟩) ∧
      (∃ sp, m1.SpaceAt ⟨L, si, sj⟩ = some sp ∧ sp.has_student = true ∧
        sp.is_beginning = true) ∧
      (∀ (q : MazePosition) (sp : OpenSpace), q.level = L → m1.deref q = some sp →
        (sp.has_student = true ↔ q = ⟨L, si, sj⟩)) ∧
      (m1.tas_[L]? = some roster ∧
        ∀ t ∈ roster, t.appeased_turns = 0 ∧ t.position.level = L) ∧
      (m1.layout = m.layout ∧
        ∀ q : MazePosition, (m1.deref q).map (fun s => s.has_instructor)
          = (m.deref q).map (fun s => s.has_instructor)) ∧
      (∀ k, k ≠ L → m1.levels_[k]? = m.levels_[k]? ∧ m1.tas_[k]? = m.tas_[k]?) := by
  obtain ⟨si, sj, ptrs, sptrs, ⟨l, hl, hstart⟩, hlt, _, _, _, hstu, _, htas, hlay, hd⟩ :=
    ResetLevel_effect hwf h
  obtain ⟨sp0, hsp0, hbeg⟩ := start_tile_deref hwf hl hstart
  have hwf1 : m1.WellFormed := by
    unfold Maze.WellFormed; rw [hlay]; exact hwf
  have hsm := StudentMarked_ResetLevel hwf h
  refine ⟨l, si, sj, ptrs.map (fun p => (⟨⟨L, p.1, p.2⟩, 0⟩ : TA)), ⟨hl, hstart⟩,
    ⟨by rw [hstu], by rw [hstu]⟩, ?_, ?_, ⟨?_, ?_⟩,
    ⟨hlay, ResetLevel_proj (fun s => s.has_instructor) (fun _ _ _ _ => rfl) hwf h⟩, ?_⟩
  · have e : m1.deref ⟨L, si, sj⟩ = some { sp0 with
        has_student := decide ((si, sj) = (si, sj)),
        has_ta := decide ((si, sj) ∈ ptrs),
        has_skill := decide ((si, sj) ∈ sptrs) } := by
      rw [hd, if_pos rfl, hsp0]; rfl
    exact ⟨_, hwf1.SpaceAt_of_deref e, by simp, hbeg⟩
  · intro q sp hq hdq
    rw [hd, if_pos hq] at hdq
    cases hx : m.deref q with
    | none => rw [hx] at hdq; simp at hdq
    | some s =>
      rw [hx] at hdq
      simp only [Option.map_some', Option.some.injEq] at hdq
      rw [← hdq]
      simp only [decide_eq_true_eq, Prod.mk.injEq]
      cases q
      simp only at hq
      simp only [MazePosition.mk.injEq]
      constructor
      · rintro ⟨a, b⟩; exact ⟨hq, a, b⟩
      · rintro ⟨_, a, b⟩; exact ⟨a, b⟩
  · rw [htas, List.getElem?_set_self hlt]
  · intro t ht
    obtain ⟨p, _, e⟩ := List.mem_map.mp ht
    rw [← e]
    exact ⟨rfl, rfl⟩
  · intro k hk
    constructor
    · apply level_eq_of_layout_deref hlay
      intro q hq
      rw [hd, if_neg (by rw [hq]; exact hk)]
    · rw [htas, List.getElem?_set_ne (fun e => hk e.symm)]

/-- Witness of C24: `ResetLevel(0)` on the freshly constructed maze of `hallStart`. -/
theorem C24_ResetLevel_fresh_level_witness :
    ∃ (m m1 : Maze) (l : MazeLevel) (si sj : Nat) (roster : List TA),
      hallStart = some m ∧ m.WellFormed ∧ m.ResetLevel 0 [6, 2] [0, 0, 1] = .ok m1 ∧
      (m.levels_[0]? = some l ∧ l.start_location_ = some (si, sj)) ∧
      (m1.student_.prog_skills = 0 ∧ m1.student_.position = ⟨0, si, sj⟩) ∧
      (∃ sp, m1.SpaceAt ⟨0, si, sj⟩ = some sp ∧ sp.has_student = true ∧
        sp.is_beginning = true) ∧
      (∀ (q : MazePosition) (sp : OpenSpace), q.level = 0 → m1.deref q = some sp →
        (sp.has_student = true ↔ q = ⟨0, si, sj⟩)) ∧
      (m1.tas_[0]? = some roster ∧
        ∀ t ∈ roster, t.appeased_turns = 0 ∧ t.position.level = 0) ∧
      (m1.layout = m.layout ∧
        ∀ q : MazePosition, (m1.deref q).map (fun s => s.has_instructor)
          = (m.deref q).map (fun s => s.has_instructor)) ∧
      (∀ k, k ≠ 0 → m1.levels_[k]? = m.levels_[k]? ∧ m1.tas_[k]? = m.tas_[k]?) := by
  have h1 : hallStart.isSome = true := by decide
  obtain ⟨m, hm⟩ := Option.isSome_iff_exists.mp h1
  have hwf : m.WellFormed := (play_reachable hallInfo_inRange hm).wellFormed
  have h2 : (hallStart.bind (fun m => (m.ResetLevel 0 [6, 2] [0, 0, 1]).toOption)).isSome
      = true := by decide
  rw [hm] at h2
  simp only [Option.some_bind] at h2
  cases hr : m.ResetLevel 0 [6, 2] [0, 0, 1] with
  | error e => rw [hr] at h2; simp [Except.toOption] at h2
  | ok m1 =>
    obtain ⟨l, si, sj, roster, hrest⟩ :=
      C24_ResetLevel_fresh_level m m1 hwf 0 [6, 2] [0, 0, 1] hr
    exact ⟨m, m1, l, si, sj, roster, hm, hwf, hr, hrest⟩

/-- Claim C25: after `Maze::ResetAllLevels` completes from a reachable state, the student
has skill count 0 and stands on the start tile of level 0; that tile has `has_student` set
and is the only tile of the whole maze that has it; every TA of every roster has
appeasement counter 0. -/
theorem C25_ResetAllLevels_fresh_maze (dirs : List PlayerDirectionAction) (m m1 : Maze)
    (hm : Reachable dirs m) (taSeeds skillSeeds : Nat → List Nat)
    (h : m.ResetAllLevels taSeeds skillSeeds = .ok m1) :
    ∃ (first : MazeLevel) (si sj : Nat) (sp : OpenSpace),
      (m1.levels_[0]? = some first ∧ first.start_location_ = some (si, sj)) ∧
      (m1.student_.prog_skills = 0 ∧ m1.student_.position = ⟨0, si, sj⟩) ∧
      (m1.SpaceAt ⟨0, si, sj⟩ = some sp ∧ sp.has_student = true) ∧
      (∀ (q : MazePosition) (s : OpenSpace), m1.deref q = some s →
        (s.has_student = true ↔ q = ⟨0, si, sj⟩)) ∧
      (∀ roster ∈ m1.tas_, ∀ t ∈ roster, t.appeased_turns = 0) := by
  have hwf := hm.wellFormed
  have hm1 : Reachable dirs m1 := Reachable.resetAll m m1 taSeeds skillSeeds hm h
  obtain ⟨si, sj, ⟨first, hfirst, hstart⟩, hlay, _, hlen, hstu, _, hro, _⟩ :=
    ResetAllLevels_effect hwf h
  obtain ⟨⟨sp, hsp⟩, huniq⟩ := hm1.studentMarked
  rw [hstu] at hsp huniq
  have hl1 : ∃ first1, m1.levels_[0]? = some first1 := by
    cases hx : m1.levels_[0]? with
    | none =>
      have h1 := List.getElem?_eq_none_iff.mp hx
      have h2 := (List.getElem?_eq_some_iff.mp hfirst).1
      rw [levels_length_of_layout hlay] at h1
      omega
    | some f => exact ⟨f, rfl⟩
  obtain ⟨first1, hfirst1⟩ := hl1
  refine ⟨first1, si, sj, sp, ⟨hfirst1, ?_⟩, ⟨by rw [hstu], by rw [hstu]⟩,
    ⟨hm1.wellFormed.SpaceAt_of_deref hsp, (huniq _ sp hsp).mpr rfl⟩, huniq, ?_⟩
  · rw [(start_of_layout hlay hfirst hfirst1).1, hstart]
  · intro roster hr t ht
    obtain ⟨k, hk⟩ := List.mem_iff_getElem?.mp hr
    have hklt : k < m1.tas_.length := (List.getElem?_eq_some_iff.mp hk).1
    obtain ⟨_, r1, e1, _, e3⟩ := hro k (by rw [← hm.rostersOk.1, ← hlen]; exact hklt)
    rw [hk] at e1
    rw [← Option.some.inj e1] at e3
    exact (e3 t ht).1

/-- Claim C26: in every state reachable from a constructed maze by turns (`MovePeople`
with an action the prompt offers), event detections and resets, the tile at the student's
position is an open space with `has_student` set, and a tile of the maze has
`has_student` set only if it is that tile: exactly one tile has the flag.  In particular the
start tile of a level has `has_student` set only if the student is on that level. -/
theorem C26_one_student_tile (dirs : List PlayerDirectionAction) (m : Maze)
    (hm : Reachable dirs m) :
    (∃ sp, m.SpaceAt m.student_.position = some sp ∧ sp.has_student = true) ∧
    (∀ (li : Nat) (l : MazeLevel) (i j : Nat) (sp : OpenSpace), m.levels_[li]? = some l →
      l.tileAt i j = some (MazeLocation.space sp) →
      (sp.has_student = true ↔ (⟨li, i, j⟩ : MazePosition) = m.student_.position)) ∧
    (∀ (li : Nat) (l : MazeLevel) (i j : Nat) (sp : OpenSpace), m.levels_[li]? = some l →
      l.start_location_ = some (i, j) → l.tileAt i j = some (MazeLocation.space sp) →
      sp.has_student = true → m.student_.position.level = li) := by
  obtain ⟨⟨sp, hsp⟩, huniq⟩ := hm.studentMarked
  have hall : ∀ (li : Nat) (l : MazeLevel) (i j : Nat) (sp : OpenSpace),
      m.levels_[li]? = some l → l.tileAt i j = some (MazeLocation.space sp) →
      (sp.has_student = true ↔ (⟨li, i, j⟩ : MazePosition) = m.student_.position) :=
    fun li l i j s hl ht => huniq ⟨li, i, j⟩ s (deref_of_tile hl ht)
  refine ⟨⟨sp, hm.wellFormed.SpaceAt_of_deref hsp, (huniq _ sp hsp).mpr rfl⟩, hall, ?_⟩
  intro li l i j s hl _ ht hs
  have := (hall li l i j s hl ht).mp hs
  rw [← this]

/-- Witness of C26: the state of the session `towerLadder`, after a turn on a maze of two
levels. -/
theorem C26_one_student_tile_witness :
    ∃ m : Maze, towerLadder = some m ∧
      (∃ sp, m.SpaceAt m.student_.position = some sp ∧ sp.has_student = true) ∧
      (∀ (li : Nat) (l : MazeLevel) (i j : Nat) (sp : OpenSpace), m.levels_[li]? = some l →
        l.tileAt i j = some (MazeLocation.space sp) →
        (sp.has_student = true ↔ (⟨li, i, j⟩ : MazePosition) = m.student_.position)) ∧
      (∀ (li : Nat) (l : MazeLevel) (i j : Nat) (sp : OpenSpace), m.levels_[li]? = some l →
        l.start_location_ = some (i, j) → l.tileAt i j = some (MazeLocation.space sp) →
        sp.has_student = true → m.student_.position.level = li) := by
  have h1 : towerLadder.isSome = true := by decide
  obtain ⟨m, hm⟩ := Option.isSome_iff_exists.mp h1
  exact ⟨m, hm, C26_one_student_tile specOrder m (play_reachable towerInfo_inRange hm)⟩

/-- Witness of C25: `ResetAllLevels` in the state of the session `towerLadder`. -/
theorem C25_ResetAllLevels_fresh_maze_witness :
    ∃ (m m1 : Maze) (first : MazeLevel) (si sj : Nat) (sp : OpenSpace),
      towerLadder = some m ∧
      m.ResetAllLevels (fun _ => [5, 4]) (fun _ => [0, 0, 0]) = .ok m1 ∧
      (m1.levels_[0]? = some first ∧ first.start_location_ = some (si, sj)) ∧
      (m1.student_.prog_skills = 0 ∧ m1.student_.position = ⟨0, si, sj⟩) ∧
      (m1.SpaceAt ⟨0, si, sj⟩ = some sp ∧ sp.has_student = true) ∧
      (∀ (q : MazePosition) (s : OpenSpace), m1.deref q = some s →
        (s.has_student = true ↔ q = ⟨0, si, sj⟩)) ∧
      (∀ roster ∈ m1.tas_, ∀ t ∈ roster, t.appeased_turns = 0) := by
  have h1 : towerLadder.isSome = true := by decide
  obtain ⟨m, hm⟩ := Option.isSome_iff_exists.mp h1
  have h2 : (towerLadder.bind (fun m =>
      (m.ResetAllLevels (fun _ => [5, 4]) (fun _ => [0, 0, 0])).toOption)).isSome
      = true := by decide
  rw [hm] at h2
  simp only [Option.some_bind] at h2
  cases hr : m.ResetAllLevels (fun _ => [5, 4]) (fun _ => [0, 0, 0]) with
  | error e => rw [hr] at h2; simp [Except.toOption] at h2
  | ok m1 =>
    obtain ⟨first, si, sj, sp, hrest⟩ :=
      C25_ResetAllLevels_fresh_maze specOrder m m1 (play_reachable towerInfo_inRange hm)
        (fun _ => [5, 4]) (fun _ => [0, 0, 0]) hr
    exact ⟨m, m1, first, si, sj, sp, hm, hr, hrest⟩

theorem TAsPlaced_intro {m : Maze} (hwf : m.WellFormed) {li : Nat}
    {ptrs : List (Nat × Nat)} (hnd : ptrs.Nodup) (hlen : ptrs.length = 2)
    (hro : m.tas_[li]? = some (ptrs.map (fun p => (⟨⟨li, p.1, p.2⟩, 0⟩ : TA))))
    (htile : ∀ p ∈ ptrs, ∃ sp, m.deref ⟨li, p.1, p.2⟩ = some sp ∧ sp.has_ta = true ∧
      ({ sp with has_ta := false } : OpenSpace).IsEmpty = true) :
    m.TAsPlaced li := by
  match ptrs, hnd, hlen, hro, htile with
  | [p1, p2], hnd, _, hro, htile =>
    refine ⟨⟨⟨li, p1.1, p1.2⟩, 0⟩, ⟨⟨li, p2.1, p2.2⟩, 0⟩, hro, ?_, ?_⟩
    · intro e
      simp only [MazePosition.mk.injEq, true_and] at e
      have : p1 = p2 := Prod.ext e.1 e.2
      simp [this] at hnd
    · intro t ht
      simp only [List.mem_cons, List.mem_singleton, List.not_mem_nil, or_false] at ht
      rcases ht with e | e
      · subst e
        obtain ⟨sp, h1, h2, h3⟩ := htile p1 (by simp)
        exact ⟨rfl, sp, hwf.SpaceAt_of_deref h1, h2, h3⟩
      · subst e
        obtain ⟨sp, h1, h2, h3⟩ := htile p2 (by simp)
        exact ⟨rfl, sp, hwf.SpaceAt_of_deref h1, h2, h3⟩

/-- The rosters a construction leaves. -/
theorem construct_TAsPlaced {info : MazeInfo} {is : List (List Char)}
    {taSeeds skillSeeds : Nat → List Nat} {m : Maze} (hinfo : info.InRange)
    (h : Maze.construct info is taSeeds skillSeeds = .ok m) (li : Nat)
    (hli : li < m.levels_.length) : m.TAsPlaced li := by
  have hwf := Maze.construct_wellFormed hinfo h
  obtain ⟨levels, si, sj, ii, ij, tptrs, sptrs, hlev, ⟨first, hfirst, hstart⟩, _, hlen, hstu,
    _, htas, hper, hdm⟩ := Maze.construct_effect hinfo h
  obtain ⟨_, sp0, _, _, hsp0, hbeg0⟩ := construct_start_tile hinfo h hlev hfirst hstart
  rw [hlen] at hli
  obtain ⟨_, ⟨tnd, tlen, tsub⟩, _, _, ssub⟩ := hper li hli
  apply TAsPlaced_intro hwf tnd tlen
  · rw [htas, List.getElem?_map, List.getElem?_range hli]
    rfl
  · intro p hp
    obtain ⟨sp, hd, f1, f2, f3⟩ := (mem_freeKeys hwf li p).mp (tsub p hp)
    refine ⟨sp, hd, ?_, ?_⟩
    · rw [hdm] at hd
      cases hx : (Maze.mk levels ⟨⟨0, 0, 0⟩, 0⟩ [] ⟨⟨0, 0, 0⟩⟩).deref ⟨li, p.1, p.2⟩ with
      | none => rw [hx] at hd; simp at hd
      | some s0 =>
        rw [hx] at hd
        simp only [Option.map_some', Option.some.injEq] at hd
        rw [← hd]
        simp only [decide_eq_true_eq]
        exact hp
    · have hst : sp.has_student = false := by
        cases hs : sp.has_student with
        | false => rfl
        | true =>
          exfalso
          have hm : Reachable specOrder m := Reachable.construct _ _ _ _ m hinfo h
          have e := (hm.studentMarked.2 _ sp hd).mp hs
          rw [hstu] at e
          simp only at e
          rw [e, hsp0] at hd
          rw [Option.some.inj hd, f1] at hbeg0
          exact Bool.noConfusion hbeg0
      have hsk : sp.has_skill = false := by
        rw [hdm] at hd
        cases hx : (Maze.mk levels ⟨⟨0, 0, 0⟩, 0⟩ [] ⟨⟨0, 0, 0⟩⟩).deref ⟨li, p.1, p.2⟩ with
        | none => rw [hx] at hd; simp at hd
        | some s0 =>
          rw [hx] at hd
          simp only [Option.map_some', Option.some.injEq] at hd
          rw [← hd]
          simp only [decide_eq_false_iff_not]
          intro c
          exact (ssub p c).2 hp
      simp [OpenSpace.IsEmpty, f1, f2, f3, hst, hsk]

/-- The roster a completed `ResetLevel` leaves on its level. -/
theorem ResetLevel_TAsPlaced {m m1 : Maze} (hwf : m.WellFormed) {li : Nat}
    {taSeed skillSeed : List Nat} (h : m.ResetLevel li taSeed skillSeed = .ok m1) :
    m1.TAsPlaced li := by
  obtain ⟨si, sj, ptrs, sptrs, ⟨l, hl, hstart⟩, hlt, _, ⟨tnd, tlen, tsub⟩, ⟨_, _, ssub⟩, _, _,
    htas, hlay, hd⟩ := ResetLevel_effect hwf h
  obtain ⟨sp0, hsp0, hbeg0⟩ := start_tile_deref hwf hl hstart
  have hwf1 : m1.WellFormed := by
    unfold Maze.WellFormed; rw [hlay]; exact hwf
  apply TAsPlaced_intro hwf1 tnd tlen
  · rw [htas, List.getElem?_set_self hlt]
  · intro p hp
    obtain ⟨s, hs, f1, f2, f3⟩ := (mem_freeKeys hwf li p).mp (tsub p hp)
    have hne : ¬ (p.1, p.2) = (si, sj) := by
      intro e
      simp only [Prod.mk.injEq] at e
      rw [e.1, e.2, hsp0] at hs
      rw [← Option.some.inj hs, hbeg0] at f1
      exact Bool.noConfusion f1
    have hns : ¬ (p.1, p.2) ∈ sptrs := fun c => (ssub p c).2 hp
    refine ⟨{ s with has_student := false, has_ta := true, has_skill := false }, ?_, rfl, ?_⟩
    · rw [hd, if_pos rfl, hs]
      simp only [Option.map_some', Option.some.injEq]
      rw [decide_eq_false hne, decide_eq_false hns, decide_eq_true (show (p.1, p.2) ∈ ptrs from hp)]
    · simp [OpenSpace.IsEmpty, f1, f2, f3]

/-- Claim C21: in a maze that was constructed, and after every `ResetLevel` that completes
in a reachable state, there is one roster for each level and each roster holds exactly two
TAs; the roster of each level the call placed TAs on (every level for the construction, the
level reset for `ResetLevel`) holds two TAs on two different open spaces of that level, each
with `has_ta` set and empty but for that flag (empty before the TA was placed: not the
start, ladder or instructor tile, not the student's tile, no skill).  So the sizes of the
rosters are the same before and after a `ResetLevel` and a `ResetAllLevels`. -/
theorem C21_two_TAs_per_level (dirs : List PlayerDirectionAction) :
    (∀ (info : MazeInfo) (is : List (List Char)) (taSeeds skillSeeds : Nat → List Nat)
      (m : Maze), info.InRange → Maze.construct info is taSeeds skillSeeds = .ok m →
      m.RostersOk ∧ ∀ li, li < m.levels_.length → m.TAsPlaced li) ∧
    (∀ (m m1 : Maze) (L : Nat) (taSeed skillSeed : List Nat), Reachable dirs m →
      m.ResetLevel L taSeed skillSeed = .ok m1 →
      m1.RostersOk ∧ m1.TAsPlaced L ∧
        m1.tas_.map List.length = m.tas_.map List.length) ∧
    (∀ (m m1 : Maze) (taSeeds skillSeeds : Nat → List Nat), Reachable dirs m →
      m.ResetAllLevels taSeeds skillSeeds = .ok m1 →
      m1.RostersOk ∧ m1.tas_.map List.length = m.tas_.map List.length) := by
  have hsizes : ∀ m : Maze, m.RostersOk →
      m.tas_.map List.length = List.replicate m.levels_.length 2 := by
    intro m hr
    rw [List.eq_replicate_iff]
    refine ⟨by rw [List.length_map]; exact hr.1, fun b hb => ?_⟩
    obtain ⟨r, hr1, e⟩ := List.mem_map.mp hb
    rw [← e]
    exact hr.2 r hr1
  refine ⟨fun info is taSeeds skillSeeds m hinfo h => ?_, fun m m1 L taSeed skillSeed hm h => ?_,
    fun m m1 taSeeds skillSeeds hm h => ?_⟩
  · exact ⟨(Reachable.construct info is taSeeds skillSeeds m hinfo h : Reachable dirs m).rostersOk,
      fun li hli => construct_TAsPlaced hinfo h li hli⟩
  · obtain ⟨si, sj, ptrs, sptrs, _, _, _, ⟨_, hplen, _⟩, _, _, _, htas, hlay, _⟩ :=
      ResetLevel_effect hm.wellFormed h
    have hr := hm.rostersOk
    have hr1 : m1.RostersOk := by
      constructor
      · rw [htas, List.length_set, levels_length_of_layout hlay]; exact hr.1
      · intro r hmem
        rw [htas] at hmem
        rcases List.mem_or_eq_of_mem_set hmem with c | c
        · exact hr.2 r c
        · rw [c, List.length_map, hplen]
    refine ⟨hr1, ResetLevel_TAsPlaced hm.wellFormed h, ?_⟩
    rw [hsizes m1 hr1, hsizes m hr, levels_length_of_layout hlay]
  · have hm1 : Reachable dirs m1 := Reachable.resetAll m m1 taSeeds skillSeeds hm h
    refine ⟨hm1.rostersOk, ?_⟩
    rw [hsizes m1 hm1.rostersOk, hsizes m hm.rostersOk,
      levels_length_of_layout (Maze.layout_ResetAllLevels h)]

/-- Witness of C21: the construction of the two-level maze of `towerLadder`, and
`ResetLevel(0)` in the state that session reaches. -/
theorem C21_two_TAs_per_level_witness :
    (∃ m : Maze, Maze.construct towerInfo (towerText.map String.toList)
        (fun i => [[5, 4], [5, 4]].getD i []) (fun i => [[0, 0, 0], [0, 0, 0]].getD i [])
        = .ok m ∧
      m.RostersOk ∧ ∀ li, li < m.levels_.length → m.TAsPlaced li) ∧
    (∃ m m1 : Maze, towerLadder = some m ∧ m.ResetLevel 0 [5, 4] [0, 0, 0] = .ok m1 ∧
      m1.RostersOk ∧ m1.TAsPlaced 0 ∧
        m1.tas_.map List.length = m.tas_.map List.length) := by
  constructor
  · have h1 : (Maze.construct towerInfo (towerText.map String.toList)
        (fun i => [[5, 4], [5, 4]].getD i [])
        (fun i => [[0, 0, 0], [0, 0, 0]].getD i [])).toOption.isSome = true := by decide
    cases hc : Maze.construct towerInfo (towerText.map String.toList)
        (fun i => [[5, 4], [5, 4]].getD i []) (fun i => [[0, 0, 0], [0, 0, 0]].getD i []) with
    | error e => rw [hc] at h1; simp [Except.toOption] at h1
    | ok m =>
      exact ⟨m, rfl, (C21_two_TAs_per_level specOrder).1 towerInfo _ _ _ m towerInfo_inRange hc⟩
  · have h1 : towerLadder.isSome = true := by decide
    obtain ⟨m, hm⟩ := Option.isSome_iff_exists.mp h1
    have h2 : (towerLadder.bind (fun m => (m.ResetLevel 0 [5, 4] [0, 0, 0]).toOption)).isSome
        = true := by decide
    rw [hm] at h2
    simp only [Option.some_bind] at h2
    cases hr : m.ResetLevel 0 [5, 4] [0, 0, 0] with
    | error e => rw [hr] at h2; simp [Except.toOption] at h2
    | ok m1 =>
      exact ⟨m, m1, hm, hr, (C21_two_TAs_per_level specOrder).2.1 m m1 0 [5, 4] [0, 0, 0]
        (play_reachable towerInfo_inRange hm) hr⟩

/-! ### Levels with three or four empty tiles -/

/-- C22 on the code: the maze file with header `1 1 5` and the one row `   @%` is
constructed; the two TAs stand on (0,0) and (0,1), and the level has one tile with
`has_skill` set, (0,2), not three.  After `ResetLevel(0)` it is the same. -/
theorem C22_one_skill_on_small_level :
    ∃ m m1 : Maze, smallMaze = .ok m ∧
      m.tas_.map (List.map TA.position) = [[⟨0, 0, 0⟩, ⟨0, 0, 1⟩]] ∧
      m.skillKeys 0 = [(0, 2)] ∧
      m.ResetLevel 0 [] [] = .ok m1 ∧ m1.skillKeys 0 = [(0, 2)] := by
  have h1 : smallMaze.toOption.isSome = true := by decide
  cases hc : smallMaze with
  | error e => rw [hc] at h1; simp [Except.toOption] at h1
  | ok m =>
    have hm : smallMaze.toOption = some m := by rw [hc]; rfl
    have f1 := fact_of_session hm
      (P := fun m => decide (m.tas_.map (List.map TA.position) = [[⟨0, 0, 0⟩, ⟨0, 0, 1⟩]]))
      (by decide)
    have f2 := fact_of_session hm (P := fun m => decide (m.skillKeys 0 = [(0, 2)]))
      (by decide)
    have h2 : (smallMaze.toOption.bind (fun m => (m.ResetLevel 0 [] []).toOption)).isSome
        = true := by decide
    rw [hm] at h2
    simp only [Option.some_bind] at h2
    cases hr : m.ResetLevel 0 [] [] with
    | error e => rw [hr] at h2; simp [Except.toOption] at h2
    | ok m1 =>
      have f3 : (smallMaze.toOption.bind (fun m => (m.ResetLevel 0 [] []).toOption)).map
          (fun m1 => decide (m1.skillKeys 0 = [(0, 2)])) = some true := by decide
      rw [hm] at f3
      simp only [Option.some_bind, hr, Except.toOption, Option.map_some',
        Option.some.injEq, decide_eq_true_eq] at f3
      exact ⟨m, m1, rfl, by simpa using f1, by simpa using f2, hr, f3⟩

/-! ### The instructor flag -/

/-- In a constructed maze the tile read from `%` in the rows of the final level has
`has_instructor` set. -/
theorem construct_instructor_tile {info : MazeInfo} {is : List (List Char)}
    {taSeeds skillSeeds : Nat → List Nat} {m : Maze}
    (h : Maze.construct info is taSeeds skillSeeds = .ok m) :
    ∃ (ii ij : Nat) (sp : OpenSpace),
      charAt (levelText is info.height.toNat (info.levels.toNat - 1)) ii ij = some '%' ∧
      m.deref ⟨info.levels.toNat - 1, ii, ij⟩ = some sp ∧ sp.has_instructor = true := by
  obtain ⟨levels, last0, ii, ij, _, hlev, hlast, hinst, _, hlayout, _⟩ :=
    Maze.construct_ok_parts h
  obtain ⟨last, ii1, ij1, sp, _, ⟨hl, hi, hd, hf⟩, _⟩ := Maze.construct_ok_instructor h
  obtain ⟨_, hchunk⟩ := parseLevels_chunks _ _ _ _ hlev
  obtain ⟨hok, e⟩ := hchunk _ last0 hlast
  obtain ⟨l0, hl0, elay⟩ := (Maze.level_of_layout hlayout (info.levels.toNat - 1)).1 last hl
  rw [hlast] at hl0
  have e0 := Option.some.inj hl0
  subst e0
  have hptr : last0.instructor_location_ = some (ii1, ij1) := by
    have := congrArg MazeLevel.instructor_location_ elay
    rw [← hi]
    exact this.symm
  rw [hinst] at hptr
  simp only [Option.some.injEq, Prod.mk.injEq] at hptr
  obtain ⟨e1, e2⟩ := hptr
  subst e1 e2
  rw [e] at hinst
  obtain ⟨hlt, hc⟩ := (levelFor_instructor hok _ ii ij).mp hinst
  refine ⟨ii, ij, sp, ?_, hd, hf⟩
  unfold levelText
  rw [charAt_take, if_pos hlt]
  exact hc

/-- Claim C30, amended: `is_beginning` and `has_ladder` are set at parse time, on the tile
read from `@` and on the tile read from `^`; the tile read from `%` has no flag set when
the level is parsed, it is only recorded in `instructor_location_`.  The `Maze` constructor
sets `has_instructor` on that tile of the final level, before it places TAs and skills; so
in every constructed maze the tile read from `%` has `has_instructor` set, and in every
reachable state the instructor tile of the final level has the flag, is not empty and is
never among the spaces `RandomEmptySpaces` returns. -/
theorem C30_instructor_flag_set_by_constructor (dirs : List PlayerDirectionAction) :
    (∀ (is rest : List (List Char)) (L height width : Nat) (l : MazeLevel),
      MazeLevel.parse is L height width = .ok (l, rest) → ∀ i j : Nat, i < height →
        (charAt is i j = some '@' → l.tileAt i j = some (MazeLocation.space
            { OpenSpace.new ⟨L, i, j⟩ with is_beginning := true })) ∧
        (charAt is i j = some '^' → l.tileAt i j = some (MazeLocation.space
            { OpenSpace.new ⟨L, i, j⟩ with has_ladder := true })) ∧
        (charAt is i j = some '%' →
          l.tileAt i j = some (MazeLocation.space (OpenSpace.new ⟨L, i, j⟩)) ∧
          l.instructor_location_ = some (i, j))) ∧
    (∀ (info : MazeInfo) (is : List (List Char)) (taSeeds skillSeeds : Nat → List Nat)
      (m : Maze), Maze.construct info is taSeeds skillSeeds = .ok m →
      ∃ (ii ij : Nat) (sp : OpenSpace),
        charAt (levelText is info.height.toNat (info.levels.toNat - 1)) ii ij = some '%' ∧
        m.deref ⟨info.levels.toNat - 1, ii, ij⟩ = some sp ∧ sp.has_instructor = true) ∧
    (∀ m : Maze, Reachable dirs m →
      ∃ (last : MazeLevel) (ii ij : Nat) (sp : OpenSpace),
        m.levels_[m.levels_.length - 1]? = some last ∧
        last.instructor_location_ = some (ii, ij) ∧
        last.tileAt ii ij = some (MazeLocation.space sp) ∧
        sp.has_instructor = true ∧ sp.IsEmpty = false ∧
        ∀ (count : Nat) (seed : List Nat) (spaces : List (Nat × Nat)),
          last.RandomEmptySpaces count seed = some (some spaces) → (ii, ij) ∉ spaces) := by
  refine ⟨fun is rest L height width l hp i j hi => ?_,
    fun info is taSeeds skillSeeds m h => construct_instructor_tile h, fun m hm => ?_⟩
  · obtain ⟨hok, hl, _⟩ := MazeLevel.parse_ok_textOk hp
    subst hl
    refine ⟨fun hc => ?_, fun hc => ?_, fun hc => ⟨?_, ?_⟩⟩
    · rw [levelFor_tileAt, if_pos hi, hc]; rfl
    · rw [levelFor_tileAt, if_pos hi, hc]; rfl
    · rw [levelFor_tileAt, if_pos hi, hc]; rfl
    · exact (levelFor_instructor hok L i j).mpr ⟨hi, hc⟩
  · obtain ⟨last, ii, ij, sp, hl, hi, ht, hf, _⟩ := hm.instructorMarked
    have hne : sp.IsEmpty = false := by simp [OpenSpace.IsEmpty, hf]
    refine ⟨last, ii, ij, sp, hl, hi, ht, hf, hne, fun count seed spaces hr hmem => ?_⟩
    rcases RandomEmptySpaces_keys hm.wellFormed hl count seed with
      ⟨_, hnone⟩ | ⟨_, ptrs, hsome, _, hemp, _⟩
    · rw [hnone] at hr
      simp at hr
    · rw [hsome] at hr
      simp only [Option.some.injEq] at hr
      subst hr
      obtain ⟨s, hs, he⟩ := hemp (ii, ij) hmem
      rw [deref_of_tile hl ht] at hs
      rw [← Option.some.inj hs, hne] at he
      exact Bool.noConfusion he

/-- Witness of C30, amended: the parse of the level of `hallText`, whose `%` is read at
row 0, column 1, the construction of `hallStart`, and the state the session `hallCrossing`
reaches. -/
theorem C30_instructor_flag_set_by_constructor_witness :
    ((levelFor (hallText.map String.toList) 0 3 4).tileAt 0 1
        = some (MazeLocation.space (OpenSpace.new ⟨0, 0, 1⟩)) ∧
      (levelFor (hallText.map String.toList) 0 3 4).instructor_location_ = some (0, 1)) ∧
    (∃ m : Maze, hallCrossing = some m ∧
      ∃ (last : MazeLevel) (ii ij : Nat) (sp : OpenSpace),
        m.levels_[m.levels_.length - 1]? = some last ∧
        last.instructor_location_ = some (ii, ij) ∧
        last.tileAt ii ij = some (MazeLocation.space sp) ∧
        sp.has_instructor = true ∧ sp.IsEmpty = false ∧
        ∀ (count : Nat) (seed : List Nat) (spaces : List (Nat × Nat)),
          last.RandomEmptySpaces count seed = some (some spaces) → (ii, ij) ∉ spaces) := by
  constructor
  · exact (((C30_instructor_flag_set_by_constructor specOrder).1
      (hallText.map String.toList) [] 0 3 4 (levelFor (hallText.map String.toList) 0 3 4)
      (by rfl) 0 1 (by decide)).2.2 (by decide))
  · have h1 : hallCrossing.isSome = true := by decide
    obtain ⟨m, hm⟩ := Option.isSome_iff_exists.mp h1
    exact ⟨m, hm, (C30_instructor_flag_set_by_constructor specOrder).2.2 m
      (play_reachable hallInfo_inRange hm)⟩

/-! ### The instructor flag is not set by the parse -/

/-- Counterexample to claim C30: right after the level `#%  / @   / (blank row)` is parsed,
the tile read from `%` has `has_instructor` clear; it is empty, and
`RandomEmptySpaces(1)` with the identity shuffle returns it.  The `@` tile does have
`is_beginning`. -/
theorem C30_parse_leaves_instructor_flag_clear :
    MazeLevel.parse (hallText.map String.toList) 0 3 4
      = .ok (levelFor (hallText.map String.toList) 0 3 4, []) ∧
    charAt (hallText.map String.toList) 0 1 = some '%' ∧
    (levelFor (hallText.map String.toList) 0 3 4).tileAt 0 1
      = some (MazeLocation.space (OpenSpace.new ⟨0, 0, 1⟩)) ∧
    (OpenSpace.new ⟨0, 0, 1⟩).has_instructor = false ∧
    (OpenSpace.new ⟨0, 0, 1⟩).IsEmpty = true ∧
    (levelFor (hallText.map String.toList) 0 3 4).RandomEmptySpaces 1 []
      = some (some [(0, 1)]) ∧
    (levelFor (hallText.map String.toList) 0 3 4).tileAt 1 0
      = some (MazeLocation.space
          { OpenSpace.new ⟨0, 1, 0⟩ with is_beginning := true }) := by
  refine ⟨by rfl, by decide, by rfl, rfl, rfl, by rfl, by rfl⟩

/-! ### Levels too small for the placements -/

/-- The constructor is its first part followed by the two placement loops. -/
theorem Maze.construct_eq (info : MazeInfo) (is : List (List Char))
    (taSeeds skillSeeds : Nat → List Nat) :
    Maze.construct info is taSeeds skillSeeds =
      match Maze.beforePlacements info is with
      | .error e => .error e
      | .ok m4 =>
        match Maze.PlaceTAs taSeeds (List.range m4.levels_.length) m4 with
        | .error e => .error e
        | .ok m5 => Maze.PlaceSkills skillSeeds (List.range m5.levels_.length) m5 := by
  unfold Maze.construct Maze.beforePlacements
  by_cases hpos : info.levels < 1 ∨ info.width < 1 ∨ info.height < 1
  · simp only [hpos, if_true]
  · simp only [hpos, if_false]
    cases hlev : parseLevels info.height.toNat info.width.toNat info.levels.toNat 0 is with
    | error e => rfl
    | ok levels =>
      simp only
      cases hlast : levels[info.levels.toNat - 1]? with
      | none => rfl
      | some last =>
        simp only
        cases hinst : last.instructor_location_ with
        | none => rfl
        | some p =>
          obtain ⟨ii, ij⟩ := p
          simp only
          split
          · rfl
          · cases hfirst : levels[0]? with
            | none => rfl
            | some first =>
              simp only
              cases hstart : first.start_location_ with
              | none => rfl
              | some p =>
                obtain ⟨si, sj⟩ := p
                simp only
                split
                · rfl
                · split
                  · rfl
                  · rfl

theorem Maze.beforePlacements_wellFormed {info : MazeInfo} {is : List (List Char)} {m4 : Maze}
    (hinfo : info.InRange) (h : Maze.beforePlacements info is = .ok m4) :
    m4.WellFormed ∧ m4.levels_.length = info.levels.toNat := by
  unfold Maze.beforePlacements at h
  split at h
  · simp at h
  · rename_i hpos
    split at h
    · simp at h
    · rename_i levels hlev
      split at h
      · simp at h
      · rename_i last hlast
        split at h
        · simp at h
        · rename_i ii ij hinst
          split at h
          · simp at h
          · split at h
            · simp at h
            · split at h
              · simp at h
              · dsimp only at h
                split at h
                · simp at h
                · split at h
                  · simp at h
                  · simp only [Except.ok.injEq] at h
                    obtain ⟨q1, q2⟩ := parseLevels_ok _ _ _ _ hlev
                    rw [← h]
                    constructor
                    · unfold Maze.WellFormed
                      show LayoutOk (Maze.layout (Maze.modifySpace (Maze.mk
                        (Maze.modifySpace (Maze.mk levels _ _ _) _ _).levels_ _ _ _) _ _))
                      rw [Maze.layout_modifySpace]
                      · show LayoutOk (Maze.layout (Maze.modifySpace (Maze.mk levels _ _ _) _ _))
                        rw [Maze.layout_modifySpace]
                        · show LayoutOk (levels.map MazeLevel.layout)
                          obtain ⟨i1, i2, i3⟩ := hinfo
                          simp only [not_or, not_lt] at hpos
                          obtain ⟨p1, p2, p3⟩ := hpos
                          unfold INT_RANGE at *
                          refine @LayoutOk_of_levels levels info.height.toNat
                            info.width.toNat ?_ ?_ ?_ ?_ ?_
                          · rw [q1]; unfold INT_RANGE; omega
                          · unfold INT_RANGE; omega
                          · unfold INT_RANGE; omega
                          · intro k l hk
                            simpa using q2 k l hk
                          · intro l hl
                            rw [q1, hlast] at hl
                            simp at hl
                            subst hl
                            rw [hinst]
                            simp
                        · intro s; rfl
                      · intro s; rfl
                    · simp [Maze.modifySpace, q1]

/-- The loop of `Maze::PlaceTAs` fails only with the capacity error of the TAs. -/
theorem PlaceTAs_error (seeds : Nat → List Nat) :
    ∀ (lis : List Nat) (m : Maze) (e : String), m.WellFormed →
      (∀ li ∈ lis, li < m.levels_.length) → Maze.PlaceTAs seeds lis m = .error e →
      e = "Grid is not large enough to place TAs on one or more levels." := by
  intro lis
  induction lis with
  | nil => intro m e _ _ h; simp [Maze.PlaceTAs] at h
  | cons li rest ih =>
    intro m e hwf hlt h
    have hli : li < m.levels_.length := hlt li (by simp)
    unfold Maze.PlaceTAs at h
    rcases PlaceTAsAtLevel_effect hwf hli (seeds li) with ⟨_, herr⟩ | ⟨_, ptrs, _, _, _, _, hok⟩
    · rw [herr] at h
      simp only [Except.error.injEq] at h
      exact h.symm
    · rw [hok] at h
      simp only at h
      have hlay : (ptrs.foldl (fun acc ptr => acc.modifySpace ⟨li, ptr.1, ptr.2⟩
          (fun s => { s with has_ta := true })) m).layout = m.layout :=
        layout_foldl_modify li (fun s => { s with has_ta := true }) (fun s => rfl) ptrs m
      refine ih _ e ?_ ?_ h
      · unfold Maze.WellFormed
        show LayoutOk (Maze.layout (ptrs.foldl (fun acc ptr => acc.modifySpace ⟨li, ptr.1, ptr.2⟩
          (fun s => { s with has_ta := true })) m))
        rw [hlay]; exact hwf
      · intro k hk
        show k < (ptrs.foldl (fun acc ptr => acc.modifySpace ⟨li, ptr.1, ptr.2⟩
          (fun s => { s with has_ta := true })) m).levels_.length
        rw [levels_length_of_layout hlay]
        exact hlt k (List.mem_cons_of_mem _ hk)

/-- The loop of `Maze::PlaceSkills` fails only with the capacity error of the skills. -/
theorem PlaceSkills_error (seeds : Nat → List Nat) :
    ∀ (lis : List Nat) (m : Maze) (e : String), m.WellFormed →
      (∀ li ∈ lis, li < m.levels_.length) → Maze.PlaceSkills seeds lis m = .error e →
      e = "Grid is not large enough to place skills on one or more levels." := by
  intro lis
  induction lis with
  | nil => intro m e _ _ h; simp [Maze.PlaceSkills] at h
  | cons li rest ih =>
    intro m e hwf hlt h
    have hli : li < m.levels_.length := hlt li (by simp)
    unfold Maze.PlaceSkills at h
    rcases PlaceSkillsAtLevel_effect hwf hli (seeds li) with ⟨_, herr⟩ | ⟨_, ptrs, _, _, _, hok⟩
    · rw [herr] at h
      simp only [Except.error.injEq] at h
      exact h.symm
    · rw [hok] at h
      simp only at h
      have hlay : (ptrs.foldl (fun acc ptr => acc.modifySpace ⟨li, ptr.1, ptr.2⟩
          (fun s => { s with has_skill := true })) m).layout = m.layout :=
        layout_foldl_modify li (fun s => { s with has_skill := true }) (fun s => rfl) ptrs m
      refine ih _ e ?_ ?_ h
      · unfold Maze.WellFormed
        rw [hlay]; exact hwf
      · intro k hk
        rw [levels_length_of_layout hlay]
        exact hlt k (List.mem_cons_of_mem _ hk)

/-- A construction whose first part completes fails with a capacity error when a level
has fewer than three empty spaces once the student and the instructor are placed. -/
theorem construct_small_level_fails {info : MazeInfo} {is : List (List Char)}
    (taSeeds skillSeeds : Nat → List Nat) {m4 : Maze} (hinfo : info.InRange)
    (h4 : Maze.beforePlacements info is = .ok m4) {li : Nat} (hli : li < m4.levels_.length)
    (hsmall : (m4.emptyKeys li).length < 3) :
    Maze.construct info is taSeeds skillSeeds
        = .error "Grid is not large enough to place TAs on one or more levels." ∨
      Maze.construct info is taSeeds skillSeeds
        = .error "Grid is not large enough to place skills on one or more levels." := by
  obtain ⟨hwf4, _⟩ := Maze.beforePlacements_wellFormed hinfo h4
  have hb4 : ∀ k ∈ List.range m4.levels_.length, k < m4.levels_.length :=
    fun k hk => List.mem_range.mp hk
  rw [Maze.construct_eq, h4]
  simp only
  cases hta : Maze.PlaceTAs taSeeds (List.range m4.levels_.length) m4 with
  | error e =>
    left
    rw [PlaceTAs_error taSeeds _ m4 e hwf4 hb4 hta]
  | ok m5 =>
    simp only
    obtain ⟨tptrs, htp, _, _, _, htl, htd⟩ := PlaceTAs_effect taSeeds _ m4 m5 hwf4
      (List.nodup_range _) hb4 hta
    have hwf5 : m5.WellFormed := by
      unfold Maze.WellFormed
      rw [htl]; exact hwf4
    have hlen5 : m5.levels_.length = m4.levels_.length := levels_length_of_layout htl
    have hb5 : ∀ k ∈ List.range m5.levels_.length, k < m5.levels_.length :=
      fun k hk => List.mem_range.mp hk
    cases hsk : Maze.PlaceSkills skillSeeds (List.range m5.levels_.length) m5 with
    | error e =>
      right
      rw [PlaceSkills_error skillSeeds _ m5 e hwf5 hb5 hsk]
    | ok m =>
      exfalso
      obtain ⟨sptrs, hsp, _⟩ := PlaceSkills_effect skillSeeds _ m5 m hwf5
        (List.nodup_range _) hb5 hsk
      have hr : li ∈ List.range m4.levels_.length := List.mem_range.mpr hli
      obtain ⟨tnd, tsub, tlen, _⟩ := htp li hr
      obtain ⟨_, _, _, sone⟩ := hsp li (by rw [hlen5]; exact hr)
      have hE5 : ∀ p, m5.EmptyAt li p ↔ m4.EmptyAt li p ∧ p ∉ tptrs li := by
        intro p
        have e := @EmptyAt_of_deref_set m4 m5 li p _ _ _ isEmpty_set_ta (htd ⟨li, p.1, p.2⟩)
        rw [e]
        simp only [hr, true_and]
      have hcount : (m5.emptyKeys li).length + (tptrs li).length = (m4.emptyKeys li).length :=
        length_after_removal (emptyKeys_nodup hwf4 li) (emptyKeys_nodup hwf5 li) tnd
          (fun p hp => (mem_emptyKeys hwf4 li p).mpr (tsub p hp))
          (fun p => by rw [mem_emptyKeys hwf5, mem_emptyKeys hwf4, hE5])
      omega

/-- In a well-formed maze `Maze::ResetLevel` of a level that has a roster fails only with
one of the two capacity errors. -/
theorem ResetLevel_error {m : Maze} (hwf : m.WellFormed) {li : Nat}
    (hli : li < m.levels_.length) (hlt : li < m.tas_.length) {taSeed skillSeed : List Nat}
    {e : String} (h : m.ResetLevel li taSeed skillSeed = .error e) :
    e = "Grid is not large enough to place TAs on one or more levels." ∨
      e = "Grid is not large enough to place skills on one or more levels." := by
  unfold Maze.ResetLevel at h
  have hl : m.levels_[li]? = some m.levels_[li] := List.getElem?_eq_getElem hli
  simp only [hl] at h
  obtain ⟨si, sj, sp0, hstart, htile, hbeg, hpos0⟩ := hwf.start hl
  simp only [hstart] at h
  have hd0 : m.deref ⟨li, si, sj⟩ = some sp0 := by
    rw [@deref_of_levels m m.levels_[li] ⟨li, si, sj⟩ hl, htile]; rfl
  have hd1 : (m.resetTiles li).deref ⟨li, si, sj⟩
      = some { sp0 with has_ta := false, has_skill := false, has_student := false } := by
    rw [deref_resetTiles, if_pos rfl, hd0]; rfl
  have hd1' : Maze.deref { m with levels_ := m.levels_.modify MazeLevel.Reset li } ⟨li, si, sj⟩
      = some { sp0 with has_ta := false, has_skill := false, has_student := false } := hd1
  simp only [hd1'] at h
  rw [deref_modifySpace, if_pos rfl] at h
  simp only [hd1', Option.map_some'] at h
  split at h
  · rename_i hge
    simp only [hpos0] at hge
    have : m.tas_.length ≤ li := hge
    omega
  · simp only [hpos0] at h
    have hM3 : ∃ M3 : Maze, M3 = ⟨((m.resetTiles li).modifySpace ⟨li, si, sj⟩
        (fun s => { s with has_student := true })).levels_, ⟨⟨li, si, sj⟩, 0⟩, m.tas_,
        m.instructor_⟩ := ⟨_, rfl⟩
    obtain ⟨M3, hM3⟩ := hM3
    have h3 : (match M3.PlaceTAsAtLevel li taSeed with
        | Except.error e => Except.error e
        | Except.ok (tas, m4) =>
          Maze.PlaceSkillsAtLevel ⟨m4.levels_, m4.student_, m4.tas_.set li tas,
            m4.instructor_⟩ li skillSeed) = Except.error e := by
      rw [hM3]; exact h
    have hwf3 : M3.WellFormed := by
      rw [hM3]
      exact wellFormed_congr rfl
        (wellFormed_modifySpace (wellFormed_resetTiles hwf li) _
          (fun s => { s with has_student := true }) (fun s => rfl))
    have hlay3 : M3.layout = m.layout := by
      rw [hM3]
      show Maze.layout (Maze.modifySpace (m.resetTiles li) _ _) = _
      rw [Maze.layout_modifySpace, layout_resetTiles]
      intro s; rfl
    have hli3 : li < M3.levels_.length := by
      rw [levels_length_of_layout hlay3]; exact hli
    rcases PlaceTAsAtLevel_effect hwf3 hli3 taSeed with
      ⟨_, herr⟩ | ⟨_, ptrs, _, _, _, _, hok⟩
    · rw [herr] at h3
      simp only [Except.error.injEq] at h3
      exact Or.inl h3.symm
    · rw [hok] at h3
      simp only at h3
      have hM4 : ∃ M4 : Maze, M4 = ptrs.foldl (fun acc ptr =>
          acc.modifySpace ⟨li, ptr.1, ptr.2⟩ (fun s => { s with has_ta := true })) M3 :=
        ⟨_, rfl⟩
      obtain ⟨M4, hM4⟩ := hM4
      rw [← hM4] at h3
      have hlay4 : M4.layout = M3.layout := by
        rw [hM4, layout_foldl_modify li (fun s => { s with has_ta := true }) (fun s => rfl)]
      have hwf4 : M4.WellFormed := by
        unfold Maze.WellFormed
        rw [hlay4]
        exact hwf3
      have hM5 : ∃ M5 : Maze, M5 = ⟨M4.levels_, M4.student_,
          M4.tas_.set li (ptrs.map (fun p => (⟨⟨li, p.1, p.2⟩, 0⟩ : TA))), M4.instructor_⟩ :=
        ⟨_, rfl⟩
      obtain ⟨M5, hM5⟩ := hM5
      rw [← hM5] at h3
      have hlev5 : M5.levels_ = M4.levels_ := by rw [hM5]
      have hwf5 : M5.WellFormed := wellFormed_congr hlev5 hwf4
      have hli5 : li < M5.levels_.length := by
        rw [hlev5, levels_length_of_layout hlay4]
        exact hli3
      rcases PlaceSkillsAtLevel_effect hwf5 hli5 skillSeed with
        ⟨_, herr⟩ | ⟨_, sptrs, _, _, _, hok2⟩
      · rw [herr] at h3
        simp only [Except.error.injEq] at h3
        exact Or.inr h3.symm
      · rw [hok2] at h3
        simp at h3

/-- C23 on the code: the maze file with header `1 1 5` and the row `   @%` has three empty
tiles once the student and the instructor are placed, fewer than the five that two TAs and
three skills need.  No capacity error is raised: the construction completes, with two TAs
and a single skill on the level, and so does `ResetLevel(0)` on the maze constructed. -/
theorem C23_three_empty_tiles_accepted :
    ∃ m4 m m1 : Maze,
      Maze.beforePlacements smallInfo (smallText.map String.toList) = .ok m4 ∧
      m4.emptyKeys 0 = [(0, 0), (0, 1), (0, 2)] ∧
      smallMaze = .ok m ∧ m.freeKeys 0 = [(0, 0), (0, 1), (0, 2)] ∧
      m.tas_.map List.length = [2] ∧ (m.skillKeys 0).length = 1 ∧
      m.ResetLevel 0 [] [] = .ok m1 := by
  have h0 : (Maze.beforePlacements smallInfo (smallText.map String.toList)).toOption.isSome
      = true := by decide
  cases hb : Maze.beforePlacements smallInfo (smallText.map String.toList) with
  | error e => rw [hb] at h0; simp [Except.toOption] at h0
  | ok m4 =>
    have hm4 : (Maze.beforePlacements smallInfo (smallText.map String.toList)).toOption
        = some m4 := by rw [hb]; rfl
    have f0 := fact_of_session hm4
      (P := fun m => decide (m.emptyKeys 0 = [(0, 0), (0, 1), (0, 2)])) (by decide)
    have h1 : smallMaze.toOption.isSome = true := by decide
    cases hc : smallMaze with
    | error e => rw [hc] at h1; simp [Except.toOption] at h1
    | ok m =>
      have hm : smallMaze.toOption = some m := by rw [hc]; rfl
      have f1 := fact_of_session hm
        (P := fun m => decide (m.freeKeys 0 = [(0, 0), (0, 1), (0, 2)])) (by decide)
      have f2 := fact_of_session hm
        (P := fun m => decide (m.tas_.map List.length = [2] ∧ (m.skillKeys 0).length = 1))
        (by decide)
      have f3 := of_decide_eq_true f2
      have h2 : (smallMaze.toOption.bind (fun m => (m.ResetLevel 0 [] []).toOption)).isSome
          = true := by decide
      rw [hm] at h2
      simp only [Option.some_bind] at h2
      cases hr : m.ResetLevel 0 [] [] with
      | error e => rw [hr] at h2; simp [Except.toOption] at h2
      | ok m1 =>
        exact ⟨m4, m, m1, rfl, by simpa using f0, rfl, by simpa using f1, f3.1, f3.2, hr⟩

/-! ### The number of skills placed -/

theorem skillKeys_sublist (xs : List MazeLocation) :
    (xs.filterMap fun loc =>
        match loc with
        | .wall _ => none
        | .space s => if s.has_skill then some (s.pos.row, s.pos.col) else none).Sublist
    (xs.map (fun loc => (loc.pos.row, loc.pos.col))) := by
  induction xs with
  | nil => simp
  | cons x xs ih =>
    cases x with
    | wall q =>
      simp only [List.filterMap_cons, List.map_cons]
      exact List.Sublist.cons _ ih
    | space s =>
      by_cases he : s.has_skill = true
      · simp only [List.filterMap_cons, he, if_true, List.map_cons, MazeLocation.pos]
        exact List.Sublist.cons₂ _ ih
      · simp only [List.filterMap_cons, he, List.map_cons]
        exact List.Sublist.cons _ ih

theorem skillKeys_nodup {m : Maze} (hwf : m.WellFormed) (li : Nat) :
    (m.skillKeys li).Nodup := by
  unfold Maze.skillKeys
  cases hl : m.levels_[li]? with
  | none => simp
  | some l =>
    have hg := hwf.gridOk hl
    apply List.Nodup.sublist (skillKeys_sublist l.locations_.flatten)
    apply grid_keys_nodup l.locations_ 0
    intro a b row loc ha hb
    have := hg.2.2 a b loc (by simp [MazeLevel.tileAt, ha, hb])
    exact ⟨by omega, this.2⟩

theorem mem_skillKeys {m : Maze} (hwf : m.WellFormed) (li : Nat) (p : Nat × Nat) :
    p ∈ m.skillKeys li ↔ ∃ sp, m.deref ⟨li, p.1, p.2⟩ = some sp ∧ sp.has_skill = true := by
  unfold Maze.skillKeys
  cases hl : m.levels_[li]? with
  | none =>
    simp only [List.not_mem_nil, false_iff]
    rintro ⟨sp, hd, _⟩
    unfold Maze.deref at hd
    simp [hl] at hd
  | some l =>
    have hg := hwf.gridOk hl
    simp only
    rw [List.mem_filterMap]
    constructor
    · rintro ⟨loc, hloc, hf⟩
      cases loc with
      | wall q => simp at hf
      | space s =>
        by_cases he : s.has_skill = true
        · simp only [he, if_true, Option.some.injEq] at hf
          obtain ⟨i, j, ht⟩ := tileAt_of_mem_flatten hloc
          have hij := hg.2.2 i j _ ht
          simp only [MazeLocation.pos] at hij
          refine ⟨s, ?_, he⟩
          rw [← hf, hij.1, hij.2]
          exact deref_of_tile hl ht
        · simp [he] at hf
    · rintro ⟨sp, hd, he⟩
      obtain ⟨l1, hl1, ht⟩ := deref_eq_some hd
      simp only at hl1 ht
      rw [hl] at hl1
      simp only [Option.some.injEq] at hl1
      subst hl1
      have hpos := hg.2.2 _ _ _ ht
      simp only [MazeLocation.pos] at hpos
      refine ⟨MazeLocation.space sp, mem_flatten_of_tileAt ht, ?_⟩
      simp only [he, if_true, Option.some.injEq]
      rw [hpos.1, hpos.2]

/-- The skills a placement leaves on a level with `f` free tiles (open spaces that are
neither start, ladder nor instructor tile): `min(3, f - 2)` tiles have `has_skill`, where
`f >= 3`; each is a free tile without `has_ta` and `has_student`. -/
theorem skillKeys_of_placement {m : Maze} (hwf : m.WellFormed) {li : Nat}
    {tptrs sptrs : List (Nat × Nat)} (h3 : 3 ≤ (m.freeKeys li).length)
    (hsnd : sptrs.Nodup) (hslen : sptrs.length = min 3 ((m.freeKeys li).length - 2))
    (hsub : ∀ p ∈ sptrs, p ∈ m.freeKeys li ∧ p ∉ tptrs)
    (hsk : ∀ (p : Nat × Nat) (sp : OpenSpace), m.deref ⟨li, p.1, p.2⟩ = some sp →
      (sp.has_skill = true ↔ p ∈ sptrs) ∧ (sp.has_ta = true ↔ p ∈ tptrs))
    (hst : ∀ (p : Nat × Nat) (sp : OpenSpace), m.deref ⟨li, p.1, p.2⟩ = some sp →
      sp.has_student = true → sp.is_beginning = true) :
    (m.skillKeys li).length = min 3 ((m.freeKeys li).length - 2) ∧
    1 ≤ (m.skillKeys li).length ∧ (m.skillKeys li).length ≤ 3 ∧
    ∀ p ∈ m.skillKeys li, ∃ sp, m.deref ⟨li, p.1, p.2⟩ = some sp ∧ sp.has_skill = true ∧
      sp.has_ta = false ∧ sp.has_student = false ∧ sp.is_beginning = false ∧
      sp.has_ladder = false ∧ sp.has_instructor = false := by
  have hmem : ∀ p, p ∈ m.skillKeys li ↔ p ∈ sptrs := by
    intro p
    rw [mem_skillKeys hwf]
    constructor
    · rintro ⟨sp, hd, he⟩
      exact ((hsk p sp hd).1).mp he
    · intro hp
      obtain ⟨sp, hd, _⟩ := (mem_freeKeys hwf li p).mp (hsub p hp).1
      exact ⟨sp, hd, ((hsk p sp hd).1).mpr hp⟩
  have hlen : (m.skillKeys li).length = sptrs.length :=
    length_eq_of_same_members (skillKeys_nodup hwf li) hsnd hmem
  refine ⟨by rw [hlen, hslen], by omega, by omega, fun p hp => ?_⟩
  have hp2 := (hmem p).mp hp
  obtain ⟨sp, hd, f1, f2, f3⟩ := (mem_freeKeys hwf li p).mp (hsub p hp2).1
  refine ⟨sp, hd, ((hsk p sp hd).1).mpr hp2, ?_, ?_, f1, f2, f3⟩
  · cases hx : sp.has_ta with
    | false => rfl
    | true => exact absurd (((hsk p sp hd).2).mp hx) (hsub p hp2).2
  · cases hx : sp.has_student with
    | false => rfl
    | true =>
      have := hst p sp hd hx
      rw [f1] at this
      exact Bool.noConfusion this

theorem mem_freeKeys_congr {m m1 : Maze} (hwf : m.WellFormed) (hwf1 : m1.WellFormed)
    (hd : ∀ q, (m1.deref q).map (fun s => (s.is_beginning, s.has_ladder, s.has_instructor))
      = (m.deref q).map (fun s => (s.is_beginning, s.has_ladder, s.has_instructor)))
    (li : Nat) (p : Nat × Nat) : p ∈ m1.freeKeys li ↔ p ∈ m.freeKeys li := by
  have key : ∀ (a b : Maze),
      (∀ q, (a.deref q).map (fun s => (s.is_beginning, s.has_ladder, s.has_instructor))
        = (b.deref q).map (fun s => (s.is_beginning, s.has_ladder, s.has_instructor))) →
      (∃ sp, a.deref ⟨li, p.1, p.2⟩ = some sp ∧ sp.is_beginning = false ∧
        sp.has_ladder = false ∧ sp.has_instructor = false) →
      ∃ sp, b.deref ⟨li, p.1, p.2⟩ = some sp ∧ sp.is_beginning = false ∧
        sp.has_ladder = false ∧ sp.has_instructor = false := by
    rintro a b hab ⟨sp, h1, f1, f2, f3⟩
    have e := hab ⟨li, p.1, p.2⟩
    rw [h1] at e
    cases hx : b.deref ⟨li, p.1, p.2⟩ with
    | none => rw [hx] at e; simp at e
    | some s =>
      rw [hx] at e
      simp only [Option.map_some', Option.some.injEq, Prod.mk.injEq] at e
      exact ⟨s, rfl, by rw [← e.1, f1], by rw [← e.2.1, f2], by rw [← e.2.2, f3]⟩
  rw [mem_freeKeys hwf1, mem_freeKeys hwf]
  exact ⟨key m1 m hd, key m m1 (fun q => (hd q).symm)⟩

/-- The skills of a constructed maze: on every level `min(3, f - 2)` tiles have
`has_skill`, where `f >= 3` is the number of free tiles of the level; between one and
three, and each on a free tile without a TA and without the student. -/
theorem construct_skills_placed {info : MazeInfo} {is : List (List Char)}
    {taSeeds skillSeeds : Nat → List Nat} {m : Maze} (hinfo : info.InRange)
    (h : Maze.construct info is taSeeds skillSeeds = .ok m) (li : Nat)
    (hli : li < m.levels_.length) :
    (m.skillKeys li).length = min 3 ((m.freeKeys li).length - 2) ∧
    1 ≤ (m.skillKeys li).length ∧ (m.skillKeys li).length ≤ 3 ∧
    ∀ p ∈ m.skillKeys li, ∃ sp, m.deref ⟨li, p.1, p.2⟩ = some sp ∧ sp.has_skill = true ∧
      sp.has_ta = false ∧ sp.has_student = false ∧ sp.is_beginning = false ∧
      sp.has_ladder = false ∧ sp.has_instructor = false := by
  have hwf := Maze.construct_wellFormed hinfo h
  obtain ⟨levels, si, sj, ii, ij, tptrs, sptrs, hlev, ⟨first, hfirst, hstart⟩, _, hlen, hstu,
    _, _, hper, hdm⟩ := Maze.construct_effect hinfo h
  obtain ⟨_, sp0, _, _, hsp0, hbeg0⟩ := construct_start_tile hinfo h hlev hfirst hstart
  rw [hlen] at hli
  obtain ⟨h3, _, snd, slen, ssub⟩ := hper li hli
  apply @skillKeys_of_placement m hwf li (tptrs li) (sptrs li) h3 snd slen ssub
  · intro p sp hd
    rw [hdm] at hd
    cases hx : (Maze.mk levels ⟨⟨0, 0, 0⟩, 0⟩ [] ⟨⟨0, 0, 0⟩⟩).deref ⟨li, p.1, p.2⟩ with
    | none => rw [hx] at hd; simp at hd
    | some s0 =>
      rw [hx] at hd
      simp only [Option.map_some', Option.some.injEq] at hd
      rw [← hd]
      simp only [decide_eq_true_eq]
      exact ⟨trivial, trivial⟩
  · intro p sp hd hs
    have hm : Reachable specOrder m := Reachable.construct _ _ _ _ m hinfo h
    have e := (hm.studentMarked.2 _ sp hd).mp hs
    rw [hstu] at e
    simp only at e
    rw [e, hsp0] at hd
    rw [← Option.some.inj hd]
    exact hbeg0

/-- The skills of the level a completed `ResetLevel` has reset: `min(3, f - 2)` tiles have
`has_skill`, where `f >= 3` is the number of free tiles of the level. -/
theorem ResetLevel_skills_placed {m m1 : Maze} (hwf : m.WellFormed) {li : Nat}
    {taSeed skillSeed : List Nat} (h : m.ResetLevel li taSeed skillSeed = .ok m1) :
    (m1.skillKeys li).length = min 3 ((m1.freeKeys li).length - 2) ∧
    1 ≤ (m1.skillKeys li).length ∧ (m1.skillKeys li).length ≤ 3 ∧
    ∀ p ∈ m1.skillKeys li, ∃ sp, m1.deref ⟨li, p.1, p.2⟩ = some sp ∧ sp.has_skill = true ∧
      sp.has_ta = false ∧ sp.has_student = false ∧ sp.is_beginning = false ∧
      sp.has_ladder = false ∧ sp.has_instructor = false := by
  obtain ⟨si, sj, ptrs, sptrs, ⟨l, hl, hstart⟩, _, h3, _, ⟨snd, slen, ssub⟩, _, _, _, hlay,
    hd⟩ := ResetLevel_effect hwf h
  obtain ⟨sp0, hsp0, hbeg0⟩ := start_tile_deref hwf hl hstart
  have hwf1 : m1.WellFormed := by
    unfold Maze.WellFormed; rw [hlay]; exact hwf
  have hfree : ∀ p, p ∈ m1.freeKeys li ↔ p ∈ m.freeKeys li :=
    mem_freeKeys_congr hwf hwf1
      (ResetLevel_proj (fun s => (s.is_beginning, s.has_ladder, s.has_instructor))
        (fun _ _ _ _ => rfl) hwf h) li
  have hflen : (m1.freeKeys li).length = (m.freeKeys li).length :=
    length_eq_of_same_members (freeKeys_nodup hwf1 li) (freeKeys_nodup hwf li) hfree
  apply @skillKeys_of_placement m1 hwf1 li ptrs sptrs (by omega) snd (by rw [hflen]; exact slen)
    (fun p hp => ⟨(hfree p).mpr (ssub p hp).1, (ssub p hp).2⟩)
  · intro p sp hdp
    rw [hd, if_pos rfl] at hdp
    cases hx : m.deref ⟨li, p.1, p.2⟩ with
    | none => rw [hx] at hdp; simp at hdp
    | some s0 =>
      rw [hx] at hdp
      simp only [Option.map_some', Option.some.injEq] at hdp
      rw [← hdp]
      simp only [decide_eq_true_eq]
      exact ⟨trivial, trivial⟩
  · intro p sp hdp hs
    rw [hd, if_pos rfl] at hdp
    cases hx : m.deref ⟨li, p.1, p.2⟩ with
    | none => rw [hx] at hdp; simp at hdp
    | some s0 =>
      rw [hx] at hdp
      simp only [Option.map_some', Option.some.injEq] at hdp
      rw [← hdp] at hs ⊢
      simp only [decide_eq_true_eq, Prod.mk.injEq] at hs
      rw [hs.1, hs.2, hsp0] at hx
      show s0.is_beginning = true
      rw [← Option.some.inj hx]
      exact hbeg0

/-! ## Lookups, the scan order, frames and counters -/

/-! ### One TA's move in detail -/

theorem GetMove_some {t : TA} {valid_moves : List PlayerAction} {draw : Nat} {a : PlayerAction}
    (h : (t.GetMove valid_moves draw).2 = some a) :
    ∃ d, a = PlayerDirectionToAction d ∧ PlayerDirectionToAction d ∈ valid_moves := by
  simp only [TA.GetMove] at h
  cases hx : (valid_moves.filterMap PlayerActionToDirection)[draw %
      (valid_moves.filterMap PlayerActionToDirection).length]? with
  | none => rw [hx] at h; simp at h
  | some d =>
    rw [hx] at h
    simp only [Option.map_some', Option.some.injEq] at h
    have hmem : d ∈ valid_moves.filterMap PlayerActionToDirection := mem_of_getElem?_some hx
    obtain ⟨a1, ha1, hd1⟩ := List.mem_filterMap.mp hmem
    have e := PlayerActionToDirection_eq_some hd1
    exact ⟨d, h.symm, by rw [e]; exact ha1⟩

theorem GetMove_fst (t : TA) (valid_moves : List PlayerAction) (draw : Nat) :
    (t.GetMove valid_moves draw).1 = t.DecrementAppeasement := rfl

theorem DecrementAppeasement_position (t : TA) : t.DecrementAppeasement.position = t.position := by
  unfold TA.DecrementAppeasement
  split <;> rfl

theorem CanMoveInDirection_modifyTA (m : Maze) (level idx : Nat) (f : TA → TA)
    (pos : MazePosition) (d : PlayerDirectionAction) :
    (m.modifyTA level idx f).CanMoveInDirection pos d = m.CanMoveInDirection pos d := rfl

/-- One iteration of the TA loop of a turn, in a well-formed maze: the TA at index `idx` of
the roster of `level` steps in a direction `d` that `CanMoveInDirection` allows from its
position; its counter is decremented and, when the student demonstrated, raised by 10;
`has_ta` is cleared on the tile it leaves and set on the tile it enters; nothing else
changes. -/
theorem moveTA_effect {dirs : List PlayerDirectionAction} {m m1 : Maze} (hwf : m.WellFormed)
    {level idx draw : Nat} {a : Bool} (h : m.moveTA dirs level idx draw a = some m1) :
    ∃ (ta : TA) (d : PlayerDirectionAction),
      m.taAtIndex level idx = some ta ∧ d ∈ dirs ∧
      m.CanMoveInDirection ta.position d = true ∧
      m1.student_ = m.student_ ∧ m1.instructor_ = m.instructor_ ∧
      (∀ l k, m1.taAtIndex l k = (m.taAtIndex l k).map (fun t =>
        if l = level ∧ k = idx then
          (⟨ta.position.Translate d 1,
            (if a then t.DecrementAppeasement.Appease
              else t.DecrementAppeasement).appeased_turns⟩ : TA)
        else t)) ∧
      ∀ q, m1.deref q
        = if q = ta.position.Translate d 1 then
            (m.deref q).map (fun s => { s with has_ta := true })
          else if q = ta.position then (m.deref q).map (fun s => { s with has_ta := false })
          else m.deref q := by
  have hfr := moveTA_frame (fun s => s.has_student) (fun _ _ => rfl) h
  unfold Maze.moveTA at h
  cases ht : m.taAtIndex level idx with
  | none => simp [ht] at h
  | some ta =>
    simp only [ht] at h
    cases hg : (ta.GetMove (m.ValidMovementsAt dirs ta.position) draw).2 with
    | none => simp [hg] at h
    | some ta_move =>
      simp only [hg] at h
      obtain ⟨d, hd1, hd2⟩ := GetMove_some hg
      obtain ⟨hdm, hcan⟩ := (mem_ValidMovementsAt dirs m ta.position d).mp hd2
      subst hd1
      have hwf1 : (m.modifyTA level idx
          (fun t => (t.GetMove (m.ValidMovementsAt dirs ta.position) draw).1)).WellFormed := by
        unfold Maze.WellFormed
        rw [Maze.layout_modifyTA]
        exact hwf
      have hp1 : (m.modifyTA level idx
          (fun t => (t.GetMove (m.ValidMovementsAt dirs ta.position) draw).1)).personPosition
          (PersonRef.ta level idx) = some ta.position := by
        simp only [Maze.personPosition]
        rw [taAtIndex_modifyTA, ht]
        simp only [Option.map_some', GetMove_fst, DecrementAppeasement_position]
      obtain ⟨hne, _, _, hmv⟩ := MovePerson_directional hwf1 (PersonRef.ta level idx)
        ta.position d hp1 hcan
      rw [hmv] at h
      simp only at h
      have key : ∀ l k, (((((m.modifyTA level idx
          (fun t => (t.GetMove (m.ValidMovementsAt dirs ta.position) draw).1)).Unoccupy
          (PersonRef.ta level idx) ta.position).Occupy (PersonRef.ta level idx)
          (ta.position.Translate d 1)).setPersonPosition (PersonRef.ta level idx)
          (ta.position.Translate d 1)).taAtIndex l k)
          = (m.taAtIndex l k).map (fun t =>
              if l = level ∧ k = idx then
                (⟨ta.position.Translate d 1, t.DecrementAppeasement.appeased_turns⟩ : TA)
              else t) := by
        intro l k
        show (Maze.modifyTA _ _ _ _).taAtIndex l k = _
        rw [taAtIndex_modifyTA_other, taAtIndex_Occupy, taAtIndex_Unoccupy,
          taAtIndex_modifyTA_other]
        by_cases hlk : l = level ∧ k = idx
        · simp only [hlk, and_self, if_true]
          cases m.taAtIndex level idx <;> rfl
        · simp only [hlk, if_false]
          cases m.taAtIndex l k <;> rfl
      have hder : ∀ q, (((((m.modifyTA level idx
          (fun t => (t.GetMove (m.ValidMovementsAt dirs ta.position) draw).1)).Unoccupy
          (PersonRef.ta level idx) ta.position).Occupy (PersonRef.ta level idx)
          (ta.position.Translate d 1)).setPersonPosition (PersonRef.ta level idx)
          (ta.position.Translate d 1)).deref q)
          = if q = ta.position.Translate d 1 then
              (m.deref q).map (fun s => { s with has_ta := true })
            else if q = ta.position then (m.deref q).map (fun s => { s with has_ta := false })
            else m.deref q := by
        intro q
        rw [deref_setPersonPosition, deref_Occupy, deref_Unoccupy, deref_modifyTA]
        by_cases e1 : q = ta.position.Translate d 1
        · rw [if_pos e1, if_pos e1, if_neg (by rw [e1]; exact hne)]
          rfl
        · rw [if_neg e1, if_neg e1]
          rfl
      refine ⟨ta, d, rfl, hdm, hcan, hfr.1, hfr.2.1, ?_, ?_⟩
      · intro l k
        cases a with
        | false =>
          simp only [Bool.false_eq_true, if_false, Option.some.injEq] at h
          rw [← h, key l k]
          simp
        | true =>
          simp only [if_true, Option.some.injEq] at h
          rw [← h, taAtIndex_modifyTA_other, key l k]
          by_cases hlk : l = level ∧ k = idx
          · simp only [hlk, and_self, if_true]
            cases m.taAtIndex level idx <;> rfl
          · simp only [hlk, if_false]
      · intro q
        cases a with
        | false =>
          simp only [Bool.false_eq_true, if_false, Option.some.injEq] at h
          rw [← h]; exact hder q
        | true =>
          simp only [if_true, Option.some.injEq] at h
          rw [← h, deref_modifyTA]; exact hder q

/-! ### Occupiable tiles and the layout -/

theorem SpaceAt_isSome_eq_deref {m : Maze} (hwf : m.WellFormed) (q : MazePosition) :
    (m.SpaceAt q).isSome = (m.deref q).isSome := by
  cases hd : m.deref q with
  | some sp => rw [hwf.SpaceAt_of_deref hd]
  | none =>
    cases hs : m.SpaceAt q with
    | none => rfl
    | some sp => rw [SpaceAt_deref hs] at hd; cases hd

theorem CanMoveInDirection_eq_and {m : Maze} (hwf : m.WellFormed) (q : MazePosition)
    (d : PlayerDirectionAction) :
    m.CanMoveInDirection q d
      = ((m.deref q).isSome && (m.deref (q.Translate d 1)).isSome) := by
  unfold Maze.CanMoveInDirection
  rw [← SpaceAt_isSome_eq_deref hwf q, ← SpaceAt_isSome_eq_deref hwf (q.Translate d 1)]
  cases hs : m.SpaceAt q with
  | none => rfl
  | some sp =>
    simp only [hwf.SpaceAt_pos hs]
    rfl

theorem CanMoveInDirection_congr {m m1 : Maze} (hwf : m.WellFormed) (hwf1 : m1.WellFormed)
    (h : ∀ q, (m1.deref q).isSome = (m.deref q).isSome) (q : MazePosition)
    (d : PlayerDirectionAction) :
    m1.CanMoveInDirection q d = m.CanMoveInDirection q d := by
  rw [CanMoveInDirection_eq_and hwf, CanMoveInDirection_eq_and hwf1, h, h]

theorem Neighbourly_congr {m m1 : Maze} (hwf : m.WellFormed) (hwf1 : m1.WellFormed)
    (h : ∀ q, (m1.deref q).isSome = (m.deref q).isSome) (hn : m.Neighbourly) :
    m1.Neighbourly := by
  intro q hq
  rw [SpaceAt_isSome_eq_deref hwf1, h, ← SpaceAt_isSome_eq_deref hwf] at hq
  obtain ⟨d, hd⟩ := hn q hq
  refine ⟨d, ?_⟩
  rw [SpaceAt_isSome_eq_deref hwf1, h, ← SpaceAt_isSome_eq_deref hwf]
  exact hd

theorem Neighbourly.canMove {m : Maze} (hwf : m.WellFormed) (hn : m.Neighbourly)
    {q : MazePosition} (hq : (m.deref q).isSome = true) :
    ∃ d : PlayerDirectionAction, m.CanMoveInDirection q d = true := by
  rw [← SpaceAt_isSome_eq_deref hwf] at hq
  obtain ⟨d, hd⟩ := hn q hq
  refine ⟨d, ?_⟩
  rw [CanMoveInDirection_eq_and hwf, ← SpaceAt_isSome_eq_deref hwf,
    ← SpaceAt_isSome_eq_deref hwf, hq, hd]
  rfl

theorem isSome_of_proj {β : Type} {π : OpenSpace → β} {m m1 : Maze}
    (h : ∀ q, (m1.deref q).map π = (m.deref q).map π) (q : MazePosition) :
    (m1.deref q).isSome = (m.deref q).isSome := by
  have := congrArg Option.isSome (h q)
  simpa using this

/-! ### The TAs and their flags through a turn -/

theorem TAsOnTiles_of_proj {m m1 : Maze} (ht : m1.tas_ = m.tas_)
    (hd : ∀ q, (m1.deref q).isSome = (m.deref q).isSome) (h : m.TAsOnTiles) :
    m1.TAsOnTiles := by
  intro l k t hk
  have hk0 : m.taAtIndex l k = some t := by
    unfold Maze.taAtIndex at hk ⊢
    rw [← ht]; exact hk
  obtain ⟨h1, h2⟩ := h l k t hk0
  exact ⟨h1, by rw [hd]; exact h2⟩

theorem FlagsHaveTAs_of_proj {m m1 : Maze} (ht : m1.tas_ = m.tas_)
    (hd : ∀ q, (m1.deref q).map (fun s => s.has_ta) = (m.deref q).map (fun s => s.has_ta))
    (h : m.FlagsHaveTAs) : m1.FlagsHaveTAs := by
  intro q sp hq hta
  have h1 := hd q
  rw [hq] at h1
  cases hq0 : m.deref q with
  | none => rw [hq0] at h1; cases h1
  | some sp0 =>
    rw [hq0] at h1
    simp only [Option.map_some', Option.some.injEq] at h1
    obtain ⟨k, t, hk, hp⟩ := h q sp0 hq0 (by rw [← h1]; exact hta)
    refine ⟨k, t, ?_, hp⟩
    unfold Maze.taAtIndex at hk ⊢
    rw [ht]; exact hk

theorem CountersAgree_of_tas {m m1 : Maze} (ht : m1.tas_ = m.tas_) (h : m.CountersAgree) :
    m1.CountersAgree := by
  intro l k k' t t' hk hk'
  unfold Maze.taAtIndex at hk hk'
  rw [ht] at hk hk'
  exact h l k k' t t' hk hk'

theorem moveTA_TAsOnTiles {dirs : List PlayerDirectionAction} {m m1 : Maze}
    (hwf : m.WellFormed) {level idx draw : Nat} {a : Bool}
    (h : m.moveTA dirs level idx draw a = some m1) (hinv : m.TAsOnTiles) :
    m1.TAsOnTiles := by
  obtain ⟨ta, d, hta, _, hcan, _, _, htas, hder⟩ := moveTA_effect hwf h
  have hsome : ∀ q, (m1.deref q).isSome = (m.deref q).isSome := by
    intro q
    rw [hder q]
    split
    · simp
    · split
      · simp
      · rfl
  obtain ⟨hlev, _⟩ := hinv level idx ta hta
  intro l k t hk
  rw [htas l k] at hk
  cases hk0 : m.taAtIndex l k with
  | none => rw [hk0] at hk; cases hk
  | some t0 =>
    rw [hk0] at hk
    simp only [Option.map_some', Option.some.injEq] at hk
    obtain ⟨h1, h2⟩ := hinv l k t0 hk0
    by_cases hc : l = level ∧ k = idx
    · rw [if_pos hc] at hk
      subst hk
      refine ⟨?_, ?_⟩
      · show (ta.position.Translate d 1).level = l
        rw [Translate_level, hlev, hc.1]
      · show (m1.deref (ta.position.Translate d 1)).isSome = true
        rw [hsome]
        rw [CanMoveInDirection_eq_and hwf] at hcan
        simp only [Bool.and_eq_true] at hcan
        exact hcan.2
    · rw [if_neg hc] at hk
      subst hk
      exact ⟨h1, by rw [hsome]; exact h2⟩

theorem moveTA_FlagsHaveTAs {dirs : List PlayerDirectionAction} {m m1 : Maze}
    (hwf : m.WellFormed) {level idx draw : Nat} {a : Bool}
    (h : m.moveTA dirs level idx draw a = some m1) (hon : m.TAsOnTiles)
    (hinv : m.FlagsHaveTAs) : m1.FlagsHaveTAs := by
  obtain ⟨ta, d, hta, _, hcan, _, _, htas, hder⟩ := moveTA_effect hwf h
  obtain ⟨hlev, _⟩ := hon level idx ta hta
  intro q sp hq hflag
  rw [hder q] at hq
  by_cases h1 : q = ta.position.Translate d 1
  · refine ⟨idx, ⟨ta.position.Translate d 1,
      (if a then ta.DecrementAppeasement.Appease
        else ta.DecrementAppeasement).appeased_turns⟩, ?_, h1.symm⟩
    have hl : q.level = level := by rw [h1, Translate_level, hlev]
    rw [hl, htas level idx, hta]
    simp
  · rw [if_neg h1] at hq
    by_cases h2 : q = ta.position
    · rw [if_pos h2] at hq
      cases hq0 : m.deref q with
      | none => rw [hq0] at hq; cases hq
      | some sp0 =>
        rw [hq0] at hq
        simp only [Option.map_some', Option.some.injEq] at hq
        rw [← hq] at hflag
        cases hflag
    · rw [if_neg h2] at hq
      obtain ⟨k, t, hk, hp⟩ := hinv q sp hq hflag
      refine ⟨k, t, ?_, hp⟩
      rw [htas q.level k, hk]
      have hc : ¬ (q.level = level ∧ k = idx) := by
        rintro ⟨e1, e2⟩
        rw [e1, e2, hta] at hk
        have := Option.some.inj hk
        rw [← this] at hp
        exact h2 hp.symm
      simp [hc]

theorem moveTAs_invariants {dirs : List PlayerDirectionAction} {level : Nat}
    {draws : Nat → Nat} {a : Bool} :
    ∀ (idxs : List Nat) (m m1 : Maze), m.WellFormed →
      Maze.moveTAs dirs level draws a idxs m = some m1 →
      m.TAsOnTiles → m.FlagsHaveTAs → m1.TAsOnTiles ∧ m1.FlagsHaveTAs := by
  intro idxs
  induction idxs with
  | nil =>
    intro m m1 _ h h1 h2
    simp only [Maze.moveTAs, Option.some.injEq] at h
    subst h
    exact ⟨h1, h2⟩
  | cons idx rest ih =>
    intro m m1 hwf h h1 h2
    simp only [Maze.moveTAs] at h
    cases hm : m.moveTA dirs level idx (draws idx) a with
    | none => rw [hm] at h; cases h
    | some m2 =>
      rw [hm] at h
      have hwf2 : m2.WellFormed := by
        unfold Maze.WellFormed
        rw [Maze.layout_moveTA hm]
        exact hwf
      exact ih m2 m1 hwf2 h (moveTA_TAsOnTiles hwf hm h1) (moveTA_FlagsHaveTAs hwf hm h1 h2)

theorem MovePeople_steps {dirs : List PlayerDirectionAction} {m m1 : Maze}
    {choice : PlayerAction} {draws : Nat → Nat}
    (h : m.MovePeople dirs choice draws = some m1) :
    ∃ (m2 : Maze) (a : Bool) (roster : List TA),
      choice ∈ m.ValidActionsAt dirs m.student_.position ∧
      m.studentStep choice = some (m2, a) ∧
      m2.tas_[m2.student_.position.level]? = some roster ∧
      Maze.moveTAs dirs m2.student_.position.level draws a (List.range roster.length) m2
        = some m1 := by
  unfold Maze.MovePeople IntrepidStudent.GetMove at h
  by_cases hc : choice ∈ m.ValidActionsAt dirs m.student_.position
  · rw [if_pos hc] at h
    simp only at h
    cases hs : m.studentStep choice with
    | none => rw [hs] at h; cases h
    | some p =>
      obtain ⟨m2, a⟩ := p
      rw [hs] at h
      simp only at h
      cases hr : m2.tas_[m2.student_.position.level]? with
      | none => rw [hr] at h; cases h
      | some roster =>
        rw [hr] at h
        exact ⟨m2, a, roster, hc, rfl, hr, h⟩
  · rw [if_neg hc] at h
    cases h

theorem studentStep_flags {m m1 : Maze} (hwf : m.WellFormed) {s_move : PlayerAction}
    {a : Bool} (h : m.studentStep s_move = some (m1, a)) :
    m1.tas_ = m.tas_ ∧
    ∀ q, (m1.deref q).map (fun s => s.has_ta) = (m.deref q).map (fun s => s.has_ta) := by
  obtain ⟨ht, _, hc⟩ := studentStep_effect hwf h
  refine ⟨ht, fun q => ?_⟩
  rcases hc with ⟨_, e⟩ | ⟨pos2, _, _, e⟩
  · rw [e]
  · rw [e q]
    split
    · cases m.deref q <;> rfl
    · split
      · cases m.deref q <;> rfl
      · rfl

theorem MovePeople_invariants {dirs : List PlayerDirectionAction} {m m1 : Maze}
    (hwf : m.WellFormed) {choice : PlayerAction} {draws : Nat → Nat}
    (h : m.MovePeople dirs choice draws = some m1)
    (h1 : m.TAsOnTiles) (h2 : m.FlagsHaveTAs) : m1.TAsOnTiles ∧ m1.FlagsHaveTAs := by
  obtain ⟨m2, a, roster, _, hs, _, hm⟩ := MovePeople_steps h
  obtain ⟨ht, hd⟩ := studentStep_flags hwf hs
  have hwf2 : m2.WellFormed := by
    unfold Maze.WellFormed
    rw [Maze.layout_studentStep hs]
    exact hwf
  exact moveTAs_invariants _ m2 m1 hwf2 hm
    (TAsOnTiles_of_proj ht (isSome_of_proj hd) h1) (FlagsHaveTAs_of_proj ht hd h2)

theorem counter_step_congr (a : Bool) {t t' : TA} (h : t.appeased_turns = t'.appeased_turns) :
    (if a then t.DecrementAppeasement.Appease else t.DecrementAppeasement).appeased_turns
      = (if a then t'.DecrementAppeasement.Appease
          else t'.DecrementAppeasement).appeased_turns := by
  obtain ⟨p, c⟩ := t
  obtain ⟨p', c'⟩ := t'
  simp only at h
  subst h
  by_cases hc : c > 0
  · cases a <;> simp [TA.DecrementAppeasement, TA.Appease, hc]
  · cases a <;> simp [TA.DecrementAppeasement, TA.Appease, hc]

theorem taAtIndex_lt {m : Maze} {l k : Nat} {t : TA} {roster : List TA}
    (hr : m.tas_[l]? = some roster) (h : m.taAtIndex l k = some t) : k < roster.length := by
  unfold Maze.taAtIndex at h
  rw [hr] at h
  exact (List.getElem?_eq_some_iff.mp h).1

theorem MovePeople_CountersAgree {dirs : List PlayerDirectionAction} {m m1 : Maze}
    (hwf : m.WellFormed) {choice : PlayerAction} {draws : Nat → Nat}
    (h : m.MovePeople dirs choice draws = some m1) (hinv : m.CountersAgree) :
    m1.CountersAgree := by
  obtain ⟨m2, a, roster, _, hs, hr, hm⟩ := MovePeople_steps h
  obtain ⟨ht, _⟩ := studentStep_flags hwf hs
  have hinv2 : m2.CountersAgree := CountersAgree_of_tas ht hinv
  obtain ⟨_, hc⟩ := moveTAs_counters _ m2 m1 (List.nodup_range _) hm
  intro l k k' t t' hk hk'
  have e1 := hc l k
  have e2 := hc l k'
  rw [hk] at e1
  rw [hk'] at e2
  cases hk0 : m2.taAtIndex l k with
  | none => rw [hk0] at e1; cases e1
  | some t0 =>
    cases hk0' : m2.taAtIndex l k' with
    | none => rw [hk0'] at e2; cases e2
    | some t0' =>
      rw [hk0] at e1
      rw [hk0'] at e2
      simp only [Option.map_some', Option.some.injEq] at e1 e2
      have hagree := hinv2 l k k' t0 t0' hk0 hk0'
      by_cases hl : l = m2.student_.position.level
      · subst hl
        have m1k := List.mem_range.mpr (taAtIndex_lt hr hk0)
        have m1k' := List.mem_range.mpr (taAtIndex_lt hr hk0')
        rw [if_pos ⟨rfl, m1k⟩] at e1
        rw [if_pos ⟨rfl, m1k'⟩] at e2
        rw [e1, e2]
        exact counter_step_congr a hagree
      · rw [if_neg (fun hh => hl hh.1)] at e1
        rw [if_neg (fun hh => hl hh.1)] at e2
        rw [e1, e2]
        exact hagree

/-! ### The TAs and their flags after a placement -/

/-- A roster as `PlaceTAsAtLevel` builds it, on tiles whose `has_ta` flags mark exactly its
members. -/
theorem fresh_roster {m : Maze} {li : Nat} {ptrs : List (Nat × Nat)}
    (hr : m.tas_[li]? = some (ptrs.map (fun p => (⟨⟨li, p.1, p.2⟩, 0⟩ : TA))))
    (hsome : ∀ p ∈ ptrs, (m.deref ⟨li, p.1, p.2⟩).isSome = true)
    (hflag : ∀ (q : MazePosition) (sp : OpenSpace), q.level = li → m.deref q = some sp →
      sp.has_ta = true → (q.row, q.col) ∈ ptrs) :
    (∀ k t, m.taAtIndex li k = some t →
      t.position.level = li ∧ (m.deref t.position).isSome = true ∧ t.appeased_turns = 0) ∧
    ∀ (q : MazePosition) (sp : OpenSpace), q.level = li → m.deref q = some sp →
      sp.has_ta = true → ∃ k t, m.taAtIndex q.level k = some t ∧ t.position = q := by
  constructor
  · intro k t hk
    unfold Maze.taAtIndex at hk
    rw [hr] at hk
    simp only [List.getElem?_map] at hk
    cases hp : ptrs[k]? with
    | none => rw [hp] at hk; cases hk
    | some p =>
      rw [hp] at hk
      simp only [Option.map_some', Option.some.injEq] at hk
      subst hk
      exact ⟨rfl, hsome p (mem_of_getElem?_some hp), rfl⟩
  · intro q sp hq hd hta
    have hmem := hflag q sp hq hd hta
    obtain ⟨k, hklt, hk⟩ := List.getElem_of_mem hmem
    refine ⟨k, ⟨⟨li, q.row, q.col⟩, 0⟩, ?_, ?_⟩
    · unfold Maze.taAtIndex
      rw [hq, hr]
      simp only [List.getElem?_map, List.getElem?_eq_getElem hklt, hk, Option.map_some']
    · obtain ⟨a, b, c⟩ := q
      simp only at hq
      subst hq
      rfl

theorem taAtIndex_of_set {m m1 : Maze} {li : Nat} {r : List TA}
    (ht : m1.tas_ = m.tas_.set li r) (l k : Nat) (hl : l ≠ li) :
    m1.taAtIndex l k = m.taAtIndex l k := by
  unfold Maze.taAtIndex
  rw [ht, List.getElem?_set_ne (fun e => hl e.symm)]

theorem ResetLevel_invariants {m m1 : Maze} (hwf : m.WellFormed) {li : Nat}
    {taSeed skillSeed : List Nat} (h : m.ResetLevel li taSeed skillSeed = .ok m1)
    (h1 : m.TAsOnTiles) (h2 : m.FlagsHaveTAs) (h3 : m.CountersAgree) :
    m1.TAsOnTiles ∧ m1.FlagsHaveTAs ∧ m1.CountersAgree := by
  obtain ⟨si, sj, ptrs, sptrs, _, hlt, _, ⟨_, _, tsub⟩, _, _, _, htas, hlay, hd⟩ :=
    ResetLevel_effect hwf h
  have hr : m1.tas_[li]? = some (ptrs.map (fun p => (⟨⟨li, p.1, p.2⟩, 0⟩ : TA))) := by
    rw [htas, List.getElem?_set_self hlt]
  have hsome : ∀ q, (m1.deref q).isSome = (m.deref q).isSome := by
    intro q
    rw [hd q]
    split
    · simp
    · rfl
  obtain ⟨f1, f2⟩ := @fresh_roster m1 li ptrs hr
    (by
      intro p hp
      rw [hsome]
      obtain ⟨sp, hsp, _⟩ := (mem_freeKeys hwf li p).mp (tsub p hp)
      rw [hsp]; rfl)
    (by
      intro q sp hq hdq hta
      rw [hd q, if_pos hq] at hdq
      cases hx : m.deref q with
      | none => rw [hx] at hdq; cases hdq
      | some s0 =>
        rw [hx] at hdq
        simp only [Option.map_some', Option.some.injEq] at hdq
        rw [← hdq] at hta
        simpa using hta)
  refine ⟨?_, ?_, ?_⟩
  · intro l k t hk
    by_cases hl : l = li
    · subst hl
      exact ⟨(f1 k t hk).1, (f1 k t hk).2.1⟩
    · rw [taAtIndex_of_set htas l k hl] at hk
      obtain ⟨e1, e2⟩ := h1 l k t hk
      exact ⟨e1, by rw [hsome]; exact e2⟩
  · intro q sp hq hta
    by_cases hl : q.level = li
    · exact f2 q sp hl hq hta
    · rw [hd q, if_neg hl] at hq
      obtain ⟨k, t, hk, hp⟩ := h2 q sp hq hta
      exact ⟨k, t, by rw [taAtIndex_of_set htas _ k hl]; exact hk, hp⟩
  · intro l k k' t t' hk hk'
    by_cases hl : l = li
    · subst hl
      rw [(f1 k t hk).2.2, (f1 k' t' hk').2.2]
    · rw [taAtIndex_of_set htas l _ hl] at hk hk'
      exact h3 l k k' t t' hk hk'

theorem construct_invariants {info : MazeInfo} {is : List (List Char)}
    {taSeeds skillSeeds : Nat → List Nat} {m : Maze} (hinfo : info.InRange)
    (h : Maze.construct info is taSeeds skillSeeds = .ok m) :
    m.TAsOnTiles ∧ m.FlagsHaveTAs ∧ m.CountersAgree := by
  have hwf := Maze.construct_wellFormed hinfo h
  obtain ⟨levels, si, sj, ii, ij, tptrs, sptrs, _, _, _, hlen, _, _, htas, hper, hdm⟩ :=
    Maze.construct_effect hinfo h
  have hr : ∀ li, li < info.levels.toNat →
      m.tas_[li]? = some ((tptrs li).map (fun p => (⟨⟨li, p.1, p.2⟩, 0⟩ : TA))) := by
    intro li hli
    rw [htas, List.getElem?_map, List.getElem?_range hli]
    rfl
  have hnone : ∀ li, ¬ li < info.levels.toNat → m.tas_[li]? = none := by
    intro li hli
    rw [htas, List.getElem?_eq_none_iff, List.length_map, List.length_range]
    omega
  have hfresh := fun li (hli : li < info.levels.toNat) =>
    @fresh_roster m li (tptrs li) (hr li hli)
      (by
        intro p hp
        obtain ⟨sp, hsp, _⟩ := (mem_freeKeys hwf li p).mp ((hper li hli).2.1.2.2 p hp)
        rw [hsp]; rfl)
      (by
        intro q sp hq hdq hta
        rw [hdm q] at hdq
        cases hx : (Maze.mk levels ⟨⟨0, 0, 0⟩, 0⟩ [] ⟨⟨0, 0, 0⟩⟩).deref q with
        | none => rw [hx] at hdq; cases hdq
        | some s0 =>
          rw [hx] at hdq
          simp only [Option.map_some', Option.some.injEq] at hdq
          rw [← hdq] at hta
          rw [← hq]
          simpa using hta)
  have hlt : ∀ l k t, m.taAtIndex l k = some t → l < info.levels.toNat := by
    intro l k t hk
    by_contra hc
    unfold Maze.taAtIndex at hk
    rw [hnone l hc] at hk
    cases hk
  refine ⟨?_, ?_, ?_⟩
  · intro l k t hk
    have f := (hfresh l (hlt l k t hk)).1 k t hk
    exact ⟨f.1, f.2.1⟩
  · intro q sp hq hta
    have hql : q.level < info.levels.toNat := by
      rw [← hlen]
      obtain ⟨l, hl, _⟩ := deref_eq_some hq
      exact (List.getElem?_eq_some_iff.mp hl).1
    exact (hfresh q.level hql).2 q sp rfl hq hta
  · intro l k k' t t' hk hk'
    rw [((hfresh l (hlt l k t hk)).1 k t hk).2.2, ((hfresh l (hlt l k t hk)).1 k' t' hk').2.2]

/-! ### Properties kept by a reset of all levels -/

theorem resetAllLoop_keeps (P : Maze → Prop)
    (hreset : ∀ (m m1 : Maze) (li : Nat) (ta sk : List Nat), m.WellFormed → P m →
      m.ResetLevel li ta sk = .ok m1 → P m1)
    (hflag : ∀ (m : Maze) (p : MazePosition) (b : Bool), m.WellFormed → P m →
      P (m.modifySpace p (fun s => { s with has_student := b })))
    (taSeeds skillSeeds : Nat → List Nat) :
    ∀ (lis : List Nat) (m m1 : Maze), m.WellFormed → P m →
      Maze.resetAllLoop taSeeds skillSeeds lis m = .ok m1 → P m1 := by
  intro lis
  induction lis with
  | nil =>
    intro m m1 _ hp h
    simp [Maze.resetAllLoop] at h
    subst h
    exact hp
  | cons li rest ih =>
    intro m m2 hwf hp h
    unfold Maze.resetAllLoop at h
    cases hr : m.ResetLevel li (taSeeds li) (skillSeeds li) with
    | error e => rw [hr] at h; simp at h
    | ok m1 =>
      rw [hr] at h
      simp only at h
      have hwf1 : m1.WellFormed := by
        unfold Maze.WellFormed; rw [Maze.layout_ResetLevel hr]; exact hwf
      cases hl1 : m1.levels_[li]? with
      | none => rw [hl1] at h; simp at h
      | some l1 =>
        rw [hl1] at h
        simp only at h
        cases hs1 : l1.start_location_ with
        | none => rw [hs1] at h; simp at h
        | some p =>
          obtain ⟨si, sj⟩ := p
          rw [hs1] at h
          simp only at h
          exact ih _ m2
            (wellFormed_modifySpace hwf1 _ (fun s => { s with has_student := false })
              (fun s => rfl))
            (hflag m1 ⟨li, si, sj⟩ false hwf1 (hreset m m1 li _ _ hwf hp hr)) h

theorem ResetAllLevels_keeps (P : Maze → Prop)
    (hreset : ∀ (m m1 : Maze) (li : Nat) (ta sk : List Nat), m.WellFormed → P m →
      m.ResetLevel li ta sk = .ok m1 → P m1)
    (hflag : ∀ (m : Maze) (p : MazePosition) (b : Bool), m.WellFormed → P m →
      P (m.modifySpace p (fun s => { s with has_student := b })))
    (hpos : ∀ (m : Maze) (pos : MazePosition), P m →
      P { m with student_ := { m.student_ with position := pos } })
    {m m1 : Maze} (hwf : m.WellFormed) {taSeeds skillSeeds : Nat → List Nat}
    (h : m.ResetAllLevels taSeeds skillSeeds = .ok m1) (hp : P m) : P m1 := by
  unfold Maze.ResetAllLevels at h
  cases hr : Maze.resetAllLoop taSeeds skillSeeds (List.range m.levels_.length) m with
  | error e => rw [hr] at h; simp at h
  | ok m2 =>
    rw [hr] at h
    simp only at h
    have hwf2 : m2.WellFormed := by
      unfold Maze.WellFormed; rw [Maze.layout_resetAllLoop _ _ _ hr]; exact hwf
    have hp2 := resetAllLoop_keeps P hreset hflag taSeeds skillSeeds _ m m2 hwf hp hr
    cases hl2 : m2.levels_[0]? with
    | none => rw [hl2] at h; simp at h
    | some first2 =>
      rw [hl2] at h
      simp only at h
      cases hs : first2.start_location_ with
      | none => rw [hs] at h; simp at h
      | some p =>
        obtain ⟨si, sj⟩ := p
        rw [hs] at h
        simp only at h
        cases hd : (m2.modifySpace ⟨0, si, sj⟩ (fun s => { s with has_student := true })).deref
            ⟨0, si, sj⟩ with
        | none => rw [hd] at h; simp at h
        | some start_loc =>
          rw [hd] at h
          simp only [Except.ok.injEq] at h
          subst h
          exact hpos _ _ (hflag m2 ⟨0, si, sj⟩ true hwf2 hp2)

/-! ### The TAs and their flags in every reachable state -/

theorem invariants_modify_student (m : Maze) (p : MazePosition) (b : Bool)
    (h : m.TAsOnTiles ∧ m.FlagsHaveTAs ∧ m.CountersAgree) :
    (m.modifySpace p (fun s => { s with has_student := b })).TAsOnTiles ∧
    (m.modifySpace p (fun s => { s with has_student := b })).FlagsHaveTAs ∧
    (m.modifySpace p (fun s => { s with has_student := b })).CountersAgree := by
  have hd := deref_modifySpace_proj (fun s => s.has_ta) m p
    (fun s => { s with has_student := b }) (fun s => rfl)
  have ht : (m.modifySpace p (fun s => { s with has_student := b })).tas_ = m.tas_ := rfl
  exact ⟨TAsOnTiles_of_proj ht (isSome_of_proj hd) h.1, FlagsHaveTAs_of_proj ht hd h.2.1,
    CountersAgree_of_tas ht h.2.2⟩

theorem Reachable.taInvariants {dirs : List PlayerDirectionAction} {m : Maze}
    (h : Reachable dirs m) : m.TAsOnTiles ∧ m.FlagsHaveTAs ∧ m.CountersAgree := by
  induction h with
  | construct info is taSeeds skillSeeds m hinfo h => exact construct_invariants hinfo h
  | turn m m1 choice draws hm h ih =>
    have hwf := hm.wellFormed
    obtain ⟨a, b⟩ := MovePeople_invariants hwf h ih.1 ih.2.1
    exact ⟨a, b, MovePeople_CountersAgree hwf h ih.2.2⟩
  | handle m m1 res hm h ih =>
    obtain ⟨_, ht, _, hd⟩ := HandleCurrentPosition_frame (fun s => s.has_ta)
      (fun s b => rfl) h
    exact ⟨TAsOnTiles_of_proj ht (isSome_of_proj hd) ih.1, FlagsHaveTAs_of_proj ht hd ih.2.1,
      CountersAgree_of_tas ht ih.2.2⟩
  | resetCurrent m m1 taSeed skillSeed hm h ih =>
    exact ResetLevel_invariants hm.wellFormed h ih.1 ih.2.1 ih.2.2
  | resetAll m m1 taSeeds skillSeeds hm h ih =>
    exact ResetAllLevels_keeps
      (fun m => m.TAsOnTiles ∧ m.FlagsHaveTAs ∧ m.CountersAgree)
      (fun m m1 li ta sk hwf hp hr => ResetLevel_invariants hwf hr hp.1 hp.2.1 hp.2.2)
      (fun m p b _ hp => invariants_modify_student m p b hp)
      (fun m pos hp => hp) hm.wellFormed h ih

/-! ### The lookups of a turn and of an event detection succeed -/

theorem TaAt_of_flag {m : Maze} (hwf : m.WellFormed) (hf : m.FlagsHaveTAs)
    {q : MazePosition} {sp : OpenSpace} (hd : m.deref q = some sp) (hta : sp.has_ta = true) :
    ∃ ta, m.TaAt sp.pos = some ta ∧ ta.position = q := by
  have hpos := hwf.deref_pos hd
  obtain ⟨k, t, hk, hp⟩ := hf q sp hd hta
  unfold Maze.TaAt
  rw [hpos, hwf.SpaceAt_of_deref hd]
  simp only [Option.some_bind, hta, if_true, hpos]
  unfold Maze.taAtIndex at hk
  cases hr : m.tas_[q.level]? with
  | none => rw [hr] at hk; cases hk
  | some roster =>
    rw [hr] at hk
    simp only
    have hmem : t ∈ roster := mem_of_getElem?_some hk
    cases hfind : roster.find? (fun ta => decide (ta.position = q)) with
    | none =>
      have := List.find?_eq_none.mp hfind t hmem
      simp [hp] at this
    | some ta =>
      have := List.find?_some hfind
      exact ⟨ta, rfl, by simpa using this⟩

theorem scanAdjacent_total {m : Maze} (hwf : m.WellFormed) (hf : m.FlagsHaveTAs) :
    ∀ ptrs : List MazePosition, (∀ p ∈ ptrs, (m.deref p).isSome = true) →
      ∃ r, m.scanAdjacent ptrs = some r := by
  intro ptrs
  induction ptrs with
  | nil => intro _; exact ⟨none, rfl⟩
  | cons ptr rest ih =>
    intro hall
    obtain ⟨sp, hsp⟩ := Option.isSome_iff_exists.mp (hall ptr (List.mem_cons_self _ _))
    obtain ⟨r, hr⟩ := ih (fun p hp => hall p (List.mem_cons_of_mem _ hp))
    unfold Maze.scanAdjacent
    rw [hsp]
    simp only
    by_cases hta : sp.has_ta = true
    · obtain ⟨ta, hta1, _⟩ := TaAt_of_flag hwf hf hsp hta
      rw [if_pos hta, hta1]
      simp only
      split
      · exact ⟨_, rfl⟩
      · exact ⟨r, hr⟩
    · rw [if_neg hta]
      split
      · split
        · exact ⟨_, rfl⟩
        · exact ⟨_, rfl⟩
      · exact ⟨r, hr⟩

theorem HandleOccupiedSpace_total {m : Maze} (hwf : m.WellFormed) (hf : m.FlagsHaveTAs)
    {q : MazePosition} (hq : (m.deref q).isSome = true) :
    ∃ res m1, m.HandleOccupiedSpace q = some (res, m1) := by
  obtain ⟨sp, hsp⟩ := Option.isSome_iff_exists.mp hq
  unfold Maze.HandleOccupiedSpace
  rw [hsp]
  simp only
  by_cases hta : sp.has_ta = true
  · obtain ⟨ta, hta1, _⟩ := TaAt_of_flag hwf hf hsp hta
    rw [if_pos hta, hta1]
    simp only
    split
    · exact ⟨_, _, rfl⟩
    · exact ⟨_, _, rfl⟩
  · rw [if_neg hta]
    split
    · exact ⟨_, _, rfl⟩
    · exact ⟨_, _, rfl⟩

theorem HandleOccupiedSpace_flags {m m1 : Maze} {ptr : MazePosition} {res : MoveResult}
    (h : m.HandleOccupiedSpace ptr = some (res, m1)) :
    m1.tas_ = m.tas_ ∧ m1.student_.position = m.student_.position ∧
    ∀ q, (m1.deref q).map (fun s => s.has_ta) = (m.deref q).map (fun s => s.has_ta) := by
  obtain ⟨sp, _, hc⟩ := HandleOccupiedSpace_cases h
  rcases hc with ⟨_, e, _⟩ | ⟨_, e, _⟩ | ⟨_, e, _⟩ | ⟨_, _, _, e⟩
  · subst e; exact ⟨rfl, rfl, fun _ => rfl⟩
  · subst e; exact ⟨rfl, rfl, fun _ => rfl⟩
  · subst e; exact ⟨rfl, rfl, fun _ => rfl⟩
  · subst e
    refine ⟨rfl, rfl, fun q => ?_⟩
    exact deref_modifySpace_proj (fun s => s.has_ta) _ ptr
      (fun s => { s with has_skill := false }) (fun s => rfl) q

theorem HandleCurrentPosition_total (dirs : List PlayerDirectionAction) {m : Maze}
    (hwf : m.WellFormed) (hf : m.FlagsHaveTAs)
    (hst : (m.deref m.student_.position).isSome = true) :
    ∃ r m1, m.HandleCurrentPosition dirs = some (r, m1) := by
  obtain ⟨sp0, hsp0⟩ := Option.isSome_iff_exists.mp hst
  obtain ⟨res, m1, hocc⟩ := HandleOccupiedSpace_total hwf hf hst
  obtain ⟨ht, hpos, hd⟩ := HandleOccupiedSpace_flags hocc
  have hwf1 : m1.WellFormed := by
    unfold Maze.WellFormed; rw [Maze.layout_HandleOccupiedSpace hocc]; exact hwf
  have hf1 : m1.FlagsHaveTAs := FlagsHaveTAs_of_proj ht hd hf
  unfold Maze.HandleCurrentPosition
  rw [hwf.SpaceAt_of_deref hsp0, hocc]
  simp only
  by_cases hres : res = MoveResult.CaughtByTA
  · rw [if_pos hres]; exact ⟨_, _, rfl⟩
  · rw [if_neg hres]
    have hst1 : (m1.deref m1.student_.position).isSome = true := by
      rw [hpos, isSome_of_proj hd]; exact hst
    obtain ⟨sp1, hsp1⟩ := Option.isSome_iff_exists.mp hst1
    obtain ⟨ptrs, hptrs⟩ := adjacentLoop_total hwf1 sp1.pos dirs
    have hadj : m1.SpacesAdjacentToStudent dirs = some ptrs := by
      unfold Maze.SpacesAdjacentToStudent Maze.SpacesAdjacentTo
      rw [hwf1.SpaceAt_of_deref hsp1]
      exact hptrs
    rw [hadj]
    simp only
    obtain ⟨r, hr⟩ := scanAdjacent_total hwf1 hf1 ptrs (by
      intro p hp
      obtain ⟨_, _, _, hs⟩ := adjacentLoop_mem dirs ptrs hptrs p hp
      rw [← SpaceAt_isSome_eq_deref hwf1]; exact hs)
    rw [hr]
    cases r with
    | none => exact ⟨_, _, rfl⟩
    | some r => exact ⟨_, _, rfl⟩

theorem studentStep_total {dirs : List PlayerDirectionAction} {m : Maze} (hwf : m.WellFormed)
    {choice : PlayerAction} (hc : choice ∈ m.ValidActionsAt dirs m.student_.position) :
    ∃ m1 a, m.studentStep choice = some (m1, a) := by
  unfold Maze.ValidActionsAt at hc
  simp only [List.mem_append] at hc
  rcases hc with (hc | hc) | hc
  · obtain ⟨d, _, hcan, e⟩ := ValidMovementsAt_directional dirs m _ choice hc
    obtain ⟨_, _, _, hmv⟩ := MovePerson_directional hwf PersonRef.student
      m.student_.position d rfl hcan
    subst e
    cases d <;> simp only [Maze.studentStep, PlayerDirectionToAction] <;>
      simp only [PlayerDirectionToAction] at hmv <;> rw [hmv] <;> exact ⟨_, _, rfl⟩
  · cases hs : m.SpaceAt m.student_.position with
    | none => rw [hs] at hc; simp at hc
    | some sp =>
      rw [hs] at hc
      simp only at hc
      by_cases hlad : sp.has_ladder = true
      · rw [if_pos hlad] at hc
        have e0 : choice = PlayerAction.ClimbUp := by simpa using hc
        subst e0
        obtain ⟨l, hl0, _, _, ht0⟩ := SpaceAt_eq_some.mp hs
        have hlt := hwf.ladder hl0 ht0 hlad
        have hcount := hwf.count
        have e : uadd m.student_.position.level 1 = m.student_.position.level + 1 := by
          apply uadd_one_of_lt
          unfold INT_RANGE at hcount
          unfold UINT
          omega
        obtain ⟨next, hnext⟩ : ∃ next, m.levels_[m.student_.position.level + 1]? = some next :=
          ⟨m.levels_[m.student_.position.level + 1], List.getElem?_eq_getElem hlt⟩
        obtain ⟨i, j, st, hst1, hst2, hst3, hst4⟩ := hwf.start hnext
        have hd0 : m.deref ⟨m.student_.position.level + 1, i, j⟩ = some st :=
          deref_of_tile hnext hst2
        have hne : (⟨m.student_.position.level + 1, i, j⟩ : MazePosition)
            ≠ m.student_.position := by
          intro h
          have := congrArg MazePosition.level h
          simp at this
        have hlev : (m.modifySpace m.student_.position
            (fun s => { s with has_student := false })).levels_[m.student_.position.level + 1]?
              = some next := by
          rw [levels_modifySpace, hnext]
          simp
        have hd2 : ((m.modifySpace m.student_.position
            (fun s => { s with has_student := false })).modifySpace
              ⟨m.student_.position.level + 1, i, j⟩
              (fun s => { s with has_student := true })).deref
              ⟨m.student_.position.level + 1, i, j⟩ = some { st with has_student := true } := by
          rw [deref_modifySpace, deref_modifySpace]
          simp [hne, hd0]
        unfold Maze.studentStep
        simp only [hs, e, hlev, hst1, hd2]
        exact ⟨_, _, rfl⟩
      · rw [if_neg hlad] at hc
        cases hc
  · split at hc
    · have e0 : choice = PlayerAction.DemonstrateSkill := by simpa using hc
      subst e0
      exact ⟨_, _, rfl⟩
    · cases hc

theorem moveTA_total {dirs : List PlayerDirectionAction} (hall : ∀ d, d ∈ dirs) {m : Maze}
    (hwf : m.WellFormed) (hon : m.TAsOnTiles) (hn : m.Neighbourly) {level idx : Nat}
    (hi : (m.taAtIndex level idx).isSome = true) (draw : Nat) (a : Bool) :
    ∃ m1, m.moveTA dirs level idx draw a = some m1 := by
  obtain ⟨ta, hta⟩ := Option.isSome_iff_exists.mp hi
  obtain ⟨_, hsome⟩ := hon level idx ta hta
  obtain ⟨d0, hd0⟩ := Neighbourly.canMove hwf hn hsome
  have hmem0 : d0 ∈ (m.ValidMovementsAt dirs ta.position).filterMap PlayerActionToDirection :=
    List.mem_filterMap.mpr ⟨PlayerDirectionToAction d0,
      (mem_ValidMovementsAt dirs m ta.position d0).mpr ⟨hall d0, hd0⟩,
      PlayerActionToDirection_of d0⟩
  have hlen : 0 < ((m.ValidMovementsAt dirs ta.position).filterMap
      PlayerActionToDirection).length := List.length_pos_of_mem hmem0
  have hlt := Nat.mod_lt draw hlen
  have hg : (ta.GetMove (m.ValidMovementsAt dirs ta.position) draw).2
      = some (PlayerDirectionToAction
          (((m.ValidMovementsAt dirs ta.position).filterMap PlayerActionToDirection)[draw %
            ((m.ValidMovementsAt dirs ta.position).filterMap
              PlayerActionToDirection).length])) := by
    simp only [TA.GetMove, List.getElem?_eq_getElem hlt, Option.map_some']
  obtain ⟨d, hd1, hd2⟩ := GetMove_some hg
  obtain ⟨_, hcan⟩ := (mem_ValidMovementsAt dirs m ta.position d).mp hd2
  have hwf1 : (m.modifyTA level idx
      (fun t => (t.GetMove (m.ValidMovementsAt dirs ta.position) draw).1)).WellFormed := by
    unfold Maze.WellFormed
    rw [Maze.layout_modifyTA]
    exact hwf
  have hp1 : (m.modifyTA level idx
      (fun t => (t.GetMove (m.ValidMovementsAt dirs ta.position) draw).1)).personPosition
      (PersonRef.ta level idx) = some ta.position := by
    simp only [Maze.personPosition]
    rw [taAtIndex_modifyTA, hta]
    simp only [Option.map_some', GetMove_fst, DecrementAppeasement_position]
  obtain ⟨_, _, _, hmv⟩ := MovePerson_directional hwf1 (PersonRef.ta level idx)
    ta.position d hp1 hcan
  unfold Maze.moveTA
  rw [hta]
  simp only
  rw [hg]
  simp only
  rw [hd1, hmv]
  exact ⟨_, rfl⟩

theorem moveTA_isSome_keep {dirs : List PlayerDirectionAction} {m m1 : Maze}
    (hwf : m.WellFormed) {level idx draw : Nat} {a : Bool}
    (h : m.moveTA dirs level idx draw a = some m1) :
    (∀ l k, (m1.taAtIndex l k).isSome = (m.taAtIndex l k).isSome) ∧
    ∀ q, (m1.deref q).isSome = (m.deref q).isSome := by
  obtain ⟨ta, d, _, _, _, _, _, htas, hder⟩ := moveTA_effect hwf h
  refine ⟨fun l k => ?_, fun q => ?_⟩
  · rw [htas l k]; simp
  · rw [hder q]
    split
    · simp
    · split
      · simp
      · rfl

theorem moveTAs_total {dirs : List PlayerDirectionAction} (hall : ∀ d, d ∈ dirs)
    {level : Nat} (draws : Nat → Nat) (a : Bool) :
    ∀ (idxs : List Nat) (m : Maze), m.WellFormed → m.TAsOnTiles → m.Neighbourly →
      (∀ idx ∈ idxs, (m.taAtIndex level idx).isSome = true) →
      ∃ m1, Maze.moveTAs dirs level draws a idxs m = some m1 := by
  intro idxs
  induction idxs with
  | nil => intro m _ _ _ _; exact ⟨m, rfl⟩
  | cons idx rest ih =>
    intro m hwf hon hn hi
    obtain ⟨m2, hm2⟩ := moveTA_total hall hwf hon hn (hi idx (List.mem_cons_self _ _))
      (draws idx) a
    have hwf2 : m2.WellFormed := by
      unfold Maze.WellFormed
      rw [Maze.layout_moveTA hm2]
      exact hwf
    obtain ⟨k1, k2⟩ := moveTA_isSome_keep hwf hm2
    obtain ⟨m1, hm1⟩ := ih m2 hwf2 (moveTA_TAsOnTiles hwf hm2 hon)
      (Neighbourly_congr hwf hwf2 k2 hn)
      (fun i hi1 => by rw [k1]; exact hi i (List.mem_cons_of_mem _ hi1))
    refine ⟨m1, ?_⟩
    simp only [Maze.moveTAs, hm2]
    exact hm1

theorem MovePeople_total {dirs : List PlayerDirectionAction} (hall : ∀ d, d ∈ dirs)
    {m : Maze} (hwf : m.WellFormed) (hon : m.TAsOnTiles) (hro : m.RostersOk)
    (hst : (m.deref m.student_.position).isSome = true)
    (hn : m.Neighbourly) {choice : PlayerAction}
    (hc : choice ∈ m.ValidActionsAt dirs m.student_.position) (draws : Nat → Nat) :
    ∃ m1, m.MovePeople dirs choice draws = some m1 := by
  obtain ⟨m2, a, hs⟩ := studentStep_total hwf hc
  obtain ⟨ht, hd⟩ := studentStep_flags hwf hs
  have hlay := Maze.layout_studentStep hs
  have hwf2 : m2.WellFormed := by
    unfold Maze.WellFormed
    rw [hlay]
    exact hwf
  have hst2 : (m2.deref m2.student_.position).isSome = true := by
    obtain ⟨_, _, hcase⟩ := studentStep_effect hwf hs
    rcases hcase with ⟨e1, _⟩ | ⟨pos2, e1, e2, _⟩
    · rw [e1, isSome_of_proj hd]; exact hst
    · rw [e2, isSome_of_proj hd]; exact e1
  obtain ⟨sp2, hsp2⟩ := Option.isSome_iff_exists.mp hst2
  obtain ⟨l2, hl2, _⟩ := deref_eq_some hsp2
  have hlt : m2.student_.position.level < m2.tas_.length := by
    rw [ht, hro.1, ← levels_length_of_layout hlay]
    exact (List.getElem?_eq_some_iff.mp hl2).1
  have hr : m2.tas_[m2.student_.position.level]?
      = some (m2.tas_[m2.student_.position.level]) := List.getElem?_eq_getElem hlt
  obtain ⟨m1, hm1⟩ := moveTAs_total hall draws a
    (List.range (m2.tas_[m2.student_.position.level]).length) m2 hwf2
    (TAsOnTiles_of_proj ht (isSome_of_proj hd) hon)
    (Neighbourly_congr hwf hwf2 (isSome_of_proj hd) hn)
    (by
      intro idx hidx
      unfold Maze.taAtIndex
      rw [hr]
      simp only
      rw [List.getElem?_eq_getElem (List.mem_range.mp hidx)]
      rfl)
  refine ⟨m1, ?_⟩
  unfold Maze.MovePeople IntrepidStudent.GetMove
  rw [if_pos hc]
  simp only [hs, hr]
  exact hm1

/-! ### The claims about the lookups in play -/

theorem neighbourlyCheck_sound {m : Maze} (h : m.neighbourlyCheck = true) : m.Neighbourly := by
  intro q hq
  obtain ⟨sp, hs⟩ := Option.isSome_iff_exists.mp hq
  obtain ⟨l, hl, hr, hc, _⟩ := SpaceAt_eq_some.mp hs
  have hlt : q.level < m.levels_.length := (List.getElem?_eq_some_iff.mp hl).1
  unfold Maze.neighbourlyCheck at h
  rw [List.all_eq_true] at h
  have h1 := h q.level (List.mem_range.mpr hlt)
  rw [hl] at h1
  simp only at h1
  rw [List.all_eq_true] at h1
  have h2 := h1 q.row (List.mem_range.mpr hr)
  rw [List.all_eq_true] at h2
  have h3 := h2 q.col (List.mem_range.mpr hc)
  have hq' : (⟨q.level, q.row, q.col⟩ : MazePosition) = q := by cases q; rfl
  rw [hq', hq] at h3
  simp only [Bool.not_true, Bool.false_or, List.any_eq_true] at h3
  obtain ⟨d, _, hd⟩ := h3
  exact ⟨d, hd⟩

/-- C31: in every reachable state (a successfully constructed maze, then turns with an
action of `ValidActionsAt` and TA moves of `ValidMovementsAt`, event detections and resets)
in which every occupiable tile has an occupiable neighbour, the enumeration of the
directions holding each of them: `SpaceAt`, the lookup with the bounds check, finds an open
space at the student's position and at the position of every TA, and a TA of the roster of
level `l` stands on level `l`.  So no lookup of a position misses: `MovePeople` returns a
state for every action that `ValidActionsAt` offers and every draw of the TAs, `MovePerson`
returns for every person and every move that `ValidMovementsAt` offers at its position, and
in `HandleCurrentPosition` the student's tile is found and `SpacesAdjacentToStudent` returns
tiles that `SpaceAt` finds.  The neighbour property is one of the layout, which no operation
changes, so it is stated for the state itself. -/
theorem C31_positions_are_tiles (dirs : List PlayerDirectionAction) (m : Maze)
    (h : Reachable dirs m) (hn : m.Neighbourly)
    (hall : ∀ d : PlayerDirectionAction, d ∈ dirs) :
    (∃ sp, m.SpaceAt m.student_.position = some sp) ∧
    (∀ l k t, m.taAtIndex l k = some t →
      t.position.level = l ∧ ∃ sp, m.SpaceAt t.position = some sp) ∧
    (∀ choice ∈ m.ValidActionsAt dirs m.student_.position, ∀ draws : Nat → Nat,
      ∃ m1, m.MovePeople dirs choice draws = some m1) ∧
    (∀ person pos d, m.personPosition person = some pos →
      PlayerDirectionToAction d ∈ m.ValidMovementsAt dirs pos →
      ∃ m1, m.MovePerson person (PlayerDirectionToAction d) = some (true, m1)) ∧
    ∃ ptrs, m.SpacesAdjacentToStudent dirs = some ptrs ∧
      ∀ ptr ∈ ptrs, ∃ sp, m.SpaceAt ptr = some sp := by
  have hwf := h.wellFormed
  obtain ⟨hon, _, _⟩ := h.taInvariants
  obtain ⟨⟨sp0, hsp0⟩, _⟩ := h.studentMarked
  have hs0 := hwf.SpaceAt_of_deref hsp0
  refine ⟨⟨sp0, hs0⟩, ?_, ?_, ?_, ?_⟩
  · intro l k t hk
    obtain ⟨e1, e2⟩ := hon l k t hk
    obtain ⟨sp, hsp⟩ := Option.isSome_iff_exists.mp e2
    exact ⟨e1, sp, hwf.SpaceAt_of_deref hsp⟩
  · intro choice hc draws
    exact MovePeople_total hall hwf hon h.rostersOk (by rw [hsp0]; rfl) hn hc draws
  · intro person pos d hp hd
    obtain ⟨_, hcan⟩ := (mem_ValidMovementsAt dirs m pos d).mp hd
    exact ⟨_, (MovePerson_directional hwf person pos d hp hcan).2.2.2⟩
  · obtain ⟨ptrs, hptrs⟩ := adjacentLoop_total hwf sp0.pos dirs
    refine ⟨ptrs, ?_, ?_⟩
    · unfold Maze.SpacesAdjacentToStudent Maze.SpacesAdjacentTo
      rw [hs0]
      exact hptrs
    · intro ptr hp
      obtain ⟨_, _, _, hs⟩ := adjacentLoop_mem dirs ptrs hptrs ptr hp
      exact Option.isSome_iff_exists.mp hs

/-- Witness of C31: the state of the session `towerLadder`, a maze of two levels without
walls, after one turn. -/
theorem C31_positions_are_tiles_witness :
    ∃ m : Maze, towerLadder = some m ∧
      (∃ sp, m.SpaceAt m.student_.position = some sp) ∧
      (∀ l k t, m.taAtIndex l k = some t →
        t.position.level = l ∧ ∃ sp, m.SpaceAt t.position = some sp) ∧
      (∀ choice ∈ m.ValidActionsAt specOrder m.student_.position, ∀ draws : Nat → Nat,
        ∃ m1, m.MovePeople specOrder choice draws = some m1) ∧
      (∀ person pos d, m.personPosition person = some pos →
        PlayerDirectionToAction d ∈ m.ValidMovementsAt specOrder pos →
        ∃ m1, m.MovePerson person (PlayerDirectionToAction d) = some (true, m1)) ∧
      ∃ ptrs, m.SpacesAdjacentToStudent specOrder = some ptrs ∧
        ∀ ptr ∈ ptrs, ∃ sp, m.SpaceAt ptr = some sp := by
  have h1 : towerLadder.isSome = true := by decide
  obtain ⟨m, hm⟩ := Option.isSome_iff_exists.mp h1
  have hn : m.neighbourlyCheck = true :=
    @fact_of_session _ m hm (fun m => m.neighbourlyCheck) (by decide)
  exact ⟨m, hm, C31_positions_are_tiles specOrder m (play_reachable towerInfo_inRange hm)
    (neighbourlyCheck_sound hn) specOrder_complete⟩

/-- C32: in every reachable state every open space with `has_ta` set is the position of a
TA of the roster of its level, `TaAt` finds a TA standing on it, and so `HandleOccupiedSpace`
returns on every open space and `HandleCurrentPosition` returns a result: neither fails with
`no TA at an expected position`. -/
theorem C32_flagged_tile_has_TA (dirs : List PlayerDirectionAction) (m : Maze)
    (h : Reachable dirs m) :
    (∀ q sp, m.SpaceAt q = some sp → sp.has_ta = true →
      (∃ roster t, m.tas_[q.level]? = some roster ∧ t ∈ roster ∧ t.position = q) ∧
      ∃ ta, m.TaAt q = some ta ∧ ta.position = q) ∧
    (∀ q, (m.SpaceAt q).isSome = true → ∃ res m1, m.HandleOccupiedSpace q = some (res, m1)) ∧
    ∃ r m1, m.HandleCurrentPosition dirs = some (r, m1) := by
  have hwf := h.wellFormed
  obtain ⟨_, hf, _⟩ := h.taInvariants
  obtain ⟨⟨sp0, hsp0⟩, _⟩ := h.studentMarked
  refine ⟨?_, ?_, ?_⟩
  · intro q sp hs hta
    have hd := SpaceAt_deref hs
    obtain ⟨k, t, hk, hp⟩ := hf q sp hd hta
    obtain ⟨ta, h1, h2⟩ := TaAt_of_flag hwf hf hd hta
    rw [hwf.deref_pos hd] at h1
    refine ⟨?_, ta, h1, h2⟩
    unfold Maze.taAtIndex at hk
    cases hr : m.tas_[q.level]? with
    | none => rw [hr] at hk; cases hk
    | some roster =>
      rw [hr] at hk
      exact ⟨roster, t, rfl, mem_of_getElem?_some hk, hp⟩
  · intro q hq
    rw [SpaceAt_isSome_eq_deref hwf] at hq
    exact HandleOccupiedSpace_total hwf hf hq
  · exact HandleCurrentPosition_total dirs hwf hf (by rw [hsp0]; rfl)

/-- Witness of C32: the state of the session `hallCrossing`, after a turn in which both TAs
moved. -/
theorem C32_flagged_tile_has_TA_witness :
    ∃ m : Maze, hallCrossing = some m ∧
      (∀ q sp, m.SpaceAt q = some sp → sp.has_ta = true →
        (∃ roster t, m.tas_[q.level]? = some roster ∧ t ∈ roster ∧ t.position = q) ∧
        ∃ ta, m.TaAt q = some ta ∧ ta.position = q) ∧
      (∀ q, (m.SpaceAt q).isSome = true →
        ∃ res m1, m.HandleOccupiedSpace q = some (res, m1)) ∧
      ∃ r m1, m.HandleCurrentPosition specOrder = some (r, m1) := by
  have h1 : hallCrossing.isSome = true := by decide
  obtain ⟨m, hm⟩ := Option.isSome_iff_exists.mp h1
  exact ⟨m, hm, C32_flagged_tile_has_TA specOrder m (play_reachable hallInfo_inRange hm)⟩

/-! ### A tile without a neighbour -/

theorem ValidMovementsAt_nil_of_alone (dirs : List PlayerDirectionAction) (m : Maze)
    (pos : MazePosition) (h : ∀ d, m.CanMoveInDirection pos d = false) :
    m.ValidMovementsAt dirs pos = [] := by
  unfold Maze.ValidMovementsAt
  rw [List.map_eq_nil_iff, List.filter_eq_nil_iff]
  intro d _
  rw [h d]
  simp

theorem cellInfo_inRange : cellInfo.InRange := by
  unfold MazeInfo.InRange cellInfo INT_RANGE
  decide

/-- C33 fails: the maze file with header `1 1 7` and the row `@ # # %` is constructed
without an error, although its blank tile (0,3) has a wall on either side.  With the
identity as the outcome of the shuffles the second TA is placed on that tile; there
`ValidMovementsAt` is empty for every enumeration of the directions, `TA::GetMove` has no
move to draw from, and the first turn of the game, the student stepping right, does not
complete. -/
theorem C33_isolated_tile_accepted :
    ∃ m : Maze, cellMaze = .ok m ∧
      (m.SpaceAt ⟨0, 0, 3⟩).isSome = true ∧
      (∀ d : PlayerDirectionAction,
        (m.SpaceAt ((⟨0, 0, 3⟩ : MazePosition).Translate d 1)).isSome = false) ∧
      ¬ m.Neighbourly ∧
      m.taAtIndex 0 1 = some ⟨⟨0, 0, 3⟩, 0⟩ ∧
      (∀ dirs, m.ValidMovementsAt dirs ⟨0, 0, 3⟩ = []) ∧
      (∀ dirs draw, ((⟨⟨0, 0, 3⟩, 0⟩ : TA).GetMove (m.ValidMovementsAt dirs ⟨0, 0, 3⟩)
        draw).2 = none) ∧
      PlayerAction.MoveRight ∈ m.ValidActionsAt specOrder m.student_.position ∧
      m.MovePeople specOrder PlayerAction.MoveRight (fun _ => 0) = none := by
  have hc : cellMaze.toOption.isSome = true := by decide
  cases hm : cellMaze with
  | error e => rw [hm] at hc; cases hc
  | ok m =>
    have ho : cellMaze.toOption = some m := by rw [hm]; rfl
    have f1 : (m.SpaceAt ⟨0, 0, 3⟩).isSome = true :=
      @fact_of_session _ m ho (fun m => (m.SpaceAt ⟨0, 0, 3⟩).isSome) (by decide)
    have f2 : ∀ d : PlayerDirectionAction,
        (m.SpaceAt ((⟨0, 0, 3⟩ : MazePosition).Translate d 1)).isSome = false := by
      intro d
      have := @fact_of_session _ m ho (fun m => specOrder.all (fun d =>
        !(m.SpaceAt ((⟨0, 0, 3⟩ : MazePosition).Translate d 1)).isSome)) (by decide)
      have hd := List.all_eq_true.mp this d (specOrder_complete d)
      simpa using hd
    have f3 : m.taAtIndex 0 1 = some ⟨⟨0, 0, 3⟩, 0⟩ :=
      of_decide_eq_true (@fact_of_session _ m ho
        (fun m => decide (m.taAtIndex 0 1 = some ⟨⟨0, 0, 3⟩, 0⟩)) (by decide))
    have f4 : PlayerAction.MoveRight ∈ m.ValidActionsAt specOrder m.student_.position ∧
        m.MovePeople specOrder PlayerAction.MoveRight (fun _ => 0) = none :=
      of_decide_eq_true (@fact_of_session _ m ho
        (fun m => decide
          (PlayerAction.MoveRight ∈ m.ValidActionsAt specOrder m.student_.position ∧
            m.MovePeople specOrder PlayerAction.MoveRight (fun _ => 0) = none)) (by decide))
    have hwf : m.WellFormed := Maze.construct_wellFormed cellInfo_inRange hm
    have f5 : ∀ d, m.CanMoveInDirection ⟨0, 0, 3⟩ d = false := by
      intro d
      rw [CanMoveInDirection_eq_and hwf, ← SpaceAt_isSome_eq_deref hwf,
        ← SpaceAt_isSome_eq_deref hwf, f2 d]
      simp
    have f6 : ∀ dirs, m.ValidMovementsAt dirs ⟨0, 0, 3⟩ = [] :=
      fun dirs => ValidMovementsAt_nil_of_alone dirs m _ f5
    refine ⟨m, rfl, f1, f2, ?_, f3, f6, ?_, f4.1, f4.2⟩
    · intro hn
      obtain ⟨d, hd⟩ := hn ⟨0, 0, 3⟩ f1
      rw [f2 d] at hd
      cases hd
    · intro dirs draw
      rw [f6 dirs]
      rfl

/-- C33, amended: in every reachable state of a maze in which every occupiable tile has an
occupiable neighbour (a property of the maze file that the constructor does not check), the
enumeration of the directions holding each of them, `ValidMovementsAt` is non-empty at
every occupiable tile, so at every position a TA is placed on or reaches, and `TA::GetMove`
called with the moves at the position of a TA returns one of them, a move that
`CanMoveInDirection` allows, whatever the draw. -/
theorem C33_moves_exist_with_neighbours (dirs : List PlayerDirectionAction) (m : Maze)
    (h : Reachable dirs m) (hn : m.Neighbourly)
    (hall : ∀ d : PlayerDirectionAction, d ∈ dirs) :
    (∀ q, (m.SpaceAt q).isSome = true → m.ValidMovementsAt dirs q ≠ []) ∧
    ∀ l k t, m.taAtIndex l k = some t →
      (m.SpaceAt t.position).isSome = true ∧ m.ValidMovementsAt dirs t.position ≠ [] ∧
      ∀ draw, ∃ d, (t.GetMove (m.ValidMovementsAt dirs t.position) draw).2
          = some (PlayerDirectionToAction d) ∧
        PlayerDirectionToAction d ∈ m.ValidMovementsAt dirs t.position ∧
        m.CanMoveInDirection t.position d = true := by
  have hwf := h.wellFormed
  obtain ⟨hon, _, _⟩ := h.taInvariants
  have key : ∀ q, (m.SpaceAt q).isSome = true →
      ∃ d0, PlayerDirectionToAction d0 ∈ m.ValidMovementsAt dirs q := by
    intro q hq
    rw [SpaceAt_isSome_eq_deref hwf] at hq
    obtain ⟨d0, hd0⟩ := Neighbourly.canMove hwf hn hq
    exact ⟨d0, (mem_ValidMovementsAt dirs m q d0).mpr ⟨hall d0, hd0⟩⟩
  refine ⟨?_, ?_⟩
  · intro q hq
    obtain ⟨d0, hd0⟩ := key q hq
    exact List.ne_nil_of_mem hd0
  · intro l k t hk
    have hq : (m.SpaceAt t.position).isSome = true := by
      rw [SpaceAt_isSome_eq_deref hwf]; exact (hon l k t hk).2
    obtain ⟨d0, hd0⟩ := key t.position hq
    refine ⟨hq, List.ne_nil_of_mem hd0, ?_⟩
    intro draw
    have hmem0 : d0 ∈ (m.ValidMovementsAt dirs t.position).filterMap PlayerActionToDirection :=
      List.mem_filterMap.mpr ⟨PlayerDirectionToAction d0, hd0, PlayerActionToDirection_of d0⟩
    have hlt := Nat.mod_lt draw (List.length_pos_of_mem hmem0)
    have hg : (t.GetMove (m.ValidMovementsAt dirs t.position) draw).2
        = some (PlayerDirectionToAction
            (((m.ValidMovementsAt dirs t.position).filterMap PlayerActionToDirection)[draw %
              ((m.ValidMovementsAt dirs t.position).filterMap
                PlayerActionToDirection).length])) := by
      simp only [TA.GetMove, List.getElem?_eq_getElem hlt, Option.map_some']
    obtain ⟨d, hd1, hd2⟩ := GetMove_some hg
    refine ⟨d, ?_, hd2, ((mem_ValidMovementsAt dirs m t.position d).mp hd2).2⟩
    rw [hg, hd1]

/-- Witness of the amended C33: the state of the session `towerLadder`, a maze of two
levels without walls. -/
theorem C33_moves_exist_with_neighbours_witness :
    ∃ m : Maze, towerLadder = some m ∧
      (∀ q, (m.SpaceAt q).isSome = true → m.ValidMovementsAt specOrder q ≠ []) ∧
      ∀ l k t, m.taAtIndex l k = some t →
        (m.SpaceAt t.position).isSome = true ∧ m.ValidMovementsAt specOrder t.position ≠ [] ∧
        ∀ draw, ∃ d, (t.GetMove (m.ValidMovementsAt specOrder t.position) draw).2
            = some (PlayerDirectionToAction d) ∧
          PlayerDirectionToAction d ∈ m.ValidMovementsAt specOrder t.position ∧
          m.CanMoveInDirection t.position d = true := by
  have h1 : towerLadder.isSome = true := by decide
  obtain ⟨m, hm⟩ := Option.isSome_iff_exists.mp h1
  have hn : m.neighbourlyCheck = true :=
    @fact_of_session _ m hm (fun m => m.neighbourlyCheck) (by decide)
  exact ⟨m, hm, C33_moves_exist_with_neighbours specOrder m
    (play_reachable towerInfo_inRange hm) (neighbourlyCheck_sound hn) specOrder_complete⟩

/-! ### A turn touches one level -/

theorem studentStep_appease {m m1 : Maze} {s_move : PlayerAction} {a : Bool}
    (h : m.studentStep s_move = some (m1, a)) :
    a = decide (s_move = PlayerAction.DemonstrateSkill) := by
  cases s_move
  case DemonstrateSkill =>
    simp only [Maze.studentStep, Option.some.injEq, Prod.mk.injEq] at h
    rw [← h.2]; rfl
  case ClimbUp =>
    unfold Maze.studentStep at h
    simp only at h
    cases h1 : m.SpaceAt m.student_.position with
    | none => rw [h1] at h; cases h
    | some sp =>
      rw [h1] at h
      simp only at h
      split at h
      · cases h
      · split at h
        · cases h
        · split at h
          · cases h
          · simp only [Option.some.injEq, Prod.mk.injEq] at h
            rw [← h.2]; rfl
  all_goals
    simp only [Maze.studentStep] at h
    split at h
    · cases h
    · simp only [Option.some.injEq, Prod.mk.injEq] at h
      rw [← h.2]; rfl

theorem moveTA_other_levels {dirs : List PlayerDirectionAction} {m m1 : Maze}
    (hwf : m.WellFormed) {level idx draw : Nat} {a : Bool}
    (h : m.moveTA dirs level idx draw a = some m1) (hon : m.TAsOnTiles) :
    ∀ q : MazePosition, q.level ≠ level → m1.deref q = m.deref q := by
  obtain ⟨ta, d, hta, _, _, _, _, _, hder⟩ := moveTA_effect hwf h
  obtain ⟨hlev, _⟩ := hon level idx ta hta
  intro q hq
  rw [hder q]
  have h1 : q ≠ ta.position.Translate d 1 := by
    intro e
    apply hq
    rw [e, Translate_level, hlev]
  have h2 : q ≠ ta.position := by
    intro e
    apply hq
    rw [e, hlev]
  rw [if_neg h1, if_neg h2]

theorem moveTAs_other_levels {dirs : List PlayerDirectionAction} {level : Nat}
    {draws : Nat → Nat} {a : Bool} :
    ∀ (idxs : List Nat) (m m1 : Maze), m.WellFormed → m.TAsOnTiles →
      Maze.moveTAs dirs level draws a idxs m = some m1 →
      ∀ q : MazePosition, q.level ≠ level → m1.deref q = m.deref q := by
  intro idxs
  induction idxs with
  | nil =>
    intro m m1 _ _ h q _
    simp only [Maze.moveTAs, Option.some.injEq] at h
    rw [h]
  | cons idx rest ih =>
    intro m m1 hwf hon h q hq
    simp only [Maze.moveTAs] at h
    cases hm : m.moveTA dirs level idx (draws idx) a with
    | none => rw [hm] at h; cases h
    | some m2 =>
      rw [hm] at h
      have hwf2 : m2.WellFormed := by
        unfold Maze.WellFormed
        rw [Maze.layout_moveTA hm]
        exact hwf
      rw [ih m2 m1 hwf2 (moveTA_TAsOnTiles hwf hm hon) h q hq,
        moveTA_other_levels hwf hm hon q hq]

/-- The TAs after the TA loop of a turn: those of the indices of the loop stand one step
from where they stood, the others are as they were. -/
theorem moveTAs_positions {dirs : List PlayerDirectionAction} {level : Nat}
    {draws : Nat → Nat} {a : Bool} :
    ∀ (idxs : List Nat) (m m1 : Maze), m.WellFormed → idxs.Nodup →
      Maze.moveTAs dirs level draws a idxs m = some m1 →
      (∀ k ∈ idxs, ∀ t, m.taAtIndex level k = some t →
        ∃ d t1, m1.taAtIndex level k = some t1 ∧ d ∈ dirs ∧
          m.CanMoveInDirection t.position d = true ∧
          t1.position = t.position.Translate d 1) ∧
      ∀ l k, ¬ (l = level ∧ k ∈ idxs) → m1.taAtIndex l k = m.taAtIndex l k := by
  intro idxs
  induction idxs with
  | nil =>
    intro m m1 _ _ h
    simp only [Maze.moveTAs, Option.some.injEq] at h
    subst h
    exact ⟨fun k hk => absurd hk (List.not_mem_nil k), fun _ _ _ => rfl⟩
  | cons idx rest ih =>
    intro m m1 hwf hnd h
    have hnotin : idx ∉ rest := (List.nodup_cons.mp hnd).1
    simp only [Maze.moveTAs] at h
    cases hm : m.moveTA dirs level idx (draws idx) a with
    | none => rw [hm] at h; cases h
    | some m2 =>
      rw [hm] at h
      have hwf2 : m2.WellFormed := by
        unfold Maze.WellFormed
        rw [Maze.layout_moveTA hm]
        exact hwf
      obtain ⟨i1, i2⟩ := ih m2 m1 hwf2 (List.nodup_cons.mp hnd).2 h
      obtain ⟨ta, d, hta, hd, hcan, _, _, htas, _⟩ := moveTA_effect hwf hm
      obtain ⟨_, ksome⟩ := moveTA_isSome_keep hwf hm
      refine ⟨?_, ?_⟩
      · intro k hk t hkt
        rcases List.mem_cons.mp hk with e | hk'
        · subst e
          rw [hta] at hkt
          have e := Option.some.inj hkt
          subst e
          refine ⟨d, ⟨ta.position.Translate d 1,
            (if a then ta.DecrementAppeasement.Appease
              else ta.DecrementAppeasement).appeased_turns⟩, ?_, hd, hcan, rfl⟩
          rw [i2 level k (fun c => hnotin c.2), htas level k, hta]
          simp
        · have hne : k ≠ idx := fun e => hnotin (e ▸ hk')
          have e2 : m2.taAtIndex level k = some t := by
            rw [htas level k, hkt]
            simp [hne]
          obtain ⟨d1, t1, g1, g2, g3, g4⟩ := i1 k hk' t e2
          rw [CanMoveInDirection_congr hwf hwf2 ksome] at g3
          exact ⟨d1, t1, g1, g2, g3, g4⟩
      · intro l k hlk
        have h1 : ¬ (l = level ∧ k ∈ rest) := fun c => hlk ⟨c.1, List.mem_cons_of_mem _ c.2⟩
        have h2 : ¬ (l = level ∧ k = idx) := fun c => hlk ⟨c.1, c.2 ▸ List.mem_cons_self _ _⟩
        rw [i2 l k h1, htas l k]
        simp only [h2, if_false]
        cases m.taAtIndex l k <;> rfl

/-- C35: a turn (`MovePeople`) in a reachable state moves and ages the TAs of the level on
which the student stands after its step, and only them.  Every TA of another roster, so
every TA standing on another level, keeps its position and its appeasement counter; each TA
of that level stands one step from where it stood and its counter is decremented (not below
0) and, after `DemonstrateSkill`, raised by 10 (32-bit unsigned).  A tile of another level
keeps all its flags, except that `has_student` is cleared on the tile the student left (the
ladder tile, when the student climbed). -/
theorem C35_turn_touches_one_level (dirs : List PlayerDirectionAction) (m m1 : Maze)
    (h : Reachable dirs m) (choice : PlayerAction) (draws : Nat → Nat)
    (hturn : m.MovePeople dirs choice draws = some m1) :
    (∀ l k, l ≠ m1.student_.position.level → m1.taAtIndex l k = m.taAtIndex l k) ∧
    (∀ l k t, m.taAtIndex l k = some t → t.position.level ≠ m1.student_.position.level →
      m1.taAtIndex l k = some t) ∧
    (∀ k t, m.taAtIndex m1.student_.position.level k = some t →
      ∃ d t1, m1.taAtIndex m1.student_.position.level k = some t1 ∧
        t1.position = t.position.Translate d 1 ∧
        t1.appeased_turns
          = (if choice = PlayerAction.DemonstrateSkill then t.DecrementAppeasement.Appease
              else t.DecrementAppeasement).appeased_turns) ∧
    (∀ q : MazePosition, q.level ≠ m1.student_.position.level →
      m1.deref q = if q = m.student_.position then
          (m.deref q).map (fun s => { s with has_student := false })
        else m.deref q) ∧
    (m1.student_.position.level = m.student_.position.level →
      ∀ q : MazePosition, q.level ≠ m1.student_.position.level → m1.deref q = m.deref q) := by
  have hwf := h.wellFormed
  obtain ⟨hon, _, _⟩ := h.taInvariants
  obtain ⟨m2, a, roster, _, hs, hr, hm⟩ := MovePeople_steps hturn
  obtain ⟨ht, hd⟩ := studentStep_flags hwf hs
  have hwf2 : m2.WellFormed := by
    unfold Maze.WellFormed
    rw [Maze.layout_studentStep hs]
    exact hwf
  have hon2 : m2.TAsOnTiles := TAsOnTiles_of_proj ht (isSome_of_proj hd) hon
  have hta2 : ∀ l k, m2.taAtIndex l k = m.taAtIndex l k := by
    intro l k
    unfold Maze.taAtIndex
    rw [ht]
  obtain ⟨hstu, hcnt⟩ := moveTAs_counters _ m2 m1 (List.nodup_range _) hm
  obtain ⟨p1, p2⟩ := moveTAs_positions _ m2 m1 hwf2 (List.nodup_range _) hm
  have hother := moveTAs_other_levels _ m2 m1 hwf2 hon2 hm
  rw [hstu]
  have c1 : ∀ l k, l ≠ m2.student_.position.level → m1.taAtIndex l k = m.taAtIndex l k := by
    intro l k hl
    rw [p2 l k (fun c => hl c.1), hta2]
  have c4 : ∀ q : MazePosition, q.level ≠ m2.student_.position.level →
      m1.deref q = if q = m.student_.position then
          (m.deref q).map (fun s => { s with has_student := false })
        else m.deref q := by
    intro q hq
    rw [hother q hq]
    obtain ⟨_, _, hcase⟩ := studentStep_effect hwf hs
    rcases hcase with ⟨e1, e2⟩ | ⟨pos2, _, e1, e2⟩
    · rw [e2, if_neg]
      intro e
      apply hq
      rw [e, e1]
    · rw [e2 q, if_neg]
      intro e
      apply hq
      rw [e, e1]
  refine ⟨c1, ?_, ?_, c4, ?_⟩
  · intro l k t hk hl
    rw [c1 l k (by rw [← (hon l k t hk).1]; exact hl), hk]
  · intro k t hk
    rw [← hta2] at hk
    have hmem := List.mem_range.mpr (taAtIndex_lt hr hk)
    obtain ⟨d, t1, g1, _, _, g4⟩ := p1 k hmem t hk
    refine ⟨d, t1, g1, g4, ?_⟩
    have := hcnt m2.student_.position.level k
    rw [g1, hk] at this
    simp only [Option.map_some', Option.some.injEq, hmem, and_self, if_true] at this
    rw [this, studentStep_appease hs]
    by_cases hc : choice = PlayerAction.DemonstrateSkill
    · simp [hc]
    · simp [hc]
  · intro hlev q hq
    rw [c4 q hq, if_neg]
    intro e
    apply hq
    rw [e, hlev]

/-- Witness of C35: the student of the session `towerLadder`, on the ladder tile of the
first level, climbs to the second level. -/
theorem C35_turn_touches_one_level_witness :
    ∃ m m1 : Maze, towerLadder = some m ∧
      m.MovePeople specOrder PlayerAction.ClimbUp (fun _ => 0) = some m1 ∧
      m1.student_.position.level = 1 ∧
      (∀ l k, l ≠ m1.student_.position.level → m1.taAtIndex l k = m.taAtIndex l k) ∧
      (∀ l k t, m.taAtIndex l k = some t → t.position.level ≠ m1.student_.position.level →
        m1.taAtIndex l k = some t) ∧
      (∀ k t, m.taAtIndex m1.student_.position.level k = some t →
        ∃ d t1, m1.taAtIndex m1.student_.position.level k = some t1 ∧
          t1.position = t.position.Translate d 1 ∧
          t1.appeased_turns
            = (if PlayerAction.ClimbUp = PlayerAction.DemonstrateSkill then
                t.DecrementAppeasement.Appease
              else t.DecrementAppeasement).appeased_turns) ∧
      (∀ q : MazePosition, q.level ≠ m1.student_.position.level →
        m1.deref q = if q = m.student_.position then
            (m.deref q).map (fun s => { s with has_student := false })
          else m.deref q) ∧
      (m1.student_.position.level = m.student_.position.level →
        ∀ q : MazePosition, q.level ≠ m1.student_.position.level →
          m1.deref q = m.deref q) := by
  have h1 : (towerLadder.bind (fun m =>
      m.MovePeople specOrder PlayerAction.ClimbUp (fun _ => 0))).isSome = true := by decide
  obtain ⟨m1, hm1⟩ := Option.isSome_iff_exists.mp h1
  cases hm : towerLadder with
  | none => rw [hm] at hm1; cases hm1
  | some m =>
    rw [hm] at hm1
    simp only [Option.some_bind] at hm1
    have hlev : m1.student_.position.level = 1 := by
      have h2 : (towerLadder.bind (fun m =>
          m.MovePeople specOrder PlayerAction.ClimbUp (fun _ => 0))).map
            (fun m1 => decide (m1.student_.position.level = 1)) = some true := by decide
      rw [hm] at h2
      simp only [Option.some_bind] at h2
      rw [hm1] at h2
      simpa using h2
    exact ⟨m, m1, rfl, hm1, hlev, C35_turn_touches_one_level specOrder m m1
      (play_reachable towerInfo_inRange hm) PlayerAction.ClimbUp _ hm1⟩

/-! ### Counters of a roster, ladders and the effect of an event detection -/

/-- C37: in every reachable state (a successfully constructed maze, then turns, event
detections, `ResetCurrentLevel` and `ResetAllLevels`) all TAs of the roster of one level
have the same appeasement counter. -/
theorem C37_roster_counters_agree (dirs : List PlayerDirectionAction) (m : Maze)
    (h : Reachable dirs m) :
    ∀ (l : Nat) (roster : List TA), m.tas_[l]? = some roster →
      ∀ t ∈ roster, ∀ t' ∈ roster, t.appeased_turns = t'.appeased_turns := by
  obtain ⟨_, _, hc⟩ := h.taInvariants
  intro l roster hr t ht t' ht'
  obtain ⟨k, hk⟩ := List.mem_iff_getElem?.mp ht
  obtain ⟨k', hk'⟩ := List.mem_iff_getElem?.mp ht'
  apply hc l k k' t t'
  · unfold Maze.taAtIndex; rw [hr]; exact hk
  · unfold Maze.taAtIndex; rw [hr]; exact hk'

/-- Witness of C37: the state of the session `hallMaskedInstructor`, in which the student
demonstrated a skill two turns ago; both TAs have the counter 8. -/
theorem C37_roster_counters_agree_witness :
    ∃ m : Maze, hallMaskedInstructor = some m ∧
      m.tas_.map (List.map TA.appeased_turns) = [[8, 8]] ∧
      ∀ (l : Nat) (roster : List TA), m.tas_[l]? = some roster →
        ∀ t ∈ roster, ∀ t' ∈ roster, t.appeased_turns = t'.appeased_turns := by
  have h1 : hallMaskedInstructor.isSome = true := by decide
  obtain ⟨m, hm⟩ := Option.isSome_iff_exists.mp h1
  have hc : m.tas_.map (List.map TA.appeased_turns) = [[8, 8]] :=
    of_decide_eq_true (@fact_of_session _ m hm
      (fun m => decide (m.tas_.map (List.map TA.appeased_turns) = [[8, 8]])) (by decide))
  exact ⟨m, hm, hc,
    C37_roster_counters_agree specOrder m (play_reachable hallInfo_inRange hm)⟩

/-- C38: in every state of a successfully constructed maze no tile with `has_ladder` lies on
the final level.  So when `ValidActionsAt` offers `ClimbUp` to the student on level `L`,
`L + 1` (which does not wrap) is below the number of levels, level `L + 1` and its start
tile are found, and the student's step of `MovePeople` with `ClimbUp` returns. -/
theorem C38_ladder_below_final_level (dirs : List PlayerDirectionAction) (m : Maze)
    (h : Reachable dirs m) :
    (∀ (li : Nat) (l : MazeLevel) (i j : Nat) (sp : OpenSpace), m.levels_[li]? = some l →
      l.tileAt i j = some (MazeLocation.space sp) → sp.has_ladder = true →
      li + 1 < m.levels_.length) ∧
    (PlayerAction.ClimbUp ∈ m.ValidActionsAt dirs m.student_.position →
      m.student_.position.level + 1 < m.levels_.length ∧
      uadd m.student_.position.level 1 = m.student_.position.level + 1 ∧
      (∃ next i j st, m.levels_[uadd m.student_.position.level 1]? = some next ∧
        next.start_location_ = some (i, j) ∧
        m.SpaceAt ⟨uadd m.student_.position.level 1, i, j⟩ = some st ∧
        st.is_beginning = true) ∧
      ∃ m1, m.studentStep PlayerAction.ClimbUp = some (m1, false)) := by
  have hwf := h.wellFormed
  refine ⟨fun li l i j sp hl ht hlad => hwf.ladder hl ht hlad, ?_⟩
  intro hc
  obtain ⟨m1, a, hs⟩ := studentStep_total hwf hc
  have ha := studentStep_appease hs
  simp only [reduceCtorEq, decide_False] at ha
  subst ha
  unfold Maze.ValidActionsAt at hc
  simp only [List.mem_append] at hc
  have hlad : ∃ sp, m.SpaceAt m.student_.position = some sp ∧ sp.has_ladder = true := by
    rcases hc with (hc | hc) | hc
    · obtain ⟨d, _, _, e⟩ := ValidMovementsAt_directional dirs m _ _ hc
      cases d <;> cases e
    · cases hsp : m.SpaceAt m.student_.position with
      | none => rw [hsp] at hc; simp at hc
      | some sp =>
        rw [hsp] at hc
        simp only at hc
        by_cases hl : sp.has_ladder = true
        · exact ⟨sp, rfl, hl⟩
        · rw [if_neg hl] at hc; cases hc
    · split at hc
      · simp at hc
      · cases hc
  obtain ⟨sp, hsp, hl⟩ := hlad
  obtain ⟨l, hl0, _, _, ht0⟩ := SpaceAt_eq_some.mp hsp
  have hlt := hwf.ladder hl0 ht0 hl
  have hcount := hwf.count
  have e : uadd m.student_.position.level 1 = m.student_.position.level + 1 := by
    apply uadd_one_of_lt
    unfold INT_RANGE at hcount
    unfold UINT
    omega
  refine ⟨hlt, e, ?_, m1, hs⟩
  rw [e]
  obtain ⟨next, hnext⟩ : ∃ next, m.levels_[m.student_.position.level + 1]? = some next :=
    ⟨m.levels_[m.student_.position.level + 1], List.getElem?_eq_getElem hlt⟩
  obtain ⟨i, j, st, hst1, hst2, hst3, _⟩ := hwf.start hnext
  exact ⟨next, i, j, st, hnext, hst1, hwf.SpaceAt_of_deref (deref_of_tile hnext hst2), hst3⟩

/-- Witness of C38: the student of the session `towerLadder` stands on the ladder tile of
the first of two levels. -/
theorem C38_ladder_below_final_level_witness :
    ∃ m : Maze, towerLadder = some m ∧
      PlayerAction.ClimbUp ∈ m.ValidActionsAt specOrder m.student_.position ∧
      m.student_.position.level + 1 < m.levels_.length ∧
      uadd m.student_.position.level 1 = m.student_.position.level + 1 ∧
      (∃ next i j st, m.levels_[uadd m.student_.position.level 1]? = some next ∧
        next.start_location_ = some (i, j) ∧
        m.SpaceAt ⟨uadd m.student_.position.level 1, i, j⟩ = some st ∧
        st.is_beginning = true) ∧
      ∃ m1, m.studentStep PlayerAction.ClimbUp = some (m1, false) := by
  have h1 : towerLadder.isSome = true := by decide
  obtain ⟨m, hm⟩ := Option.isSome_iff_exists.mp h1
  have hc : PlayerAction.ClimbUp ∈ m.ValidActionsAt specOrder m.student_.position :=
    of_decide_eq_true (@fact_of_session _ m hm
      (fun m => decide (PlayerAction.ClimbUp ∈ m.ValidActionsAt specOrder m.student_.position))
      (by decide))
  exact ⟨m, hm, hc,
    (C38_ladder_below_final_level specOrder m (play_reachable towerInfo_inRange hm)).2 hc⟩

/-- C40: a call of `HandleCurrentPosition` that returns, whatever its result, leaves the
maze as it was, or picks up a skill: the student's skill counter grows by one (32-bit
unsigned) and `has_skill` is cleared on the student's own tile, both together.  The pickup
happens exactly when the student's tile had `has_skill` set and `has_ta` clear.  In either
case no position, no roster, no tile other than the student's and no flag other than
`has_skill` has changed, and the layout is the same. -/
theorem C40_event_detection_effect (dirs : List PlayerDirectionAction) (m m1 : Maze)
    (r : MoveResult) (h : m.HandleCurrentPosition dirs = some (r, m1)) :
    ∃ sp, m.deref m.student_.position = some sp ∧
      ((sp.has_skill = true ∧ sp.has_ta = false) → m1 = m.afterPickup) ∧
      (¬ (sp.has_skill = true ∧ sp.has_ta = false) → m1 = m) ∧
      m.afterPickup.student_.prog_skills = (m.student_.prog_skills + 1) % UINT ∧
      m.afterPickup.deref m.student_.position = some { sp with has_skill := false } ∧
      (∀ q, q ≠ m.student_.position → m.afterPickup.deref q = m.deref q) ∧
      m.afterPickup.student_.position = m.student_.position ∧
      m.afterPickup.tas_ = m.tas_ ∧ m.afterPickup.instructor_ = m.instructor_ ∧
      m.afterPickup.layout = m.layout := by
  obtain ⟨res, sp0, hs0, hocc, _⟩ := HandleCurrentPosition_cases h
  obtain ⟨sp, hsp, hc⟩ := HandleOccupiedSpace_cases hocc
  refine ⟨sp, hsp, ?_, ?_, rfl, ?_, ?_, rfl, rfl, rfl, afterPickup_layout m⟩
  · rintro ⟨h1, h2⟩
    rcases hc with ⟨_, _, e, _⟩ | ⟨_, _, e, _⟩ | ⟨_, _, _, e⟩ | ⟨_, _, _, e⟩
    · rw [h2] at e; cases e
    · rw [h2] at e; cases e
    · rw [h1] at e; cases e
    · exact e
  · intro hn
    rcases hc with ⟨_, e, _⟩ | ⟨_, e, _⟩ | ⟨_, e, _⟩ | ⟨_, e1, e2, _⟩
    · exact e
    · exact e
    · exact e
    · exact absurd ⟨e2, e1⟩ hn
  · rw [afterPickup_deref, hsp]
    simp
  · intro q hq
    rw [afterPickup_deref]
    simp [hq]

/-- Witness of C40: the event detection in the state of the session `hallOnSkill`, where
the student stands on a skill. -/
theorem C40_event_detection_effect_witness :
    ∃ (m m1 : Maze) (r : MoveResult), hallOnSkill = some m ∧
      m.HandleCurrentPosition specOrder = some (r, m1) ∧
      ∃ sp, m.deref m.student_.position = some sp ∧
        ((sp.has_skill = true ∧ sp.has_ta = false) → m1 = m.afterPickup) ∧
        (¬ (sp.has_skill = true ∧ sp.has_ta = false) → m1 = m) ∧
        m.afterPickup.student_.prog_skills = (m.student_.prog_skills + 1) % UINT ∧
        m.afterPickup.deref m.student_.position = some { sp with has_skill := false } ∧
        (∀ q, q ≠ m.student_.position → m.afterPickup.deref q = m.deref q) ∧
        m.afterPickup.student_.position = m.student_.position ∧
        m.afterPickup.tas_ = m.tas_ ∧ m.afterPickup.instructor_ = m.instructor_ ∧
        m.afterPickup.layout = m.layout := by
  have h1 : (hallOnSkill.bind (fun m => m.HandleCurrentPosition specOrder)).isSome = true := by
    decide
  obtain ⟨p, hp⟩ := Option.isSome_iff_exists.mp h1
  cases hm : hallOnSkill with
  | none => rw [hm] at hp; cases hp
  | some m =>
    rw [hm] at hp
    simp only [Option.some_bind] at hp
    obtain ⟨r, m1⟩ := p
    exact ⟨m, m1, r, rfl, hp, C40_event_detection_effect specOrder m m1 r hp⟩

/-! ### The order of the adjacency scan -/

theorem adjacentLoop_eq {m : Maze} (hwf : m.WellFormed) (p : MazePosition) :
    ∀ dirs : List PlayerDirectionAction,
      m.adjacentLoop p dirs
        = some ((dirs.filter (fun d => m.CanMoveInDirection p d)).map
            (fun d => p.Translate d 1)) := by
  intro dirs
  induction dirs with
  | nil => rfl
  | cons d rest ih =>
    unfold Maze.adjacentLoop
    by_cases hc : m.CanMoveInDirection p d = true
    · rw [if_pos hc, ih, List.filter_cons_of_pos hc]
      have hc2 := hc
      rw [CanMoveInDirection_eq_and hwf, Bool.and_eq_true,
        ← SpaceAt_isSome_eq_deref hwf (p.Translate d 1)] at hc2
      obtain ⟨sp, hsp⟩ := Option.isSome_iff_exists.mp hc2.2
      rw [hsp]
      rfl
    · rw [if_neg hc, ih, List.filter_cons_of_neg hc]

theorem SpacesAdjacentTo_eq {m : Maze} (hwf : m.WellFormed) (dirs : List PlayerDirectionAction)
    {p : MazePosition} (hp : (m.SpaceAt p).isSome = true) :
    m.SpacesAdjacentTo dirs p
      = some ((dirs.filter (fun d => m.CanMoveInDirection p d)).map
          (fun d => p.Translate d 1)) := by
  obtain ⟨sp, hsp⟩ := Option.isSome_iff_exists.mp hp
  unfold Maze.SpacesAdjacentTo
  rw [hsp]
  simp only
  rw [hwf.SpaceAt_pos hsp]
  exact adjacentLoop_eq hwf p dirs

theorem scanAdjacent_trigger_here {m : Maze} {ptr : MazePosition} {sp : OpenSpace}
    {r : MoveResult} (hd : m.deref ptr = some sp) (ht : m.ScanTrigger sp r)
    (post : List MazePosition) : m.scanAdjacent (ptr :: post) = some (some r) := by
  unfold Maze.scanAdjacent
  rw [hd]
  simp only
  rcases ht with ⟨e, h1, ta, h2, h3⟩ | ⟨e, h1, h2, h3⟩ | ⟨e, h1, h2, h3⟩
  · have hap : ta.IsAppeased = false := by
      simp only [TA.IsAppeased, decide_eq_false_iff_not]
      omega
    simp [h1, h2, hap, e]
  · simp [h1, h2, h3, e]
  · have : ¬ m.student_.prog_skills < 3 := by omega
    simp [h1, h2, this, e]

theorem scanAdjacent_pass_here {m : Maze} {ptr : MazePosition} {sp : OpenSpace}
    (hd : m.deref ptr = some sp) (hpass : m.ScanPasses sp) (post : List MazePosition) :
    m.scanAdjacent (ptr :: post) = m.scanAdjacent post := by
  conv_lhs => unfold Maze.scanAdjacent
  rw [hd]
  simp only
  rcases hpass with ⟨h1, ta, h2, h3⟩ | ⟨h1, h2⟩
  · have hap : ta.IsAppeased = true := by simpa [TA.IsAppeased] using h3
    simp [h1, h2, hap]
  · simp [h1, h2]

/-- The first tile of the scan that holds an unappeased TA or the instructor decides. -/
theorem scanAdjacent_first_trigger {m : Maze} {ptr : MazePosition} {sp : OpenSpace}
    {r : MoveResult} (hd : m.deref ptr = some sp) (ht : m.ScanTrigger sp r)
    (post : List MazePosition) :
    ∀ pre : List MazePosition,
      (∀ q ∈ pre, ∃ sq, m.deref q = some sq ∧ m.ScanPasses sq) →
      m.scanAdjacent (pre ++ ptr :: post) = some (some r) := by
  intro pre
  induction pre with
  | nil => intro _; exact scanAdjacent_trigger_here hd ht post
  | cons q rest ih =>
    intro h
    obtain ⟨sq, hq, hpass⟩ := h q (List.mem_cons_self _ _)
    rw [List.cons_append, scanAdjacent_pass_here hq hpass]
    exact ih (fun x hx => h x (List.mem_cons_of_mem _ hx))

/-- C34 fails for the enumeration Right, Left, Down, Up, the order in which libstdc++
iterates the `std::unordered_map` behind `AllPlayerDirectionActions`.  In the state of the
session `hallBetween` the student stands on (1,1) with the instructor's tile above and an
unappeased TA below: `SpacesAdjacentTo` lists the neighbours right, left, below, above,
`ValidMovementsAt` lists the moves in the same order, and `HandleCurrentPosition` returns
`CaughtByTA` for the TA below, where the order Up, Down, Left, Right would reach the
instructor's tile first and return `FailedByInstructor`. -/
theorem C34_scan_in_reverse_order :
    ∃ m : Maze, hallBetween reverseOrder = some m ∧ Reachable reverseOrder m ∧
      m.student_.position = ⟨0, 1, 1⟩ ∧
      m.SpacesAdjacentTo reverseOrder ⟨0, 1, 1⟩
        = some [⟨0, 1, 2⟩, ⟨0, 1, 0⟩, ⟨0, 2, 1⟩, ⟨0, 0, 1⟩] ∧
      m.SpacesAdjacentTo reverseOrder ⟨0, 1, 1⟩
        ≠ m.SpacesAdjacentTo specOrder ⟨0, 1, 1⟩ ∧
      m.ValidMovementsAt reverseOrder ⟨0, 1, 1⟩
        = [PlayerAction.MoveRight, PlayerAction.MoveLeft, PlayerAction.MoveDown,
            PlayerAction.MoveUp] ∧
      (m.deref ⟨0, 0, 1⟩).map (fun s => (s.has_instructor, s.has_ta)) = some (true, false) ∧
      (m.deref ⟨0, 2, 1⟩).map (fun s => s.has_ta) = some true ∧
      (m.TaAt ⟨0, 2, 1⟩).map TA.appeased_turns = some 0 ∧
      (m.HandleCurrentPosition reverseOrder).map Prod.fst = some MoveResult.CaughtByTA ∧
      (m.HandleCurrentPosition specOrder).map Prod.fst
        = some MoveResult.FailedByInstructor := by
  have h1 : (hallBetween reverseOrder).isSome = true := by decide
  obtain ⟨m, hm⟩ := Option.isSome_iff_exists.mp h1
  have hf := @fact_of_session _ m hm (fun m => decide (
      m.student_.position = ⟨0, 1, 1⟩ ∧
      m.SpacesAdjacentTo reverseOrder ⟨0, 1, 1⟩
        = some [⟨0, 1, 2⟩, ⟨0, 1, 0⟩, ⟨0, 2, 1⟩, ⟨0, 0, 1⟩] ∧
      m.SpacesAdjacentTo reverseOrder ⟨0, 1, 1⟩
        ≠ m.SpacesAdjacentTo specOrder ⟨0, 1, 1⟩ ∧
      m.ValidMovementsAt reverseOrder ⟨0, 1, 1⟩
        = [PlayerAction.MoveRight, PlayerAction.MoveLeft, PlayerAction.MoveDown,
            PlayerAction.MoveUp] ∧
      (m.deref ⟨0, 0, 1⟩).map (fun s => (s.has_instructor, s.has_ta)) = some (true, false) ∧
      (m.deref ⟨0, 2, 1⟩).map (fun s => s.has_ta) = some true ∧
      (m.TaAt ⟨0, 2, 1⟩).map TA.appeased_turns = some 0 ∧
      (m.HandleCurrentPosition reverseOrder).map Prod.fst = some MoveResult.CaughtByTA ∧
      (m.HandleCurrentPosition specOrder).map Prod.fst
        = some MoveResult.FailedByInstructor)) (by decide)
  exact ⟨m, hm, playToward_reachable hallInfo_inRange hm, of_decide_eq_true hf⟩

/-- C34, amended: for every order `dirs` in which `AllPlayerDirectionActions` enumerates
the directions (the iteration order of a `std::unordered_map`, which the code does not
fix), in a well-formed maze `SpacesAdjacentTo dirs p` returns the existing occupiable
neighbours of the open space `p` in the order of `dirs`, and `ValidMovementsAt dirs p` the
moves to them in the same order.  The adjacency scan follows that order: when the
neighbour in direction `d` holds an unappeased TA or is the instructor's tile (it triggers
the result `r`) and every neighbour in a direction before `d` in `dirs` is harmless, the
scan returns `r`, and so does `HandleCurrentPosition` when `p` is the student's tile and
nothing happens on that tile itself. -/
theorem C34_scan_follows_enumeration (dirs : List PlayerDirectionAction) (m : Maze)
    (hwf : m.WellFormed) (p : MazePosition) (hp : (m.SpaceAt p).isSome = true) :
    m.SpacesAdjacentTo dirs p
      = some ((dirs.filter (fun d => m.CanMoveInDirection p d)).map
          (fun d => p.Translate d 1)) ∧
    m.ValidMovementsAt dirs p
      = (dirs.filter (fun d => m.CanMoveInDirection p d)).map PlayerDirectionToAction ∧
    ∀ (pre post : List PlayerDirectionAction) (d : PlayerDirectionAction) (sp : OpenSpace)
      (r : MoveResult), dirs = pre ++ d :: post →
      (∀ d' ∈ pre, ∀ sq, m.SpaceAt (p.Translate d' 1) = some sq → m.ScanPasses sq) →
      m.SpaceAt (p.Translate d 1) = some sp → m.ScanTrigger sp r →
      (∃ ptrs, m.SpacesAdjacentTo dirs p = some ptrs ∧
        m.scanAdjacent ptrs = some (some r)) ∧
      (p = m.student_.position →
        (∃ sp0, m.SpaceAt p = some sp0 ∧ sp0.has_ta = false ∧ sp0.has_skill = false) →
        m.HandleCurrentPosition dirs = some (r, m)) := by
  have hadj := SpacesAdjacentTo_eq hwf dirs hp
  refine ⟨hadj, rfl, ?_⟩
  intro pre post d sp r hdirs hpre hsp htr
  have hcan : m.CanMoveInDirection p d = true := by
    rw [CanMoveInDirection_eq_and hwf, ← SpaceAt_isSome_eq_deref hwf,
      ← SpaceAt_isSome_eq_deref hwf, hp, hsp]
    rfl
  have hscan : m.scanAdjacent ((dirs.filter (fun d => m.CanMoveInDirection p d)).map
      (fun d => p.Translate d 1)) = some (some r) := by
    rw [hdirs, List.filter_append, List.filter_cons_of_pos hcan, List.map_append,
      List.map_cons]
    apply scanAdjacent_first_trigger (SpaceAt_deref hsp) htr
    intro q hq
    obtain ⟨d', hd', e⟩ := List.mem_map.mp hq
    obtain ⟨hd'1, hd'2⟩ := List.mem_filter.mp hd'
    have hd'3 : m.CanMoveInDirection p d' = true := hd'2
    rw [CanMoveInDirection_eq_and hwf, Bool.and_eq_true,
      ← SpaceAt_isSome_eq_deref hwf (p.Translate d' 1)] at hd'3
    obtain ⟨sq, hsq⟩ := Option.isSome_iff_exists.mp hd'3.2
    rw [← e]
    exact ⟨sq, SpaceAt_deref hsq, hpre d' hd'1 sq hsq⟩
  refine ⟨⟨_, hadj, hscan⟩, ?_⟩
  rintro hpe ⟨sp0, hsp0, h1, h2⟩
  subst hpe
  have ho : m.HandleOccupiedSpace m.student_.position = some (MoveResult.NoEvent, m) := by
    unfold Maze.HandleOccupiedSpace
    simp only [SpaceAt_deref hsp0]
    simp [h1, h2]
  unfold Maze.HandleCurrentPosition
  rw [hsp0, ho]
  simp only [reduceCtorEq, if_false]
  have : m.SpacesAdjacentToStudent dirs = m.SpacesAdjacentTo dirs m.student_.position := rfl
  rw [this, hadj]
  simp only
  rw [hscan]

/-- Witness of the amended C34: the state of the session `hallBetween` played with the
order Right, Left, Down, Up; the TA below the student decides, the tiles to the right and
to the left being harmless. -/
theorem C34_scan_follows_enumeration_witness :
    ∃ (m : Maze) (sp : OpenSpace), hallBetween reverseOrder = some m ∧ m.WellFormed ∧
      m.student_.position = ⟨0, 1, 1⟩ ∧
      m.SpaceAt ((⟨0, 1, 1⟩ : MazePosition).Translate PlayerDirectionAction.Down 1) = some sp ∧
      m.ScanTrigger sp MoveResult.CaughtByTA ∧
      m.SpacesAdjacentTo reverseOrder ⟨0, 1, 1⟩
        = some ((reverseOrder.filter (fun d => m.CanMoveInDirection ⟨0, 1, 1⟩ d)).map
            (fun d => (⟨0, 1, 1⟩ : MazePosition).Translate d 1)) ∧
      m.HandleCurrentPosition reverseOrder = some (MoveResult.CaughtByTA, m) := by
  have h1 : (hallBetween reverseOrder).isSome = true := by decide
  obtain ⟨m, hm⟩ := Option.isSome_iff_exists.mp h1
  have hwf : m.WellFormed := (playToward_reachable hallInfo_inRange hm).wellFormed
  have hpos : m.student_.position = ⟨0, 1, 1⟩ :=
    of_decide_eq_true (@fact_of_session _ m hm
      (fun m => decide (m.student_.position = ⟨0, 1, 1⟩)) (by decide))
  have hp : (m.SpaceAt ⟨0, 1, 1⟩).isSome = true :=
    @fact_of_session _ m hm (fun m => (m.SpaceAt ⟨0, 1, 1⟩).isSome) (by decide)
  have hown : (m.SpaceAt ⟨0, 1, 1⟩).map (fun s => (s.has_ta, s.has_skill))
      = some (false, false) :=
    of_decide_eq_true (@fact_of_session _ m hm
      (fun m => decide ((m.SpaceAt ⟨0, 1, 1⟩).map (fun s => (s.has_ta, s.has_skill))
        = some (false, false))) (by decide))
  have hside : ∀ d' ∈ [PlayerDirectionAction.Right, PlayerDirectionAction.Left],
      (m.SpaceAt ((⟨0, 1, 1⟩ : MazePosition).Translate d' 1)).map
        (fun s => (s.has_ta, s.has_instructor)) = some (false, false) :=
    of_decide_eq_true (@fact_of_session _ m hm
      (fun m => decide (∀ d' ∈ [PlayerDirectionAction.Right, PlayerDirectionAction.Left],
        (m.SpaceAt ((⟨0, 1, 1⟩ : MazePosition).Translate d' 1)).map
          (fun s => (s.has_ta, s.has_instructor)) = some (false, false))) (by decide))
  have hbelow : (m.SpaceAt ((⟨0, 1, 1⟩ : MazePosition).Translate
      PlayerDirectionAction.Down 1)).map
        (fun s => (s.has_ta, (m.TaAt s.pos).map TA.appeased_turns)) = some (true, some 0) :=
    of_decide_eq_true (@fact_of_session _ m hm
      (fun m => decide ((m.SpaceAt ((⟨0, 1, 1⟩ : MazePosition).Translate
        PlayerDirectionAction.Down 1)).map
          (fun s => (s.has_ta, (m.TaAt s.pos).map TA.appeased_turns)) = some (true, some 0)))
      (by decide))
  cases hsp : m.SpaceAt ((⟨0, 1, 1⟩ : MazePosition).Translate PlayerDirectionAction.Down 1) with
  | none => rw [hsp] at hbelow; cases hbelow
  | some sp =>
    rw [hsp] at hbelow
    simp only [Option.map_some', Option.some.injEq, Prod.mk.injEq] at hbelow
    have htr : m.ScanTrigger sp MoveResult.CaughtByTA := by
      left
      refine ⟨rfl, hbelow.1, ?_⟩
      cases hta : m.TaAt sp.pos with
      | none => rw [hta] at hbelow; simp at hbelow
      | some ta =>
        rw [hta] at hbelow
        simp only [Option.map_some', Option.some.injEq] at hbelow
        exact ⟨ta, rfl, by omega⟩
    obtain ⟨sp0, hsp0⟩ := Option.isSome_iff_exists.mp hp
    rw [hsp0] at hown
    simp only [Option.map_some', Option.some.injEq, Prod.mk.injEq] at hown
    have key := (C34_scan_follows_enumeration reverseOrder m hwf ⟨0, 1, 1⟩ hp)
    refine ⟨m, sp, hm, hwf, hpos, hsp, htr, key.1, ?_⟩
    refine (key.2.2 [PlayerDirectionAction.Right, PlayerDirectionAction.Left]
      [PlayerDirectionAction.Up] PlayerDirectionAction.Down sp MoveResult.CaughtByTA rfl ?_
      hsp htr).2 hpos.symm ⟨sp0, hsp0, hown.1, hown.2⟩
    intro d' hd' sq hsq
    have := hside d' hd'
    rw [hsq] at this
    simp only [Option.map_some', Option.some.injEq, Prod.mk.injEq] at this
    exact Or.inr this

/-! ### The budget of appeasement -/

theorem skillKeys_length_congr {m m1 : Maze} (hwf : m.WellFormed) (hwf1 : m1.WellFormed)
    (l : Nat)
    (h : ∀ q : MazePosition, q.level = l →
      (m1.deref q).map (fun s => s.has_skill) = (m.deref q).map (fun s => s.has_skill)) :
    (m1.skillKeys l).length = (m.skillKeys l).length := by
  apply length_eq_of_same_members (skillKeys_nodup hwf1 l) (skillKeys_nodup hwf l)
  intro p
  rw [mem_skillKeys hwf1, mem_skillKeys hwf]
  have := h ⟨l, p.1, p.2⟩ rfl
  constructor
  · rintro ⟨sp, hsp, hk⟩
    rw [hsp] at this
    cases hx : m.deref ⟨l, p.1, p.2⟩ with
    | none => rw [hx] at this; cases this
    | some s0 =>
      rw [hx] at this
      simp only [Option.map_some', Option.some.injEq] at this
      exact ⟨s0, rfl, by rw [← this]; exact hk⟩
  · rintro ⟨sp, hsp, hk⟩
    rw [hsp] at this
    cases hx : m1.deref ⟨l, p.1, p.2⟩ with
    | none => rw [hx] at this; cases this
    | some s0 =>
      rw [hx] at this
      simp only [Option.map_some', Option.some.injEq] at this
      exact ⟨s0, rfl, by rw [this]; exact hk⟩

theorem skillKeys_of_levels {m m1 : Maze} (h : m1.levels_ = m.levels_) (l : Nat) :
    m1.skillKeys l = m.skillKeys l := by
  unfold Maze.skillKeys
  rw [h]

theorem studentStep_student {m m1 : Maze} (hwf : m.WellFormed) {s_move : PlayerAction}
    {a : Bool} (h : m.studentStep s_move = some (m1, a)) :
    (s_move = PlayerAction.DemonstrateSkill ∧ m1.student_ = m.student_.DecrementSkills) ∨
    (s_move ≠ PlayerAction.DemonstrateSkill ∧
      m1.student_.prog_skills = m.student_.prog_skills ∧
      (m1.student_.position.level = m.student_.position.level ∨
        m1.student_.position.level = m.student_.position.level + 1)) := by
  unfold Maze.studentStep at h
  split at h
  · cases hs : m.SpaceAt m.student_.position with
    | none => simp [hs] at h
    | some sp =>
      simp only [hs] at h
      split at h
      · simp at h
      · rename_i next hnext
        split at h
        · simp at h
        · rename_i i j hstart
          split at h
          · simp at h
          · rename_i start_loc hsl
            simp at h
            obtain ⟨h1, _⟩ := h
            have hwf2 : ((m.modifySpace m.student_.position
                (fun s => { s with has_student := false })).modifySpace
                ⟨uadd m.student_.position.level 1, i, j⟩
                (fun s => { s with has_student := true })).WellFormed :=
              wellFormed_modifySpace (wellFormed_modifySpace hwf _
                (fun s => { s with has_student := false }) (fun s => rfl)) _
                (fun s => { s with has_student := true }) (fun s => rfl)
            have hpos := hwf2.deref_pos hsl
            obtain ⟨l, hl0, _⟩ := SpaceAt_eq_some.mp hs
            have hlt : m.student_.position.level < m.levels_.length :=
              (List.getElem?_eq_some_iff.mp hl0).1
            have hcount := hwf.count
            have e : uadd m.student_.position.level 1 = m.student_.position.level + 1 := by
              apply uadd_one_of_lt
              unfold INT_RANGE at hcount
              unfold UINT
              omega
            rw [← h1]
            refine Or.inr ⟨by simp, rfl, Or.inr ?_⟩
            show start_loc.pos.level = _
            rw [hpos, e]
  · simp at h
    rw [← h.1]
    exact Or.inl ⟨rfl, rfl⟩
  · rename_i hne1 hne2
    cases hm : m.MovePerson PersonRef.student s_move with
    | none => simp [hm] at h
    | some r =>
      obtain ⟨b1, m2⟩ := r
      simp [hm] at h
      rw [← h.1]
      refine Or.inr ⟨fun e => hne2 e, ?_⟩
      rcases MovePerson_cases hm with ⟨_, e⟩ | ⟨pos, dir, hp, _, hs2, e⟩
      · rw [e]
        exact ⟨rfl, Or.inl rfl⟩
      · have hpe : pos = m.student_.position := by
          simp only [Maze.personPosition, Option.some.injEq] at hp
          exact hp.symm
        subst hpe
        rw [e]
        refine ⟨rfl, Or.inl ?_⟩
        show (m.student_.position.Translate dir 1).level = _
        exact Translate_level _ _ _

theorem counter_step_le (a : Bool) (t : TA) :
    (if a then t.DecrementAppeasement.Appease else t.DecrementAppeasement).appeased_turns
      ≤ t.appeased_turns + (if a then 10 else 0) := by
  obtain ⟨p, c⟩ := t
  by_cases hc : c > 0
  · cases a
    · simp [TA.DecrementAppeasement, hc]
    · simp only [TA.DecrementAppeasement, TA.Appease, hc, if_true, uadd]
      exact le_trans (Nat.mod_le _ _) (by omega)
  · cases a
    · simp [TA.DecrementAppeasement, hc]
    · simp only [TA.DecrementAppeasement, TA.Appease, hc, if_true, if_false, uadd]
      exact Nat.mod_le _ _

theorem demonstrate_offered {dirs : List PlayerDirectionAction} {m : Maze} {pos : MazePosition}
    (h : PlayerAction.DemonstrateSkill ∈ m.ValidActionsAt dirs pos) :
    0 < m.student_.prog_skills := by
  unfold Maze.ValidActionsAt at h
  simp only [List.mem_append] at h
  rcases h with (h | h) | h
  · obtain ⟨d, _, _, e⟩ := ValidMovementsAt_directional dirs m _ _ h
    cases d <;> cases e
  · split at h
    · simp at h
    · cases h
  · by_cases hs : m.student_.HasSkills = true
    · simpa [IntrepidStudent.HasSkills] using hs
    · rw [if_neg hs] at h
      cases h

/-- What a turn does to the counters: those of the student's resulting level take the step
of the turn, the others are as they were. -/
theorem MovePeople_counters {dirs : List PlayerDirectionAction} {m m1 : Maze}
    (hwf : m.WellFormed) {choice : PlayerAction} {draws : Nat → Nat}
    (h : m.MovePeople dirs choice draws = some m1) :
    ∀ l k t1, m1.taAtIndex l k = some t1 →
      ∃ t, m.taAtIndex l k = some t ∧
        (l ≠ m1.student_.position.level → t1.appeased_turns = t.appeased_turns) ∧
        (l = m1.student_.position.level → t1.appeased_turns
          = (if choice = PlayerAction.DemonstrateSkill then t.DecrementAppeasement.Appease
              else t.DecrementAppeasement).appeased_turns) := by
  obtain ⟨m2, a, roster, _, hs, hr, hm⟩ := MovePeople_steps h
  obtain ⟨ht, _⟩ := studentStep_flags hwf hs
  have hta2 : ∀ l k, m2.taAtIndex l k = m.taAtIndex l k := by
    intro l k
    unfold Maze.taAtIndex
    rw [ht]
  obtain ⟨hstu, hcnt⟩ := moveTAs_counters _ m2 m1 (List.nodup_range _) hm
  intro l k t1 hk
  have e := hcnt l k
  rw [hk, hta2] at e
  cases hk0 : m.taAtIndex l k with
  | none => rw [hk0] at e; cases e
  | some t =>
    rw [hk0] at e
    simp only [Option.map_some', Option.some.injEq] at e
    refine ⟨t, rfl, ?_, ?_⟩
    · intro hl
      rw [hstu] at hl
      rw [e, if_neg (fun c => hl c.1)]
    · intro hl
      rw [hstu] at hl
      have hmem : k ∈ List.range roster.length := by
        apply List.mem_range.mpr
        apply taAtIndex_lt hr
        rw [← hl, hta2]
        exact hk0
      rw [e, if_pos ⟨hl, hmem⟩, studentStep_appease hs]
      by_cases hc : choice = PlayerAction.DemonstrateSkill
      · simp [hc]
      · simp [hc]

theorem MovePeople_budget {dirs : List PlayerDirectionAction} {m m1 : Maze}
    (hwf : m.WellFormed) {choice : PlayerAction} {draws : Nat → Nat}
    (h : m.MovePeople dirs choice draws = some m1) (hb : m.Budget) : m1.Budget := by
  obtain ⟨b1, b2, b3, b4⟩ := hb
  obtain ⟨m2, a, roster, hc, hs, hr, hm⟩ := MovePeople_steps h
  have hwf1 : m1.WellFormed := by
    unfold Maze.WellFormed
    rw [Maze.layout_MovePeople h]
    exact hwf
  have hk : ∀ l, (m1.skillKeys l).length = (m.skillKeys l).length := fun l =>
    skillKeys_length_congr hwf hwf1 l (fun q _ =>
      MovePeople_proj (fun s => s.has_skill) (fun _ _ => rfl) (fun _ _ => rfl) hwf h q)
  obtain ⟨hstu, _⟩ := moveTAs_counters _ m2 m1 (List.nodup_range _) hm
  have hcnt := MovePeople_counters hwf h
  have hstep := studentStep_student hwf hs
  rw [← hstu] at hstep
  rcases hstep with ⟨e1, e2⟩ | ⟨e1, e2, e3⟩
  · subst e1
    have hpos : 0 < m.student_.prog_skills := demonstrate_offered hc
    have hp : m1.student_.position = m.student_.position := by
      rw [e2]; unfold IntrepidStudent.DecrementSkills; split <;> rfl
    have hsk : m1.student_.prog_skills + 1 = m.student_.prog_skills := by
      rw [e2]; unfold IntrepidStudent.DecrementSkills
      rw [if_pos hpos]
      show m.student_.prog_skills - 1 + 1 = _
      omega
    unfold Maze.Budget
    rw [hp, hk]
    refine ⟨?_, fun l => by rw [hk]; exact b2 l, by omega, ?_⟩
    · intro l k t1 hk1 hl
      obtain ⟨t, g1, g2, _⟩ := hcnt l k t1 hk1
      rw [g2 (by rw [hp]; omega)]
      exact b1 l k t g1 hl
    · intro k t1 hk1
      obtain ⟨t, g1, _, g3⟩ := hcnt _ k t1 hk1
      have g4 := g3 (by rw [hp])
      simp only [if_true] at g4
      have g5 := counter_step_le true t
      simp only [if_true] at g5
      have g6 := b4 k t g1
      omega
  · have hne : choice ≠ PlayerAction.DemonstrateSkill := e1
    unfold Maze.Budget
    rcases e3 with e3 | e3
    · rw [e3, e2, hk]
      refine ⟨?_, fun l => by rw [hk]; exact b2 l, b3, ?_⟩
      · intro l k t1 hk1 hl
        obtain ⟨t, g1, g2, _⟩ := hcnt l k t1 hk1
        rw [g2 (by rw [e3]; omega)]
        exact b1 l k t g1 hl
      · intro k t1 hk1
        obtain ⟨t, g1, _, g3⟩ := hcnt _ k t1 hk1
        have g4 := g3 e3.symm
        simp only [hne, if_false] at g4
        have g5 := counter_step_le false t
        simp only [Bool.false_eq_true, if_false] at g5
        have g6 := b4 k t g1
        omega
    · rw [e3, e2, hk]
      have hn := b2 (m.student_.position.level + 1)
      refine ⟨?_, fun l => by rw [hk]; exact b2 l, by omega, ?_⟩
      · intro l k t1 hk1 hl
        obtain ⟨t, g1, g2, _⟩ := hcnt l k t1 hk1
        rw [g2 (by rw [e3]; omega)]
        exact b1 l k t g1 (by omega)
      · intro k t1 hk1
        obtain ⟨t, g1, _, g3⟩ := hcnt _ k t1 hk1
        have g4 := g3 e3.symm
        simp only [hne, if_false] at g4
        have g5 := counter_step_le false t
        simp only [Bool.false_eq_true, if_false] at g5
        have g6 := b1 _ k t g1 (by omega)
        omega

theorem uadd_le (a b : Nat) : uadd a b ≤ a + b := Nat.mod_le _ _

theorem HandleCurrentPosition_state {dirs : List PlayerDirectionAction} {m m1 : Maze}
    {r : MoveResult} (h : m.HandleCurrentPosition dirs = some (r, m1)) :
    ∃ sp, m.deref m.student_.position = some sp ∧
      (m1 = m ∨ (sp.has_skill = true ∧ sp.has_ta = false ∧ m1 = m.afterPickup)) := by
  obtain ⟨res, sp0, hs0, hocc, _⟩ := HandleCurrentPosition_cases h
  obtain ⟨sp, hsp, hc⟩ := HandleOccupiedSpace_cases hocc
  refine ⟨sp, hsp, ?_⟩
  rcases hc with ⟨_, e, _⟩ | ⟨_, e, _⟩ | ⟨_, e, _⟩ | ⟨_, e1, e2, e⟩
  · exact Or.inl e
  · exact Or.inl e
  · exact Or.inl e
  · exact Or.inr ⟨e2, e1, e⟩

theorem afterPickup_skillKeys {m : Maze} (hwf : m.WellFormed) {sp : OpenSpace}
    (hsp : m.deref m.student_.position = some sp) (hsk : sp.has_skill = true) :
    (∀ l, l ≠ m.student_.position.level →
      (m.afterPickup.skillKeys l).length = (m.skillKeys l).length) ∧
    (m.afterPickup.skillKeys m.student_.position.level).length + 1
      = (m.skillKeys m.student_.position.level).length := by
  have hwf1 : m.afterPickup.WellFormed := by
    unfold Maze.WellFormed
    rw [afterPickup_layout]
    exact hwf
  constructor
  · intro l hl
    apply skillKeys_length_congr hwf hwf1 l
    intro q hq
    rw [afterPickup_deref, if_neg]
    intro e
    apply hl
    rw [← hq, e]
  · have hmem : (m.student_.position.row, m.student_.position.col)
        ∈ m.skillKeys m.student_.position.level := by
      rw [mem_skillKeys hwf]
      exact ⟨sp, hsp, hsk⟩
    have := @length_after_removal _ _ (m.skillKeys m.student_.position.level)
      (m.afterPickup.skillKeys m.student_.position.level)
      [(m.student_.position.row, m.student_.position.col)]
      (skillKeys_nodup hwf _) (skillKeys_nodup hwf1 _) (List.nodup_singleton _)
      (by
        intro a ha
        rw [List.mem_singleton] at ha
        rw [ha]
        exact hmem)
      (by
        intro p
        rw [mem_skillKeys hwf1, mem_skillKeys hwf, List.mem_singleton]
        have hq : ((⟨m.student_.position.level, p.1, p.2⟩ : MazePosition) = m.student_.position)
            ↔ p = (m.student_.position.row, m.student_.position.col) := by
          constructor
          · intro e
            rw [← e]
          · intro e
            rw [e]
        constructor
        · rintro ⟨s1, hs1, hk1⟩
          rw [afterPickup_deref] at hs1
          by_cases hpe : (⟨m.student_.position.level, p.1, p.2⟩ : MazePosition)
              = m.student_.position
          · rw [if_pos hpe, hpe, hsp] at hs1
            simp only [Option.map_some', Option.some.injEq] at hs1
            rw [← hs1] at hk1
            cases hk1
          · rw [if_neg hpe] at hs1
            exact ⟨⟨s1, hs1, hk1⟩, fun c => hpe (hq.mpr c)⟩
        · rintro ⟨⟨s1, hs1, hk1⟩, hne⟩
          refine ⟨s1, ?_, hk1⟩
          rw [afterPickup_deref, if_neg (fun c => hne (hq.mp c))]
          exact hs1)
    simpa using this

theorem HandleCurrentPosition_budget {dirs : List PlayerDirectionAction} {m m1 : Maze}
    (hwf : m.WellFormed) {r : MoveResult}
    (h : m.HandleCurrentPosition dirs = some (r, m1)) (hb : m.Budget) : m1.Budget := by
  obtain ⟨sp, hsp, hc⟩ := HandleCurrentPosition_state h
  rcases hc with e | ⟨hsk, _, e⟩
  · rw [e]; exact hb
  · obtain ⟨b1, b2, b3, b4⟩ := hb
    obtain ⟨k1, k2⟩ := afterPickup_skillKeys hwf hsp hsk
    have hs : m.afterPickup.student_.prog_skills ≤ m.student_.prog_skills + 1 :=
      uadd_le _ _
    have hp : m.afterPickup.student_.position = m.student_.position := rfl
    have ht : ∀ l k, m.afterPickup.taAtIndex l k = m.taAtIndex l k := fun _ _ => rfl
    rw [e]
    unfold Maze.Budget
    rw [hp]
    refine ⟨?_, ?_, by omega, ?_⟩
    · intro l k t hk hl
      rw [ht] at hk
      exact b1 l k t hk hl
    · intro l
      by_cases hl : l = m.student_.position.level
      · rw [hl]
        have := b2 m.student_.position.level
        omega
      · rw [k1 l hl]
        exact b2 l
    · intro k t hk
      rw [ht] at hk
      have := b4 k t hk
      omega

theorem ResetCurrentLevel_budget {m m1 : Maze} (hwf : m.WellFormed)
    {taSeed skillSeed : List Nat} (h : m.ResetCurrentLevel taSeed skillSeed = .ok m1)
    (hb : m.Budget) : m1.Budget := by
  obtain ⟨b1, b2, _, _⟩ := hb
  unfold Maze.ResetCurrentLevel at h
  obtain ⟨si, sj, ptrs, sptrs, _, hlt, _, _, _, hstu, _, htas, hlay, hd⟩ :=
    ResetLevel_effect hwf h
  have hwf1 : m1.WellFormed := by
    unfold Maze.WellFormed; rw [hlay]; exact hwf
  have hn := (ResetLevel_skills_placed hwf h).2.2.1
  have hk : ∀ l, l ≠ m.student_.position.level →
      (m1.skillKeys l).length = (m.skillKeys l).length := by
    intro l hl
    apply skillKeys_length_congr hwf hwf1 l
    intro q hq
    rw [hd q, if_neg (by rw [hq]; exact hl)]
  have hzero : ∀ k t, m1.taAtIndex m.student_.position.level k = some t →
      t.appeased_turns = 0 := by
    intro k t hk1
    unfold Maze.taAtIndex at hk1
    rw [htas, List.getElem?_set_self hlt] at hk1
    simp only [List.getElem?_map] at hk1
    cases hp : ptrs[k]? with
    | none => rw [hp] at hk1; cases hk1
    | some p =>
      rw [hp] at hk1
      simp only [Option.map_some', Option.some.injEq] at hk1
      rw [← hk1]
  unfold Maze.Budget
  rw [hstu]
  simp only
  refine ⟨?_, ?_, by omega, ?_⟩
  · intro l k t hk1 hl
    rw [taAtIndex_of_set htas l k (by omega)] at hk1
    exact b1 l k t hk1 hl
  · intro l
    by_cases hl : l = m.student_.position.level
    · rw [hl]; exact hn
    · rw [hk l hl]; exact b2 l
  · intro k t hk1
    rw [hzero k t hk1]
    omega

theorem ResetLevel_skill_bound {m m1 : Maze} (hwf : m.WellFormed) {li : Nat}
    {taSeed skillSeed : List Nat} (h : m.ResetLevel li taSeed skillSeed = .ok m1)
    (hb : ∀ l, (m.skillKeys l).length ≤ 3) : ∀ l, (m1.skillKeys l).length ≤ 3 := by
  obtain ⟨si, sj, ptrs, sptrs, _, _, _, _, _, _, _, _, hlay, hd⟩ := ResetLevel_effect hwf h
  have hwf1 : m1.WellFormed := by
    unfold Maze.WellFormed; rw [hlay]; exact hwf
  intro l
  by_cases hl : l = li
  · rw [hl]; exact (ResetLevel_skills_placed hwf h).2.2.1
  · rw [skillKeys_length_congr hwf hwf1 l (fun q hq => by
      rw [hd q, if_neg (by rw [hq]; exact hl)])]
    exact hb l

theorem ResetAllLevels_budget {m m1 : Maze} (hwf : m.WellFormed) (hro : m.RostersOk)
    {taSeeds skillSeeds : Nat → List Nat}
    (h : m.ResetAllLevels taSeeds skillSeeds = .ok m1)
    (hb : m.Budget) : m1.Budget := by
  have hskill : ∀ l, (m1.skillKeys l).length ≤ 3 :=
    ResetAllLevels_keeps (fun m => ∀ l, (m.skillKeys l).length ≤ 3)
      (fun m m1 li ta sk hwf hp hr => ResetLevel_skill_bound hwf hr hp)
      (fun m p b hwf hp l => by
        rw [skillKeys_length_congr hwf
          (wellFormed_modifySpace hwf p (fun s => { s with has_student := b }) (fun s => rfl)) l
          (fun q _ => deref_modifySpace_proj (fun s => s.has_skill) m p
            (fun s => { s with has_student := b }) (fun s => rfl) q)]
        exact hp l)
      (fun m pos hp => hp) hwf h hb.2.1
  obtain ⟨si, sj, _, _, _, hlen, hstu, hkeep, hfresh, _⟩ := ResetAllLevels_effect hwf h
  have hzero : ∀ l k t, m1.taAtIndex l k = some t → t.appeased_turns = 0 := by
    intro l k t hk
    unfold Maze.taAtIndex at hk
    by_cases hl : l < m.levels_.length
    · obtain ⟨_, r, hr, _, hall⟩ := hfresh l hl
      rw [hr] at hk
      exact (hall t (mem_of_getElem?_some hk)).1
    · have : m1.tas_[l]? = none := by
        rw [hkeep l (by omega), List.getElem?_eq_none_iff, hro.1]
        omega
      rw [this] at hk
      cases hk
  unfold Maze.Budget
  rw [hstu]
  simp only
  have h0 := hskill 0
  refine ⟨fun l k t hk _ => hzero l k t hk, hskill, by omega, ?_⟩
  intro k t hk
  rw [hzero 0 k t hk]
  omega

theorem construct_budget {info : MazeInfo} {is : List (List Char)}
    {taSeeds skillSeeds : Nat → List Nat} {m : Maze} (hinfo : info.InRange)
    (h : Maze.construct info is taSeeds skillSeeds = .ok m) : m.Budget := by
  obtain ⟨levels, si, sj, ii, ij, tptrs, sptrs, _, _, _, hlen, hstu, _, htas, _, _⟩ :=
    Maze.construct_effect hinfo h
  have hskill : ∀ l, (m.skillKeys l).length ≤ 3 := by
    intro l
    by_cases hl : l < m.levels_.length
    · exact (construct_skills_placed hinfo h l hl).2.2.1
    · have : m.levels_[l]? = none := by
        rw [List.getElem?_eq_none_iff]; omega
      unfold Maze.skillKeys
      rw [this]
      simp
  have hzero : ∀ l k t, m.taAtIndex l k = some t → t.appeased_turns = 0 := by
    intro l k t hk
    unfold Maze.taAtIndex at hk
    rw [htas, List.getElem?_map] at hk
    cases hx : (List.range info.levels.toNat)[l]? with
    | none => rw [hx] at hk; cases hk
    | some li =>
      rw [hx] at hk
      simp only [Option.map_some', List.getElem?_map] at hk
      cases hp : (tptrs li)[k]? with
      | none => rw [hp] at hk; cases hk
      | some p =>
        rw [hp] at hk
        simp only [Option.map_some', Option.some.injEq] at hk
        rw [← hk]
  unfold Maze.Budget
  rw [hstu]
  simp only
  have h0 := hskill 0
  refine ⟨fun l k t hk _ => hzero l k t hk, hskill, by omega, ?_⟩
  intro k t hk
  rw [hzero 0 k t hk]
  omega

/-- The budget of appeasement holds in every reachable state. -/
theorem Reachable.budget {dirs : List PlayerDirectionAction} {m : Maze}
    (h : Reachable dirs m) : m.Budget := by
  induction h with
  | construct info is taSeeds skillSeeds m hinfo h => exact construct_budget hinfo h
  | turn m m1 choice draws hm h ih => exact MovePeople_budget hm.wellFormed h ih
  | handle m m1 res hm h ih => exact HandleCurrentPosition_budget hm.wellFormed h ih
  | resetCurrent m m1 taSeed skillSeed hm h ih =>
    exact ResetCurrentLevel_budget hm.wellFormed h ih
  | resetAll m m1 taSeeds skillSeeds hm h ih =>
    exact ResetAllLevels_budget hm.wellFormed hm.rostersOk h ih

/-! ### A demonstration is not answered with `CaughtByTA` -/

theorem TaAt_index {m : Maze} (hwf : m.WellFormed) {q : MazePosition} {ta : TA}
    (h : m.TaAt q = some ta) : ∃ k, m.taAtIndex q.level k = some ta := by
  unfold Maze.TaAt at h
  cases hs : m.SpaceAt q with
  | none => rw [hs] at h; cases h
  | some sp =>
    rw [hs] at h
    simp only [Option.some_bind] at h
    rw [hwf.SpaceAt_pos hs] at h
    split at h
    · cases hr : m.tas_[q.level]? with
      | none => rw [hr] at h; cases h
      | some roster =>
        rw [hr] at h
        simp only at h
        obtain ⟨k, hk⟩ := List.mem_iff_getElem?.mp (List.mem_of_find?_eq_some h)
        refine ⟨k, ?_⟩
        unfold Maze.taAtIndex
        rw [hr]
        exact hk
    · cases h

/-- An event detection that returns `CaughtByTA` found a TA of the student's level with a
counter of at most 1. -/
theorem caught_by_roster {dirs : List PlayerDirectionAction} {m m1 : Maze}
    (hwf : m.WellFormed) (h : m.HandleCurrentPosition dirs = some (MoveResult.CaughtByTA, m1)) :
    ∃ k ta, m.taAtIndex m.student_.position.level k = some ta ∧ ta.appeased_turns ≤ 1 := by
  obtain ⟨res, sp0, hs0, hocc, hc⟩ := HandleCurrentPosition_cases h
  obtain ⟨ht, hpos, _⟩ := HandleOccupiedSpace_flags hocc
  have hwf1 : m1.WellFormed := by
    unfold Maze.WellFormed; rw [Maze.layout_HandleOccupiedSpace hocc]; exact hwf
  have hta : ∀ l k, m1.taAtIndex l k = m.taAtIndex l k := by
    intro l k
    unfold Maze.taAtIndex
    rw [ht]
  rcases hc with ⟨hres, _⟩ | ⟨hres, ptrs, hadj, hscan⟩
  · subst hres
    obtain ⟨sp, hsp, hcase⟩ := HandleOccupiedSpace_cases hocc
    rcases hcase with ⟨_, _, _, ta, hta1, hle⟩ | ⟨e, _⟩ | ⟨e, _⟩ | ⟨e, _⟩
    · rw [hwf.deref_pos hsp] at hta1
      obtain ⟨k, hk⟩ := TaAt_index hwf hta1
      exact ⟨k, ta, hk, hle⟩
    · cases e
    · cases e
    · cases e
  · have hscan1 : m1.scanAdjacent ptrs = some (some MoveResult.CaughtByTA) := by
      rcases hscan with e | ⟨_, e⟩
      · exact e
      · exact absurd e.symm hres
    obtain ⟨ptr, hmem, sp, hsp, hcase⟩ := scanAdjacent_cases ptrs _ hscan1
    rcases hcase with ⟨_, _, ta, hta1, hle⟩ | ⟨e, _⟩ | ⟨e, _⟩
    · rw [hwf1.deref_pos hsp] at hta1
      obtain ⟨k, hk⟩ := TaAt_index hwf1 hta1
      unfold Maze.SpacesAdjacentToStudent Maze.SpacesAdjacentTo at hadj
      cases hs1 : m1.SpaceAt m1.student_.position with
      | none => rw [hs1] at hadj; cases hadj
      | some sp1 =>
        rw [hs1] at hadj
        simp only at hadj
        obtain ⟨dir, _, hptr, _⟩ := adjacentLoop_mem dirs ptrs hadj ptr hmem
        have hl : ptr.level = m.student_.position.level := by
          rw [hptr, Translate_level, hwf1.SpaceAt_pos hs1, hpos]
        rw [hl, hta] at hk
        exact ⟨k, ta, hk, hle⟩
    · cases e
    · cases e

/-- C39: in every reachable state of a maze of fewer than 143,165,577 levels (so that
thirty times the number of levels is a 32-bit unsigned value; the budget of appeasement
then keeps every counter from wrapping), after a turn in which the student chooses
`DemonstrateSkill` every TA of the student's level has an appeasement counter of at least
10, and the event detection that follows returns a result, which is not `CaughtByTA`. -/
theorem C39_demonstration_not_caught (dirs : List PlayerDirectionAction) (m m1 : Maze)
    (h : Reachable dirs m) (hsize : 30 * m.levels_.length < UINT) (draws : Nat → Nat)
    (hturn : m.MovePeople dirs PlayerAction.DemonstrateSkill draws = some m1) :
    m1.student_.position.level = m.student_.position.level ∧
    (∀ k t, m1.taAtIndex m1.student_.position.level k = some t → 10 ≤ t.appeased_turns) ∧
    (∃ r m2, m1.HandleCurrentPosition dirs = some (r, m2)) ∧
    ∀ r m2, m1.HandleCurrentPosition dirs = some (r, m2) → r ≠ MoveResult.CaughtByTA := by
  have hwf := h.wellFormed
  have h1 : Reachable dirs m1 := Reachable.turn m m1 _ draws h hturn
  have hwf1 := h1.wellFormed
  obtain ⟨_, _, _, b4⟩ := h.budget
  obtain ⟨m2, a, roster, hc, hs, _, hm⟩ := MovePeople_steps hturn
  have hpos : 0 < m.student_.prog_skills := demonstrate_offered hc
  obtain ⟨hstu, _⟩ := moveTAs_counters _ m2 m1 (List.nodup_range _) hm
  have hlev : m1.student_.position.level = m.student_.position.level := by
    rcases studentStep_student hwf hs with ⟨_, e⟩ | ⟨e, _⟩
    · rw [hstu, e]
      unfold IntrepidStudent.DecrementSkills
      split <;> rfl
    · exact absurd rfl e
  obtain ⟨⟨sp0, hsp0⟩, _⟩ := h.studentMarked
  have hL : m.student_.position.level < m.levels_.length := by
    obtain ⟨l, hl, _⟩ := deref_eq_some hsp0
    exact (List.getElem?_eq_some_iff.mp hl).1
  have hten : ∀ k t, m1.taAtIndex m1.student_.position.level k = some t →
      10 ≤ t.appeased_turns := by
    intro k t1 hk
    obtain ⟨t, g1, _, g3⟩ := MovePeople_counters hwf hturn _ k t1 hk
    have g4 := g3 rfl
    simp only [if_true] at g4
    rw [hlev] at g1
    have g5 := b4 k t g1
    rw [g4, counter_after_demo]
    unfold counterAfterDemonstration
    unfold UINT at hsize ⊢
    split
    · omega
    · rw [Nat.mod_eq_of_lt (by omega)]
      omega
  obtain ⟨⟨sp1, hsp1⟩, _⟩ := h1.studentMarked
  refine ⟨hlev, hten,
    HandleCurrentPosition_total dirs hwf1 h1.taInvariants.2.1 (by rw [hsp1]; rfl), ?_⟩
  intro r m3 hh hr
  subst hr
  obtain ⟨k, ta, hk, hle⟩ := caught_by_roster hwf1 hh
  have := hten k ta hk
  omega

/-- Witness of C39: the student of the session `hallOneSkill` holds one skill and
demonstrates it. -/
theorem C39_demonstration_not_caught_witness :
    ∃ m m1 : Maze, hallOneSkill = some m ∧ 30 * m.levels_.length < UINT ∧
      m.MovePeople specOrder PlayerAction.DemonstrateSkill (fun _ => 0) = some m1 ∧
      m1.student_.position.level = m.student_.position.level ∧
      (∀ k t, m1.taAtIndex m1.student_.position.level k = some t → 10 ≤ t.appeased_turns) ∧
      (∃ r m2, m1.HandleCurrentPosition specOrder = some (r, m2)) ∧
      ∀ r m2, m1.HandleCurrentPosition specOrder = some (r, m2) →
        r ≠ MoveResult.CaughtByTA := by
  have h1 : (hallOneSkill.bind (fun m =>
      m.MovePeople specOrder PlayerAction.DemonstrateSkill (fun _ => 0))).isSome = true := by
    decide
  obtain ⟨m1, hm1⟩ := Option.isSome_iff_exists.mp h1
  cases hm : hallOneSkill with
  | none => rw [hm] at hm1; cases hm1
  | some m =>
    rw [hm] at hm1
    simp only [Option.some_bind] at hm1
    have hlen : m.levels_.length = 1 :=
      of_decide_eq_true (@fact_of_session _ m hm
        (fun m => decide (m.levels_.length = 1)) (by decide))
    have hsize : 30 * m.levels_.length < UINT := by
      rw [hlen]
      unfold UINT
      omega
    exact ⟨m, m1, rfl, hsize, hm1, C39_demonstration_not_caught specOrder m m1
      (play_reachable hallInfo_inRange hm) hsize _ hm1⟩

/-! ### The header line is not checked -/

theorem ReadMazeInfo_eq_none (lines : List (List Char)) (garbage : MazeInfo) :
    Maze.ReadMazeInfo lines garbage = none ↔ lines = [] := by
  cases lines with
  | nil => exact ⟨fun _ => rfl, fun _ => rfl⟩
  | cons row rest =>
    constructor
    · intro h
      simp [Maze.ReadMazeInfo] at h
    · intro h
      cases h

/-- C36 on the code: `ReadMazeInfo` returns `None` only when the file has no line at all,
because its test `if (!is)` looks at the file stream and not at the string stream `iss`
from which the numbers are extracted.  For the header `abc` it returns a header with 0
levels (the other two values are whatever the uninitialised struct held) and the
constructor fails in its range check, not in `Unwrap`; for the header `1 1` it returns 1, 1
and the indeterminate width, and the file with the row `   @%` is constructed when that
width is 5; the header `1 1 5 junk` is read as `1 1 5` whatever the struct held, and the
same file is constructed. -/
theorem C36_malformed_header_not_rejected :
    (∀ lines garbage, Maze.ReadMazeInfo lines garbage = none ↔ lines = []) ∧
    (∀ garbage rest, Maze.ReadMazeInfo ("abc".toList :: rest) garbage
      = some (⟨0, garbage.height, garbage.width⟩, rest)) ∧
    (∀ garbage rest taSeeds skillSeeds,
      Maze.load ("abc".toList :: rest) garbage taSeeds skillSeeds
        = .error "Levels, height, and width must all be >= 1.") ∧
    (∀ garbage rest, Maze.ReadMazeInfo ("1 1".toList :: rest) garbage
      = some (⟨1, 1, garbage.width⟩, rest)) ∧
    Maze.load ["1 1".toList, "   @%".toList] ⟨0, 0, 5⟩ (fun _ => []) (fun _ => [])
      = smallMaze ∧
    (∀ garbage, Maze.load ["1 1 5 junk".toList, "   @%".toList] garbage (fun _ => [])
      (fun _ => []) = smallMaze) ∧
    ∃ m, smallMaze = .ok m := by
  refine ⟨ReadMazeInfo_eq_none, fun _ _ => rfl, fun _ _ _ _ => rfl, fun _ _ => rfl, rfl,
    fun _ => rfl, ?_⟩
  have hc : smallMaze.toOption.isSome = true := by decide
  cases hm : smallMaze with
  | error e => rw [hm] at hc; cases hc
  | ok m => exact ⟨m, rfl⟩

end EscapeFromCS162
